import Mathlib

/-!
# Voxel world, chunk addressing and remeshing

A shallow embedding of the voxel core of the Marching Cube example
(`generateVoxel.h`, `Voxel.h`, `cave_explore.cpp`).

Conventions of the embedding.

* `glm::vec3` is a triple of rationals (exact arithmetic).
* A C++ `int` is a Lean `Int`; the conversion `(int)f` of a real truncates
  toward zero, `/` and `%` on `int` are `Int.tdiv` and `Int.tmod`.
* `unsigned int` counters are naturals reduced modulo `2 ^ 32` at every update.
* A fixed C array is a total function of its index; the cells the program owns
  are the indices below the declared size.
* `std::vector` is a `List` that grows at its end, `std::unordered_set<int>` a
  duplicate-free `List Int` with insert-if-absent.
-/

set_option autoImplicit false

/-- Three-component vector `glm::vec3` over exact rationals. -/
structure Vec3 where
  x : ℚ
  y : ℚ
  z : ℚ
deriving DecidableEq

namespace Vec3

/-- Componentwise sum, `a + b` on `glm::vec3`. -/
def add (a b : Vec3) : Vec3 := ⟨a.x + b.x, a.y + b.y, a.z + b.z⟩

/-- Componentwise difference, `a - b` on `glm::vec3`. -/
def sub (a b : Vec3) : Vec3 := ⟨a.x - b.x, a.y - b.y, a.z - b.z⟩

/-- Scaling by a scalar, `v * s` on `glm::vec3`. -/
def smul (v : Vec3) (s : ℚ) : Vec3 := ⟨v.x * s, v.y * s, v.z * s⟩

/-- Cross product `glm::cross`. -/
def cross (a b : Vec3) : Vec3 :=
  ⟨a.y * b.z - b.y * a.z, a.z * b.x - b.z * a.x, a.x * b.y - b.x * a.y⟩

/-- The vector `glm::vec3(x, y, z)` built from three `int`s. -/
def ofInts (x y z : Int) : Vec3 := ⟨(x : ℚ), (y : ℚ), (z : ℚ)⟩

end Vec3

/-- Conversion `(int)f` of a real to `int`: truncation toward zero. -/
def toInt (q : ℚ) : Int := if 0 ≤ q then ⌊q⌋ else ⌈q⌉

/-- `#define PLANET_DIMENSION 8`. -/
def PLANET_DIMENSION : Int := 8

/-- `#define CHUNK_DIMENSION 16`. -/
def CHUNK_DIMENSION : Int := 16

/-- `#define WORLD_LIMIT (-PLANET_DIMENSION * CHUNK_DIMENSION) + 1`. -/
def WORLD_LIMIT : Int := (-PLANET_DIMENSION * CHUNK_DIMENSION) + 1

/-- `#define CHUNK_COUNT (PLANET_DIMENSION * PLANET_DIMENSION * PLANET_DIMENSION)`. -/
def CHUNK_COUNT : Int := PLANET_DIMENSION * PLANET_DIMENSION * PLANET_DIMENSION

namespace genVoxel

/-- `genVoxel::pos_to_chunkIndex` of `generateVoxel.h`. -/
def pos_to_chunkIndex (pos : Vec3) : Int :=
  if pos.x > 0 ∨ pos.y > 0 ∨ pos.z > 0 ∨ pos.x < (WORLD_LIMIT : ℚ) ∨ pos.y < (WORLD_LIMIT : ℚ)
      ∨ pos.z < (WORLD_LIMIT : ℚ) then
    -1
  else
    let x_chunk_coord := -((toInt pos.x).tdiv CHUNK_DIMENSION)
    let y_chunk_coord := -((toInt pos.y).tdiv CHUNK_DIMENSION)
    let z_chunk_coord := -((toInt pos.z).tdiv CHUNK_DIMENSION)
    (z_chunk_coord * PLANET_DIMENSION * PLANET_DIMENSION) + (y_chunk_coord * PLANET_DIMENSION)
      + x_chunk_coord

/-- `genVoxel::chunkIndex_to_pos`: the grid coordinate of a chunk. -/
def chunkIndex_to_pos (index : Int) : Vec3 :=
  let z := index.tdiv (PLANET_DIMENSION * PLANET_DIMENSION)
  let index := index - (z * PLANET_DIMENSION * PLANET_DIMENSION)
  let y := index.tdiv PLANET_DIMENSION
  let x := index.tmod PLANET_DIMENSION
  Vec3.ofInts x y z

/-- `genVoxel::pos_to_voxelIndex`: index of a position inside its chunk. -/
def pos_to_voxelIndex (pos : Vec3) : Int :=
  let x_voxel_coord := -((toInt pos.x).tmod CHUNK_DIMENSION)
  let y_voxel_coord := -((toInt pos.y).tmod CHUNK_DIMENSION)
  let z_voxel_coord := -((toInt pos.z).tmod CHUNK_DIMENSION)
  (z_voxel_coord * CHUNK_DIMENSION * CHUNK_DIMENSION) + (y_voxel_coord * CHUNK_DIMENSION)
    + x_voxel_coord

/-- `genVoxel::voxelIndex_to_pos`: chunk-local coordinate of a voxel index. -/
def voxelIndex_to_pos (index : Int) : Vec3 :=
  let z := index.tdiv (CHUNK_DIMENSION * CHUNK_DIMENSION)
  let index := index - (z * CHUNK_DIMENSION * CHUNK_DIMENSION)
  let y := index.tdiv CHUNK_DIMENSION
  let x := index.tmod CHUNK_DIMENSION
  Vec3.ofInts x y z

end genVoxel

namespace voxelNS

/-- `voxelNS::pos_to_chunkIndex` of `Voxel.h` (a second copy of the function). -/
def pos_to_chunkIndex (pos : Vec3) : Int :=
  if pos.x > 0 ∨ pos.y > 0 ∨ pos.z > 0 ∨ pos.x < (WORLD_LIMIT : ℚ) ∨ pos.y < (WORLD_LIMIT : ℚ)
      ∨ pos.z < (WORLD_LIMIT : ℚ) then
    -1
  else
    let x_chunk_coord := -((toInt pos.x).tdiv CHUNK_DIMENSION)
    let y_chunk_coord := -((toInt pos.y).tdiv CHUNK_DIMENSION)
    let z_chunk_coord := -((toInt pos.z).tdiv CHUNK_DIMENSION)
    (z_chunk_coord * PLANET_DIMENSION * PLANET_DIMENSION) + (y_chunk_coord * PLANET_DIMENSION)
      + x_chunk_coord

end voxelNS

/-- The out-of-world test made by `pos_to_chunkIndex`, with the macros expanded. -/
def outOfWorld (p : Vec3) : Prop :=
  p.x > 0 ∨ p.y > 0 ∨ p.z > 0 ∨ p.x < -127 ∨ p.y < -127 ∨ p.z < -127

instance (p : Vec3) : Decidable (outOfWorld p) := by
  unfold outOfWorld
  infer_instance

/-! ## Loops -/

/-- The successive values of `x` in `for (int x = lo; x < hi; x++)` with a real
bound `hi`, at most `fuel` of them. -/
def forLoopFrom : Nat → Int → ℚ → List Int
  | 0, _, _ => []
  | fuel + 1, x, hi => if (x : ℚ) < hi then x :: forLoopFrom fuel (x + 1) hi else []

/-- The values of `x` in `for (int x = lo; x < hi; x++)` with a real bound `hi`:
the loop makes `⌈hi⌉ - lo` iterations when that is positive and none otherwise. -/
def forLoop (lo : Int) (hi : ℚ) : List Int := forLoopFrom (⌈hi⌉ - lo).toNat lo hi

/-- The values of `i` in `for (int i = lo; i < hi; i++)` with `int` bounds. -/
def intFor (lo hi : Int) : List Int := (List.range (hi - lo).toNat).map (fun (k : Nat) => lo + (k : Int))

/-! ## Sphere of lattice points -/

namespace genVoxel

/-- `genVoxel::Sphere` of `generateVoxel.h` in exact arithmetic: appends to
`voxel` the lattice points of the loop box that pass the distance test, the
test being evaluated without rounding. `Sphere_float` is the function in
`float` arithmetic; for radius 5 the two agree at every centre with integer
coordinates of magnitude at most `2^23`. -/
def Sphere (center : Vec3) (radius : ℚ) (voxel : List Vec3) : List Vec3 :=
  (forLoop (toInt (-radius + center.x)) (radius + center.x)).foldl (fun voxel (x : Int) =>
    (forLoop (toInt (-radius + center.y)) (radius + center.y)).foldl (fun voxel (y : Int) =>
      (forLoop (toInt (-radius + center.z)) (radius + center.z)).foldl (fun voxel (z : Int) =>
        if ((x : ℚ) - center.x) * ((x : ℚ) - center.x) + ((y : ℚ) - center.y) * ((y : ℚ) - center.y)
            + ((z : ℚ) - center.z) * ((z : ℚ) - center.z) < radius * radius then
          voxel ++ [Vec3.ofInts x y z]
        else voxel) voxel) voxel) voxel

/-- `genVoxel::return_index(glm::vec3)`: linear index of a chunk-local position. -/
def return_index (vec : Vec3) : Int :=
  (toInt vec.z * CHUNK_DIMENSION * CHUNK_DIMENSION) + (toInt vec.y * CHUNK_DIMENSION) + toInt vec.x

end genVoxel

namespace voxelNS

/-- `voxelNS::Sphere` of `Voxel.h` (a second copy of the function). -/
def Sphere (center : Vec3) (radius : ℚ) (voxel : List Vec3) : List Vec3 :=
  (forLoop (toInt (-radius + center.x)) (radius + center.x)).foldl (fun voxel (x : Int) =>
    (forLoop (toInt (-radius + center.y)) (radius + center.y)).foldl (fun voxel (y : Int) =>
      (forLoop (toInt (-radius + center.z)) (radius + center.z)).foldl (fun voxel (z : Int) =>
        if ((x : ℚ) - center.x) * ((x : ℚ) - center.x) + ((y : ℚ) - center.y) * ((y : ℚ) - center.y)
            + ((z : ℚ) - center.z) * ((z : ℚ) - center.z) < radius * radius then
          voxel ++ [Vec3.ofInts x y z]
        else voxel) voxel) voxel) voxel

end voxelNS

/-- The distance test of `Sphere`: the squared distance of the lattice point
`(x, y, z)` to `center` is strictly below `radius * radius`. -/
def inBall (center : Vec3) (radius : ℚ) (x y z : Int) : Prop :=
  ((x : ℚ) - center.x) * ((x : ℚ) - center.x) + ((y : ℚ) - center.y) * ((y : ℚ) - center.y)
    + ((z : ℚ) - center.z) * ((z : ℚ) - center.z) < radius * radius

instance (center : Vec3) (radius : ℚ) (x y z : Int) : Decidable (inBall center radius x y z) := by
  unfold inBall
  infer_instance

/-! ## Chunks and the world -/

namespace MarchingCube

/-- Modelled from the spec: `MarchingCube::Cell` is declared in `marchingCube.h`,
which is absent; a cell is the world-space anchor `p` and the 8-bit corner
mask `val` (the two fields `populate_chunk` writes). -/
structure Cell where
  p : Vec3
  val : Nat
deriving DecidableEq

/-- Modelled from the spec: `MarchingCube::TRIANGLE` is declared in
`marchingCube.h`, which is absent; a triangle is three points `p[0]`, `p[1]`,
`p[2]` (the fields `gen_vertex_buffers` reads). -/
structure TRIANGLE where
  p0 : Vec3
  p1 : Vec3
  p2 : Vec3
deriving DecidableEq

end MarchingCube

/-- `struct Vertex` of `generateVoxel.h`. -/
structure Vertex where
  pos : Vec3
  normal : Vec3
  uv : ℚ × ℚ
  tangent : Vec3
deriving DecidableEq

/-- `struct Chunk` of `generateVoxel.h`; `count` is `vertices_per_chunk.count`
(the Vulkan handles of `struct Vertices` are left out). -/
structure Chunk where
  voxel : Int → Nat
  grid_of_cells_per_chunk : List MarchingCube.Cell
  tri_list_per_chunk : List MarchingCube.TRIANGLE
  vertexBuffer_per_chunk : List Vertex
  count : Int

/-- What the translation unit takes from outside `src/`: the polygoniser of
`marchingCube.h` (the triangles `Polygonise_Cell` appends for a cell),
`glm::normalize`, and the value of the `uv` field, which `gen_vertex_buffers`
never assigns. -/
structure Externals where
  Polygonise_Cell : MarchingCube.Cell → List MarchingCube.TRIANGLE
  normalize : Vec3 → Vec3
  uv : ℚ × ℚ

/-- The state of `VulkanExample` that the voxel core touches. -/
structure World where
  chunkListBuffer : Int → Chunk
  total_terrain_triangle_count : Nat

/-- Assignment `a -= b` on an `unsigned int` (32 bits). -/
def subU32 (a b : Nat) : Nat := (a + 2 ^ 32 - b % 2 ^ 32) % 2 ^ 32

/-- Assignment `a += b` on an `unsigned int` (32 bits). -/
def addU32 (a b : Nat) : Nat := (a + b) % 2 ^ 32

/-- Store of `static_cast<uint32_t>(n)` into an `int` field. -/
def castCount (n : Nat) : Int :=
  if n % 2 ^ 32 < 2 ^ 31 then ((n % 2 ^ 32 : Nat) : Int) else ((n % 2 ^ 32 : Nat) : Int) - 2 ^ 32

namespace genVoxel

/-- One iteration of the loop of `genVoxel::Remove_Voxel` at `voxelPos`, on the
chunk array and the damaged set. -/
def Remove_Voxel_body (st : (Int → Chunk) × List Int) (voxelPos : Vec3) :
    (Int → Chunk) × List Int :=
  let chunk_index := pos_to_chunkIndex voxelPos
  if chunk_index < 0 then st
  else
    let damaged := List.insert chunk_index st.2
    let target_chunk := st.1 chunk_index
    let voxelIndex := pos_to_voxelIndex voxelPos
    let voxel := Function.update target_chunk.voxel voxelIndex 0
    (Function.update st.1 chunk_index { target_chunk with voxel := voxel }, damaged)

/-- `genVoxel::Remove_Voxel` in exact arithmetic: walks the positions produced
by the exact `Sphere` with radius `5.0f`; returns the chunk array and the
damaged set after the call. `Remove_Voxel_float` is the function in `float`
arithmetic. -/
def Remove_Voxel (target : Vec3) (chunk : Int → Chunk) (damagedChunkIndices : List Int) :
    (Int → Chunk) × List Int :=
  (Sphere target 5 []).foldl Remove_Voxel_body (chunk, damagedChunkIndices)

/-- `genVoxel::Fill_Chunk`: sets the voxels with all coordinates in `1 .. 14`. -/
def Fill_Chunk (chunk : Chunk) : Chunk :=
  (intFor 1 (CHUNK_DIMENSION - 1)).foldl (fun chunk x =>
    (intFor 1 (CHUNK_DIMENSION - 1)).foldl (fun chunk y =>
      (intFor 1 (CHUNK_DIMENSION - 1)).foldl (fun chunk z =>
        let i := (z * CHUNK_DIMENSION * CHUNK_DIMENSION) + (y * CHUNK_DIMENSION) + x
        { chunk with voxel := Function.update chunk.voxel i 1 })
        chunk) chunk) chunk

end genVoxel

/-- The table `cellOffsets` of `populate_chunk`. -/
def cellOffsets : Int → Vec3
  | 0 => Vec3.ofInts 0 0 0
  | 1 => Vec3.ofInts 0 1 0
  | 2 => Vec3.ofInts 1 1 0
  | 3 => Vec3.ofInts 1 0 0
  | 4 => Vec3.ofInts 0 0 1
  | 5 => Vec3.ofInts 0 1 1
  | 6 => Vec3.ofInts 1 1 1
  | 7 => Vec3.ofInts 1 0 1
  | _ => Vec3.ofInts 0 0 0

/-- The cell `populate_chunk` builds at chunk-local `(x, y, z)`. -/
def cellAt (chunkBuffer : Chunk) (index : Int) (x y z : Int) : MarchingCube.Cell :=
  let p := (Vec3.ofInts x y z).add ((genVoxel.chunkIndex_to_pos index).smul (CHUNK_DIMENSION : ℚ))
  let presentBit : Nat := 1
  let val := (intFor 0 8).foldl (fun (val : Nat) i =>
    if chunkBuffer.voxel (genVoxel.return_index ((Vec3.ofInts x y z).add (cellOffsets i)))
        &&& presentBit ≠ 0 then
      val ||| (1 <<< i.toNat)
    else val) 0
  { p := p, val := val }

/-- `VulkanExample::populate_chunk`: appends one cell per `(x, y, z)` in `0 .. 14`. -/
def populate_chunk (chunkBuffer : Chunk) (index : Int) (grid : List MarchingCube.Cell) :
    List MarchingCube.Cell :=
  (intFor 0 (CHUNK_DIMENSION - 1)).foldl (fun grid x =>
    (intFor 0 (CHUNK_DIMENSION - 1)).foldl (fun grid y =>
      (intFor 0 (CHUNK_DIMENSION - 1)).foldl (fun grid z =>
        grid ++ [cellAt chunkBuffer index x y z]) grid) grid) grid

/-- `VulkanExample::populate_triangles_list_chunk`. -/
def populate_triangles_list_chunk (E : Externals) (grid : List MarchingCube.Cell)
    (tri_list : List MarchingCube.TRIANGLE) : List MarchingCube.TRIANGLE :=
  grid.foldl (fun tri_list it => tri_list ++ E.Polygonise_Cell it) tri_list

/-- `VulkanExample::gen_vertex_buffers`: three vertices per triangle. -/
def gen_vertex_buffers (E : Externals) (tri_list : List MarchingCube.TRIANGLE)
    (vertexBuffer : List Vertex) : List Vertex :=
  tri_list.foldl (fun vertexBuffer t =>
    let A := t.p0
    let B := t.p1
    let C := t.p2
    let normal := E.normalize (Vec3.cross (B.sub A) (C.sub A))
    let tangent := E.normalize (C.sub B)
    vertexBuffer ++ [⟨t.p0, normal, E.uv, tangent⟩, ⟨t.p1, normal, E.uv, tangent⟩,
      ⟨t.p2, normal, E.uv, tangent⟩]) vertexBuffer

/-- `VulkanExample::polygonizeVoxels` (the staging-buffer upload is left out). -/
def polygonizeVoxels (E : Externals) (W : World) (chunkIndex : Int) : World :=
  let c := W.chunkListBuffer chunkIndex
  let total1 := subU32 W.total_terrain_triangle_count c.tri_list_per_chunk.length
  let c1 : Chunk :=
    { c with grid_of_cells_per_chunk := [], tri_list_per_chunk := [], vertexBuffer_per_chunk := [] }
  let grid := populate_chunk c1 chunkIndex c1.grid_of_cells_per_chunk
  let c2 : Chunk := { c1 with grid_of_cells_per_chunk := grid }
  let tri_list := populate_triangles_list_chunk E c2.grid_of_cells_per_chunk c2.tri_list_per_chunk
  let c3 : Chunk := { c2 with tri_list_per_chunk := tri_list }
  let total2 := addU32 total1 c3.tri_list_per_chunk.length
  let vertexBuffer := gen_vertex_buffers E c3.tri_list_per_chunk c3.vertexBuffer_per_chunk
  let c4 : Chunk := { c3 with vertexBuffer_per_chunk := vertexBuffer }
  let c5 : Chunk := { c4 with count := castCount c4.vertexBuffer_per_chunk.length }
  { chunkListBuffer := Function.update W.chunkListBuffer chunkIndex c5,
    total_terrain_triangle_count := total2 }

/-- `VulkanExample::polygonizeVoxelsChunks`: one `polygonizeVoxels` per element
of the damaged set, in the order the set is iterated. -/
def polygonizeVoxelsChunks (E : Externals) (W : World) (damagedChunkIndices : List Int) : World :=
  damagedChunkIndices.foldl (fun W number => polygonizeVoxels E W number) W

/-- The sum over all `CHUNK_COUNT` chunks of `tri_list_per_chunk.size()`. -/
def triangleSum (W : World) : Nat :=
  ∑ i ∈ Finset.Ico (0 : Int) CHUNK_COUNT, (W.chunkListBuffer i).tri_list_per_chunk.length

/-- Mesh/voxel consistency of the chunk stored at slot `index`. -/
def Consistent (E : Externals) (c : Chunk) (index : Int) : Prop :=
  c.grid_of_cells_per_chunk = populate_chunk c index [] ∧
  c.tri_list_per_chunk = populate_triangles_list_chunk E c.grid_of_cells_per_chunk [] ∧
  c.vertexBuffer_per_chunk = gen_vertex_buffers E c.tri_list_per_chunk [] ∧
  c.count = (c.vertexBuffer_per_chunk.length : Int)

/-- The list `Sphere` appends when its three loops run over `xs`, `ys`, `zs`. -/
def latticeList (center : Vec3) (radius : ℚ) (xs ys zs : List Int) : List Vec3 :=
  xs.flatMap fun x => ys.flatMap fun y => zs.flatMap fun z =>
    if inBall center radius x y z then [Vec3.ofInts x y z] else []

/-- `new Chunk()`: value-initialisation zeroes the voxel array and the count and
leaves the three vectors empty. -/
def newChunk : Chunk :=
  { voxel := fun _ => 0, grid_of_cells_per_chunk := [], tri_list_per_chunk := [],
    vertexBuffer_per_chunk := [], count := 0 }

/-- The chunk `polygonizeVoxels` leaves at slot `index` when it found `c` there:
the voxels of `c`, and cells, triangles, vertices and count rebuilt from them. -/
def rebuilt (E : Externals) (c : Chunk) (index : Int) : Chunk :=
  let grid := populate_chunk c index []
  let tri_list := populate_triangles_list_chunk E grid []
  let vertexBuffer := gen_vertex_buffers E tri_list []
  { voxel := c.voxel, grid_of_cells_per_chunk := grid, tri_list_per_chunk := tri_list,
    vertexBuffer_per_chunk := vertexBuffer, count := castCount vertexBuffer.length }

/-- The edit made by `VulkanExample::action` after a ray hit at `rayHitLocation`:
`Remove_Voxel` on a fresh damaged set, then `polygonizeVoxelsChunks` on it. -/
def actionEdit (E : Externals) (W : World) (rayHitLocation : Vec3) : World :=
  let r := genVoxel.Remove_Voxel rayHitLocation W.chunkListBuffer []
  polygonizeVoxelsChunks E { W with chunkListBuffer := r.1 } r.2

/-- A stand-in for the absent polygoniser, used for concrete instances: one
(degenerate) triangle at the anchor of every cell whose mask is neither `0x00`
nor `0xFF`, none otherwise; `normalize` is the identity. -/
def sampleExternals : Externals :=
  { Polygonise_Cell := fun c => if c.val = 0 ∨ c.val = 255 then [] else [⟨c.p, c.p, c.p⟩],
    normalize := fun v => v,
    uv := (0, 0) }

/-- A world in which every slot holds a freshly filled chunk with its mesh built. -/
def sampleWorld : World :=
  { chunkListBuffer := fun i => rebuilt sampleExternals (genVoxel.Fill_Chunk newChunk) i,
    total_terrain_triangle_count :=
      ∑ i ∈ Finset.Ico (0 : Int) CHUNK_COUNT,
        (rebuilt sampleExternals (genVoxel.Fill_Chunk newChunk) i).tri_list_per_chunk.length }

/-! ## Initial build -/

/-- `VulkanExample::polygonizeVoxelsInit`: the single-threaded build of all
`CHUNK_COUNT` chunks (the staging-buffer upload is left out). -/
def polygonizeVoxelsInit (E : Externals) (W : World) : World :=
  let W := (intFor 0 CHUNK_COUNT).foldl (fun (W : World) i =>
    World.mk (Function.update W.chunkListBuffer i (genVoxel.Fill_Chunk newChunk))
      W.total_terrain_triangle_count) W
  let W := (intFor 0 CHUNK_COUNT).foldl (fun (W : World) i =>
    let c := W.chunkListBuffer i
    let grid := populate_chunk c i c.grid_of_cells_per_chunk
    World.mk (Function.update W.chunkListBuffer i { c with grid_of_cells_per_chunk := grid })
      W.total_terrain_triangle_count) W
  let W := (intFor 0 CHUNK_COUNT).foldl (fun (W : World) i =>
    let c := W.chunkListBuffer i
    let tri_list := populate_triangles_list_chunk E c.grid_of_cells_per_chunk c.tri_list_per_chunk
    World.mk (Function.update W.chunkListBuffer i { c with tri_list_per_chunk := tri_list })
      W.total_terrain_triangle_count) W
  let W := World.mk W.chunkListBuffer 0
  let W := (intFor 0 CHUNK_COUNT).foldl (fun (W : World) i =>
    let c := W.chunkListBuffer i
    let total := addU32 W.total_terrain_triangle_count c.tri_list_per_chunk.length
    let vertexBuffer := gen_vertex_buffers E c.tri_list_per_chunk c.vertexBuffer_per_chunk
    World.mk (Function.update W.chunkListBuffer i { c with vertexBuffer_per_chunk := vertexBuffer })
      total) W
  (intFor 0 CHUNK_COUNT).foldl (fun (W : World) i =>
    let c := W.chunkListBuffer i
    let count := castCount c.vertexBuffer_per_chunk.length
    World.mk (Function.update W.chunkListBuffer i { c with count := count })
      W.total_terrain_triangle_count) W

/-- `VulkanExample::polygonizeVoxelsInitMultiThread` run by the worker
`threadID` when `numThreads` workers share the build (the staging-buffer upload
and its mutex are left out). The slice bounds are computed in unsigned
arithmetic and stored in `int`s. -/
def polygonizeVoxelsInitMultiThread (E : Externals) (numThreads : Nat) (W : World)
    (threadID : Nat) : World :=
  let Lower_Chunk_Index : Int := ((CHUNK_COUNT.toNat / numThreads) * threadID : Nat)
  let Upper_Chunk_Index : Int := ((CHUNK_COUNT.toNat / numThreads) * (threadID + 1) : Nat)
  let W := (intFor Lower_Chunk_Index Upper_Chunk_Index).foldl (fun (W : World) i =>
    World.mk (Function.update W.chunkListBuffer i (genVoxel.Fill_Chunk newChunk))
      W.total_terrain_triangle_count) W
  let W := (intFor Lower_Chunk_Index Upper_Chunk_Index).foldl (fun (W : World) i =>
    let c := W.chunkListBuffer i
    let grid := populate_chunk c i c.grid_of_cells_per_chunk
    World.mk (Function.update W.chunkListBuffer i { c with grid_of_cells_per_chunk := grid })
      W.total_terrain_triangle_count) W
  let W := (intFor Lower_Chunk_Index Upper_Chunk_Index).foldl (fun (W : World) i =>
    let c := W.chunkListBuffer i
    let tri_list := populate_triangles_list_chunk E c.grid_of_cells_per_chunk c.tri_list_per_chunk
    World.mk (Function.update W.chunkListBuffer i { c with tri_list_per_chunk := tri_list })
      W.total_terrain_triangle_count) W
  let W := World.mk W.chunkListBuffer 0
  let W := (intFor Lower_Chunk_Index Upper_Chunk_Index).foldl (fun (W : World) i =>
    let c := W.chunkListBuffer i
    let total := addU32 W.total_terrain_triangle_count c.tri_list_per_chunk.length
    let vertexBuffer := gen_vertex_buffers E c.tri_list_per_chunk c.vertexBuffer_per_chunk
    World.mk (Function.update W.chunkListBuffer i { c with vertexBuffer_per_chunk := vertexBuffer })
      total) W
  (intFor Lower_Chunk_Index Upper_Chunk_Index).foldl (fun (W : World) i =>
    let c := W.chunkListBuffer i
    let count := castCount c.vertexBuffer_per_chunk.length
    World.mk (Function.update W.chunkListBuffer i { c with count := count })
      W.total_terrain_triangle_count) W

/-- `VulkanExample::createVertexBufferMultiThread` with the workers run to
completion one after another in the order `schedule` (a listing of the thread
ids `0 .. numThreads - 1`); the join is the end of the fold. -/
def createVertexBufferMultiThread (E : Externals) (numThreads : Nat) (W : World)
    (schedule : List Nat) : World :=
  schedule.foldl (fun W threadID => polygonizeVoxelsInitMultiThread E numThreads W threadID) W

/-- A loop over chunk slots whose body replaces `chunkListBuffer[i]` by
`f i chunkListBuffer[i]` and the counter by `g i chunkListBuffer[i] counter`. -/
def slotLoop (f : Int → Chunk → Chunk) (g : Int → Chunk → Nat → Nat) (l : List Int)
    (W : World) : World :=
  l.foldl (fun (W : World) i =>
    World.mk (Function.update W.chunkListBuffer i (f i (W.chunkListBuffer i)))
      (g i (W.chunkListBuffer i) W.total_terrain_triangle_count)) W

/-- A world before any build: every slot holds a zeroed chunk and the counter is `0`. -/
def blankWorld : World :=
  { chunkListBuffer := fun _ => newChunk, total_terrain_triangle_count := 0 }

/-- Body of the first loop of the initial build: a freshly filled chunk. -/
def initFill : Int → Chunk → Chunk := fun _ _ => genVoxel.Fill_Chunk newChunk

/-- Body of the second loop of the initial build: `populate_chunk`. -/
def initCells : Int → Chunk → Chunk := fun i c =>
  Chunk.mk c.voxel (populate_chunk c i c.grid_of_cells_per_chunk) c.tri_list_per_chunk
    c.vertexBuffer_per_chunk c.count

/-- Body of the third loop of the initial build: `populate_triangles_list_chunk`. -/
def initTriangles (E : Externals) : Int → Chunk → Chunk := fun _ c =>
  Chunk.mk c.voxel c.grid_of_cells_per_chunk
    (populate_triangles_list_chunk E c.grid_of_cells_per_chunk c.tri_list_per_chunk)
    c.vertexBuffer_per_chunk c.count

/-- Body of the fourth loop of the initial build, on the chunk: `gen_vertex_buffers`. -/
def initVertices (E : Externals) : Int → Chunk → Chunk := fun _ c =>
  Chunk.mk c.voxel c.grid_of_cells_per_chunk c.tri_list_per_chunk
    (gen_vertex_buffers E c.tri_list_per_chunk c.vertexBuffer_per_chunk) c.count

/-- Body of the fifth loop of the initial build: the vertex count. -/
def initCount : Int → Chunk → Chunk := fun _ c =>
  Chunk.mk c.voxel c.grid_of_cells_per_chunk c.tri_list_per_chunk c.vertexBuffer_per_chunk
    (castCount c.vertexBuffer_per_chunk.length)

/-- A loop body that leaves the counter alone. -/
def keepTotal : Int → Chunk → Nat → Nat := fun _ _ t => t

/-- Body of the fourth loop of the initial build, on the counter. -/
def addTriangles : Int → Chunk → Nat → Nat := fun _ c t => addU32 t c.tri_list_per_chunk.length

/-- The slice of chunk indices of worker `threadID` among `numThreads`. -/
def threadSlice (numThreads threadID : Nat) : List Int :=
  intFor ((CHUNK_COUNT.toNat / numThreads * threadID : Nat) : Int)
    ((CHUNK_COUNT.toNat / numThreads * (threadID + 1) : Nat) : Int)


/-- The three vertices `gen_vertex_buffers` pushes for the triangle `t`. -/
def triangleVertices (E : Externals) (t : MarchingCube.TRIANGLE) : List Vertex :=
  let A := t.p0
  let B := t.p1
  let C := t.p2
  let normal := E.normalize (Vec3.cross (B.sub A) (C.sub A))
  let tangent := E.normalize (C.sub B)
  [⟨t.p0, normal, E.uv, tangent⟩, ⟨t.p1, normal, E.uv, tangent⟩, ⟨t.p2, normal, E.uv, tangent⟩]

/-! ## Polygoniser, from the specification -/

namespace MarchingCube

/-- Modelled from the spec: `marchingCube.h` is absent. The 12 cube edges of the
canonical Marching Cubes enumeration, each as the numbers of its two corners
(corner `i` sits at `cellOffsets[i]`). -/
def cubeEdge : Nat → Nat × Nat
  | 0 => (0, 1)
  | 1 => (1, 2)
  | 2 => (2, 3)
  | 3 => (3, 0)
  | 4 => (4, 5)
  | 5 => (5, 6)
  | 6 => (6, 7)
  | 7 => (7, 4)
  | 8 => (0, 4)
  | 9 => (1, 5)
  | 10 => (2, 6)
  | _ => (3, 7)

/-- Modelled from the spec: `marchingCube.h` is absent. What the edge table
records for a mask: edge `e` (one of the 12) is crossed by the surface when one
of its two corners is present in the mask and the other is absent. -/
def edgeCrossed (mask e : Nat) : Bool :=
  decide (e < 12) && (mask.testBit (cubeEdge e).1 != mask.testBit (cubeEdge e).2)

/-- Modelled from the spec: `marchingCube.h` is absent. The vertex of a crossed
edge: linear interpolation at the iso-value `0.5` between the positions of the
edge's two corners, whose values are their mask bits; there is no vertex on an
edge that is not crossed. -/
def VertexInterp (cell : Cell) (e : Nat) : Option Vec3 :=
  if edgeCrossed cell.val e then
    let p1 := cell.p.add (cellOffsets (cubeEdge e).1)
    let p2 := cell.p.add (cellOffsets (cubeEdge e).2)
    let valp1 : ℚ := if cell.val.testBit (cubeEdge e).1 then 1 else 0
    let valp2 : ℚ := if cell.val.testBit (cubeEdge e).2 then 1 else 0
    let mu := (1 / 2 - valp1) / (valp2 - valp1)
    some (p1.add ((p2.sub p1).smul mu))
  else none

/-- Modelled from the spec: `marchingCube.h` is absent. `Polygonise_Cell`: the
triangles appended for a cell. The fixed triangle table (its 256 entries are not
in the specification, so it is a parameter) lists for each mask the edge triples
to assemble; a triangle is assembled from the interpolated vertices of its three
edges, and this variant emits at most 4 triangles per cell. -/
def Polygonise_Cell (triTable : Nat → List (Nat × Nat × Nat)) (cell : Cell) : List TRIANGLE :=
  ((triTable cell.val).filterMap fun tri =>
    match VertexInterp cell tri.1, VertexInterp cell tri.2.1, VertexInterp cell tri.2.2 with
    | some a, some b, some c => some (TRIANGLE.mk a b c)
    | _, _, _ => none).take 4

end MarchingCube

/-- The externals whose polygoniser is the model of the specification over the
triangle table `triTable`. -/
def specExternals (triTable : Nat → List (Nat × Nat × Nat)) (normalize : Vec3 → Vec3)
    (uv : ℚ × ℚ) : Externals :=
  { Polygonise_Cell := MarchingCube.Polygonise_Cell triTable, normalize := normalize, uv := uv }

/-! ## Ray caster -/

/-- Componentwise division of a `glm::vec3` by a scalar, `v / s`. -/
def Vec3.sdiv (v : Vec3) (s : ℚ) : Vec3 := ⟨v.x / s, v.y / s, v.z / s⟩

/-- Dot product `glm::dot`. -/
def Vec3.dot (a b : Vec3) : ℚ := a.x * b.x + a.y * b.y + a.z * b.z

/-- Integer vector `glm::ivec3`. -/
structure IVec3 where
  x : Int
  y : Int
  z : Int
deriving DecidableEq

/-- Conversion of a `glm::ivec3` to a `glm::vec3`. -/
def IVec3.toVec3 (v : IVec3) : Vec3 := Vec3.ofInts v.x v.y v.z

/-- `glm::distance(p0, p1)`, the length of `p1 - p0`, over the library square
root `sqrt` (a parameter: exact square roots leave the rationals). -/
def glm_distance (sqrt : ℚ → ℚ) (p0 p1 : Vec3) : ℚ := sqrt (Vec3.dot (p1.sub p0) (p1.sub p0))

/-- A square root on the rationals that is exact on squares of rationals: the
integer square roots of numerator and denominator. -/
def ratSqrt (q : ℚ) : ℚ := (Nat.sqrt q.num.toNat : ℚ) / (Nat.sqrt q.den : ℚ)

namespace genVoxel

/-- What one pass through the loop body of `RayCast` does: it divides by zero
(the divisions are modelled as guarded), returns, or falls through to the loop
test with new values of `step` and `curr_ro`. -/
inductive RayStep where
  | divByZero : RayStep
  | ret (found : Bool) (rayHitLocation : Vec3) : RayStep
  | next (step : ℚ) (curr_ro : Vec3) : RayStep

/-- How a call of `RayCast` ends: on a division by zero, or by returning `found`
with `*rayHitLocation` holding `rayHitLocation`. -/
inductive RayResult where
  | divByZero : RayResult
  | returned (found : Bool) (rayHitLocation : Vec3) : RayResult

/-- First half of the loop body of `RayCast` (the divisors being nonzero): the
new `step` and the position `rayLocation = initial_ro + step * rd`. -/
def RayCast_advance (sqrt : ℚ → ℚ) (initial_ro rd curr_ro : Vec3) : ℚ × Vec3 :=
  let stepX := curr_ro.add (rd.sdiv |rd.x|)
  let stepY := curr_ro.add (rd.sdiv |rd.y|)
  let stepZ := curr_ro.add (rd.sdiv |rd.z|)
  let distX := glm_distance sqrt initial_ro stepX
  let distY := glm_distance sqrt initial_ro stepY
  let distZ := glm_distance sqrt initial_ro stepZ
  let step := if distX > distY then distY else distX
  let step := if step > distZ then distZ else step
  let rayLocation := initial_ro.add (rd.smul step)
  (step, rayLocation)

/-- The loop body of `genVoxel::RayCast` in exact arithmetic, entered with
`curr_ro`; `rayHitLocation` is the value `*rayHitLocation` holds so far. The
three divisions are guarded here: a zero divisor ends the pass in `divByZero`.
The code has no such test; `RayCast_body_float` is the body in `float`
arithmetic with the divisions unguarded. -/
def RayCast_body (sqrt : ℚ → ℚ) (initial_ro rd : Vec3) (chunk : Int → Chunk)
    (rayHitLocation : Vec3) (curr_ro : Vec3) : RayStep :=
  if |rd.x| = 0 ∨ |rd.y| = 0 ∨ |rd.z| = 0 then RayStep.divByZero
  else
    let step := (RayCast_advance sqrt initial_ro rd curr_ro).1
    let rayLocation := (RayCast_advance sqrt initial_ro rd curr_ro).2
    let chunk_index := pos_to_chunkIndex rayLocation
    if chunk_index < 0 then RayStep.ret false rayHitLocation
    else
      let target_chunk := chunk chunk_index
      let voxelIndex := pos_to_voxelIndex rayLocation
      if target_chunk.voxel voxelIndex &&& 1 ≠ 0 then RayStep.ret true rayLocation
      else RayStep.next step rayLocation

/-- The loop `while (step < max_step)` of `genVoxel::RayCast` with
`max_step = 200.0f`, run for at most `fuel` passes through the body; `none` when
the loop is still running after `fuel` passes. -/
def RayCast_loop (sqrt : ℚ → ℚ) (initial_ro rd : Vec3) (chunk : Int → Chunk)
    (rayHitLocation : Vec3) : Nat → ℚ → Vec3 → Option RayResult
  | 0, step, _ => if step < 200 then none else some (RayResult.returned false rayHitLocation)
  | fuel + 1, step, curr_ro =>
    if step < 200 then
      match RayCast_body sqrt initial_ro rd chunk rayHitLocation curr_ro with
      | RayStep.divByZero => some RayResult.divByZero
      | RayStep.ret found hit => some (RayResult.returned found hit)
      | RayStep.next step' curr_ro' =>
        RayCast_loop sqrt initial_ro rd chunk rayHitLocation fuel step' curr_ro'
    else some (RayResult.returned false rayHitLocation)

/-- `genVoxel::RayCast` (the unused `particle_pos` is left out), run for at most
`fuel` passes through the loop body. -/
def RayCast (sqrt : ℚ → ℚ) (fuel : Nat) (start : IVec3) (rd : Vec3) (chunk : Int → Chunk)
    (rayHitLocation : Vec3) : Option RayResult :=
  let initial_ro := start.toVec3
  RayCast_loop sqrt initial_ro rd chunk rayHitLocation fuel 0 initial_ro

end genVoxel

/-- The value `step` takes in a pass of the `RayCast` loop entered at
`curr_ro = initial_ro + s * rd`, when `rd` has length `L` and distances are
exact: the smallest of `(s + 1 / |rd.x|) * L`, `(s + 1 / |rd.y|) * L`,
`(s + 1 / |rd.z|) * L`, chosen by the two comparisons of the code. -/
def rayNext (L : ℚ) (rd : Vec3) (s : ℚ) : ℚ :=
  let distX := (s + 1 / |rd.x|) * L
  let distY := (s + 1 / |rd.y|) * L
  let distZ := (s + 1 / |rd.z|) * L
  let step := if distX > distY then distY else distX
  if step > distZ then distZ else step

/-- The `k`-th sample point of a ray with unit direction `rd`:
`origin + (k / m) * rd` with `m = max(|rd.x|, |rd.y|, |rd.z|)`. -/
def raySample (start : IVec3) (rd : Vec3) (k : Nat) : Vec3 :=
  start.toVec3.add (rd.smul ((k : ℚ) / max |rd.x| (max |rd.y| |rd.z|)))

/-- The voxel test of `RayCast` at a position: bit 0 of the voxel byte is set. -/
def voxelPresent (chunk : Int → Chunk) (p : Vec3) : Prop :=
  (chunk (genVoxel.pos_to_chunkIndex p)).voxel (genVoxel.pos_to_voxelIndex p) &&& 1 ≠ 0

instance (chunk : Int → Chunk) (p : Vec3) : Decidable (voxelPresent chunk p) := by
  unfold voxelPresent
  infer_instance

/-! ## Second overloads and second copies -/

namespace genVoxel

/-- `genVoxel::return_index(int, int, int)`: the overload on three `int`s. -/
def return_index_ints (x y z : Int) : Int :=
  (z * CHUNK_DIMENSION * CHUNK_DIMENSION) + (y * CHUNK_DIMENSION) + x

end genVoxel

namespace voxelNS

/-- `voxelNS::chunkIndex_to_pos` of `Voxel.h` (a second copy of the function). -/
def chunkIndex_to_pos (index : Int) : Vec3 :=
  let z := index.tdiv (PLANET_DIMENSION * PLANET_DIMENSION)
  let index := index - (z * PLANET_DIMENSION * PLANET_DIMENSION)
  let y := index.tdiv PLANET_DIMENSION
  let x := index.tmod PLANET_DIMENSION
  Vec3.ofInts x y z

/-- `voxelNS::pos_to_voxelIndex` of `Voxel.h` (a second copy of the function). -/
def pos_to_voxelIndex (pos : Vec3) : Int :=
  let x_voxel_coord := -((toInt pos.x).tmod CHUNK_DIMENSION)
  let y_voxel_coord := -((toInt pos.y).tmod CHUNK_DIMENSION)
  let z_voxel_coord := -((toInt pos.z).tmod CHUNK_DIMENSION)
  (z_voxel_coord * CHUNK_DIMENSION * CHUNK_DIMENSION) + (y_voxel_coord * CHUNK_DIMENSION)
    + x_voxel_coord

/-- `voxelNS::voxelIndex_to_pos` of `Voxel.h` (a second copy of the function). -/
def voxelIndex_to_pos (index : Int) : Vec3 :=
  let z := index.tdiv (CHUNK_DIMENSION * CHUNK_DIMENSION)
  let index := index - (z * CHUNK_DIMENSION * CHUNK_DIMENSION)
  let y := index.tdiv CHUNK_DIMENSION
  let x := index.tmod CHUNK_DIMENSION
  Vec3.ofInts x y z

end voxelNS

namespace voxelNS

/-- First half of the loop body of `voxelNS::RayCast` (the divisors being
nonzero): the new `step` and the position `rayLocation = initial_ro + step * rd`. -/
def RayCast_advance (sqrt : ℚ → ℚ) (initial_ro rd curr_ro : Vec3) : ℚ × Vec3 :=
  let stepX := curr_ro.add (rd.sdiv |rd.x|)
  let stepY := curr_ro.add (rd.sdiv |rd.y|)
  let stepZ := curr_ro.add (rd.sdiv |rd.z|)
  let distX := glm_distance sqrt initial_ro stepX
  let distY := glm_distance sqrt initial_ro stepY
  let distZ := glm_distance sqrt initial_ro stepZ
  let step := if distX > distY then distY else distX
  let step := if step > distZ then distZ else step
  let rayLocation := initial_ro.add (rd.smul step)
  (step, rayLocation)

/-- The loop body of `voxelNS::RayCast` of `Voxel.h` (a second copy of the
function), with the divisions modelled as guarded. -/
def RayCast_body (sqrt : ℚ → ℚ) (initial_ro rd : Vec3) (chunk : Int → Chunk)
    (rayHitLocation : Vec3) (curr_ro : Vec3) : genVoxel.RayStep :=
  if |rd.x| = 0 ∨ |rd.y| = 0 ∨ |rd.z| = 0 then genVoxel.RayStep.divByZero
  else
    let step := (RayCast_advance sqrt initial_ro rd curr_ro).1
    let rayLocation := (RayCast_advance sqrt initial_ro rd curr_ro).2
    let chunk_index := pos_to_chunkIndex rayLocation
    if chunk_index < 0 then genVoxel.RayStep.ret false rayHitLocation
    else
      let target_chunk := chunk chunk_index
      let voxelIndex := pos_to_voxelIndex rayLocation
      if target_chunk.voxel voxelIndex &&& 1 ≠ 0 then genVoxel.RayStep.ret true rayLocation
      else genVoxel.RayStep.next step rayLocation

/-- The loop `while (step < max_step)` of `voxelNS::RayCast`, run for at most
`fuel` passes through the body; `none` when it is still running after them. -/
def RayCast_loop (sqrt : ℚ → ℚ) (initial_ro rd : Vec3) (chunk : Int → Chunk)
    (rayHitLocation : Vec3) : Nat → ℚ → Vec3 → Option genVoxel.RayResult
  | 0, step, _ =>
    if step < 200 then none else some (genVoxel.RayResult.returned false rayHitLocation)
  | fuel + 1, step, curr_ro =>
    if step < 200 then
      match RayCast_body sqrt initial_ro rd chunk rayHitLocation curr_ro with
      | genVoxel.RayStep.divByZero => some genVoxel.RayResult.divByZero
      | genVoxel.RayStep.ret found hit => some (genVoxel.RayResult.returned found hit)
      | genVoxel.RayStep.next step' curr_ro' =>
        RayCast_loop sqrt initial_ro rd chunk rayHitLocation fuel step' curr_ro'
    else some (genVoxel.RayResult.returned false rayHitLocation)

/-- `voxelNS::RayCast` of `Voxel.h` (the unused `particle_pos` is left out), run
for at most `fuel` passes through the loop body. -/
def RayCast (sqrt : ℚ → ℚ) (fuel : Nat) (start : IVec3) (rd : Vec3) (chunk : Int → Chunk)
    (rayHitLocation : Vec3) : Option genVoxel.RayResult :=
  let initial_ro := start.toVec3
  RayCast_loop sqrt initial_ro rd chunk rayHitLocation fuel 0 initial_ro

end voxelNS

/-- The values of `step` and `rayLocation` after `k` passes through the loop
body of `genVoxel::RayCast` none of which returns: `k` iterations of the first
half of the body, from `step = 0` and `curr_ro = initial_ro`. The position
tested in the `k`-th pass is the second component at `k`. -/
def genVoxel.RayCast_trace (sqrt : ℚ → ℚ) (initial_ro rd : Vec3) : Nat → ℚ × Vec3
  | 0 => (0, initial_ro)
  | k + 1 => genVoxel.RayCast_advance sqrt initial_ro rd (genVoxel.RayCast_trace sqrt initial_ro rd k).2


/-! ## Square root from above -/

/-- A square root on the rationals that is never below the real root: one more
than the integer square root of `⌈q · 4^24⌉`, over `2^24`. -/
def sqrtUpper (q : ℚ) : ℚ := ((Nat.sqrt ⌈q * 4 ^ 24⌉.toNat + 1 : Nat) : ℚ) / 2 ^ 24

/-! ## Single-precision rounding -/

/-- Rounding of a rational to the nearest integer, ties to the even one. -/
def roundEven (x : ℚ) : Int :=
  if 2 * Int.fract x < 1 then ⌊x⌋
  else if 1 < 2 * Int.fract x then ⌊x⌋ + 1
  else if ⌊x⌋ % 2 = 0 then ⌊x⌋ else ⌊x⌋ + 1

/-- Rounding of a real to the nearest `float` (IEEE binary32: 24-bit significand,
round to nearest, ties to even), with the exponent range taken unbounded: no
overflow to infinity and no subnormal numbers. A number `q` with
`2^e ≤ |q| < 2^(e+1)` is rounded to a multiple of `2^(e-23)`. -/
def roundF32 (q : ℚ) : ℚ :=
  if q = 0 then 0
  else (roundEven (q / (2 : ℚ) ^ (Int.log 2 |q| - 23)) : ℚ) * (2 : ℚ) ^ (Int.log 2 |q| - 23)

/-! ## Sphere and voxel removal in `float` arithmetic -/

/-- The successive values of `x` in `for (int x = lo; x < hi; x++)` with a
`float` bound `hi`: for the comparison `x` is converted to `float`, which rounds
it by `fl`; at most `fuel` values. -/
def forLoopFlFrom (fl : ℚ → ℚ) : Nat → Int → ℚ → List Int
  | 0, _, _ => []
  | fuel + 1, x, hi => if fl (x : ℚ) < hi then x :: forLoopFlFrom fl fuel (x + 1) hi else []

/-- The values of `x` in `for (int x = lo; x < hi; x++)` with a `float` bound
`hi`. A rounding that is monotone and leaves `hi` as it is ends the loop within
`⌈hi⌉ - lo` passes. -/
def forLoopFl (fl : ℚ → ℚ) (lo : Int) (hi : ℚ) : List Int :=
  forLoopFlFrom fl (⌈hi⌉ - lo).toNat lo hi

namespace genVoxel

/-- `genVoxel::Sphere` of `generateVoxel.h` in `float` arithmetic: `center` and
`radius` are `float`s, every conversion of an `int` to `float` and every `float`
operation rounds its exact result by `fl`, and `Point(x, y, z)` converts the
three counters. -/
def Sphere_float (fl : ℚ → ℚ) (center : Vec3) (radius : ℚ) (voxel : List Vec3) : List Vec3 :=
  (forLoopFl fl (toInt (fl (-radius + center.x))) (fl (radius + center.x))).foldl
    (fun voxel (x : Int) =>
    (forLoopFl fl (toInt (fl (-radius + center.y))) (fl (radius + center.y))).foldl
      (fun voxel (y : Int) =>
      (forLoopFl fl (toInt (fl (-radius + center.z))) (fl (radius + center.z))).foldl
        (fun voxel (z : Int) =>
        if fl (fl (fl (fl (fl (x : ℚ) - center.x) * fl (fl (x : ℚ) - center.x))
              + fl (fl (fl (y : ℚ) - center.y) * fl (fl (y : ℚ) - center.y)))
            + fl (fl (fl (z : ℚ) - center.z) * fl (fl (z : ℚ) - center.z)))
            < fl (radius * radius) then
          voxel ++ [⟨fl (x : ℚ), fl (y : ℚ), fl (z : ℚ)⟩]
        else voxel) voxel) voxel) voxel

/-- `genVoxel::Remove_Voxel` in `float` arithmetic: walks the positions produced
by `Sphere` with radius `5.0f`. -/
def Remove_Voxel_float (fl : ℚ → ℚ) (target : Vec3) (chunk : Int → Chunk)
    (damagedChunkIndices : List Int) : (Int → Chunk) × List Int :=
  (Sphere_float fl target 5 []).foldl Remove_Voxel_body (chunk, damagedChunkIndices)

end genVoxel

/-- The distance test of `Sphere` in `float` arithmetic at the lattice point
`(x, y, z)`. -/
def inBallFloat (fl : ℚ → ℚ) (center : Vec3) (radius : ℚ) (x y z : Int) : Prop :=
  fl (fl (fl (fl (fl (x : ℚ) - center.x) * fl (fl (x : ℚ) - center.x))
        + fl (fl (fl (y : ℚ) - center.y) * fl (fl (y : ℚ) - center.y)))
      + fl (fl (fl (z : ℚ) - center.z) * fl (fl (z : ℚ) - center.z)))
    < fl (radius * radius)

instance (fl : ℚ → ℚ) (center : Vec3) (radius : ℚ) (x y z : Int) :
    Decidable (inBallFloat fl center radius x y z) := by
  unfold inBallFloat
  infer_instance

/-! ## Ray caster in `float` arithmetic -/

/-- A value of type `float`: a finite number, an infinity (`neg` tells its sign)
or a NaN. The sign of a zero is not kept: the code divides only by results of
`abs`, whose zero is `+0`. -/
inductive Flt where
  | fin (q : ℚ) : Flt
  | inf (neg : Bool) : Flt
  | nan : Flt
deriving DecidableEq

/-- Rounding of a real to `float`, IEEE 754 binary32 with round to nearest, ties
to even: 24-bit significand, spacing `2^-149` below `2^-126` (subnormal numbers)
and overflow to an infinity when the rounded magnitude reaches `2^128`. -/
def f32 (q : ℚ) : Flt :=
  if q = 0 then Flt.fin 0
  else
    let e := max (Int.log 2 |q|) (-126)
    let r := (roundEven (q / (2 : ℚ) ^ (e - 23)) : ℚ) * (2 : ℚ) ^ (e - 23)
    if (2 : ℚ) ^ (128 : Nat) ≤ |r| then Flt.inf (decide (q < 0)) else Flt.fin r

/-- Negation `-a` of a `float`. -/
def Flt.neg : Flt → Flt
  | Flt.fin a => Flt.fin (-a)
  | Flt.inf s => Flt.inf (!s)
  | Flt.nan => Flt.nan

/-- Sum `a + b` of two `float`s; the exact sum of two finite numbers is rounded
by `fl`. -/
def Flt.add (fl : ℚ → Flt) : Flt → Flt → Flt
  | Flt.fin a, Flt.fin b => fl (a + b)
  | Flt.fin _, Flt.inf t => Flt.inf t
  | Flt.fin _, Flt.nan => Flt.nan
  | Flt.inf s, Flt.fin _ => Flt.inf s
  | Flt.inf s, Flt.inf t => if s = t then Flt.inf s else Flt.nan
  | Flt.inf _, Flt.nan => Flt.nan
  | Flt.nan, _ => Flt.nan

/-- Difference `a - b` of two `float`s. -/
def Flt.sub (fl : ℚ → Flt) (a b : Flt) : Flt := Flt.add fl a (Flt.neg b)

/-- Product `a * b` of two `float`s; the exact product of two finite numbers is
rounded by `fl`, and zero times an infinity is a NaN. -/
def Flt.mul (fl : ℚ → Flt) : Flt → Flt → Flt
  | Flt.fin a, Flt.fin b => fl (a * b)
  | Flt.fin a, Flt.inf t => if a = 0 then Flt.nan else Flt.inf (xor (decide (a < 0)) t)
  | Flt.fin _, Flt.nan => Flt.nan
  | Flt.inf s, Flt.fin b => if b = 0 then Flt.nan else Flt.inf (xor s (decide (b < 0)))
  | Flt.inf s, Flt.inf t => Flt.inf (xor s t)
  | Flt.inf _, Flt.nan => Flt.nan
  | Flt.nan, _ => Flt.nan

/-- Quotient `a / b` of two `float`s, a zero divisor being `+0`: a nonzero
finite number over zero is an infinity of its sign, zero over zero is a NaN, and
the exact quotient of two finite numbers is rounded by `fl`. -/
def Flt.div (fl : ℚ → Flt) : Flt → Flt → Flt
  | Flt.fin a, Flt.fin b =>
    if b = 0 then (if a = 0 then Flt.nan else Flt.inf (decide (a < 0))) else fl (a / b)
  | Flt.fin _, Flt.inf _ => Flt.fin 0
  | Flt.fin _, Flt.nan => Flt.nan
  | Flt.inf s, Flt.fin b => Flt.inf (xor s (decide (b < 0)))
  | Flt.inf _, Flt.inf _ => Flt.nan
  | Flt.inf _, Flt.nan => Flt.nan
  | Flt.nan, _ => Flt.nan

/-- Absolute value `abs(a)` of a `float`. -/
def Flt.abs : Flt → Flt
  | Flt.fin a => Flt.fin |a|
  | Flt.inf _ => Flt.inf false
  | Flt.nan => Flt.nan

/-- Square root of a `float` over the square root `sqrt` of the finite
non-negative numbers; the root of a negative number is a NaN. -/
def Flt.sqrt (sqrt : ℚ → ℚ) : Flt → Flt
  | Flt.fin a => if a < 0 then Flt.nan else Flt.fin (sqrt a)
  | Flt.inf s => if s then Flt.nan else Flt.inf false
  | Flt.nan => Flt.nan

/-- Comparison `a < b` of two `float`s, false when either is a NaN. -/
def Flt.lt : Flt → Flt → Bool
  | Flt.fin a, Flt.fin b => decide (a < b)
  | Flt.fin _, Flt.inf t => !t
  | Flt.fin _, Flt.nan => false
  | Flt.inf s, Flt.fin _ => s
  | Flt.inf s, Flt.inf t => s && !t
  | Flt.inf _, Flt.nan => false
  | Flt.nan, _ => false

/-- Conversion `(int)a` of a `float`: truncation toward zero, undefined (`none`)
for a NaN, an infinity and a number whose truncation is not an `int`. -/
def Flt.castInt : Flt → Option Int
  | Flt.fin a => if -2147483649 < a ∧ a < 2147483648 then some (toInt a) else none
  | Flt.inf _ => none
  | Flt.nan => none

/-- A `glm::vec3` of `float`s. -/
structure FVec3 where
  x : Flt
  y : Flt
  z : Flt
deriving DecidableEq

/-- The `glm::vec3` whose components are three finite numbers. -/
def FVec3.ofVec3 (v : Vec3) : FVec3 := ⟨Flt.fin v.x, Flt.fin v.y, Flt.fin v.z⟩

/-- Conversion of a `glm::ivec3` to a `glm::vec3`: each `int` is rounded to
`float`. -/
def FVec3.ofIVec3 (fl : ℚ → Flt) (v : IVec3) : FVec3 :=
  ⟨fl (v.x : ℚ), fl (v.y : ℚ), fl (v.z : ℚ)⟩

/-- Componentwise sum, `a + b` on `glm::vec3`. -/
def FVec3.add (fl : ℚ → Flt) (a b : FVec3) : FVec3 :=
  ⟨Flt.add fl a.x b.x, Flt.add fl a.y b.y, Flt.add fl a.z b.z⟩

/-- Componentwise difference, `a - b` on `glm::vec3`. -/
def FVec3.sub (fl : ℚ → Flt) (a b : FVec3) : FVec3 :=
  ⟨Flt.sub fl a.x b.x, Flt.sub fl a.y b.y, Flt.sub fl a.z b.z⟩

/-- Componentwise division by a scalar, `v / s` on `glm::vec3`. -/
def FVec3.sdiv (fl : ℚ → Flt) (v : FVec3) (s : Flt) : FVec3 :=
  ⟨Flt.div fl v.x s, Flt.div fl v.y s, Flt.div fl v.z s⟩

/-- Scaling by a scalar, `s * v` on `glm::vec3`. -/
def FVec3.smul (fl : ℚ → Flt) (s : Flt) (v : FVec3) : FVec3 :=
  ⟨Flt.mul fl s v.x, Flt.mul fl s v.y, Flt.mul fl s v.z⟩

/-- Dot product `glm::dot`: the three products are summed from the left. -/
def FVec3.dot (fl : ℚ → Flt) (a b : FVec3) : Flt :=
  Flt.add fl (Flt.add fl (Flt.mul fl a.x b.x) (Flt.mul fl a.y b.y)) (Flt.mul fl a.z b.z)

/-- `glm::distance(p0, p1)` in `float` arithmetic: `sqrt(dot(p1 - p0, p1 - p0))`. -/
def glm_distance_float (fl : ℚ → Flt) (sqrt : ℚ → ℚ) (p0 p1 : FVec3) : Flt :=
  Flt.sqrt sqrt (FVec3.dot fl (p1.sub fl p0) (p1.sub fl p0))

namespace genVoxel

/-- `genVoxel::pos_to_chunkIndex` on a vector of `float`s: `none` when a
component that is converted to `int` is a NaN (every comparison of the bounds
test is then false), which the language leaves undefined. -/
def pos_to_chunkIndex_float (pos : FVec3) : Option Int :=
  if Flt.lt (Flt.fin 0) pos.x ∨ Flt.lt (Flt.fin 0) pos.y ∨ Flt.lt (Flt.fin 0) pos.z
      ∨ Flt.lt pos.x (Flt.fin (WORLD_LIMIT : ℚ)) ∨ Flt.lt pos.y (Flt.fin (WORLD_LIMIT : ℚ))
      ∨ Flt.lt pos.z (Flt.fin (WORLD_LIMIT : ℚ)) then
    some (-1)
  else
    match Flt.castInt pos.x, Flt.castInt pos.y, Flt.castInt pos.z with
    | some ix, some iy, some iz =>
      let x_chunk_coord := -(ix.tdiv CHUNK_DIMENSION)
      let y_chunk_coord := -(iy.tdiv CHUNK_DIMENSION)
      let z_chunk_coord := -(iz.tdiv CHUNK_DIMENSION)
      some ((z_chunk_coord * PLANET_DIMENSION * PLANET_DIMENSION)
        + (y_chunk_coord * PLANET_DIMENSION) + x_chunk_coord)
    | _, _, _ => none

/-- `genVoxel::pos_to_voxelIndex` on a vector of `float`s: `none` when a
conversion to `int` is undefined. -/
def pos_to_voxelIndex_float (pos : FVec3) : Option Int :=
  match Flt.castInt pos.x, Flt.castInt pos.y, Flt.castInt pos.z with
  | some ix, some iy, some iz =>
    let x_voxel_coord := -(ix.tmod CHUNK_DIMENSION)
    let y_voxel_coord := -(iy.tmod CHUNK_DIMENSION)
    let z_voxel_coord := -(iz.tmod CHUNK_DIMENSION)
    some ((z_voxel_coord * CHUNK_DIMENSION * CHUNK_DIMENSION)
      + (y_voxel_coord * CHUNK_DIMENSION) + x_voxel_coord)
  | _, _, _ => none

/-- What one pass through the loop body of `RayCast` does in `float`
arithmetic: it converts a NaN to `int` (undefined), returns, or falls through
to the loop test with new values of `step` and `curr_ro`. -/
inductive RayStepFloat where
  | undefined : RayStepFloat
  | ret (found : Bool) (rayHitLocation : FVec3) : RayStepFloat
  | next (step : Flt) (curr_ro : FVec3) : RayStepFloat

/-- How a call of `RayCast` ends in `float` arithmetic: in an undefined
conversion, or by returning `found` with `*rayHitLocation` holding
`rayHitLocation`. -/
inductive RayResultFloat where
  | undefined : RayResultFloat
  | returned (found : Bool) (rayHitLocation : FVec3) : RayResultFloat

/-- First half of the loop body of `RayCast` in `float` arithmetic, with the
three divisions as the code has them, unguarded: the new `step` and the
position `rayLocation = initial_ro + step * rd`. -/
def RayCast_advance_float (fl : ℚ → Flt) (sqrt : ℚ → ℚ) (initial_ro rd curr_ro : FVec3) :
    Flt × FVec3 :=
  let stepX := curr_ro.add fl (rd.sdiv fl (Flt.abs rd.x))
  let stepY := curr_ro.add fl (rd.sdiv fl (Flt.abs rd.y))
  let stepZ := curr_ro.add fl (rd.sdiv fl (Flt.abs rd.z))
  let distX := glm_distance_float fl sqrt initial_ro stepX
  let distY := glm_distance_float fl sqrt initial_ro stepY
  let distZ := glm_distance_float fl sqrt initial_ro stepZ
  let step := if Flt.lt distY distX then distY else distX
  let step := if Flt.lt distZ step then distZ else step
  let rayLocation := initial_ro.add fl (FVec3.smul fl step rd)
  (step, rayLocation)

/-- The loop body of `genVoxel::RayCast` in `float` arithmetic, entered with
`curr_ro`; `rayHitLocation` is the value `*rayHitLocation` holds so far. -/
def RayCast_body_float (fl : ℚ → Flt) (sqrt : ℚ → ℚ) (initial_ro rd : FVec3)
    (chunk : Int → Chunk) (rayHitLocation : FVec3) (curr_ro : FVec3) : RayStepFloat :=
  let step := (RayCast_advance_float fl sqrt initial_ro rd curr_ro).1
  let rayLocation := (RayCast_advance_float fl sqrt initial_ro rd curr_ro).2
  match pos_to_chunkIndex_float rayLocation with
  | none => RayStepFloat.undefined
  | some chunk_index =>
    if chunk_index < 0 then RayStepFloat.ret false rayHitLocation
    else
      let target_chunk := chunk chunk_index
      match pos_to_voxelIndex_float rayLocation with
      | none => RayStepFloat.undefined
      | some voxelIndex =>
        if target_chunk.voxel voxelIndex &&& 1 ≠ 0 then RayStepFloat.ret true rayLocation
        else RayStepFloat.next step rayLocation

/-- The loop `while (step < max_step)` of `genVoxel::RayCast` in `float`
arithmetic with `max_step = 200.0f`, run for at most `fuel` passes through the
body; `none` when the loop is still running after `fuel` passes. -/
def RayCast_loop_float (fl : ℚ → Flt) (sqrt : ℚ → ℚ) (initial_ro rd : FVec3)
    (chunk : Int → Chunk) (rayHitLocation : FVec3) : Nat → Flt → FVec3 → Option RayResultFloat
  | 0, step, _ =>
    if Flt.lt step (Flt.fin 200) then none
    else some (RayResultFloat.returned false rayHitLocation)
  | fuel + 1, step, curr_ro =>
    if Flt.lt step (Flt.fin 200) then
      match RayCast_body_float fl sqrt initial_ro rd chunk rayHitLocation curr_ro with
      | RayStepFloat.undefined => some RayResultFloat.undefined
      | RayStepFloat.ret found hit => some (RayResultFloat.returned found hit)
      | RayStepFloat.next step' curr_ro' =>
        RayCast_loop_float fl sqrt initial_ro rd chunk rayHitLocation fuel step' curr_ro'
    else some (RayResultFloat.returned false rayHitLocation)

/-- `genVoxel::RayCast` in `float` arithmetic (the unused `particle_pos` is left
out), run for at most `fuel` passes through the loop body. -/
def RayCast_float (fl : ℚ → Flt) (sqrt : ℚ → ℚ) (fuel : Nat) (start : IVec3) (rd : FVec3)
    (chunk : Int → Chunk) (rayHitLocation : FVec3) : Option RayResultFloat :=
  let initial_ro := FVec3.ofIVec3 fl start
  RayCast_loop_float fl sqrt initial_ro rd chunk rayHitLocation fuel (Flt.fin 0) initial_ro

end genVoxel

/-! ## Coordinate mapper -/

theorem toInt_intCast (a : Int) : toInt (a : ℚ) = a := by
  unfold toInt
  split <;> simp

theorem toInt_bounds (q : ℚ) (h0 : q ≤ 0) (hl : (-127 : ℚ) ≤ q) :
    -127 ≤ toInt q ∧ toInt q ≤ 0 := by
  unfold toInt
  split
  · have hq : q = 0 := le_antisymm h0 ‹0 ≤ q›
    subst hq
    simp
  · constructor
    · have h : ((-127 : Int) : ℚ) ≤ q := by exact_mod_cast hl
      have hm := Int.ceil_mono h
      rwa [Int.ceil_intCast] at hm
    · exact Int.ceil_le.mpr (by exact_mod_cast h0)

theorem tdiv_nonpos (a : Int) (h0 : a ≤ 0) : -(a.tdiv 16) = (-a) / 16 := by
  rw [← Int.neg_tdiv, Int.tdiv_eq_ediv (by omega) (by omega)]

theorem tmod_nonpos (a : Int) (h0 : a ≤ 0) : -(a.tmod 16) = (-a) % 16 := by
  have h := tdiv_nonpos a h0
  rw [Int.tmod_def]
  omega

theorem WORLD_LIMIT_eq : WORLD_LIMIT = -127 := by decide

theorem CHUNK_COUNT_eq : CHUNK_COUNT = 512 := by decide

theorem chunkCoord_bounds (q : ℚ) (h0 : q ≤ 0) (hl : (-127 : ℚ) ≤ q) :
    0 ≤ -((toInt q).tdiv 16) ∧ -((toInt q).tdiv 16) ≤ 7 := by
  obtain ⟨h1, h2⟩ := toInt_bounds q h0 hl
  rw [tdiv_nonpos _ h2]
  omega

theorem voxelCoord_bounds (q : ℚ) (h0 : q ≤ 0) (hl : (-127 : ℚ) ≤ q) :
    0 ≤ -((toInt q).tmod 16) ∧ -((toInt q).tmod 16) ≤ 15 := by
  obtain ⟨h1, h2⟩ := toInt_bounds q h0 hl
  rw [tmod_nonpos _ h2]
  omega

theorem genVoxel.pos_to_chunkIndex_of_out (p : Vec3) (h : outOfWorld p) :
    genVoxel.pos_to_chunkIndex p = -1 := by
  unfold outOfWorld at h
  unfold genVoxel.pos_to_chunkIndex
  rw [if_pos]
  simpa [WORLD_LIMIT_eq] using h

theorem genVoxel.pos_to_chunkIndex_of_in (p : Vec3) (h : ¬ outOfWorld p) :
    genVoxel.pos_to_chunkIndex p
      = -((toInt p.z).tdiv 16) * 64 + -((toInt p.y).tdiv 16) * 8 + -((toInt p.x).tdiv 16) := by
  unfold outOfWorld at h
  unfold genVoxel.pos_to_chunkIndex
  rw [if_neg (by simpa [WORLD_LIMIT_eq] using h)]
  simp only [PLANET_DIMENSION, CHUNK_DIMENSION]
  ring

theorem genVoxel.pos_to_chunkIndex_range (p : Vec3) (h : ¬ outOfWorld p) :
    0 ≤ genVoxel.pos_to_chunkIndex p ∧ genVoxel.pos_to_chunkIndex p < 512 := by
  rw [genVoxel.pos_to_chunkIndex_of_in p h]
  unfold outOfWorld at h
  simp only [not_or, not_lt, gt_iff_lt] at h
  obtain ⟨hx0, hy0, hz0, hx1, hy1, hz1⟩ := h
  have hx := chunkCoord_bounds p.x hx0 hx1
  have hy := chunkCoord_bounds p.y hy0 hy1
  have hz := chunkCoord_bounds p.z hz0 hz1
  omega

theorem voxelNS_eq_genVoxel (p : Vec3) :
    voxelNS.pos_to_chunkIndex p = genVoxel.pos_to_chunkIndex p := rfl

/-- C1: `pos_to_chunkIndex` (both copies) returns `-1` exactly for the positions
with a coordinate above `0` or below `WORLD_LIMIT = -127`, and an index in
`[0, CHUNK_COUNT) = [0, 512)` for every other position. -/
theorem pos_to_chunkIndex_sentinel_iff (p : Vec3) :
    WORLD_LIMIT = -127 ∧ CHUNK_COUNT = 512 ∧
    (genVoxel.pos_to_chunkIndex p = -1 ↔
      (p.x > 0 ∨ p.y > 0 ∨ p.z > 0 ∨ p.x < (WORLD_LIMIT : ℚ) ∨ p.y < (WORLD_LIMIT : ℚ)
        ∨ p.z < (WORLD_LIMIT : ℚ))) ∧
    (genVoxel.pos_to_chunkIndex p = -1 ∨
      (0 ≤ genVoxel.pos_to_chunkIndex p ∧ genVoxel.pos_to_chunkIndex p < CHUNK_COUNT)) ∧
    voxelNS.pos_to_chunkIndex p = genVoxel.pos_to_chunkIndex p := by
  refine ⟨WORLD_LIMIT_eq, CHUNK_COUNT_eq, ?_, ?_, rfl⟩
  · have hc : (p.x > 0 ∨ p.y > 0 ∨ p.z > 0 ∨ p.x < (WORLD_LIMIT : ℚ) ∨ p.y < (WORLD_LIMIT : ℚ)
        ∨ p.z < (WORLD_LIMIT : ℚ)) ↔ outOfWorld p := by
      unfold outOfWorld
      simp [WORLD_LIMIT_eq]
    rw [hc]
    constructor
    · intro h
      by_contra hn
      have := genVoxel.pos_to_chunkIndex_range p hn
      omega
    · exact genVoxel.pos_to_chunkIndex_of_out p
  · by_cases h : outOfWorld p
    · exact Or.inl (genVoxel.pos_to_chunkIndex_of_out p h)
    · right
      rw [CHUNK_COUNT_eq]
      exact genVoxel.pos_to_chunkIndex_range p h

theorem genVoxel.chunkIndex_to_pos_linear (x y z : Int) (hx : 0 ≤ x ∧ x ≤ 7)
    (hy : 0 ≤ y ∧ y ≤ 7) (hz : 0 ≤ z) :
    genVoxel.chunkIndex_to_pos (z * 64 + y * 8 + x) = Vec3.ofInts x y z := by
  unfold genVoxel.chunkIndex_to_pos
  simp only [PLANET_DIMENSION]
  have e1 : (z * 64 + y * 8 + x).tdiv (8 * 8) = z := by
    rw [Int.tdiv_eq_ediv (by omega) (by omega)]
    omega
  rw [e1]
  have e2 : z * 64 + y * 8 + x - z * 8 * 8 = y * 8 + x := by ring
  rw [e2]
  have e3 : (y * 8 + x).tdiv 8 = y := by
    rw [Int.tdiv_eq_ediv (by omega) (by omega)]
    omega
  have e4 : (y * 8 + x).tmod 8 = x := by
    rw [Int.tmod_eq_emod (by omega) (by omega)]
    omega
  rw [e3, e4]

theorem genVoxel.voxelIndex_to_pos_linear (x y z : Int) (hx : 0 ≤ x ∧ x ≤ 15)
    (hy : 0 ≤ y ∧ y ≤ 15) (hz : 0 ≤ z) :
    genVoxel.voxelIndex_to_pos (z * 256 + y * 16 + x) = Vec3.ofInts x y z := by
  unfold genVoxel.voxelIndex_to_pos
  simp only [CHUNK_DIMENSION]
  have e1 : (z * 256 + y * 16 + x).tdiv (16 * 16) = z := by
    rw [Int.tdiv_eq_ediv (by omega) (by omega)]
    omega
  rw [e1]
  have e2 : z * 256 + y * 16 + x - z * 16 * 16 = y * 16 + x := by ring
  rw [e2]
  have e3 : (y * 16 + x).tdiv 16 = y := by
    rw [Int.tdiv_eq_ediv (by omega) (by omega)]
    omega
  have e4 : (y * 16 + x).tmod 16 = x := by
    rw [Int.tmod_eq_emod (by omega) (by omega)]
    omega
  rw [e3, e4]

theorem genVoxel.pos_to_voxelIndex_eq (p : Vec3) :
    genVoxel.pos_to_voxelIndex p
      = -((toInt p.z).tmod 16) * 256 + -((toInt p.y).tmod 16) * 16 + -((toInt p.x).tmod 16) := by
  unfold genVoxel.pos_to_voxelIndex
  simp only [CHUNK_DIMENSION]
  ring

theorem outOfWorld_ofInts (a b c : Int) :
    outOfWorld (Vec3.ofInts a b c) ↔ (0 < a ∨ 0 < b ∨ 0 < c ∨ a < -127 ∨ b < -127 ∨ c < -127) := by
  unfold outOfWorld Vec3.ofInts
  have e : ∀ n : Int, ((n : ℚ) < -127 ↔ n < -127) := by
    intro n
    have : ((-127 : Int) : ℚ) = -127 := by norm_num
    rw [← this]
    exact Int.cast_lt
  simp only [gt_iff_lt, Int.cast_pos, e]

theorem split16 (a : Int) (h0 : a ≤ 0) :
    (-(a.tdiv 16)) * 16 + -(a.tmod 16) = -a := by
  rw [tdiv_nonpos a h0, tmod_nonpos a h0]
  omega

theorem genVoxel.reconstruct_ofInts (a b c : Int) (h : ¬ outOfWorld (Vec3.ofInts a b c)) :
    ((genVoxel.chunkIndex_to_pos (genVoxel.pos_to_chunkIndex (Vec3.ofInts a b c))).smul
        (CHUNK_DIMENSION : ℚ)).add
      (genVoxel.voxelIndex_to_pos (genVoxel.pos_to_voxelIndex (Vec3.ofInts a b c)))
      = Vec3.ofInts (-a) (-b) (-c) := by
  have hb := h
  rw [outOfWorld_ofInts] at hb
  simp only [not_or, not_lt] at hb
  obtain ⟨ha0, hb0, hc0, ha1, hb1, hc1⟩ := hb
  rw [genVoxel.pos_to_chunkIndex_of_in _ h, genVoxel.pos_to_voxelIndex_eq]
  simp only [Vec3.ofInts, toInt_intCast]
  have bx : 0 ≤ -(a.tdiv 16) ∧ -(a.tdiv 16) ≤ 7 := by rw [tdiv_nonpos a ha0]; omega
  have by1 : 0 ≤ -(b.tdiv 16) ∧ -(b.tdiv 16) ≤ 7 := by rw [tdiv_nonpos b hb0]; omega
  have bz : 0 ≤ -(c.tdiv 16) ∧ -(c.tdiv 16) ≤ 7 := by rw [tdiv_nonpos c hc0]; omega
  have vx : 0 ≤ -(a.tmod 16) ∧ -(a.tmod 16) ≤ 15 := by rw [tmod_nonpos a ha0]; omega
  have vy : 0 ≤ -(b.tmod 16) ∧ -(b.tmod 16) ≤ 15 := by rw [tmod_nonpos b hb0]; omega
  have vz : 0 ≤ -(c.tmod 16) ∧ -(c.tmod 16) ≤ 15 := by rw [tmod_nonpos c hc0]; omega
  rw [genVoxel.chunkIndex_to_pos_linear _ _ _ bx by1 bz.1,
    genVoxel.voxelIndex_to_pos_linear _ _ _ vx vy vz.1]
  simp only [Vec3.ofInts, Vec3.smul, Vec3.add, CHUNK_DIMENSION]
  have sx := split16 a ha0
  have sy := split16 b hb0
  have sz := split16 c hc0
  congr 1
  · exact_mod_cast sx
  · exact_mod_cast sy
  · exact_mod_cast sz

/-- C2, as written, fails at the integer position `(-1, 0, 0)`: it lies in the
world (chunk index `0`), yet chunk coordinate times `CHUNK_DIMENSION` plus
chunk-local coordinate is `(1, 0, 0)`, not `(-1, 0, 0)`. -/
theorem reconstruct_differs_at_minus_one :
    genVoxel.pos_to_chunkIndex (Vec3.ofInts (-1) 0 0) ≠ -1 ∧
    ((genVoxel.chunkIndex_to_pos (genVoxel.pos_to_chunkIndex (Vec3.ofInts (-1) 0 0))).smul
        (CHUNK_DIMENSION : ℚ)).add
      (genVoxel.voxelIndex_to_pos (genVoxel.pos_to_voxelIndex (Vec3.ofInts (-1) 0 0)))
      ≠ Vec3.ofInts (-1) 0 0 := by
  have h : ¬ outOfWorld (Vec3.ofInts (-1) 0 0) := by
    rw [outOfWorld_ofInts]
    decide
  constructor
  · have := genVoxel.pos_to_chunkIndex_range _ h
    omega
  · rw [genVoxel.reconstruct_ofInts _ _ _ h]
    intro e
    have ex := congrArg Vec3.x e
    simp only [Vec3.ofInts] at ex
    norm_num at ex

/-- C2 (amended): for every position with integer coordinates `(a, b, c)` whose
chunk index is valid (not `-1`), chunk grid coordinate times `CHUNK_DIMENSION`
plus chunk-local coordinate is the negated position `(-a, -b, -c)`. -/
theorem reconstruct_negates (a b c : Int)
    (h : genVoxel.pos_to_chunkIndex (Vec3.ofInts a b c) ≠ -1) :
    ((genVoxel.chunkIndex_to_pos (genVoxel.pos_to_chunkIndex (Vec3.ofInts a b c))).smul
        (CHUNK_DIMENSION : ℚ)).add
      (genVoxel.voxelIndex_to_pos (genVoxel.pos_to_voxelIndex (Vec3.ofInts a b c)))
      = Vec3.ofInts (-a) (-b) (-c) := by
  apply genVoxel.reconstruct_ofInts
  intro ho
  exact h (genVoxel.pos_to_chunkIndex_of_out _ ho)

theorem reconstruct_negates_witness :
    genVoxel.pos_to_chunkIndex (Vec3.ofInts (-20) (-3) (-100)) ≠ -1 ∧
    ((genVoxel.chunkIndex_to_pos
        (genVoxel.pos_to_chunkIndex (Vec3.ofInts (-20) (-3) (-100)))).smul
        (CHUNK_DIMENSION : ℚ)).add
      (genVoxel.voxelIndex_to_pos (genVoxel.pos_to_voxelIndex (Vec3.ofInts (-20) (-3) (-100))))
      = Vec3.ofInts (- -20) (- -3) (- -100) :=
  have h : genVoxel.pos_to_chunkIndex (Vec3.ofInts (-20) (-3) (-100)) ≠ -1 := by
    have hw : ¬ outOfWorld (Vec3.ofInts (-20) (-3) (-100)) := by
      rw [outOfWorld_ofInts]
      decide
    have := genVoxel.pos_to_chunkIndex_range _ hw
    omega
  ⟨h, reconstruct_negates (-20) (-3) (-100) h⟩

/-! ## Loops -/

theorem foldl_append_flatMap {α β : Type} (g : α → List β) (l : List α) (init : List β) :
    l.foldl (fun acc a => acc ++ g a) init = init ++ l.flatMap g := by
  induction l generalizing init with
  | nil => simp
  | cons a l ih => simp [List.foldl_cons, ih, List.flatMap_cons, List.append_assoc]

theorem forLoopFrom_lb (fuel : Nat) (x : Int) (hi : ℚ) (y : Int)
    (h : y ∈ forLoopFrom fuel x hi) : x ≤ y := by
  induction fuel generalizing x with
  | zero => simp [forLoopFrom] at h
  | succ n ih =>
    unfold forLoopFrom at h
    split at h
    · rcases List.mem_cons.mp h with h | h
      · omega
      · have := ih (x + 1) h
        omega
    · simp at h

theorem forLoopFrom_mem (fuel : Nat) (x : Int) (hi : ℚ) (y : Int)
    (hf : (⌈hi⌉ - x).toNat ≤ fuel) :
    y ∈ forLoopFrom fuel x hi ↔ x ≤ y ∧ (y : ℚ) < hi := by
  induction fuel generalizing x with
  | zero =>
    have hx : ⌈hi⌉ ≤ x := by omega
    have hq : hi ≤ (x : ℚ) := Int.ceil_le.mp hx
    simp only [forLoopFrom, List.not_mem_nil, false_iff, not_and, not_lt]
    intro hxy
    have : (x : ℚ) ≤ (y : ℚ) := by exact_mod_cast hxy
    linarith
  | succ n ih =>
    unfold forLoopFrom
    split
    · rename_i hlt
      rw [List.mem_cons, ih (x + 1) (by omega)]
      constructor
      · rintro (h | ⟨h1, h2⟩)
        · subst h
          exact ⟨le_refl _, hlt⟩
        · exact ⟨by omega, h2⟩
      · rintro ⟨h1, h2⟩
        by_cases e : y = x
        · exact Or.inl e
        · exact Or.inr ⟨by omega, h2⟩
    · rename_i hge
      simp only [List.not_mem_nil, false_iff, not_and, not_lt]
      intro hxy
      have : (x : ℚ) ≤ (y : ℚ) := by exact_mod_cast hxy
      linarith

theorem forLoopFrom_nodup (fuel : Nat) (x : Int) (hi : ℚ) : (forLoopFrom fuel x hi).Nodup := by
  induction fuel generalizing x with
  | zero => simp [forLoopFrom]
  | succ n ih =>
    unfold forLoopFrom
    split
    · rw [List.nodup_cons]
      refine ⟨?_, ih (x + 1)⟩
      intro h
      have := forLoopFrom_lb n (x + 1) hi x h
      omega
    · exact List.nodup_nil

theorem forLoop_mem (lo : Int) (hi : ℚ) (y : Int) :
    y ∈ forLoop lo hi ↔ lo ≤ y ∧ (y : ℚ) < hi :=
  forLoopFrom_mem _ lo hi y (le_refl _)

theorem forLoop_nodup (lo : Int) (hi : ℚ) : (forLoop lo hi).Nodup :=
  forLoopFrom_nodup _ lo hi

theorem intFor_mem (lo hi y : Int) : y ∈ intFor lo hi ↔ lo ≤ y ∧ y < hi := by
  unfold intFor
  simp only [List.mem_map, List.mem_range]
  constructor
  · rintro ⟨k, hk, rfl⟩
    omega
  · rintro ⟨h1, h2⟩
    exact ⟨(y - lo).toNat, by omega, by omega⟩

theorem intFor_nodup (lo hi : Int) : (intFor lo hi).Nodup := by
  unfold intFor
  apply List.Nodup.map
  · intro a b h
    simp only at h
    omega
  · exact List.nodup_range _

/-! ## Sphere -/

theorem toInt_le_of_lt (q : ℚ) (x : Int) (h : q < (x : ℚ)) : toInt q ≤ x := by
  unfold toInt
  split
  · have h1 : ((⌊q⌋ : Int) : ℚ) ≤ q := Int.floor_le q
    have h2 : ((⌊q⌋ : Int) : ℚ) < (x : ℚ) := lt_of_le_of_lt h1 h
    have h3 : ⌊q⌋ < x := by exact_mod_cast h2
    omega
  · exact Int.ceil_le.mpr (le_of_lt h)

theorem genVoxel.Sphere_eq (center : Vec3) (radius : ℚ) (voxel : List Vec3) :
    genVoxel.Sphere center radius voxel = voxel ++ latticeList center radius
      (forLoop (toInt (-radius + center.x)) (radius + center.x))
      (forLoop (toInt (-radius + center.y)) (radius + center.y))
      (forLoop (toInt (-radius + center.z)) (radius + center.z)) := by
  unfold genVoxel.Sphere latticeList
  have e : ∀ (x y : Int), (fun (voxel : List Vec3) (z : Int) =>
      if ((x : ℚ) - center.x) * ((x : ℚ) - center.x) + ((y : ℚ) - center.y) * ((y : ℚ) - center.y)
            + ((z : ℚ) - center.z) * ((z : ℚ) - center.z) < radius * radius then
          voxel ++ [Vec3.ofInts x y z]
        else voxel)
      = fun voxel z => voxel ++ (if inBall center radius x y z then [Vec3.ofInts x y z] else []) := by
    intro x y
    funext voxel z
    unfold inBall
    split <;> simp
  simp only [e, foldl_append_flatMap]

theorem voxelNS.Sphere_eq_genVoxel (center : Vec3) (radius : ℚ) (voxel : List Vec3) :
    voxelNS.Sphere center radius voxel = genVoxel.Sphere center radius voxel := rfl

theorem Vec3.ofInts_inj (x y z x' y' z' : Int) (h : Vec3.ofInts x y z = Vec3.ofInts x' y' z') :
    x = x' ∧ y = y' ∧ z = z' := by
  unfold Vec3.ofInts at h
  simp only [Vec3.mk.injEq, Int.cast_inj] at h
  exact h

theorem latticeList_mem (center : Vec3) (radius : ℚ) (xs ys zs : List Int) (p : Vec3) :
    p ∈ latticeList center radius xs ys zs ↔
      ∃ x ∈ xs, ∃ y ∈ ys, ∃ z ∈ zs, inBall center radius x y z ∧ p = Vec3.ofInts x y z := by
  unfold latticeList
  simp only [List.mem_flatMap]
  constructor
  · rintro ⟨x, hx, y, hy, z, hz, h⟩
    split at h
    · rename_i hb
      exact ⟨x, hx, y, hy, z, hz, hb, by simpa using h⟩
    · simp at h
  · rintro ⟨x, hx, y, hy, z, hz, hb, rfl⟩
    exact ⟨x, hx, y, hy, z, hz, by simp [hb]⟩

theorem latticeList_nodup (center : Vec3) (radius : ℚ) (xs ys zs : List Int)
    (hxs : xs.Nodup) (hys : ys.Nodup) (hzs : zs.Nodup) :
    (latticeList center radius xs ys zs).Nodup := by
  unfold latticeList
  rw [List.nodup_flatMap]
  constructor
  · intro x _
    rw [List.nodup_flatMap]
    constructor
    · intro y _
      rw [List.nodup_flatMap]
      constructor
      · intro z _
        split <;> simp
      · refine List.Pairwise.imp ?_ hzs
        intro z z' hne
        simp only [Function.onFun]
        intro p hp hp'
        split at hp <;> split at hp' <;> simp at hp hp'
        subst hp
        exact hne (Vec3.ofInts_inj _ _ _ _ _ _ hp').2.2
    · refine List.Pairwise.imp ?_ hys
      intro y y' hne
      simp only [Function.onFun]
      intro p hp hp'
      simp only [List.mem_flatMap] at hp hp'
      obtain ⟨z, _, hp⟩ := hp
      obtain ⟨z', _, hp'⟩ := hp'
      split at hp <;> split at hp' <;> simp at hp hp'
      subst hp
      exact hne (Vec3.ofInts_inj _ _ _ _ _ _ hp').2.1
  · refine List.Pairwise.imp ?_ hxs
    intro x x' hne
    simp only [Function.onFun]
    intro p hp hp'
    simp only [List.mem_flatMap] at hp hp'
    obtain ⟨y, _, z, _, hp⟩ := hp
    obtain ⟨y', _, z', _, hp'⟩ := hp'
    split at hp <;> split at hp' <;> simp at hp hp'
    subst hp
    exact hne (Vec3.ofInts_inj _ _ _ _ _ _ hp').1

theorem inBall_box (center : Vec3) (radius : ℚ) (hr : 0 ≤ radius) (x y z : Int)
    (h : inBall center radius x y z) :
    (-radius + center.x < (x : ℚ) ∧ (x : ℚ) < radius + center.x) ∧
    (-radius + center.y < (y : ℚ) ∧ (y : ℚ) < radius + center.y) ∧
    (-radius + center.z < (z : ℚ) ∧ (z : ℚ) < radius + center.z) := by
  unfold inBall at h
  have key : ∀ a b c : ℚ, a * a + b * b + c * c < radius * radius → -radius < a ∧ a < radius := by
    intro a b c hs
    have hb : 0 ≤ b * b := mul_self_nonneg b
    have hc : 0 ≤ c * c := mul_self_nonneg c
    have ha : a * a < radius * radius := by linarith
    constructor
    · by_contra hn
      have h1 : a ≤ -radius := not_lt.mp hn
      nlinarith
    · by_contra hn
      have h1 : radius ≤ a := not_lt.mp hn
      nlinarith
  have hx := key _ _ _ h
  have hy := key ((y : ℚ) - center.y) ((x : ℚ) - center.x) ((z : ℚ) - center.z) (by linarith)
  have hz := key ((z : ℚ) - center.z) ((x : ℚ) - center.x) ((y : ℚ) - center.y) (by linarith)
  refine ⟨⟨?_, ?_⟩, ⟨?_, ?_⟩, ⟨?_, ?_⟩⟩ <;> linarith [hx.1, hx.2, hy.1, hy.2, hz.1, hz.2]

theorem genVoxel.Sphere_mem (center : Vec3) (radius : ℚ) (hr : 0 ≤ radius) (p : Vec3) :
    p ∈ genVoxel.Sphere center radius [] ↔
      ∃ x y z : Int, p = Vec3.ofInts x y z ∧ inBall center radius x y z := by
  rw [genVoxel.Sphere_eq, List.nil_append, latticeList_mem]
  constructor
  · rintro ⟨x, _, y, _, z, _, hb, rfl⟩
    exact ⟨x, y, z, rfl, hb⟩
  · rintro ⟨x, y, z, rfl, hb⟩
    obtain ⟨hx, hy, hz⟩ := inBall_box center radius hr x y z hb
    refine ⟨x, ?_, y, ?_, z, ?_, hb, rfl⟩
    · exact (forLoop_mem _ _ _).mpr ⟨toInt_le_of_lt _ _ hx.1, hx.2⟩
    · exact (forLoop_mem _ _ _).mpr ⟨toInt_le_of_lt _ _ hy.1, hy.2⟩
    · exact (forLoop_mem _ _ _).mpr ⟨toInt_le_of_lt _ _ hz.1, hz.2⟩

theorem genVoxel.Sphere_nodup (center : Vec3) (radius : ℚ) :
    (genVoxel.Sphere center radius []).Nodup := by
  rw [genVoxel.Sphere_eq, List.nil_append]
  exact latticeList_nodup _ _ _ _ _ (forLoop_nodup _ _) (forLoop_nodup _ _) (forLoop_nodup _ _)

theorem genVoxel.Sphere_append (center : Vec3) (radius : ℚ) (voxel : List Vec3) :
    genVoxel.Sphere center radius voxel = voxel ++ genVoxel.Sphere center radius [] := by
  rw [genVoxel.Sphere_eq, genVoxel.Sphere_eq center radius [], List.nil_append]

/-- C10: for every center and every radius `≥ 0` (exact arithmetic), `Sphere`
(both copies) appends to `out` a duplicate-free list whose members are exactly
the integer lattice points at squared distance `< radius²` from the center; in
particular no point of the open ball is lost to the truncated lower bounds. -/
theorem Sphere_appends_open_ball (center : Vec3) (radius : ℚ) (hr : 0 ≤ radius)
    (out : List Vec3) :
    ∃ l : List Vec3,
      genVoxel.Sphere center radius out = out ++ l ∧
      voxelNS.Sphere center radius out = out ++ l ∧
      l.Nodup ∧
      ∀ p : Vec3, p ∈ l ↔ ∃ x y z : Int, p = Vec3.ofInts x y z ∧
        ((x : ℚ) - center.x) * ((x : ℚ) - center.x) + ((y : ℚ) - center.y) * ((y : ℚ) - center.y)
          + ((z : ℚ) - center.z) * ((z : ℚ) - center.z) < radius * radius :=
  ⟨genVoxel.Sphere center radius [], genVoxel.Sphere_append center radius out,
    genVoxel.Sphere_append center radius out, genVoxel.Sphere_nodup center radius,
    fun p => genVoxel.Sphere_mem center radius hr p⟩

theorem Sphere_appends_open_ball_witness :
    (0 : ℚ) ≤ 3 / 2 ∧
    ∃ l : List Vec3,
      genVoxel.Sphere ⟨-5 / 2, 0, 0⟩ (3 / 2) [⟨7, 7, 7⟩] = [⟨7, 7, 7⟩] ++ l ∧
      voxelNS.Sphere ⟨-5 / 2, 0, 0⟩ (3 / 2) [⟨7, 7, 7⟩] = [⟨7, 7, 7⟩] ++ l ∧
      l.Nodup ∧
      ∀ p : Vec3, p ∈ l ↔ ∃ x y z : Int, p = Vec3.ofInts x y z ∧
        ((x : ℚ) - (-5 / 2)) * ((x : ℚ) - (-5 / 2)) + ((y : ℚ) - 0) * ((y : ℚ) - 0)
          + ((z : ℚ) - 0) * ((z : ℚ) - 0) < (3 / 2) * (3 / 2) :=
  ⟨by norm_num, Sphere_appends_open_ball ⟨-5 / 2, 0, 0⟩ (3 / 2) (by norm_num) [⟨7, 7, 7⟩]⟩

/-! ## Voxel removal -/

theorem genVoxel.body_damaged (st : (Int → Chunk) × List Int) (p : Vec3) (i : Int) :
    i ∈ (genVoxel.Remove_Voxel_body st p).2 ↔
      i ∈ st.2 ∨ (0 ≤ genVoxel.pos_to_chunkIndex p ∧ genVoxel.pos_to_chunkIndex p = i) := by
  unfold genVoxel.Remove_Voxel_body
  by_cases h : genVoxel.pos_to_chunkIndex p < 0
  · simp only [h, if_true]
    constructor
    · exact Or.inl
    · rintro (h1 | ⟨h1, _⟩)
      · exact h1
      · omega
  · simp only [h, if_false, List.mem_insert_iff]
    constructor
    · rintro (h1 | h1)
      · exact Or.inr ⟨by omega, h1.symm⟩
      · exact Or.inl h1
    · rintro (h1 | ⟨_, h1⟩)
      · exact Or.inr h1
      · exact Or.inl h1.symm

theorem genVoxel.body_nodup (st : (Int → Chunk) × List Int) (p : Vec3) (h : st.2.Nodup) :
    (genVoxel.Remove_Voxel_body st p).2.Nodup := by
  unfold genVoxel.Remove_Voxel_body
  by_cases hc : genVoxel.pos_to_chunkIndex p < 0
  · simpa only [hc, if_true] using h
  · simp only [hc, if_false]
    exact h.insert

theorem genVoxel.body_voxel (st : (Int → Chunk) × List Int) (p : Vec3) (i v : Int) :
    ((genVoxel.Remove_Voxel_body st p).1 i).voxel v =
      if 0 ≤ genVoxel.pos_to_chunkIndex p ∧ genVoxel.pos_to_chunkIndex p = i ∧
          genVoxel.pos_to_voxelIndex p = v then 0
      else (st.1 i).voxel v := by
  unfold genVoxel.Remove_Voxel_body
  by_cases hc : genVoxel.pos_to_chunkIndex p < 0
  · have hn : ¬ (0 ≤ genVoxel.pos_to_chunkIndex p ∧ genVoxel.pos_to_chunkIndex p = i ∧
        genVoxel.pos_to_voxelIndex p = v) := by
      intro h
      omega
    simp only [hc, if_true, hn, if_false]
  · simp only [hc, if_false]
    by_cases hi : genVoxel.pos_to_chunkIndex p = i
    · subst hi
      rw [Function.update_same]
      by_cases hv : genVoxel.pos_to_voxelIndex p = v
      · subst hv
        have hp : 0 ≤ genVoxel.pos_to_chunkIndex p ∧
            genVoxel.pos_to_chunkIndex p = genVoxel.pos_to_chunkIndex p ∧
            genVoxel.pos_to_voxelIndex p = genVoxel.pos_to_voxelIndex p := ⟨by omega, rfl, rfl⟩
        rw [if_pos hp]
        simp only [Function.update_same]
      · have hn : ¬ (0 ≤ genVoxel.pos_to_chunkIndex p ∧
            genVoxel.pos_to_chunkIndex p = genVoxel.pos_to_chunkIndex p ∧
            genVoxel.pos_to_voxelIndex p = v) := fun h => hv h.2.2
        rw [if_neg hn]
        simp only [Function.update_noteq (Ne.symm hv)]
    · rw [Function.update_noteq (Ne.symm hi)]
      rw [if_neg]
      intro h
      exact hi h.2.1

theorem genVoxel.body_mesh (st : (Int → Chunk) × List Int) (p : Vec3) (i : Int) :
    ((genVoxel.Remove_Voxel_body st p).1 i).grid_of_cells_per_chunk
        = (st.1 i).grid_of_cells_per_chunk ∧
    ((genVoxel.Remove_Voxel_body st p).1 i).tri_list_per_chunk = (st.1 i).tri_list_per_chunk ∧
    ((genVoxel.Remove_Voxel_body st p).1 i).vertexBuffer_per_chunk
        = (st.1 i).vertexBuffer_per_chunk ∧
    ((genVoxel.Remove_Voxel_body st p).1 i).count = (st.1 i).count := by
  unfold genVoxel.Remove_Voxel_body
  by_cases hc : genVoxel.pos_to_chunkIndex p < 0
  · simp only [hc, if_true, and_self]
  · simp only [hc, if_false]
    by_cases hi : genVoxel.pos_to_chunkIndex p = i
    · subst hi
      simp only [Function.update_same, and_self]
    · simp only [Function.update_noteq (Ne.symm hi), and_self]

theorem genVoxel.fold_damaged (ps : List Vec3) (st : (Int → Chunk) × List Int) (i : Int) :
    i ∈ (ps.foldl genVoxel.Remove_Voxel_body st).2 ↔
      i ∈ st.2 ∨ ∃ p ∈ ps, 0 ≤ genVoxel.pos_to_chunkIndex p ∧ genVoxel.pos_to_chunkIndex p = i := by
  induction ps generalizing st with
  | nil => simp
  | cons p ps ih =>
    rw [List.foldl_cons, ih, genVoxel.body_damaged]
    simp only [List.mem_cons, exists_eq_or_imp]
    tauto

theorem genVoxel.fold_nodup (ps : List Vec3) (st : (Int → Chunk) × List Int) (h : st.2.Nodup) :
    (ps.foldl genVoxel.Remove_Voxel_body st).2.Nodup := by
  induction ps generalizing st with
  | nil => simpa using h
  | cons p ps ih =>
    rw [List.foldl_cons]
    exact ih _ (genVoxel.body_nodup st p h)

theorem genVoxel.fold_voxel (ps : List Vec3) (st : (Int → Chunk) × List Int) (i v : Int) :
    ((ps.foldl genVoxel.Remove_Voxel_body st).1 i).voxel v =
      if ∃ p ∈ ps, 0 ≤ genVoxel.pos_to_chunkIndex p ∧ genVoxel.pos_to_chunkIndex p = i ∧
          genVoxel.pos_to_voxelIndex p = v then 0
      else (st.1 i).voxel v := by
  induction ps generalizing st with
  | nil => simp
  | cons p ps ih =>
    rw [List.foldl_cons, ih, genVoxel.body_voxel]
    simp only [List.mem_cons, exists_eq_or_imp]
    by_cases h1 : ∃ a ∈ ps, 0 ≤ genVoxel.pos_to_chunkIndex a ∧ genVoxel.pos_to_chunkIndex a = i ∧
          genVoxel.pos_to_voxelIndex a = v
    · simp only [h1, if_true, or_true]
    · simp only [h1, if_false, or_false]

theorem genVoxel.fold_mesh (ps : List Vec3) (st : (Int → Chunk) × List Int) (i : Int) :
    ((ps.foldl genVoxel.Remove_Voxel_body st).1 i).grid_of_cells_per_chunk
        = (st.1 i).grid_of_cells_per_chunk ∧
    ((ps.foldl genVoxel.Remove_Voxel_body st).1 i).tri_list_per_chunk
        = (st.1 i).tri_list_per_chunk ∧
    ((ps.foldl genVoxel.Remove_Voxel_body st).1 i).vertexBuffer_per_chunk
        = (st.1 i).vertexBuffer_per_chunk ∧
    ((ps.foldl genVoxel.Remove_Voxel_body st).1 i).count = (st.1 i).count := by
  induction ps generalizing st with
  | nil => simp
  | cons p ps ih =>
    rw [List.foldl_cons]
    obtain ⟨a1, a2, a3, a4⟩ := ih (genVoxel.Remove_Voxel_body st p)
    obtain ⟨b1, b2, b3, b4⟩ := genVoxel.body_mesh st p i
    exact ⟨a1.trans b1, a2.trans b2, a3.trans b3, a4.trans b4⟩

theorem genVoxel.pos_to_chunkIndex_nonneg_iff (p : Vec3) :
    0 ≤ genVoxel.pos_to_chunkIndex p ↔ ¬ outOfWorld p := by
  constructor
  · intro h ho
    rw [genVoxel.pos_to_chunkIndex_of_out p ho] at h
    omega
  · intro h
    exact (genVoxel.pos_to_chunkIndex_range p h).1

theorem genVoxel.pos_to_chunkIndex_ofInts (a b c : Int)
    (h : ¬ (0 < a ∨ 0 < b ∨ 0 < c ∨ a < -127 ∨ b < -127 ∨ c < -127)) :
    genVoxel.pos_to_chunkIndex (Vec3.ofInts a b c)
      = (-c) / 16 * 64 + (-b) / 16 * 8 + (-a) / 16 := by
  have ho : ¬ outOfWorld (Vec3.ofInts a b c) := by rwa [outOfWorld_ofInts]
  rw [genVoxel.pos_to_chunkIndex_of_in _ ho]
  simp only [Vec3.ofInts, toInt_intCast]
  simp only [not_or, not_lt] at h
  rw [tdiv_nonpos a h.1, tdiv_nonpos b h.2.1, tdiv_nonpos c h.2.2.1]

theorem genVoxel.pos_to_voxelIndex_ofInts (a b c : Int) (ha : a ≤ 0) (hb : b ≤ 0) (hc : c ≤ 0) :
    genVoxel.pos_to_voxelIndex (Vec3.ofInts a b c)
      = (-c) % 16 * 256 + (-b) % 16 * 16 + (-a) % 16 := by
  rw [genVoxel.pos_to_voxelIndex_eq]
  simp only [Vec3.ofInts, toInt_intCast]
  rw [tmod_nonpos a ha, tmod_nonpos b hb, tmod_nonpos c hc]

theorem inBall_five (target : Vec3) (x y z : Int) :
    inBall target 5 x y z ↔
      ((x : ℚ) - target.x) * ((x : ℚ) - target.x) + ((y : ℚ) - target.y) * ((y : ℚ) - target.y)
        + ((z : ℚ) - target.z) * ((z : ℚ) - target.z) < 25 := by
  unfold inBall
  norm_num

theorem inBall_five_ofInts (a b c x y z : Int) :
    inBall (Vec3.ofInts a b c) 5 x y z ↔
      (x - a) * (x - a) + (y - b) * (y - b) + (z - c) * (z - c) < 25 := by
  rw [inBall_five]
  simp only [Vec3.ofInts]
  constructor
  · intro h
    exact_mod_cast h
  · intro h
    exact_mod_cast h

theorem genVoxel.Remove_Voxel_damaged (target : Vec3) (chunk : Int → Chunk) (D : List Int)
    (i : Int) :
    i ∈ (genVoxel.Remove_Voxel target chunk D).2 ↔
      i ∈ D ∨ ∃ x y z : Int, inBall target 5 x y z ∧
        0 ≤ genVoxel.pos_to_chunkIndex (Vec3.ofInts x y z) ∧
        genVoxel.pos_to_chunkIndex (Vec3.ofInts x y z) = i := by
  unfold genVoxel.Remove_Voxel
  rw [genVoxel.fold_damaged]
  apply or_congr Iff.rfl
  constructor
  · rintro ⟨p, hp, h1, h2⟩
    obtain ⟨x, y, z, rfl, hb⟩ := (genVoxel.Sphere_mem target 5 (by norm_num) p).mp hp
    exact ⟨x, y, z, hb, h1, h2⟩
  · rintro ⟨x, y, z, hb, h1, h2⟩
    exact ⟨_, (genVoxel.Sphere_mem target 5 (by norm_num) _).mpr ⟨x, y, z, rfl, hb⟩, h1, h2⟩

theorem genVoxel.Remove_Voxel_zeroed (target : Vec3) (chunk : Int → Chunk) (D : List Int)
    (x y z : Int) (hb : inBall target 5 x y z)
    (hin : 0 ≤ genVoxel.pos_to_chunkIndex (Vec3.ofInts x y z)) :
    ((genVoxel.Remove_Voxel target chunk D).1
      (genVoxel.pos_to_chunkIndex (Vec3.ofInts x y z))).voxel
      (genVoxel.pos_to_voxelIndex (Vec3.ofInts x y z)) = 0 := by
  unfold genVoxel.Remove_Voxel
  rw [genVoxel.fold_voxel, if_pos]
  exact ⟨_, (genVoxel.Sphere_mem target 5 (by norm_num) _).mpr ⟨x, y, z, rfl, hb⟩, hin, rfl, rfl⟩

theorem genVoxel.Remove_Voxel_kept (target : Vec3) (chunk : Int → Chunk) (D : List Int)
    (i v : Int)
    (h : ¬ ∃ x y z : Int, inBall target 5 x y z ∧
        0 ≤ genVoxel.pos_to_chunkIndex (Vec3.ofInts x y z) ∧
        genVoxel.pos_to_chunkIndex (Vec3.ofInts x y z) = i ∧
        genVoxel.pos_to_voxelIndex (Vec3.ofInts x y z) = v) :
    ((genVoxel.Remove_Voxel target chunk D).1 i).voxel v = (chunk i).voxel v := by
  unfold genVoxel.Remove_Voxel
  rw [genVoxel.fold_voxel, if_neg]
  rintro ⟨p, hp, h1, h2, h3⟩
  obtain ⟨x, y, z, rfl, hb⟩ := (genVoxel.Sphere_mem target 5 (by norm_num) p).mp hp
  exact h ⟨x, y, z, hb, h1, h2, h3⟩

theorem genVoxel.Remove_Voxel_mesh (target : Vec3) (chunk : Int → Chunk) (D : List Int)
    (i : Int) :
    ((genVoxel.Remove_Voxel target chunk D).1 i).grid_of_cells_per_chunk
        = (chunk i).grid_of_cells_per_chunk ∧
    ((genVoxel.Remove_Voxel target chunk D).1 i).tri_list_per_chunk
        = (chunk i).tri_list_per_chunk ∧
    ((genVoxel.Remove_Voxel target chunk D).1 i).vertexBuffer_per_chunk
        = (chunk i).vertexBuffer_per_chunk ∧
    ((genVoxel.Remove_Voxel target chunk D).1 i).count = (chunk i).count :=
  genVoxel.fold_mesh _ _ i

theorem inBall_ofInts_box (a b c x y z : Int) (h : inBall (Vec3.ofInts a b c) 5 x y z) :
    (a - 4 ≤ x ∧ x ≤ a + 4) ∧ (b - 4 ≤ y ∧ y ≤ b + 4) ∧ (c - 4 ≤ z ∧ z ≤ c + 4) := by
  obtain ⟨hx, hy, hz⟩ := inBall_box (Vec3.ofInts a b c) 5 (by norm_num) x y z h
  simp only [Vec3.ofInts] at hx hy hz
  have hx1 : (-5 + a : Int) < x := by exact_mod_cast hx.1
  have hx2 : x < (5 + a : Int) := by exact_mod_cast hx.2
  have hy1 : (-5 + b : Int) < y := by exact_mod_cast hy.1
  have hy2 : y < (5 + b : Int) := by exact_mod_cast hy.2
  have hz1 : (-5 + c : Int) < z := by exact_mod_cast hz.1
  have hz2 : z < (5 + c : Int) := by exact_mod_cast hz.2
  omega

/-- C9, as written, fails for the target `(-11, -8, -8)`: the target lies in
the world, chunk `1` holds the voxel position `(-16, -8, -8)` of the bounding
box `[c - 5, c + 5]³`, yet chunk `1` is not in the damaged set. -/
theorem Remove_Voxel_box_chunk_not_damaged :
    0 ≤ genVoxel.pos_to_chunkIndex (Vec3.ofInts (-11) (-8) (-8)) ∧
    (∃ x y z : Int, (-11 - 5 ≤ x ∧ x ≤ -11 + 5) ∧ (-8 - 5 ≤ y ∧ y ≤ -8 + 5) ∧
      (-8 - 5 ≤ z ∧ z ≤ -8 + 5) ∧ genVoxel.pos_to_chunkIndex (Vec3.ofInts x y z) = 1) ∧
    (1 : Int) ∉ (genVoxel.Remove_Voxel (Vec3.ofInts (-11) (-8) (-8))
      (fun _ => genVoxel.Fill_Chunk newChunk) []).2 := by
  refine ⟨?_, ⟨-16, -8, -8, by decide, by decide, by decide, ?_⟩, ?_⟩
  · rw [genVoxel.pos_to_chunkIndex_ofInts _ _ _ (by decide)]
    decide
  · rw [genVoxel.pos_to_chunkIndex_ofInts _ _ _ (by decide)]
    decide
  · rw [genVoxel.Remove_Voxel_damaged]
    rintro (h | ⟨x, y, z, hb, _, h1⟩)
    · simp at h
    · obtain ⟨hx, hy, hz⟩ := inBall_ofInts_box _ _ _ x y z hb
      rw [genVoxel.pos_to_chunkIndex_ofInts _ _ _ (by omega)] at h1
      omega

/-- C9 (amended): for every integer target `(a, b, c)` inside the world, after
`Remove_Voxel` with an empty damaged set, the damaged set is exactly the set of
chunk indices of the in-world lattice positions at squared distance `< 25` from
the target; every such chunk has a voxel position in the bounding box
`[c - 5, c + 5]³`, and the chunk of the target is one of them. -/
theorem Remove_Voxel_damaged_scenario (a b c : Int) (chunk : Int → Chunk)
    (hin : 0 ≤ genVoxel.pos_to_chunkIndex (Vec3.ofInts a b c)) :
    (∀ i : Int, i ∈ (genVoxel.Remove_Voxel (Vec3.ofInts a b c) chunk []).2 ↔
      ∃ x y z : Int, (x - a) * (x - a) + (y - b) * (y - b) + (z - c) * (z - c) < 25 ∧
        0 ≤ genVoxel.pos_to_chunkIndex (Vec3.ofInts x y z) ∧
        genVoxel.pos_to_chunkIndex (Vec3.ofInts x y z) = i) ∧
    (∀ i : Int, i ∈ (genVoxel.Remove_Voxel (Vec3.ofInts a b c) chunk []).2 →
      ∃ x y z : Int, (a - 5 ≤ x ∧ x ≤ a + 5) ∧ (b - 5 ≤ y ∧ y ≤ b + 5) ∧
        (c - 5 ≤ z ∧ z ≤ c + 5) ∧
        0 ≤ genVoxel.pos_to_chunkIndex (Vec3.ofInts x y z) ∧
        genVoxel.pos_to_chunkIndex (Vec3.ofInts x y z) = i) ∧
    genVoxel.pos_to_chunkIndex (Vec3.ofInts a b c)
      ∈ (genVoxel.Remove_Voxel (Vec3.ofInts a b c) chunk []).2 := by
  have key : ∀ i : Int, i ∈ (genVoxel.Remove_Voxel (Vec3.ofInts a b c) chunk []).2 ↔
      ∃ x y z : Int, (x - a) * (x - a) + (y - b) * (y - b) + (z - c) * (z - c) < 25 ∧
        0 ≤ genVoxel.pos_to_chunkIndex (Vec3.ofInts x y z) ∧
        genVoxel.pos_to_chunkIndex (Vec3.ofInts x y z) = i := by
    intro i
    rw [genVoxel.Remove_Voxel_damaged]
    simp only [List.not_mem_nil, false_or, inBall_five_ofInts]
  refine ⟨key, ?_, ?_⟩
  · intro i hi
    obtain ⟨x, y, z, hb, h1, h2⟩ := (key i).mp hi
    obtain ⟨hx, hy, hz⟩ := inBall_ofInts_box a b c x y z ((inBall_five_ofInts a b c x y z).mpr hb)
    exact ⟨x, y, z, by omega, by omega, by omega, h1, h2⟩
  · exact (key _).mpr ⟨a, b, c, by simp, hin, rfl⟩

theorem Remove_Voxel_damaged_scenario_witness :
    0 ≤ genVoxel.pos_to_chunkIndex (Vec3.ofInts (-13) (-13) (-13)) ∧
    ((∀ i : Int, i ∈ (genVoxel.Remove_Voxel (Vec3.ofInts (-13) (-13) (-13))
        (fun _ => genVoxel.Fill_Chunk newChunk) []).2 ↔
      ∃ x y z : Int, (x - -13) * (x - -13) + (y - -13) * (y - -13) + (z - -13) * (z - -13) < 25 ∧
        0 ≤ genVoxel.pos_to_chunkIndex (Vec3.ofInts x y z) ∧
        genVoxel.pos_to_chunkIndex (Vec3.ofInts x y z) = i) ∧
    (∀ i : Int, i ∈ (genVoxel.Remove_Voxel (Vec3.ofInts (-13) (-13) (-13))
        (fun _ => genVoxel.Fill_Chunk newChunk) []).2 →
      ∃ x y z : Int, (-13 - 5 ≤ x ∧ x ≤ -13 + 5) ∧ (-13 - 5 ≤ y ∧ y ≤ -13 + 5) ∧
        (-13 - 5 ≤ z ∧ z ≤ -13 + 5) ∧
        0 ≤ genVoxel.pos_to_chunkIndex (Vec3.ofInts x y z) ∧
        genVoxel.pos_to_chunkIndex (Vec3.ofInts x y z) = i) ∧
    genVoxel.pos_to_chunkIndex (Vec3.ofInts (-13) (-13) (-13))
      ∈ (genVoxel.Remove_Voxel (Vec3.ofInts (-13) (-13) (-13))
        (fun _ => genVoxel.Fill_Chunk newChunk) []).2) :=
  have hin : 0 ≤ genVoxel.pos_to_chunkIndex (Vec3.ofInts (-13) (-13) (-13)) := by
    rw [genVoxel.pos_to_chunkIndex_ofInts _ _ _ (by decide)]
    decide
  ⟨hin, Remove_Voxel_damaged_scenario (-13) (-13) (-13) (fun _ => genVoxel.Fill_Chunk newChunk) hin⟩

/-! ## Remeshing -/

theorem flatMap_length_const {α β : Type} (f : α → List β) (k : Nat) (l : List α)
    (h : ∀ a ∈ l, (f a).length = k) : (l.flatMap f).length = l.length * k := by
  induction l with
  | nil => simp
  | cons a l ih =>
    rw [List.flatMap_cons, List.length_append, h a (List.mem_cons_self a l),
      ih (fun b hb => h b (List.mem_cons_of_mem a hb)), List.length_cons]
    ring

theorem flatMap_length_le {α β : Type} (f : α → List β) (k : Nat) (l : List α)
    (h : ∀ a, (f a).length ≤ k) : (l.flatMap f).length ≤ l.length * k := by
  induction l with
  | nil => simp
  | cons a l ih =>
    rw [List.flatMap_cons, List.length_append, List.length_cons]
    have := h a
    nlinarith

theorem intFor_length (lo hi : Int) : (intFor lo hi).length = (hi - lo).toNat := by
  unfold intFor
  simp

theorem populate_chunk_eq (c : Chunk) (index : Int) (grid : List MarchingCube.Cell) :
    populate_chunk c index grid = grid ++
      (intFor 0 15).flatMap fun x => (intFor 0 15).flatMap fun y => (intFor 0 15).flatMap fun z =>
        [cellAt c index x y z] := by
  unfold populate_chunk
  have e : CHUNK_DIMENSION - 1 = 15 := by decide
  simp only [e, foldl_append_flatMap]

theorem populate_chunk_length (c : Chunk) (index : Int) :
    (populate_chunk c index []).length = 3375 := by
  rw [populate_chunk_eq, List.nil_append]
  rw [flatMap_length_const _ 225, intFor_length]
  · decide
  · intro x _
    rw [flatMap_length_const _ 15, intFor_length]
    · decide
    · intro y _
      rw [flatMap_length_const _ 1, intFor_length]
      · decide
      · intro z _
        rfl

theorem cellAt_voxel (c c' : Chunk) (h : c.voxel = c'.voxel) (index x y z : Int) :
    cellAt c index x y z = cellAt c' index x y z := by
  unfold cellAt
  rw [h]

theorem populate_chunk_voxel (c c' : Chunk) (h : c.voxel = c'.voxel) (index : Int)
    (grid : List MarchingCube.Cell) :
    populate_chunk c index grid = populate_chunk c' index grid := by
  unfold populate_chunk
  simp only [cellAt_voxel c c' h]

theorem populate_triangles_list_chunk_eq (E : Externals) (grid : List MarchingCube.Cell)
    (tri_list : List MarchingCube.TRIANGLE) :
    populate_triangles_list_chunk E grid tri_list = tri_list ++ grid.flatMap E.Polygonise_Cell := by
  unfold populate_triangles_list_chunk
  exact foldl_append_flatMap _ _ _

theorem gen_vertex_buffers_length (E : Externals) (tri_list : List MarchingCube.TRIANGLE) :
    (gen_vertex_buffers E tri_list []).length = tri_list.length * 3 := by
  unfold gen_vertex_buffers
  rw [foldl_append_flatMap, List.nil_append, flatMap_length_const _ 3]
  intro t _
  rfl

theorem rebuilt_shape (E : Externals) (c : Chunk) (index : Int) :
    rebuilt E c index = Chunk.mk c.voxel (populate_chunk c index [])
      (populate_triangles_list_chunk E (populate_chunk c index []) [])
      (gen_vertex_buffers E (populate_triangles_list_chunk E (populate_chunk c index []) []) [])
      (castCount (gen_vertex_buffers E
        (populate_triangles_list_chunk E (populate_chunk c index []) []) []).length) := by
  unfold rebuilt
  exact Eq.refl _

theorem rebuilt_voxel (E : Externals) (c : Chunk) (index : Int) :
    (rebuilt E c index).voxel = c.voxel := by
  rw [rebuilt_shape]

theorem rebuilt_grid (E : Externals) (c : Chunk) (index : Int) :
    (rebuilt E c index).grid_of_cells_per_chunk = populate_chunk c index [] := by
  rw [rebuilt_shape]

theorem rebuilt_tri (E : Externals) (c : Chunk) (index : Int) :
    (rebuilt E c index).tri_list_per_chunk
      = populate_triangles_list_chunk E (populate_chunk c index []) [] := by
  rw [rebuilt_shape]

theorem rebuilt_vertex (E : Externals) (c : Chunk) (index : Int) :
    (rebuilt E c index).vertexBuffer_per_chunk
      = gen_vertex_buffers E (populate_triangles_list_chunk E (populate_chunk c index []) []) [] := by
  rw [rebuilt_shape]

theorem rebuilt_count (E : Externals) (c : Chunk) (index : Int) :
    (rebuilt E c index).count
      = castCount (gen_vertex_buffers E
          (populate_triangles_list_chunk E (populate_chunk c index []) []) []).length := by
  rw [rebuilt_shape]

theorem rebuilt_tri_length (E : Externals) (hE : ∀ c, (E.Polygonise_Cell c).length ≤ 5)
    (c : Chunk) (index : Int) : (rebuilt E c index).tri_list_per_chunk.length ≤ 16875 := by
  rw [rebuilt_tri, populate_triangles_list_chunk_eq, List.nil_append]
  have := flatMap_length_le E.Polygonise_Cell 5 (populate_chunk c index []) hE
  rw [populate_chunk_length] at this
  omega

theorem castCount_small (n : Nat) (h : n < 2147483648) : castCount n = (n : Int) := by
  unfold castCount
  have e1 : (2 : Nat) ^ 32 = 4294967296 := by norm_num
  have e2 : (2 : Nat) ^ 31 = 2147483648 := by norm_num
  rw [e1, e2]
  have h1 : n % 4294967296 = n := Nat.mod_eq_of_lt (by omega)
  rw [h1, if_pos h]

theorem rebuilt_congr (E : Externals) (c c' : Chunk) (h : c.voxel = c'.voxel) (index : Int) :
    rebuilt E c index = rebuilt E c' index := by
  rw [rebuilt_shape, rebuilt_shape, populate_chunk_voxel c c' h, h]

theorem rebuilt_rebuilt (E : Externals) (c : Chunk) (index : Int) :
    rebuilt E (rebuilt E c index) index = rebuilt E c index :=
  rebuilt_congr E _ _ (rebuilt_voxel E c index) index

theorem rebuilt_vertex_length (E : Externals) (c : Chunk) (index : Int) :
    (rebuilt E c index).vertexBuffer_per_chunk.length
      = (rebuilt E c index).tri_list_per_chunk.length * 3 := by
  rw [rebuilt_vertex, rebuilt_tri]
  exact gen_vertex_buffers_length E _

theorem rebuilt_consistent (E : Externals) (hE : ∀ c, (E.Polygonise_Cell c).length ≤ 5)
    (c : Chunk) (index : Int) : Consistent E (rebuilt E c index) index := by
  have hcount : (rebuilt E c index).count
      = ((rebuilt E c index).vertexBuffer_per_chunk.length : Int) := by
    have h1 := rebuilt_tri_length E hE c index
    have h2 := rebuilt_vertex_length E c index
    rw [rebuilt_count, ← rebuilt_vertex]
    exact castCount_small _ (by omega)
  unfold Consistent
  refine ⟨?_, ?_, ?_, hcount⟩
  · rw [rebuilt_grid]
    exact (populate_chunk_voxel (rebuilt E c index) c (rebuilt_voxel E c index) index []).symm
  · rw [rebuilt_tri, rebuilt_grid]
  · rw [rebuilt_vertex, rebuilt_tri]

theorem polygonizeVoxels_eq (E : Externals) (W : World) (i : Int) :
    polygonizeVoxels E W i =
      World.mk (Function.update W.chunkListBuffer i (rebuilt E (W.chunkListBuffer i) i))
        (addU32 (subU32 W.total_terrain_triangle_count
              (W.chunkListBuffer i).tri_list_per_chunk.length)
            (rebuilt E (W.chunkListBuffer i) i).tri_list_per_chunk.length) := by
  have h : populate_chunk (Chunk.mk (W.chunkListBuffer i).voxel [] [] [] (W.chunkListBuffer i).count)
      i [] = populate_chunk (W.chunkListBuffer i) i [] :=
    populate_chunk_voxel _ _ (Eq.refl _) i []
  rw [rebuilt_tri, rebuilt_shape, ← h]
  unfold polygonizeVoxels
  congr 1

theorem polygonizeVoxels_chunk_same (E : Externals) (W : World) (i : Int) :
    (polygonizeVoxels E W i).chunkListBuffer i = rebuilt E (W.chunkListBuffer i) i := by
  rw [polygonizeVoxels_eq]
  exact Function.update_same _ _ _

theorem polygonizeVoxels_chunk_other (E : Externals) (W : World) (i j : Int) (h : j ≠ i) :
    (polygonizeVoxels E W i).chunkListBuffer j = W.chunkListBuffer j := by
  rw [polygonizeVoxels_eq]
  exact Function.update_noteq h _ _

theorem polygonizeVoxels_total (E : Externals) (W : World) (i : Int) :
    (polygonizeVoxels E W i).total_terrain_triangle_count =
      addU32 (subU32 W.total_terrain_triangle_count
          (W.chunkListBuffer i).tri_list_per_chunk.length)
        (rebuilt E (W.chunkListBuffer i) i).tri_list_per_chunk.length := by
  rw [polygonizeVoxels_eq]

theorem polygonizeVoxelsChunks_nil (E : Externals) (W : World) :
    polygonizeVoxelsChunks E W [] = W := rfl

theorem polygonizeVoxelsChunks_cons (E : Externals) (W : World) (i : Int) (D : List Int) :
    polygonizeVoxelsChunks E W (i :: D) = polygonizeVoxelsChunks E (polygonizeVoxels E W i) D :=
  rfl

theorem polygonizeVoxelsChunks_append (E : Externals) (W : World) (D1 D2 : List Int) :
    polygonizeVoxelsChunks E W (D1 ++ D2)
      = polygonizeVoxelsChunks E (polygonizeVoxelsChunks E W D1) D2 := by
  unfold polygonizeVoxelsChunks
  exact List.foldl_append _ _ _ _

theorem polygonizeVoxelsChunks_chunk (E : Externals) (D : List Int) (W : World) (j : Int) :
    (polygonizeVoxelsChunks E W D).chunkListBuffer j =
      if j ∈ D then rebuilt E (W.chunkListBuffer j) j else W.chunkListBuffer j := by
  induction D generalizing W with
  | nil => rw [polygonizeVoxelsChunks_nil, if_neg (List.not_mem_nil j)]
  | cons i D ih =>
    rw [polygonizeVoxelsChunks_cons, ih]
    by_cases hji : j = i
    · subst hji
      rw [polygonizeVoxels_chunk_same, rebuilt_rebuilt, if_pos (List.mem_cons_self _ _)]
      split <;> rfl
    · rw [polygonizeVoxels_chunk_other E W i j hji]
      by_cases hD : j ∈ D
      · rw [if_pos hD, if_pos (List.mem_cons_of_mem _ hD)]
      · rw [if_neg hD, if_neg]
        intro h
        rcases List.mem_cons.mp h with h | h
        · exact hji h
        · exact hD h

theorem addU32_lt (a b : Nat) : addU32 a b < 4294967296 := by
  unfold addU32
  have e1 : (2 : Nat) ^ 32 = 4294967296 := by norm_num
  rw [e1]
  omega

theorem addU32_subU32_cancel (t n : Nat) (ht : t < 4294967296) :
    addU32 (subU32 t n) n = t := by
  unfold addU32 subU32
  have e1 : (2 : Nat) ^ 32 = 4294967296 := by norm_num
  rw [e1]
  omega

theorem addU32_subU32_exact (t old new : Nat) (h1 : old ≤ t) (h2 : t - old + new < 4294967296) :
    addU32 (subU32 t old) new = t - old + new := by
  unfold addU32 subU32
  have e1 : (2 : Nat) ^ 32 = 4294967296 := by norm_num
  rw [e1]
  omega

theorem polygonizeVoxels_fixed (E : Externals) (W : World) (i : Int)
    (h1 : rebuilt E (W.chunkListBuffer i) i = W.chunkListBuffer i)
    (h2 : W.total_terrain_triangle_count < 4294967296) :
    polygonizeVoxels E W i = W := by
  rw [polygonizeVoxels_eq, h1, Function.update_eq_self, addU32_subU32_cancel _ _ h2]

/-- C6: `polygonizeVoxels(i)` is idempotent: a second call with no voxel change
in between leaves the world (cell, triangle and vertex lists and vertex count
of chunk `i`, every other chunk, and `total_terrain_triangle_count`) as the
first call left it. -/
theorem polygonizeVoxels_idempotent (E : Externals) (W : World) (i : Int) :
    polygonizeVoxels E (polygonizeVoxels E W i) i = polygonizeVoxels E W i ∧
    ((polygonizeVoxels E (polygonizeVoxels E W i) i).chunkListBuffer i).grid_of_cells_per_chunk
      = ((polygonizeVoxels E W i).chunkListBuffer i).grid_of_cells_per_chunk ∧
    ((polygonizeVoxels E (polygonizeVoxels E W i) i).chunkListBuffer i).tri_list_per_chunk
      = ((polygonizeVoxels E W i).chunkListBuffer i).tri_list_per_chunk ∧
    ((polygonizeVoxels E (polygonizeVoxels E W i) i).chunkListBuffer i).vertexBuffer_per_chunk
      = ((polygonizeVoxels E W i).chunkListBuffer i).vertexBuffer_per_chunk ∧
    ((polygonizeVoxels E (polygonizeVoxels E W i) i).chunkListBuffer i).count
      = ((polygonizeVoxels E W i).chunkListBuffer i).count ∧
    (polygonizeVoxels E (polygonizeVoxels E W i) i).total_terrain_triangle_count
      = (polygonizeVoxels E W i).total_terrain_triangle_count := by
  have key : polygonizeVoxels E (polygonizeVoxels E W i) i = polygonizeVoxels E W i := by
    apply polygonizeVoxels_fixed
    · rw [polygonizeVoxels_chunk_same, rebuilt_rebuilt]
    · rw [polygonizeVoxels_total]
      exact addU32_lt _ _
  rw [key]
  exact ⟨rfl, rfl, rfl, rfl, rfl, rfl⟩

/-! ## Consistency under an edit -/

theorem Consistent_congr (E : Externals) (c c' : Chunk) (index : Int)
    (hv : c'.voxel = c.voxel)
    (hg : c'.grid_of_cells_per_chunk = c.grid_of_cells_per_chunk)
    (ht : c'.tri_list_per_chunk = c.tri_list_per_chunk)
    (hb : c'.vertexBuffer_per_chunk = c.vertexBuffer_per_chunk)
    (hc : c'.count = c.count) (h : Consistent E c index) : Consistent E c' index := by
  unfold Consistent at h ⊢
  rw [hg, ht, hb, hc, populate_chunk_voxel c' c hv]
  exact h

theorem genVoxel.Remove_Voxel_untouched (target : Vec3) (chunk : Int → Chunk) (D : List Int)
    (i : Int) (hi : i ∉ (genVoxel.Remove_Voxel target chunk D).2) :
    ((genVoxel.Remove_Voxel target chunk D).1 i).voxel = (chunk i).voxel := by
  funext v
  apply genVoxel.Remove_Voxel_kept
  rintro ⟨x, y, z, hb, h1, h2, _⟩
  exact hi ((genVoxel.Remove_Voxel_damaged target chunk D i).mpr (Or.inr ⟨x, y, z, hb, h1, h2⟩))

theorem actionEdit_chunk (E : Externals) (W : World) (target : Vec3) (j : Int) :
    (actionEdit E W target).chunkListBuffer j =
      if j ∈ (genVoxel.Remove_Voxel target W.chunkListBuffer []).2 then
        rebuilt E ((genVoxel.Remove_Voxel target W.chunkListBuffer []).1 j) j
      else (genVoxel.Remove_Voxel target W.chunkListBuffer []).1 j := by
  unfold actionEdit
  exact polygonizeVoxelsChunks_chunk E _ _ j

/-- C3: mesh/voxel consistency is preserved by an edit. If every chunk is
consistent (cells from `populate_chunk` on its voxels, triangles from those
cells, vertices from those triangles, count equal to the vertex-list length),
then after `Remove_Voxel` on an empty damaged set followed by
`polygonizeVoxelsChunks` every chunk is consistent again, and every chunk whose
voxels `Remove_Voxel` changed is in the damaged set. The polygoniser is assumed
to emit at most 5 triangles per cell. -/
theorem actionEdit_preserves_consistency (E : Externals)
    (hE : ∀ c, (E.Polygonise_Cell c).length ≤ 5) (W : World) (target : Vec3)
    (hW : ∀ i : Int, 0 ≤ i → i < CHUNK_COUNT → Consistent E (W.chunkListBuffer i) i) :
    (∀ i : Int, 0 ≤ i → i < CHUNK_COUNT →
      Consistent E ((actionEdit E W target).chunkListBuffer i) i) ∧
    (∀ i : Int,
      ((genVoxel.Remove_Voxel target W.chunkListBuffer []).1 i).voxel ≠ (W.chunkListBuffer i).voxel →
      i ∈ (genVoxel.Remove_Voxel target W.chunkListBuffer []).2) := by
  constructor
  · intro i h0 h1
    rw [actionEdit_chunk]
    by_cases hi : i ∈ (genVoxel.Remove_Voxel target W.chunkListBuffer []).2
    · rw [if_pos hi]
      exact rebuilt_consistent E hE _ i
    · rw [if_neg hi]
      obtain ⟨hg, ht, hb, hc⟩ := genVoxel.Remove_Voxel_mesh target W.chunkListBuffer [] i
      exact Consistent_congr E _ _ i
        (genVoxel.Remove_Voxel_untouched target W.chunkListBuffer [] i hi) hg ht hb hc (hW i h0 h1)
  · intro i hne
    by_contra hi
    exact hne (genVoxel.Remove_Voxel_untouched target W.chunkListBuffer [] i hi)

theorem sampleExternals_bound (c : MarchingCube.Cell) :
    (sampleExternals.Polygonise_Cell c).length ≤ 5 := by
  unfold sampleExternals
  simp only
  split
  · exact Nat.zero_le _
  · exact Nat.le_of_ble_eq_true rfl

theorem sampleWorld_chunk (i : Int) :
    sampleWorld.chunkListBuffer i = rebuilt sampleExternals (genVoxel.Fill_Chunk newChunk) i := by
  unfold sampleWorld
  exact Eq.refl _

theorem sampleWorld_consistent (i : Int) :
    Consistent sampleExternals (sampleWorld.chunkListBuffer i) i := by
  rw [sampleWorld_chunk]
  exact rebuilt_consistent sampleExternals sampleExternals_bound _ i

theorem actionEdit_preserves_consistency_witness :
    (∀ c, (sampleExternals.Polygonise_Cell c).length ≤ 5) ∧
    (∀ i : Int, 0 ≤ i → i < CHUNK_COUNT →
      Consistent sampleExternals (sampleWorld.chunkListBuffer i) i) ∧
    (∀ i : Int, 0 ≤ i → i < CHUNK_COUNT →
      Consistent sampleExternals
        ((actionEdit sampleExternals sampleWorld ⟨-21 / 2, -8, -8⟩).chunkListBuffer i) i) ∧
    (∀ i : Int,
      ((genVoxel.Remove_Voxel ⟨-21 / 2, -8, -8⟩ sampleWorld.chunkListBuffer []).1 i).voxel
        ≠ (sampleWorld.chunkListBuffer i).voxel →
      i ∈ (genVoxel.Remove_Voxel ⟨-21 / 2, -8, -8⟩ sampleWorld.chunkListBuffer []).2) :=
  ⟨sampleExternals_bound, fun i _ _ => sampleWorld_consistent i,
    actionEdit_preserves_consistency sampleExternals sampleExternals_bound sampleWorld
      ⟨-21 / 2, -8, -8⟩ (fun i _ _ => sampleWorld_consistent i)⟩

/-! ## Conservation of the triangle counter -/

theorem triangleSum_update (f : Int → Chunk) (t t' : Nat) (i : Int) (c' : Chunk)
    (h0 : 0 ≤ i) (h1 : i < CHUNK_COUNT) :
    triangleSum (World.mk (Function.update f i c') t') + (f i).tri_list_per_chunk.length
      = triangleSum (World.mk f t) + c'.tri_list_per_chunk.length := by
  unfold triangleSum
  have hmem : i ∈ Finset.Ico (0 : Int) CHUNK_COUNT := Finset.mem_Ico.mpr ⟨h0, h1⟩
  have e : (fun j => ((World.mk (Function.update f i c') t').chunkListBuffer j).tri_list_per_chunk.length)
      = Function.update (fun j => (f j).tri_list_per_chunk.length) i
          c'.tri_list_per_chunk.length := by
    funext j
    by_cases hj : j = i
    · subst hj
      simp only [Function.update_same]
    · simp only [Function.update_noteq hj]
  rw [e, Finset.sum_update_of_mem hmem, ← Finset.add_sum_erase _ _ hmem,
    Finset.sdiff_singleton_eq_erase]
  ring

theorem triangleSum_le (W : World)
    (hb : ∀ j : Int, 0 ≤ j → j < CHUNK_COUNT →
      (W.chunkListBuffer j).tri_list_per_chunk.length ≤ 16875) :
    triangleSum W ≤ 8640000 := by
  unfold triangleSum
  have h := Finset.sum_le_card_nsmul (Finset.Ico (0 : Int) CHUNK_COUNT)
    (fun j => (W.chunkListBuffer j).tri_list_per_chunk.length) 16875
    (fun j hj => hb j (Finset.mem_Ico.mp hj).1 (Finset.mem_Ico.mp hj).2)
  have hc : (Finset.Ico (0 : Int) CHUNK_COUNT).card = 512 := by
    rw [Int.card_Ico, CHUNK_COUNT_eq]
    rfl
  rw [hc] at h
  simpa using h

theorem chunk_le_triangleSum (W : World) (i : Int) (h0 : 0 ≤ i) (h1 : i < CHUNK_COUNT) :
    (W.chunkListBuffer i).tri_list_per_chunk.length ≤ triangleSum W := by
  unfold triangleSum
  exact Finset.single_le_sum (f := fun j => (W.chunkListBuffer j).tri_list_per_chunk.length)
    (fun _ _ => Nat.zero_le _) (Finset.mem_Ico.mpr ⟨h0, h1⟩)

/-- The invariant of the triangle counter: it equals the sum of the triangle-list
lengths, and no chunk holds more triangles than 3375 cells can produce. -/
theorem polygonizeVoxels_conserves (E : Externals)
    (hE : ∀ c, (E.Polygonise_Cell c).length ≤ 5) (W : World) (i : Int)
    (h0 : 0 ≤ i) (h1 : i < CHUNK_COUNT)
    (hsum : W.total_terrain_triangle_count = triangleSum W)
    (hb : ∀ j : Int, 0 ≤ j → j < CHUNK_COUNT →
      (W.chunkListBuffer j).tri_list_per_chunk.length ≤ 16875) :
    (polygonizeVoxels E W i).total_terrain_triangle_count = triangleSum (polygonizeVoxels E W i) ∧
    (∀ j : Int, 0 ≤ j → j < CHUNK_COUNT →
      ((polygonizeVoxels E W i).chunkListBuffer j).tri_list_per_chunk.length ≤ 16875) ∧
    (W.chunkListBuffer i).tri_list_per_chunk.length ≤ W.total_terrain_triangle_count := by
  have hold := chunk_le_triangleSum W i h0 h1
  have hle := triangleSum_le W hb
  have hnew := rebuilt_tri_length E hE (W.chunkListBuffer i) i
  refine ⟨?_, ?_, ?_⟩
  · rw [polygonizeVoxels_eq, addU32_subU32_exact _ _ _ (by omega) (by omega)]
    have hu := triangleSum_update W.chunkListBuffer W.total_terrain_triangle_count
      (W.total_terrain_triangle_count - (W.chunkListBuffer i).tri_list_per_chunk.length
        + (rebuilt E (W.chunkListBuffer i) i).tri_list_per_chunk.length) i
      (rebuilt E (W.chunkListBuffer i) i) h0 h1
    have hW : (World.mk W.chunkListBuffer W.total_terrain_triangle_count) = W := by
      cases W
      rfl
    rw [hW] at hu
    show W.total_terrain_triangle_count - _ + _ = _
    omega
  · intro j hj0 hj1
    by_cases hji : j = i
    · subst hji
      rw [polygonizeVoxels_chunk_same]
      exact hnew
    · rw [polygonizeVoxels_chunk_other E W i j hji]
      exact hb j hj0 hj1
  · omega

theorem polygonizeVoxelsChunks_conserves (E : Externals)
    (hE : ∀ c, (E.Polygonise_Cell c).length ≤ 5) (D : List Int) (W : World)
    (hD : ∀ i ∈ D, 0 ≤ i ∧ i < CHUNK_COUNT)
    (hsum : W.total_terrain_triangle_count = triangleSum W)
    (hb : ∀ j : Int, 0 ≤ j → j < CHUNK_COUNT →
      (W.chunkListBuffer j).tri_list_per_chunk.length ≤ 16875) :
    (polygonizeVoxelsChunks E W D).total_terrain_triangle_count
      = triangleSum (polygonizeVoxelsChunks E W D) ∧
    (∀ j : Int, 0 ≤ j → j < CHUNK_COUNT →
      ((polygonizeVoxelsChunks E W D).chunkListBuffer j).tri_list_per_chunk.length ≤ 16875) := by
  induction D generalizing W with
  | nil =>
    rw [polygonizeVoxelsChunks_nil]
    exact ⟨hsum, hb⟩
  | cons i D ih =>
    rw [polygonizeVoxelsChunks_cons]
    obtain ⟨hi0, hi1⟩ := hD i (List.mem_cons_self _ _)
    obtain ⟨s1, s2, _⟩ := polygonizeVoxels_conserves E hE W i hi0 hi1 hsum hb
    exact ih (polygonizeVoxels E W i) (fun k hk => hD k (List.mem_cons_of_mem _ hk)) s1 s2

/-- C4: conservation is preserved by remeshing. If `total_terrain_triangle_count`
equals the sum over all chunks of `tri_list_per_chunk.size()` (and, as in every
world the program builds, no chunk holds more than `5 * 3375` triangles, the
polygoniser emitting at most 5 per cell), then after `polygonizeVoxels(i)` for a
valid `i`, and after `polygonizeVoxelsChunks(D)` for valid indices `D`, the
counter again equals the sum, and every subtraction of an old count is of a
value not above the counter, so it never wraps. -/
theorem remesh_conserves_triangle_count (E : Externals)
    (hE : ∀ c, (E.Polygonise_Cell c).length ≤ 5) (W : World)
    (hsum : W.total_terrain_triangle_count = triangleSum W)
    (hb : ∀ j : Int, 0 ≤ j → j < CHUNK_COUNT →
      (W.chunkListBuffer j).tri_list_per_chunk.length ≤ 16875) :
    (∀ i : Int, 0 ≤ i → i < CHUNK_COUNT →
      (polygonizeVoxels E W i).total_terrain_triangle_count
        = triangleSum (polygonizeVoxels E W i) ∧
      (W.chunkListBuffer i).tri_list_per_chunk.length ≤ W.total_terrain_triangle_count) ∧
    (∀ D : List Int, (∀ i ∈ D, 0 ≤ i ∧ i < CHUNK_COUNT) →
      (polygonizeVoxelsChunks E W D).total_terrain_triangle_count
        = triangleSum (polygonizeVoxelsChunks E W D) ∧
      (∀ (D1 D2 : List Int) (i : Int), D = D1 ++ i :: D2 →
        ((polygonizeVoxelsChunks E W D1).chunkListBuffer i).tri_list_per_chunk.length
          ≤ (polygonizeVoxelsChunks E W D1).total_terrain_triangle_count)) := by
  constructor
  · intro i h0 h1
    obtain ⟨s1, _, s3⟩ := polygonizeVoxels_conserves E hE W i h0 h1 hsum hb
    exact ⟨s1, s3⟩
  · intro D hD
    refine ⟨(polygonizeVoxelsChunks_conserves E hE D W hD hsum hb).1, ?_⟩
    intro D1 D2 i hsplit
    have hD1 : ∀ k ∈ D1, 0 ≤ k ∧ k < CHUNK_COUNT := by
      intro k hk
      apply hD k
      rw [hsplit]
      exact List.mem_append_left _ hk
    have hi : 0 ≤ i ∧ i < CHUNK_COUNT := by
      apply hD i
      rw [hsplit]
      exact List.mem_append_right _ (List.mem_cons_self _ _)
    obtain ⟨t1, t2⟩ := polygonizeVoxelsChunks_conserves E hE D1 W hD1 hsum hb
    exact (polygonizeVoxels_conserves E hE _ i hi.1 hi.2 t1 t2).2.2

theorem sampleWorld_eq : sampleWorld = World.mk (fun i => rebuilt sampleExternals (genVoxel.Fill_Chunk newChunk) i)
      (∑ i ∈ Finset.Ico (0 : Int) CHUNK_COUNT,
        (rebuilt sampleExternals (genVoxel.Fill_Chunk newChunk) i).tri_list_per_chunk.length) := by
  unfold sampleWorld
  exact Eq.refl _

theorem sampleWorld_total :
    sampleWorld.total_terrain_triangle_count =
      ∑ i ∈ Finset.Ico (0 : Int) CHUNK_COUNT,
        (rebuilt sampleExternals (genVoxel.Fill_Chunk newChunk) i).tri_list_per_chunk.length := by
  rw [sampleWorld_eq]

theorem sampleWorld_sum : sampleWorld.total_terrain_triangle_count = triangleSum sampleWorld := by
  rw [sampleWorld_total]
  unfold triangleSum
  simp only [sampleWorld_chunk]

theorem sampleWorld_bound (j : Int) :
    (sampleWorld.chunkListBuffer j).tri_list_per_chunk.length ≤ 16875 := by
  rw [sampleWorld_chunk]
  exact rebuilt_tri_length sampleExternals sampleExternals_bound _ j

theorem remesh_conserves_triangle_count_witness :
    (∀ c, (sampleExternals.Polygonise_Cell c).length ≤ 5) ∧
    sampleWorld.total_terrain_triangle_count = triangleSum sampleWorld ∧
    (∀ j : Int, 0 ≤ j → j < CHUNK_COUNT →
      (sampleWorld.chunkListBuffer j).tri_list_per_chunk.length ≤ 16875) ∧
    (∀ i : Int, 0 ≤ i → i < CHUNK_COUNT →
      (polygonizeVoxels sampleExternals sampleWorld i).total_terrain_triangle_count
        = triangleSum (polygonizeVoxels sampleExternals sampleWorld i) ∧
      (sampleWorld.chunkListBuffer i).tri_list_per_chunk.length
        ≤ sampleWorld.total_terrain_triangle_count) ∧
    (∀ D : List Int, (∀ i ∈ D, 0 ≤ i ∧ i < CHUNK_COUNT) →
      (polygonizeVoxelsChunks sampleExternals sampleWorld D).total_terrain_triangle_count
        = triangleSum (polygonizeVoxelsChunks sampleExternals sampleWorld D) ∧
      (∀ (D1 D2 : List Int) (i : Int), D = D1 ++ i :: D2 →
        ((polygonizeVoxelsChunks sampleExternals sampleWorld D1).chunkListBuffer
            i).tri_list_per_chunk.length
          ≤ (polygonizeVoxelsChunks sampleExternals sampleWorld D1).total_terrain_triangle_count)) :=
  ⟨sampleExternals_bound, sampleWorld_sum, fun j _ _ => sampleWorld_bound j,
    remesh_conserves_triangle_count sampleExternals sampleExternals_bound sampleWorld
      sampleWorld_sum (fun j _ _ => sampleWorld_bound j)⟩

/-! ## Initial build -/

theorem slotLoop_nil (f : Int → Chunk → Chunk) (g : Int → Chunk → Nat → Nat) (W : World) :
    slotLoop f g [] W = W := rfl

theorem slotLoop_cons (f : Int → Chunk → Chunk) (g : Int → Chunk → Nat → Nat) (a : Int)
    (l : List Int) (W : World) :
    slotLoop f g (a :: l) W = slotLoop f g l
      (World.mk (Function.update W.chunkListBuffer a (f a (W.chunkListBuffer a)))
        (g a (W.chunkListBuffer a) W.total_terrain_triangle_count)) := rfl

theorem slotLoop_chunk (f : Int → Chunk → Chunk) (g : Int → Chunk → Nat → Nat) (l : List Int)
    (hl : l.Nodup) (W : World) (j : Int) :
    (slotLoop f g l W).chunkListBuffer j =
      if j ∈ l then f j (W.chunkListBuffer j) else W.chunkListBuffer j := by
  induction l generalizing W with
  | nil => rw [slotLoop_nil, if_neg (List.not_mem_nil j)]
  | cons a l ih =>
    obtain ⟨ha, hl'⟩ := List.nodup_cons.mp hl
    rw [slotLoop_cons, ih hl']
    by_cases hja : j = a
    · subst hja
      rw [if_neg ha, if_pos (List.mem_cons_self _ _)]
      exact Function.update_same _ _ _
    · have e : (World.mk (Function.update W.chunkListBuffer a (f a (W.chunkListBuffer a)))
          (g a (W.chunkListBuffer a) W.total_terrain_triangle_count)).chunkListBuffer j
          = W.chunkListBuffer j := Function.update_noteq hja _ _
      rw [e]
      by_cases hjl : j ∈ l
      · rw [if_pos hjl, if_pos (List.mem_cons_of_mem _ hjl)]
      · rw [if_neg hjl, if_neg]
        intro h
        rcases List.mem_cons.mp h with h | h
        · exact hja h
        · exact hjl h

theorem slotLoop_total (f : Int → Chunk → Chunk) (g : Int → Chunk → Nat → Nat) (l : List Int)
    (hl : l.Nodup) (W : World) :
    (slotLoop f g l W).total_terrain_triangle_count =
      l.foldl (fun t i => g i (W.chunkListBuffer i) t) W.total_terrain_triangle_count := by
  induction l generalizing W with
  | nil => rfl
  | cons a l ih =>
    obtain ⟨ha, hl'⟩ := List.nodup_cons.mp hl
    rw [slotLoop_cons, ih hl', List.foldl_cons]
    have e : ∀ (t0 : Nat) (l' : List Int), (∀ i ∈ l', i ≠ a) →
        List.foldl (fun t i => g i ((World.mk
          (Function.update W.chunkListBuffer a (f a (W.chunkListBuffer a)))
          (g a (W.chunkListBuffer a) W.total_terrain_triangle_count)).chunkListBuffer i) t) t0 l'
        = List.foldl (fun t i => g i (W.chunkListBuffer i) t) t0 l' := by
      intro t0 l'
      induction l' generalizing t0 with
      | nil => intro _; rfl
      | cons b l' ih' =>
        intro hne
        rw [List.foldl_cons, List.foldl_cons]
        have hb : (World.mk (Function.update W.chunkListBuffer a (f a (W.chunkListBuffer a)))
            (g a (W.chunkListBuffer a) W.total_terrain_triangle_count)).chunkListBuffer b
            = W.chunkListBuffer b := Function.update_noteq (hne b (List.mem_cons_self _ _)) _ _
        rw [hb]
        exact ih' _ (fun i hi => hne i (List.mem_cons_of_mem _ hi))
    exact e _ l (fun i hi hia => ha (hia ▸ hi))

theorem foldl_addU32 {α : Type} (h : α → Nat) (l : List α) (a : Nat) (ha : a < 4294967296) :
    l.foldl (fun t i => addU32 t (h i)) a = (a + (l.map h).sum) % 4294967296 := by
  induction l generalizing a with
  | nil =>
    rw [List.foldl_nil, List.map_nil, List.sum_nil]
    omega
  | cons b l ih =>
    rw [List.foldl_cons, ih _ (addU32_lt a (h b)), List.map_cons, List.sum_cons]
    unfold addU32
    have e1 : (2 : Nat) ^ 32 = 4294967296 := by norm_num
    rw [e1]
    omega

theorem intFor_toFinset (lo hi : Int) : (intFor lo hi).toFinset = Finset.Ico lo hi := by
  ext y
  rw [List.mem_toFinset, intFor_mem, Finset.mem_Ico]

theorem intFor_sum (h : Int → Nat) (lo hi : Int) :
    ((intFor lo hi).map h).sum = ∑ i ∈ Finset.Ico lo hi, h i := by
  rw [← intFor_toFinset, List.sum_toFinset h (intFor_nodup lo hi)]

theorem foldl_congr_mem {α β : Type} (F G : β → α → β) (l : List α) (b : β)
    (h : ∀ b, ∀ a ∈ l, F b a = G b a) : l.foldl F b = l.foldl G b := by
  induction l generalizing b with
  | nil => rfl
  | cons a l ih =>
    rw [List.foldl_cons, List.foldl_cons, h b a (List.mem_cons_self _ _)]
    exact ih _ (fun b' a' ha' => h b' a' (List.mem_cons_of_mem _ ha'))

theorem fold_keeps_mesh {α : Type} (F : Chunk → α → Chunk)
    (hF : ∀ c a, (F c a).grid_of_cells_per_chunk = c.grid_of_cells_per_chunk ∧
      (F c a).tri_list_per_chunk = c.tri_list_per_chunk ∧
      (F c a).vertexBuffer_per_chunk = c.vertexBuffer_per_chunk ∧ (F c a).count = c.count)
    (l : List α) (c : Chunk) :
    (l.foldl F c).grid_of_cells_per_chunk = c.grid_of_cells_per_chunk ∧
      (l.foldl F c).tri_list_per_chunk = c.tri_list_per_chunk ∧
      (l.foldl F c).vertexBuffer_per_chunk = c.vertexBuffer_per_chunk ∧
      (l.foldl F c).count = c.count := by
  induction l generalizing c with
  | nil => exact ⟨rfl, rfl, rfl, rfl⟩
  | cons a l ih =>
    rw [List.foldl_cons]
    obtain ⟨a1, a2, a3, a4⟩ := ih (F c a)
    obtain ⟨b1, b2, b3, b4⟩ := hF c a
    exact ⟨a1.trans b1, a2.trans b2, a3.trans b3, a4.trans b4⟩

theorem fold_sets_voxel {α : Type} (F : Chunk → α → Chunk) (P : α → Int → Prop)
    (h1 : ∀ c a v, P a v → (F c a).voxel v = 1)
    (h0 : ∀ c a v, ¬ P a v → (F c a).voxel v = c.voxel v)
    (l : List α) (c : Chunk) (v : Int) :
    ((∃ a ∈ l, P a v) → (l.foldl F c).voxel v = 1) ∧
    ((¬ ∃ a ∈ l, P a v) → (l.foldl F c).voxel v = c.voxel v) := by
  induction l generalizing c with
  | nil =>
    constructor
    · rintro ⟨a, ha, _⟩
      exact absurd ha (List.not_mem_nil a)
    · intro _
      rfl
  | cons a l ih =>
    rw [List.foldl_cons]
    obtain ⟨i1, i0⟩ := ih (F c a)
    constructor
    · rintro ⟨b, hb, hP⟩
      by_cases hl : ∃ b ∈ l, P b v
      · exact i1 hl
      · rw [i0 hl]
        rcases List.mem_cons.mp hb with e | e
        · subst e
          exact h1 c b v hP
        · exact absurd ⟨b, e, hP⟩ hl
    · intro hn
      have hl : ¬ ∃ b ∈ l, P b v := fun ⟨b, hb, hP⟩ => hn ⟨b, List.mem_cons_of_mem _ hb, hP⟩
      rw [i0 hl]
      exact h0 c a v (fun hP => hn ⟨a, List.mem_cons_self _ _, hP⟩)

theorem genVoxel.Fill_Chunk_mesh (c : Chunk) :
    (genVoxel.Fill_Chunk c).grid_of_cells_per_chunk = c.grid_of_cells_per_chunk ∧
      (genVoxel.Fill_Chunk c).tri_list_per_chunk = c.tri_list_per_chunk ∧
      (genVoxel.Fill_Chunk c).vertexBuffer_per_chunk = c.vertexBuffer_per_chunk ∧
      (genVoxel.Fill_Chunk c).count = c.count := by
  unfold genVoxel.Fill_Chunk
  apply fold_keeps_mesh
  intro c x
  apply fold_keeps_mesh
  intro c y
  apply fold_keeps_mesh
  intro c z
  exact ⟨rfl, rfl, rfl, rfl⟩

theorem genVoxel.Fill_Chunk_z (x y : Int) (l : List Int) (c : Chunk) (v : Int) :
    ((∃ z ∈ l, z * 256 + y * 16 + x = v) →
      (l.foldl (fun (chunk : Chunk) z =>
        let i := (z * CHUNK_DIMENSION * CHUNK_DIMENSION) + (y * CHUNK_DIMENSION) + x
        { chunk with voxel := Function.update chunk.voxel i 1 }) c).voxel v = 1) ∧
    ((¬ ∃ z ∈ l, z * 256 + y * 16 + x = v) →
      (l.foldl (fun (chunk : Chunk) z =>
        let i := (z * CHUNK_DIMENSION * CHUNK_DIMENSION) + (y * CHUNK_DIMENSION) + x
        { chunk with voxel := Function.update chunk.voxel i 1 }) c).voxel v = c.voxel v) := by
  apply fold_sets_voxel _ (fun z v => z * 256 + y * 16 + x = v)
  · intro c z v hP
    have hi : z * CHUNK_DIMENSION * CHUNK_DIMENSION + y * CHUNK_DIMENSION + x = v := by
      simp only [CHUNK_DIMENSION]
      omega
    show Function.update c.voxel _ 1 v = 1
    rw [hi]
    exact Function.update_same _ _ _
  · intro c z v hP
    have hi : v ≠ z * CHUNK_DIMENSION * CHUNK_DIMENSION + y * CHUNK_DIMENSION + x := by
      simp only [CHUNK_DIMENSION]
      omega
    show Function.update c.voxel _ 1 v = c.voxel v
    exact Function.update_noteq hi _ _

theorem genVoxel.Fill_Chunk_y (x : Int) (l lz : List Int) (c : Chunk) (v : Int) :
    ((∃ y ∈ l, ∃ z ∈ lz, z * 256 + y * 16 + x = v) →
      (l.foldl (fun (chunk : Chunk) y => lz.foldl (fun (chunk : Chunk) z =>
        let i := (z * CHUNK_DIMENSION * CHUNK_DIMENSION) + (y * CHUNK_DIMENSION) + x
        { chunk with voxel := Function.update chunk.voxel i 1 }) chunk) c).voxel v = 1) ∧
    ((¬ ∃ y ∈ l, ∃ z ∈ lz, z * 256 + y * 16 + x = v) →
      (l.foldl (fun (chunk : Chunk) y => lz.foldl (fun (chunk : Chunk) z =>
        let i := (z * CHUNK_DIMENSION * CHUNK_DIMENSION) + (y * CHUNK_DIMENSION) + x
        { chunk with voxel := Function.update chunk.voxel i 1 }) chunk) c).voxel v = c.voxel v) := by
  apply fold_sets_voxel _ (fun y v => ∃ z ∈ lz, z * 256 + y * 16 + x = v)
  · intro c y v hP
    exact (genVoxel.Fill_Chunk_z x y lz c v).1 hP
  · intro c y v hP
    exact (genVoxel.Fill_Chunk_z x y lz c v).2 hP

theorem genVoxel.Fill_Chunk_voxel (c : Chunk) (v : Int) :
    ((∃ x ∈ intFor 1 15, ∃ y ∈ intFor 1 15, ∃ z ∈ intFor 1 15, z * 256 + y * 16 + x = v) →
      (genVoxel.Fill_Chunk c).voxel v = 1) ∧
    ((¬ ∃ x ∈ intFor 1 15, ∃ y ∈ intFor 1 15, ∃ z ∈ intFor 1 15, z * 256 + y * 16 + x = v) →
      (genVoxel.Fill_Chunk c).voxel v = c.voxel v) := by
  unfold genVoxel.Fill_Chunk
  have e : CHUNK_DIMENSION - 1 = 15 := by decide
  rw [e]
  apply fold_sets_voxel _ (fun x v => ∃ y ∈ intFor 1 15, ∃ z ∈ intFor 1 15, z * 256 + y * 16 + x = v)
  · intro c x v hP
    exact (genVoxel.Fill_Chunk_y x (intFor 1 15) (intFor 1 15) c v).1 hP
  · intro c x v hP
    exact (genVoxel.Fill_Chunk_y x (intFor 1 15) (intFor 1 15) c v).2 hP

theorem genVoxel.Fill_Chunk_newChunk_voxel (v : Int) :
    ((∃ x y z : Int, (1 ≤ x ∧ x < 15) ∧ (1 ≤ y ∧ y < 15) ∧ (1 ≤ z ∧ z < 15) ∧
        z * 256 + y * 16 + x = v) → (genVoxel.Fill_Chunk newChunk).voxel v = 1) ∧
    ((¬ ∃ x y z : Int, (1 ≤ x ∧ x < 15) ∧ (1 ≤ y ∧ y < 15) ∧ (1 ≤ z ∧ z < 15) ∧
        z * 256 + y * 16 + x = v) → (genVoxel.Fill_Chunk newChunk).voxel v = 0) := by
  obtain ⟨h1, h0⟩ := genVoxel.Fill_Chunk_voxel newChunk v
  constructor
  · rintro ⟨x, y, z, hx, hy, hz, e⟩
    exact h1 ⟨x, (intFor_mem _ _ _).mpr hx, y, (intFor_mem _ _ _).mpr hy, z,
      (intFor_mem _ _ _).mpr hz, e⟩
  · intro hn
    have h := h0 (by
      rintro ⟨x, hx, y, hy, z, hz, e⟩
      exact hn ⟨x, y, z, (intFor_mem _ _ _).mp hx, (intFor_mem _ _ _).mp hy,
        (intFor_mem _ _ _).mp hz, e⟩)
    rw [h]
    rfl

theorem polygonizeVoxelsInitMultiThread_eq (E : Externals) (numThreads : Nat) (W : World)
    (threadID : Nat) :
    polygonizeVoxelsInitMultiThread E numThreads W threadID =
      slotLoop initCount keepTotal (threadSlice numThreads threadID)
        (slotLoop (initVertices E) addTriangles (threadSlice numThreads threadID)
          (World.mk
            (slotLoop (initTriangles E) keepTotal (threadSlice numThreads threadID)
              (slotLoop initCells keepTotal (threadSlice numThreads threadID)
                (slotLoop initFill keepTotal (threadSlice numThreads threadID)
                  W))).chunkListBuffer 0)) := rfl

theorem threadSlice_nodup (numThreads threadID : Nat) : (threadSlice numThreads threadID).Nodup :=
  intFor_nodup _ _

theorem slotLoop_keepTotal (f : Int → Chunk → Chunk) (l : List Int) (W : World) :
    (slotLoop f keepTotal l W).total_terrain_triangle_count = W.total_terrain_triangle_count := by
  induction l generalizing W with
  | nil => rfl
  | cons a l ih =>
    rw [slotLoop_cons, ih]
    rfl

theorem built_chunk (E : Externals) (i : Int) (c : Chunk) :
    initCount i (initVertices E i (initTriangles E i (initCells i (initFill i c))))
      = rebuilt E (genVoxel.Fill_Chunk newChunk) i := by
  obtain ⟨hg, ht, hv, _⟩ := genVoxel.Fill_Chunk_mesh newChunk
  rw [rebuilt_shape]
  unfold initCount initVertices initTriangles initCells initFill
  generalize genVoxel.Fill_Chunk newChunk = c0 at hg ht hv ⊢
  rcases c0 with ⟨v, g, t, b, n⟩
  have hg' : g = [] := hg
  have ht' : t = [] := ht
  have hv' : b = [] := hv
  subst hg' ht' hv'
  have hp : populate_chunk (Chunk.mk v [] [] [] n) i []
      = populate_chunk (Chunk.mk v [] [] [] n) i [] := rfl
  congr 1

theorem initTriangles_eq (E : Externals) (i : Int) (c : Chunk) :
    initTriangles E i c = Chunk.mk c.voxel c.grid_of_cells_per_chunk
      (populate_triangles_list_chunk E c.grid_of_cells_per_chunk c.tri_list_per_chunk)
      c.vertexBuffer_per_chunk c.count := rfl

theorem initCells_eq (i : Int) (c : Chunk) :
    initCells i c = Chunk.mk c.voxel (populate_chunk c i c.grid_of_cells_per_chunk)
      c.tri_list_per_chunk c.vertexBuffer_per_chunk c.count := rfl

theorem initFill_eq (i : Int) (c : Chunk) : initFill i c = genVoxel.Fill_Chunk newChunk := rfl

theorem newChunk_eq : newChunk = Chunk.mk (fun _ => 0) [] [] [] 0 := rfl

theorem initTriangles_tris (E : Externals) (i : Int) (c : Chunk) :
    (initTriangles E i c).tri_list_per_chunk
      = populate_triangles_list_chunk E c.grid_of_cells_per_chunk c.tri_list_per_chunk := by
  rw [initTriangles_eq]

theorem initCells_grid (i : Int) (c : Chunk) :
    (initCells i c).grid_of_cells_per_chunk = populate_chunk c i c.grid_of_cells_per_chunk := by
  rw [initCells_eq]

theorem initCells_tris (i : Int) (c : Chunk) :
    (initCells i c).tri_list_per_chunk = c.tri_list_per_chunk := by
  rw [initCells_eq]

theorem newChunk_grid : newChunk.grid_of_cells_per_chunk = [] := by
  rw [newChunk_eq]

theorem newChunk_tris : newChunk.tri_list_per_chunk = [] := by
  rw [newChunk_eq]

theorem built_tris (E : Externals) (i : Int) (c : Chunk) :
    (initTriangles E i (initCells i (initFill i c))).tri_list_per_chunk
      = (rebuilt E (genVoxel.Fill_Chunk newChunk) i).tri_list_per_chunk := by
  obtain ⟨hg, ht, _, _⟩ := genVoxel.Fill_Chunk_mesh newChunk
  rw [newChunk_grid] at hg
  rw [newChunk_tris] at ht
  rw [rebuilt_tri, initTriangles_tris, initCells_grid, initCells_tris, initFill_eq, hg, ht]

theorem World_mk_chunk (f : Int → Chunk) (t : Nat) : (World.mk f t).chunkListBuffer = f := rfl

theorem World_mk_total (f : Int → Chunk) (t : Nat) :
    (World.mk f t).total_terrain_triangle_count = t := rfl

theorem polygonizeVoxelsInitMultiThread_chunk (E : Externals) (numThreads : Nat) (W : World)
    (threadID : Nat) (j : Int) :
    (polygonizeVoxelsInitMultiThread E numThreads W threadID).chunkListBuffer j =
      if j ∈ threadSlice numThreads threadID then rebuilt E (genVoxel.Fill_Chunk newChunk) j
      else W.chunkListBuffer j := by
  have hl := threadSlice_nodup numThreads threadID
  rw [polygonizeVoxelsInitMultiThread_eq, slotLoop_chunk _ _ _ hl, slotLoop_chunk _ _ _ hl,
    World_mk_chunk, slotLoop_chunk _ _ _ hl, slotLoop_chunk _ _ _ hl, slotLoop_chunk _ _ _ hl]
  by_cases hj : j ∈ threadSlice numThreads threadID
  · simp only [if_pos hj]
    exact built_chunk E j _
  · simp only [if_neg hj]

theorem polygonizeVoxelsInitMultiThread_total (E : Externals) (numThreads : Nat) (W : World)
    (threadID : Nat) :
    (polygonizeVoxelsInitMultiThread E numThreads W threadID).total_terrain_triangle_count =
      (((threadSlice numThreads threadID).map (fun i =>
        (rebuilt E (genVoxel.Fill_Chunk newChunk) i).tri_list_per_chunk.length)).sum)
        % 4294967296 := by
  have hl := threadSlice_nodup numThreads threadID
  rw [polygonizeVoxelsInitMultiThread_eq, slotLoop_keepTotal, slotLoop_total _ _ _ hl,
    World_mk_total, World_mk_chunk]
  have e : List.foldl (fun t i => addTriangles i
      ((slotLoop (initTriangles E) keepTotal (threadSlice numThreads threadID)
        (slotLoop initCells keepTotal (threadSlice numThreads threadID)
          (slotLoop initFill keepTotal (threadSlice numThreads threadID) W))).chunkListBuffer i) t)
      0 (threadSlice numThreads threadID)
      = List.foldl (fun t i => addU32 t
          (rebuilt E (genVoxel.Fill_Chunk newChunk) i).tri_list_per_chunk.length)
        0 (threadSlice numThreads threadID) := by
    apply foldl_congr_mem
    intro t i hi
    rw [slotLoop_chunk _ _ _ hl, slotLoop_chunk _ _ _ hl, slotLoop_chunk _ _ _ hl]
    simp only [if_pos hi]
    rw [← built_tris E i (W.chunkListBuffer i)]
    rfl
  rw [e, foldl_addU32 _ _ _ (by omega), Nat.zero_add]

theorem threadSlice_two_zero : threadSlice 2 0 = intFor 0 256 := by
  unfold threadSlice
  have e1 : ((CHUNK_COUNT.toNat / 2 * 0 : Nat) : Int) = 0 := by decide
  have e2 : ((CHUNK_COUNT.toNat / 2 * (0 + 1) : Nat) : Int) = 256 := by decide
  rw [e1, e2]

theorem threadSlice_two_one : threadSlice 2 1 = intFor 256 512 := by
  unfold threadSlice
  have e1 : ((CHUNK_COUNT.toNat / 2 * 1 : Nat) : Int) = 256 := by decide
  have e2 : ((CHUNK_COUNT.toNat / 2 * (1 + 1) : Nat) : Int) = 512 := by decide
  rw [e1, e2]

theorem createVertexBufferMultiThread_two (E : Externals) (W : World) :
    createVertexBufferMultiThread E 2 W [0, 1] =
      polygonizeVoxelsInitMultiThread E 2 (polygonizeVoxelsInitMultiThread E 2 W 0) 1 := by
  unfold createVertexBufferMultiThread
  rw [List.foldl_cons, List.foldl_cons, List.foldl_nil]

theorem two_threads_chunk (E : Externals) (W : World) (j : Int) (h0 : 0 ≤ j) (h1 : j < 512) :
    (createVertexBufferMultiThread E 2 W [0, 1]).chunkListBuffer j
      = rebuilt E (genVoxel.Fill_Chunk newChunk) j := by
  rw [createVertexBufferMultiThread_two, polygonizeVoxelsInitMultiThread_chunk,
    polygonizeVoxelsInitMultiThread_chunk, threadSlice_two_zero, threadSlice_two_one]
  by_cases hj : j < 256
  · rw [if_neg (fun h => by have := (intFor_mem _ _ _).mp h; omega),
      if_pos ((intFor_mem _ _ _).mpr ⟨h0, hj⟩)]
  · rw [if_pos ((intFor_mem _ _ _).mpr ⟨by omega, h1⟩)]

theorem two_threads_total (E : Externals) (W : World) :
    (createVertexBufferMultiThread E 2 W [0, 1]).total_terrain_triangle_count
      = (∑ i ∈ Finset.Ico (256 : Int) 512,
          (rebuilt E (genVoxel.Fill_Chunk newChunk) i).tri_list_per_chunk.length)
        % 4294967296 := by
  rw [createVertexBufferMultiThread_two, polygonizeVoxelsInitMultiThread_total,
    threadSlice_two_one, intFor_sum]

theorem two_threads_triangleSum (E : Externals) (W : World) :
    triangleSum (createVertexBufferMultiThread E 2 W [0, 1])
      = (∑ i ∈ Finset.Ico (0 : Int) 256,
          (rebuilt E (genVoxel.Fill_Chunk newChunk) i).tri_list_per_chunk.length)
        + ∑ i ∈ Finset.Ico (256 : Int) 512,
          (rebuilt E (genVoxel.Fill_Chunk newChunk) i).tri_list_per_chunk.length := by
  unfold triangleSum
  rw [CHUNK_COUNT_eq]
  have e : ∀ i ∈ Finset.Ico (0 : Int) 512,
      ((createVertexBufferMultiThread E 2 W [0, 1]).chunkListBuffer i).tri_list_per_chunk.length
      = (rebuilt E (genVoxel.Fill_Chunk newChunk) i).tri_list_per_chunk.length := by
    intro i hi
    obtain ⟨h0, h1⟩ := Finset.mem_Ico.mp hi
    rw [two_threads_chunk E W i h0 h1]
  have h2 := Finset.sum_congr (Eq.refl (Finset.Ico (0 : Int) 512)) e
  rw [h2]
  have hu : Finset.Ico (0 : Int) 512 = Finset.Ico 0 256 ∪ Finset.Ico 256 512 :=
    (Finset.Ico_union_Ico_eq_Ico (by norm_num) (by norm_num)).symm
  rw [hu, Finset.sum_union (Finset.Ico_disjoint_Ico_consecutive 0 256 512)]

theorem toInt_add_intCast (a b : Int) : toInt ((a : ℚ) + (b : ℚ)) = a + b := by
  rw [← Int.cast_add, toInt_intCast]

theorem genVoxel.return_index_add_ofInts (x y z a b c : Int) :
    genVoxel.return_index ((Vec3.ofInts x y z).add (Vec3.ofInts a b c))
      = (z + c) * 256 + (y + b) * 16 + (x + a) := by
  unfold genVoxel.return_index Vec3.add Vec3.ofInts
  simp only [toInt_add_intCast, CHUNK_DIMENSION]
  ring

theorem intFor_zero_eight : intFor 0 8 = [0, 1, 2, 3, 4, 5, 6, 7] := by decide

theorem filled_voxel_zero (v : Int) (h : v < 273) :
    (genVoxel.Fill_Chunk newChunk).voxel v = 0 := by
  apply (genVoxel.Fill_Chunk_newChunk_voxel v).2
  rintro ⟨x, y, z, hx, hy, hz, e⟩
  omega

theorem filled_voxel_first : (genVoxel.Fill_Chunk newChunk).voxel 273 = 1 :=
  (genVoxel.Fill_Chunk_newChunk_voxel 273).1 ⟨1, 1, 1, by omega, by omega, by omega, by omega⟩

theorem cellAt_corner_val (index : Int) :
    (cellAt (genVoxel.Fill_Chunk newChunk) index 0 0 0).val = 64 := by
  have r0 : genVoxel.return_index ((Vec3.ofInts 0 0 0).add (cellOffsets 0)) = 0 :=
    genVoxel.return_index_add_ofInts 0 0 0 0 0 0
  have r1 : genVoxel.return_index ((Vec3.ofInts 0 0 0).add (cellOffsets 1)) = 16 :=
    genVoxel.return_index_add_ofInts 0 0 0 0 1 0
  have r2 : genVoxel.return_index ((Vec3.ofInts 0 0 0).add (cellOffsets 2)) = 17 :=
    genVoxel.return_index_add_ofInts 0 0 0 1 1 0
  have r3 : genVoxel.return_index ((Vec3.ofInts 0 0 0).add (cellOffsets 3)) = 1 :=
    genVoxel.return_index_add_ofInts 0 0 0 1 0 0
  have r4 : genVoxel.return_index ((Vec3.ofInts 0 0 0).add (cellOffsets 4)) = 256 :=
    genVoxel.return_index_add_ofInts 0 0 0 0 0 1
  have r5 : genVoxel.return_index ((Vec3.ofInts 0 0 0).add (cellOffsets 5)) = 272 :=
    genVoxel.return_index_add_ofInts 0 0 0 0 1 1
  have r6 : genVoxel.return_index ((Vec3.ofInts 0 0 0).add (cellOffsets 6)) = 273 :=
    genVoxel.return_index_add_ofInts 0 0 0 1 1 1
  have r7 : genVoxel.return_index ((Vec3.ofInts 0 0 0).add (cellOffsets 7)) = 257 :=
    genVoxel.return_index_add_ofInts 0 0 0 1 0 1
  unfold cellAt
  simp only [intFor_zero_eight, List.foldl_cons, List.foldl_nil, r0, r1, r2, r3, r4, r5, r6, r7,
    filled_voxel_first, filled_voxel_zero 0 (by decide), filled_voxel_zero 16 (by decide),
    filled_voxel_zero 17 (by decide), filled_voxel_zero 1 (by decide),
    filled_voxel_zero 256 (by decide), filled_voxel_zero 272 (by decide),
    filled_voxel_zero 257 (by decide)]
  decide

theorem flatMap_length_ge {α β : Type} (f : α → List β) (l : List α) (a : α) (h : a ∈ l) :
    (f a).length ≤ (l.flatMap f).length := by
  induction l with
  | nil => exact absurd h (List.not_mem_nil a)
  | cons b l ih =>
    rw [List.flatMap_cons, List.length_append]
    rcases List.mem_cons.mp h with e | e
    · subst e
      omega
    · have := ih e
      omega

theorem cellAt_mem_populate_chunk (c : Chunk) (index x y z : Int)
    (hx : 0 ≤ x ∧ x < 15) (hy : 0 ≤ y ∧ y < 15) (hz : 0 ≤ z ∧ z < 15) :
    cellAt c index x y z ∈ populate_chunk c index [] := by
  rw [populate_chunk_eq, List.nil_append]
  simp only [List.mem_flatMap, List.mem_singleton]
  exact ⟨x, (intFor_mem _ _ _).mpr hx, y, (intFor_mem _ _ _).mpr hy, z,
    (intFor_mem _ _ _).mpr hz, rfl⟩

theorem sample_filled_has_triangle (index : Int) :
    1 ≤ (rebuilt sampleExternals (genVoxel.Fill_Chunk newChunk) index).tri_list_per_chunk.length := by
  rw [rebuilt_tri, populate_triangles_list_chunk_eq, List.nil_append]
  have hm := cellAt_mem_populate_chunk (genVoxel.Fill_Chunk newChunk) index 0 0 0
    (by omega) (by omega) (by omega)
  have hl := flatMap_length_ge sampleExternals.Polygonise_Cell _ _ hm
  have hv := cellAt_corner_val index
  have h1 : (sampleExternals.Polygonise_Cell
      (cellAt (genVoxel.Fill_Chunk newChunk) index 0 0 0)).length = 1 := by
    unfold sampleExternals
    simp only [hv]
    rfl
  omega

/-- C5 at the failing input: with two workers run one after the other (worker 0,
then worker 1) every chunk is built, but `total_terrain_triangle_count` holds
only the triangles of the second worker's slice `[256, 512)`: the counter plus
the triangle count of the first slice `[0, 256)` is the sum over all chunks
(the polygoniser emitting at most 5 triangles per cell). -/
theorem multiThread_counter_misses_first_slice (E : Externals)
    (hE : ∀ c, (E.Polygonise_Cell c).length ≤ 5) (W : World) :
    (∀ i : Int, 0 ≤ i → i < CHUNK_COUNT →
      (createVertexBufferMultiThread E 2 W [0, 1]).chunkListBuffer i
        = rebuilt E (genVoxel.Fill_Chunk newChunk) i) ∧
    (createVertexBufferMultiThread E 2 W [0, 1]).total_terrain_triangle_count
      + ∑ i ∈ Finset.Ico (0 : Int) 256,
          ((createVertexBufferMultiThread E 2 W [0, 1]).chunkListBuffer i).tri_list_per_chunk.length
      = triangleSum (createVertexBufferMultiThread E 2 W [0, 1]) := by
  constructor
  · intro i h0 h1
    rw [CHUNK_COUNT_eq] at h1
    exact two_threads_chunk E W i h0 h1
  · have e : ∀ i ∈ Finset.Ico (0 : Int) 256,
        ((createVertexBufferMultiThread E 2 W [0, 1]).chunkListBuffer i).tri_list_per_chunk.length
        = (rebuilt E (genVoxel.Fill_Chunk newChunk) i).tri_list_per_chunk.length := by
      intro i hi
      obtain ⟨h0, h1⟩ := Finset.mem_Ico.mp hi
      rw [two_threads_chunk E W i h0 (by omega)]
    have h2 := Finset.sum_congr (Eq.refl (Finset.Ico (0 : Int) 256)) e
    rw [h2, two_threads_total, two_threads_triangleSum]
    have hb := Finset.sum_le_card_nsmul (Finset.Ico (256 : Int) 512)
      (fun j => (rebuilt E (genVoxel.Fill_Chunk newChunk) j).tri_list_per_chunk.length) 16875
      (fun j _ => rebuilt_tri_length E hE _ j)
    have hc : (Finset.Ico (256 : Int) 512).card = 256 := by
      rw [Int.card_Ico]
      rfl
    rw [hc] at hb
    simp only [smul_eq_mul] at hb
    rw [Nat.mod_eq_of_lt (by omega)]
    exact Nat.add_comm _ _

theorem multiThread_counter_misses_first_slice_witness :
    (∀ c, (sampleExternals.Polygonise_Cell c).length ≤ 5) ∧
    ((∀ i : Int, 0 ≤ i → i < CHUNK_COUNT →
      (createVertexBufferMultiThread sampleExternals 2 blankWorld [0, 1]).chunkListBuffer i
        = rebuilt sampleExternals (genVoxel.Fill_Chunk newChunk) i) ∧
    (createVertexBufferMultiThread sampleExternals 2 blankWorld [0, 1]).total_terrain_triangle_count
      + ∑ i ∈ Finset.Ico (0 : Int) 256,
          ((createVertexBufferMultiThread sampleExternals 2 blankWorld
            [0, 1]).chunkListBuffer i).tri_list_per_chunk.length
      = triangleSum (createVertexBufferMultiThread sampleExternals 2 blankWorld [0, 1])) ∧
    (createVertexBufferMultiThread sampleExternals 2 blankWorld [0, 1]).total_terrain_triangle_count
      < triangleSum (createVertexBufferMultiThread sampleExternals 2 blankWorld [0, 1]) := by
  have h := multiThread_counter_misses_first_slice sampleExternals sampleExternals_bound blankWorld
  refine ⟨sampleExternals_bound, h, ?_⟩
  have hpos : 1 ≤ ∑ i ∈ Finset.Ico (0 : Int) 256,
      ((createVertexBufferMultiThread sampleExternals 2 blankWorld
        [0, 1]).chunkListBuffer i).tri_list_per_chunk.length := by
    have hm : (0 : Int) ∈ Finset.Ico (0 : Int) 256 := Finset.mem_Ico.mpr ⟨le_refl _, by norm_num⟩
    have hs := Finset.single_le_sum (f := fun i : Int =>
      ((createVertexBufferMultiThread sampleExternals 2 blankWorld
        [0, 1]).chunkListBuffer i).tri_list_per_chunk.length) (fun _ _ => Nat.zero_le _) hm
    have h0 := two_threads_chunk sampleExternals blankWorld 0 (le_refl _) (by norm_num)
    have h1 := sample_filled_has_triangle 0
    simp only at hs
    rw [h0] at hs
    omega
  have h2 := h.2
  omega


/-! ## Filling a chunk -/

theorem genVoxel.Fill_Chunk_zero_voxel (c : Chunk)
    (hc : ∀ v : Int, 0 ≤ v → v < 4096 → c.voxel v = 0) (v : Int) (h0 : 0 ≤ v) (h1 : v < 4096) :
    (genVoxel.Fill_Chunk c).voxel v = 1 ↔
      ∃ x y z : Int, (1 ≤ x ∧ x ≤ 14) ∧ (1 ≤ y ∧ y ≤ 14) ∧ (1 ≤ z ∧ z ≤ 14) ∧
        x + y * 16 + z * 256 = v := by
  obtain ⟨a1, a0⟩ := genVoxel.Fill_Chunk_voxel c v
  constructor
  · intro h
    by_contra hn
    have hz := a0 (by
      rintro ⟨x, hx, y, hy, z, hz, e⟩
      have hx' := (intFor_mem _ _ _).mp hx
      have hy' := (intFor_mem _ _ _).mp hy
      have hz' := (intFor_mem _ _ _).mp hz
      exact hn ⟨x, y, z, by omega, by omega, by omega, by omega⟩)
    rw [hz, hc v h0 h1] at h
    exact absurd h (by decide)
  · rintro ⟨x, y, z, hx, hy, hz, e⟩
    exact a1 ⟨x, (intFor_mem _ _ _).mpr (by omega), y, (intFor_mem _ _ _).mpr (by omega), z,
      (intFor_mem _ _ _).mpr (by omega), by omega⟩

theorem genVoxel.Fill_Chunk_zero_value (c : Chunk)
    (hc : ∀ v : Int, 0 ≤ v → v < 4096 → c.voxel v = 0) (v : Int) (h0 : 0 ≤ v) (h1 : v < 4096) :
    (genVoxel.Fill_Chunk c).voxel v = 1 ∨ (genVoxel.Fill_Chunk c).voxel v = 0 := by
  obtain ⟨a1, a0⟩ := genVoxel.Fill_Chunk_voxel c v
  by_cases h : ∃ x ∈ intFor 1 15, ∃ y ∈ intFor 1 15, ∃ z ∈ intFor 1 15, z * 256 + y * 16 + x = v
  · exact Or.inl (a1 h)
  · right
    rw [a0 h]
    exact hc v h0 h1

theorem filled_card :
    ((Finset.Ico (1 : Int) 15 ×ˢ Finset.Ico (1 : Int) 15 ×ˢ Finset.Ico (1 : Int) 15).image
      (fun p : Int × Int × Int => p.1 + p.2.1 * 16 + p.2.2 * 256)).card = 2744 := by
  rw [Finset.card_image_of_injOn]
  · simp only [Finset.card_product, Int.card_Ico]
    rfl
  · intro p hp q hq h
    simp only [Finset.coe_product, Finset.coe_Ico, Set.mem_prod, Set.mem_Ico] at hp hq
    simp only at h
    obtain ⟨p1, p2, p3⟩ := p
    obtain ⟨q1, q2, q3⟩ := q
    simp only at hp hq h
    have e1 : p1 = q1 := by omega
    have e2 : p2 = q2 := by omega
    have e3 : p3 = q3 := by omega
    rw [e1, e2, e3]

/-- C11: for a chunk whose voxel array is all zero, after `Fill_Chunk` the voxel
at local `(x, y, z)`, stored at index `x + y*16 + z*256`, is `1` exactly when
`1 ≤ x, y, z ≤ 14` and `0` otherwise (so the 1-voxel border stays `0`), and
exactly `14³ = 2744` voxels of the array are present. -/
theorem Fill_Chunk_interior (c : Chunk)
    (hc : ∀ v : Int, 0 ≤ v → v < 4096 → c.voxel v = 0) :
    (∀ x y z : Int, (0 ≤ x ∧ x < CHUNK_DIMENSION) → (0 ≤ y ∧ y < CHUNK_DIMENSION) →
      (0 ≤ z ∧ z < CHUNK_DIMENSION) →
      ((genVoxel.Fill_Chunk c).voxel (x + y * 16 + z * 256) = 1 ↔
        ((1 ≤ x ∧ x ≤ 14) ∧ (1 ≤ y ∧ y ≤ 14) ∧ (1 ≤ z ∧ z ≤ 14))) ∧
      ((x = 0 ∨ x = 15 ∨ y = 0 ∨ y = 15 ∨ z = 0 ∨ z = 15) →
        (genVoxel.Fill_Chunk c).voxel (x + y * 16 + z * 256) = 0)) ∧
    ((Finset.Ico (0 : Int) 4096).filter
      (fun v => (genVoxel.Fill_Chunk c).voxel v &&& 1 ≠ 0)).card = 2744 := by
  have hcd : CHUNK_DIMENSION = 16 := rfl
  have key : ∀ x y z : Int, (0 ≤ x ∧ x < 16) → (0 ≤ y ∧ y < 16) → (0 ≤ z ∧ z < 16) →
      ((genVoxel.Fill_Chunk c).voxel (x + y * 16 + z * 256) = 1 ↔
        ((1 ≤ x ∧ x ≤ 14) ∧ (1 ≤ y ∧ y ≤ 14) ∧ (1 ≤ z ∧ z ≤ 14))) := by
    intro x y z hx hy hz
    rw [genVoxel.Fill_Chunk_zero_voxel c hc _ (by omega) (by omega)]
    constructor
    · rintro ⟨x', y', z', hx', hy', hz', e⟩
      have e1 : x' = x := by omega
      have e2 : y' = y := by omega
      have e3 : z' = z := by omega
      subst e1 e2 e3
      exact ⟨hx', hy', hz'⟩
    · rintro ⟨hx', hy', hz'⟩
      exact ⟨x, y, z, hx', hy', hz', rfl⟩
  constructor
  · intro x y z hx hy hz
    rw [hcd] at hx hy hz
    refine ⟨key x y z hx hy hz, ?_⟩
    intro hb
    rcases genVoxel.Fill_Chunk_zero_value c hc (x + y * 16 + z * 256) (by omega) (by omega)
      with h | h
    · have := (key x y z hx hy hz).mp h
      omega
    · exact h
  · have hset : (Finset.Ico (0 : Int) 4096).filter
        (fun v => (genVoxel.Fill_Chunk c).voxel v &&& 1 ≠ 0)
        = (Finset.Ico (1 : Int) 15 ×ˢ Finset.Ico (1 : Int) 15 ×ˢ Finset.Ico (1 : Int) 15).image
          (fun p : Int × Int × Int => p.1 + p.2.1 * 16 + p.2.2 * 256) := by
      ext v
      simp only [Finset.mem_filter, Finset.mem_Ico, Finset.mem_image, Finset.mem_product,
        Prod.exists]
      constructor
      · rintro ⟨⟨h0, h1⟩, hbit⟩
        have h1v : (genVoxel.Fill_Chunk c).voxel v = 1 := by
          rcases genVoxel.Fill_Chunk_zero_value c hc v h0 h1 with h | h
          · exact h
          · rw [h] at hbit
            exact absurd rfl hbit
        obtain ⟨x, y, z, hx, hy, hz, e⟩ := (genVoxel.Fill_Chunk_zero_voxel c hc v h0 h1).mp h1v
        exact ⟨x, y, z, ⟨by omega, by omega, by omega⟩, e⟩
      · rintro ⟨x, y, z, ⟨hx, hy, hz⟩, e⟩
        have h0 : 0 ≤ v := by omega
        have h1 : v < 4096 := by omega
        refine ⟨⟨h0, h1⟩, ?_⟩
        rw [(genVoxel.Fill_Chunk_zero_voxel c hc v h0 h1).mpr
          ⟨x, y, z, by omega, by omega, by omega, e⟩]
        decide
    rw [hset]
    exact filled_card

theorem Fill_Chunk_interior_witness :
    (∀ v : Int, 0 ≤ v → v < 4096 → newChunk.voxel v = 0) ∧
    ((∀ x y z : Int, (0 ≤ x ∧ x < CHUNK_DIMENSION) → (0 ≤ y ∧ y < CHUNK_DIMENSION) →
      (0 ≤ z ∧ z < CHUNK_DIMENSION) →
      ((genVoxel.Fill_Chunk newChunk).voxel (x + y * 16 + z * 256) = 1 ↔
        ((1 ≤ x ∧ x ≤ 14) ∧ (1 ≤ y ∧ y ≤ 14) ∧ (1 ≤ z ∧ z ≤ 14))) ∧
      ((x = 0 ∨ x = 15 ∨ y = 0 ∨ y = 15 ∨ z = 0 ∨ z = 15) →
        (genVoxel.Fill_Chunk newChunk).voxel (x + y * 16 + z * 256) = 0)) ∧
    ((Finset.Ico (0 : Int) 4096).filter
      (fun v => (genVoxel.Fill_Chunk newChunk).voxel v &&& 1 ≠ 0)).card = 2744) :=
  ⟨fun _ _ _ => rfl, Fill_Chunk_interior newChunk (fun _ _ _ => rfl)⟩

/-! ## Cell building stays inside the voxel array -/

theorem cellOffsets_cases (i : Int) (h0 : 0 ≤ i) (h1 : i < 8) :
    ∃ a b c : Int, cellOffsets i = Vec3.ofInts a b c ∧ (0 ≤ a ∧ a ≤ 1) ∧ (0 ≤ b ∧ b ≤ 1) ∧
      (0 ≤ c ∧ c ≤ 1) := by
  have hi : i = 0 ∨ i = 1 ∨ i = 2 ∨ i = 3 ∨ i = 4 ∨ i = 5 ∨ i = 6 ∨ i = 7 := by omega
  rcases hi with h | h | h | h | h | h | h | h <;> subst h
  · exact ⟨0, 0, 0, rfl, by omega, by omega, by omega⟩
  · exact ⟨0, 1, 0, rfl, by omega, by omega, by omega⟩
  · exact ⟨1, 1, 0, rfl, by omega, by omega, by omega⟩
  · exact ⟨1, 0, 0, rfl, by omega, by omega, by omega⟩
  · exact ⟨0, 0, 1, rfl, by omega, by omega, by omega⟩
  · exact ⟨0, 1, 1, rfl, by omega, by omega, by omega⟩
  · exact ⟨1, 1, 1, rfl, by omega, by omega, by omega⟩
  · exact ⟨1, 0, 1, rfl, by omega, by omega, by omega⟩

/-- C12: every voxel index `populate_chunk` computes,
`return_index((x, y, z) + cellOffsets[i])` for `x, y, z` in its loop range
`0 .. CHUNK_DIMENSION - 2` and `i` in `0 .. 7`, lies in `[0, 4096)`. -/
theorem populate_chunk_reads_in_bounds (x y z i : Int)
    (hx : x ∈ intFor 0 (CHUNK_DIMENSION - 1)) (hy : y ∈ intFor 0 (CHUNK_DIMENSION - 1))
    (hz : z ∈ intFor 0 (CHUNK_DIMENSION - 1)) (hi : i ∈ intFor 0 8) :
    (0 ≤ x ∧ x ≤ CHUNK_DIMENSION - 2) ∧ (0 ≤ y ∧ y ≤ CHUNK_DIMENSION - 2) ∧
    (0 ≤ z ∧ z ≤ CHUNK_DIMENSION - 2) ∧ (0 ≤ i ∧ i < 8) ∧
    0 ≤ genVoxel.return_index ((Vec3.ofInts x y z).add (cellOffsets i)) ∧
    genVoxel.return_index ((Vec3.ofInts x y z).add (cellOffsets i))
      < CHUNK_DIMENSION * CHUNK_DIMENSION * CHUNK_DIMENSION := by
  have hcd : CHUNK_DIMENSION = 16 := rfl
  rw [hcd] at hx hy hz ⊢
  have hx' := (intFor_mem _ _ _).mp hx
  have hy' := (intFor_mem _ _ _).mp hy
  have hz' := (intFor_mem _ _ _).mp hz
  have hi' := (intFor_mem _ _ _).mp hi
  obtain ⟨a, b, c, e, ha, hb, hc⟩ := cellOffsets_cases i hi'.1 hi'.2
  rw [e, genVoxel.return_index_add_ofInts]
  refine ⟨by omega, by omega, by omega, hi', by omega, by omega⟩

theorem populate_chunk_reads_in_bounds_witness :
    (14 : Int) ∈ intFor 0 (CHUNK_DIMENSION - 1) ∧ (14 : Int) ∈ intFor 0 (CHUNK_DIMENSION - 1) ∧
    (14 : Int) ∈ intFor 0 (CHUNK_DIMENSION - 1) ∧ (6 : Int) ∈ intFor 0 8 ∧
    ((0 ≤ (14 : Int) ∧ (14 : Int) ≤ CHUNK_DIMENSION - 2) ∧
    (0 ≤ (14 : Int) ∧ (14 : Int) ≤ CHUNK_DIMENSION - 2) ∧
    (0 ≤ (14 : Int) ∧ (14 : Int) ≤ CHUNK_DIMENSION - 2) ∧ (0 ≤ (6 : Int) ∧ (6 : Int) < 8) ∧
    0 ≤ genVoxel.return_index ((Vec3.ofInts 14 14 14).add (cellOffsets 6)) ∧
    genVoxel.return_index ((Vec3.ofInts 14 14 14).add (cellOffsets 6))
      < CHUNK_DIMENSION * CHUNK_DIMENSION * CHUNK_DIMENSION) :=
  have h14 : (14 : Int) ∈ intFor 0 (CHUNK_DIMENSION - 1) :=
    (intFor_mem _ _ _).mpr ⟨by decide, by decide⟩
  have h6 : (6 : Int) ∈ intFor 0 8 := (intFor_mem _ _ _).mpr ⟨by decide, by decide⟩
  ⟨h14, h14, h14, h6, populate_chunk_reads_in_bounds 14 14 14 6 h14 h14 h14 h6⟩

/-! ## Remeshing touches only damaged chunks -/

/-- C17: `polygonizeVoxelsChunks(D)` leaves cells, triangles, vertices and count
of every chunk outside `D` unchanged, leaves every voxel array unchanged, and
rebuilds every chunk of `D` from its voxels; it makes one `polygonizeVoxels`
call per element of `D`, and every index of the set `D` is listed once. -/
theorem polygonizeVoxelsChunks_frame (E : Externals) (W : World) (D : List Int)
    (hD : D.Nodup) :
    (∀ j : Int, j ∉ D →
      ((polygonizeVoxelsChunks E W D).chunkListBuffer j).grid_of_cells_per_chunk
        = (W.chunkListBuffer j).grid_of_cells_per_chunk ∧
      ((polygonizeVoxelsChunks E W D).chunkListBuffer j).tri_list_per_chunk
        = (W.chunkListBuffer j).tri_list_per_chunk ∧
      ((polygonizeVoxelsChunks E W D).chunkListBuffer j).vertexBuffer_per_chunk
        = (W.chunkListBuffer j).vertexBuffer_per_chunk ∧
      ((polygonizeVoxelsChunks E W D).chunkListBuffer j).count = (W.chunkListBuffer j).count) ∧
    (∀ j : Int, ((polygonizeVoxelsChunks E W D).chunkListBuffer j).voxel
      = (W.chunkListBuffer j).voxel) ∧
    (∀ j : Int, j ∈ D →
      (polygonizeVoxelsChunks E W D).chunkListBuffer j = rebuilt E (W.chunkListBuffer j) j ∧
      D.count j = 1) ∧
    polygonizeVoxelsChunks E W D = D.foldl (fun W number => polygonizeVoxels E W number) W := by
  refine ⟨?_, ?_, ?_, rfl⟩
  · intro j hj
    rw [polygonizeVoxelsChunks_chunk, if_neg hj]
    exact ⟨rfl, rfl, rfl, rfl⟩
  · intro j
    rw [polygonizeVoxelsChunks_chunk]
    by_cases hj : j ∈ D
    · rw [if_pos hj, rebuilt_voxel]
    · rw [if_neg hj]
  · intro j hj
    rw [polygonizeVoxelsChunks_chunk, if_pos hj]
    exact ⟨rfl, List.count_eq_one_of_mem hD hj⟩

theorem polygonizeVoxelsChunks_frame_witness :
    [(0 : Int), 64, 72, 8].Nodup ∧
    ((∀ j : Int, j ∉ [(0 : Int), 64, 72, 8] →
      ((polygonizeVoxelsChunks sampleExternals sampleWorld
          [0, 64, 72, 8]).chunkListBuffer j).grid_of_cells_per_chunk
        = (sampleWorld.chunkListBuffer j).grid_of_cells_per_chunk ∧
      ((polygonizeVoxelsChunks sampleExternals sampleWorld
          [0, 64, 72, 8]).chunkListBuffer j).tri_list_per_chunk
        = (sampleWorld.chunkListBuffer j).tri_list_per_chunk ∧
      ((polygonizeVoxelsChunks sampleExternals sampleWorld
          [0, 64, 72, 8]).chunkListBuffer j).vertexBuffer_per_chunk
        = (sampleWorld.chunkListBuffer j).vertexBuffer_per_chunk ∧
      ((polygonizeVoxelsChunks sampleExternals sampleWorld [0, 64, 72, 8]).chunkListBuffer j).count
        = (sampleWorld.chunkListBuffer j).count) ∧
    (∀ j : Int, ((polygonizeVoxelsChunks sampleExternals sampleWorld
        [0, 64, 72, 8]).chunkListBuffer j).voxel = (sampleWorld.chunkListBuffer j).voxel) ∧
    (∀ j : Int, j ∈ [(0 : Int), 64, 72, 8] →
      (polygonizeVoxelsChunks sampleExternals sampleWorld [0, 64, 72, 8]).chunkListBuffer j
        = rebuilt sampleExternals (sampleWorld.chunkListBuffer j) j ∧
      [(0 : Int), 64, 72, 8].count j = 1) ∧
    polygonizeVoxelsChunks sampleExternals sampleWorld [0, 64, 72, 8]
      = [(0 : Int), 64, 72, 8].foldl
          (fun W number => polygonizeVoxels sampleExternals W number) sampleWorld) :=
  ⟨by decide, polygonizeVoxelsChunks_frame sampleExternals sampleWorld [0, 64, 72, 8] (by decide)⟩

/-! ## Work partition of the initial build -/

theorem CHUNK_COUNT_toNat : CHUNK_COUNT.toNat = 512 := by decide

theorem threadSlice_mem (numThreads threadID : Nat) (i : Int) :
    i ∈ threadSlice numThreads threadID ↔
      ((512 / numThreads * threadID : Nat) : Int) ≤ i ∧
      i < ((512 / numThreads * (threadID + 1) : Nat) : Int) := by
  unfold threadSlice
  rw [CHUNK_COUNT_toNat, intFor_mem]

theorem threadSlice_length (numThreads threadID : Nat) :
    (threadSlice numThreads threadID).length = 512 / numThreads := by
  unfold threadSlice
  rw [CHUNK_COUNT_toNat, intFor_length]
  have h : ((512 / numThreads * (threadID + 1) : Nat) : Int) - ((512 / numThreads * threadID : Nat) : Int)
      = ((512 / numThreads : Nat) : Int) := by
    push_cast
    ring
  rw [h, Int.toNat_ofNat]

theorem threadSlice_partition (k : Nat) (hk : k ≤ 9) (i : Int) (h0 : 0 ≤ i) (h1 : i < 512) :
    ∃ t : Nat, (t < 2 ^ k ∧ i ∈ threadSlice (2 ^ k) t) ∧
      ∀ t' : Nat, (t' < 2 ^ k ∧ i ∈ threadSlice (2 ^ k) t') → t' = t := by
  have hk' : k = 0 ∨ k = 1 ∨ k = 2 ∨ k = 3 ∨ k = 4 ∨ k = 5 ∨ k = 6 ∨ k = 7 ∨ k = 8 ∨ k = 9 := by
    omega
  rcases hk' with h | h | h | h | h | h | h | h | h | h <;> subst h
  · refine ⟨(i / 512).toNat, ⟨by norm_num; omega, (threadSlice_mem _ _ _).mpr (by norm_num; omega)⟩, ?_⟩
    rintro t' ⟨_, hm⟩
    have := (threadSlice_mem _ _ _).mp hm
    norm_num at this
    omega
  · refine ⟨(i / 256).toNat, ⟨by norm_num; omega, (threadSlice_mem _ _ _).mpr (by norm_num; omega)⟩, ?_⟩
    rintro t' ⟨_, hm⟩
    have := (threadSlice_mem _ _ _).mp hm
    norm_num at this
    omega
  · refine ⟨(i / 128).toNat, ⟨by norm_num; omega, (threadSlice_mem _ _ _).mpr (by norm_num; omega)⟩, ?_⟩
    rintro t' ⟨_, hm⟩
    have := (threadSlice_mem _ _ _).mp hm
    norm_num at this
    omega
  · refine ⟨(i / 64).toNat, ⟨by norm_num; omega, (threadSlice_mem _ _ _).mpr (by norm_num; omega)⟩, ?_⟩
    rintro t' ⟨_, hm⟩
    have := (threadSlice_mem _ _ _).mp hm
    norm_num at this
    omega
  · refine ⟨(i / 32).toNat, ⟨by norm_num; omega, (threadSlice_mem _ _ _).mpr (by norm_num; omega)⟩, ?_⟩
    rintro t' ⟨_, hm⟩
    have := (threadSlice_mem _ _ _).mp hm
    norm_num at this
    omega
  · refine ⟨(i / 16).toNat, ⟨by norm_num; omega, (threadSlice_mem _ _ _).mpr (by norm_num; omega)⟩, ?_⟩
    rintro t' ⟨_, hm⟩
    have := (threadSlice_mem _ _ _).mp hm
    norm_num at this
    omega
  · refine ⟨(i / 8).toNat, ⟨by norm_num; omega, (threadSlice_mem _ _ _).mpr (by norm_num; omega)⟩, ?_⟩
    rintro t' ⟨_, hm⟩
    have := (threadSlice_mem _ _ _).mp hm
    norm_num at this
    omega
  · refine ⟨(i / 4).toNat, ⟨by norm_num; omega, (threadSlice_mem _ _ _).mpr (by norm_num; omega)⟩, ?_⟩
    rintro t' ⟨_, hm⟩
    have := (threadSlice_mem _ _ _).mp hm
    norm_num at this
    omega
  · refine ⟨(i / 2).toNat, ⟨by norm_num; omega, (threadSlice_mem _ _ _).mpr (by norm_num; omega)⟩, ?_⟩
    rintro t' ⟨_, hm⟩
    have := (threadSlice_mem _ _ _).mp hm
    norm_num at this
    omega
  · refine ⟨i.toNat, ⟨by norm_num; omega, (threadSlice_mem _ _ _).mpr (by norm_num; omega)⟩, ?_⟩
    rintro t' ⟨_, hm⟩
    have := (threadSlice_mem _ _ _).mp hm
    norm_num at this
    omega

theorem threadSlice_within (k : Nat) (hk : k ≤ 9) (t : Nat) (ht : t < 2 ^ k) (i : Int)
    (hi : i ∈ threadSlice (2 ^ k) t) : 0 ≤ i ∧ i < 512 := by
  have hm := (threadSlice_mem _ _ _).mp hi
  have hk' : k = 0 ∨ k = 1 ∨ k = 2 ∨ k = 3 ∨ k = 4 ∨ k = 5 ∨ k = 6 ∨ k = 7 ∨ k = 8 ∨ k = 9 := by
    omega
  rcases hk' with h | h | h | h | h | h | h | h | h | h <;> subst h <;> norm_num at hm ht <;> omega

theorem threadSlice_overflow (t : Nat) : threadSlice 1024 t = [] := by
  apply List.eq_nil_iff_forall_not_mem.mpr
  intro i hi
  have hm := (threadSlice_mem _ _ _).mp hi
  norm_num at hm
  omega

theorem slotLoop_nil_world (f : Int → Chunk → Chunk) (g : Int → Chunk → Nat → Nat) (W : World) :
    (slotLoop f g [] W).chunkListBuffer = W.chunkListBuffer := by
  rw [slotLoop_nil]

/-- C18: for the power-of-two thread counts `N = 2^k ≤ 512` the slices
`[(512 / N) * t, (512 / N) * (t + 1))`, `t < N`, are contiguous, of the same size
`512 / N`, lie in `[0, 512)`, and every chunk index of `[0, 512)` is in the
slice of exactly one worker. For `N = 1024` every slice is empty: no worker
allocates or builds any chunk. -/
theorem threadSlice_partition_up_to_chunk_count :
    (∀ k : Nat, k ≤ 9 →
      (∀ t : Nat, ∀ i : Int, i ∈ threadSlice (2 ^ k) t ↔
        ((512 / 2 ^ k * t : Nat) : Int) ≤ i ∧ i < ((512 / 2 ^ k * (t + 1) : Nat) : Int)) ∧
      (∀ t : Nat, (threadSlice (2 ^ k) t).length = 512 / 2 ^ k) ∧
      (∀ t : Nat, t < 2 ^ k → ∀ i ∈ threadSlice (2 ^ k) t, 0 ≤ i ∧ i < CHUNK_COUNT) ∧
      (∀ i : Int, 0 ≤ i → i < CHUNK_COUNT →
        ∃ t : Nat, (t < 2 ^ k ∧ i ∈ threadSlice (2 ^ k) t) ∧
          ∀ t' : Nat, (t' < 2 ^ k ∧ i ∈ threadSlice (2 ^ k) t') → t' = t)) ∧
    (∀ t : Nat, threadSlice 1024 t = []) ∧
    (∀ (E : Externals) (W : World) (t : Nat) (i : Int),
      (polygonizeVoxelsInitMultiThread E 1024 W t).chunkListBuffer i = W.chunkListBuffer i) := by
  refine ⟨?_, threadSlice_overflow, ?_⟩
  · intro k hk
    refine ⟨fun t i => threadSlice_mem _ t i, fun t => threadSlice_length _ t, ?_, ?_⟩
    · intro t ht i hi
      rw [CHUNK_COUNT_eq]
      exact threadSlice_within k hk t ht i hi
    · intro i h0 h1
      rw [CHUNK_COUNT_eq] at h1
      exact threadSlice_partition k hk i h0 h1
  · intro E W t i
    rw [polygonizeVoxelsInitMultiThread_chunk, if_neg]
    rw [threadSlice_overflow]
    exact List.not_mem_nil i

/-! ## Vertex list of a triangle list -/

theorem gen_vertex_buffers_eq (E : Externals) (tri_list : List MarchingCube.TRIANGLE)
    (vertexBuffer : List Vertex) :
    gen_vertex_buffers E tri_list vertexBuffer
      = vertexBuffer ++ tri_list.flatMap (triangleVertices E) := by
  unfold gen_vertex_buffers
  exact foldl_append_flatMap (triangleVertices E) tri_list vertexBuffer

theorem flatMap_triangleVertices_get (E : Externals) (T : List MarchingCube.TRIANGLE) (k : Nat)
    (t : MarchingCube.TRIANGLE) (h : T[k]? = some t) :
    (T.flatMap (triangleVertices E))[3 * k]? = (triangleVertices E t)[0]? ∧
    (T.flatMap (triangleVertices E))[3 * k + 1]? = (triangleVertices E t)[1]? ∧
    (T.flatMap (triangleVertices E))[3 * k + 2]? = (triangleVertices E t)[2]? := by
  induction T generalizing k with
  | nil => simp at h
  | cons a T ih =>
    rw [List.flatMap_cons]
    cases k with
    | zero =>
      simp only [List.getElem?_cons_zero, Option.some.injEq] at h
      subst h
      have hl : (triangleVertices E a).length = 3 := rfl
      refine ⟨?_, ?_, ?_⟩
      · exact List.getElem?_append_left (by omega)
      · exact List.getElem?_append_left (by omega)
      · exact List.getElem?_append_left (by omega)
    | succ k =>
      simp only [List.getElem?_cons_succ] at h
      obtain ⟨h0, h1, h2⟩ := ih k h
      have e0 : 3 * (k + 1) = 3 * k + 3 := by ring
      have e1 : 3 * (k + 1) + 1 = (3 * k + 1) + 3 := by ring
      have e2 : 3 * (k + 1) + 2 = (3 * k + 2) + 3 := by ring
      have hl : (triangleVertices E a).length = 3 := rfl
      refine ⟨?_, ?_, ?_⟩
      · rw [e0, List.getElem?_append_right (by omega), hl, Nat.add_sub_cancel]
        exact h0
      · rw [e1, List.getElem?_append_right (by omega), hl, Nat.add_sub_cancel]
        exact h1
      · rw [e2, List.getElem?_append_right (by omega), hl, Nat.add_sub_cancel]
        exact h2

/-- C19: `gen_vertex_buffers(T, out)` appends exactly `3 * |T|` vertices; for
each `k` the appended vertices at offsets `3k`, `3k+1`, `3k+2` carry the
positions `T[k].p[0]`, `T[k].p[1]`, `T[k].p[2]` in that order and all three the
normal `normalize(cross(B - A, C - A))` and the tangent `normalize(C - B)` of
that triangle (`normalize` being the library function). -/
theorem gen_vertex_buffers_layout (E : Externals) (T : List MarchingCube.TRIANGLE)
    (out : List Vertex) :
    ∃ l : List Vertex, gen_vertex_buffers E T out = out ++ l ∧ l.length = 3 * T.length ∧
      ∀ (k : Nat) (t : MarchingCube.TRIANGLE), T[k]? = some t →
        l[3 * k]? = some ⟨t.p0, E.normalize (Vec3.cross (t.p1.sub t.p0) (t.p2.sub t.p0)), E.uv,
          E.normalize (t.p2.sub t.p1)⟩ ∧
        l[3 * k + 1]? = some ⟨t.p1, E.normalize (Vec3.cross (t.p1.sub t.p0) (t.p2.sub t.p0)),
          E.uv, E.normalize (t.p2.sub t.p1)⟩ ∧
        l[3 * k + 2]? = some ⟨t.p2, E.normalize (Vec3.cross (t.p1.sub t.p0) (t.p2.sub t.p0)),
          E.uv, E.normalize (t.p2.sub t.p1)⟩ := by
  refine ⟨T.flatMap (triangleVertices E), gen_vertex_buffers_eq E T out, ?_, ?_⟩
  · rw [flatMap_length_const (triangleVertices E) 3 T (fun _ _ => rfl)]
    ring
  · intro k t h
    obtain ⟨h0, h1, h2⟩ := flatMap_triangleVertices_get E T k t h
    exact ⟨h0, h1, h2⟩

/-! ## Degenerate cells -/

theorem MarchingCube.edgeCrossed_zero (e : Nat) : MarchingCube.edgeCrossed 0 e = false := by
  unfold MarchingCube.edgeCrossed
  simp

theorem MarchingCube.edgeCrossed_full (e : Nat) : MarchingCube.edgeCrossed 255 e = false := by
  unfold MarchingCube.edgeCrossed
  by_cases h : e < 12
  · have he : e = 0 ∨ e = 1 ∨ e = 2 ∨ e = 3 ∨ e = 4 ∨ e = 5 ∨ e = 6 ∨ e = 7 ∨ e = 8 ∨ e = 9
        ∨ e = 10 ∨ e = 11 := by omega
    rcases he with h | h | h | h | h | h | h | h | h | h | h | h <;> subst h <;> decide
  · simp [h]

theorem MarchingCube.VertexInterp_degenerate (cell : MarchingCube.Cell)
    (h : cell.val = 0 ∨ cell.val = 255) (e : Nat) : MarchingCube.VertexInterp cell e = none := by
  unfold MarchingCube.VertexInterp
  rcases h with h | h
  · rw [h, MarchingCube.edgeCrossed_zero]
    rfl
  · rw [h, MarchingCube.edgeCrossed_full]
    rfl

theorem MarchingCube.Polygonise_Cell_degenerate (triTable : Nat → List (Nat × Nat × Nat))
    (cell : MarchingCube.Cell) (h : cell.val = 0 ∨ cell.val = 255) :
    MarchingCube.Polygonise_Cell triTable cell = [] := by
  unfold MarchingCube.Polygonise_Cell
  have e : (triTable cell.val).filterMap (fun tri =>
      match MarchingCube.VertexInterp cell tri.1, MarchingCube.VertexInterp cell tri.2.1,
        MarchingCube.VertexInterp cell tri.2.2 with
      | some a, some b, some c => some (MarchingCube.TRIANGLE.mk a b c)
      | _, _, _ => none) = [] := by
    apply List.filterMap_eq_nil_iff.mpr
    intro tri _
    rw [MarchingCube.VertexInterp_degenerate cell h tri.1]
  rw [e]
  rfl

theorem MarchingCube.Polygonise_Cell_le (triTable : Nat → List (Nat × Nat × Nat))
    (cell : MarchingCube.Cell) : (MarchingCube.Polygonise_Cell triTable cell).length ≤ 4 := by
  unfold MarchingCube.Polygonise_Cell
  rw [List.length_take]
  exact Nat.min_le_left _ _

/-- C20: with `Polygonise_Cell` as the specification describes it, a cell whose
mask is `0x00` or `0xFF` yields no triangle and every cell yields at most 4, so
`populate_triangles_list_chunk` appends at most 4 triangles per cell and nothing
for a grid of all-air or all-solid cells. -/
theorem degenerate_cells_yield_no_triangles (triTable : Nat → List (Nat × Nat × Nat))
    (normalize : Vec3 → Vec3) (uv : ℚ × ℚ) :
    (∀ cell : MarchingCube.Cell, cell.val = 0 ∨ cell.val = 255 →
      MarchingCube.Polygonise_Cell triTable cell = []) ∧
    (∀ cell : MarchingCube.Cell, (MarchingCube.Polygonise_Cell triTable cell).length ≤ 4) ∧
    (∀ (grid : List MarchingCube.Cell) (tri_list : List MarchingCube.TRIANGLE),
      ∃ l, populate_triangles_list_chunk (specExternals triTable normalize uv) grid tri_list
          = tri_list ++ l ∧ l.length ≤ 4 * grid.length ∧
        ((∀ cell ∈ grid, cell.val = 0 ∨ cell.val = 255) → l = [])) := by
  refine ⟨fun cell h => MarchingCube.Polygonise_Cell_degenerate triTable cell h,
    fun cell => MarchingCube.Polygonise_Cell_le triTable cell, ?_⟩
  intro grid tri_list
  refine ⟨grid.flatMap (MarchingCube.Polygonise_Cell triTable),
    populate_triangles_list_chunk_eq _ grid tri_list, ?_, ?_⟩
  · have := flatMap_length_le (MarchingCube.Polygonise_Cell triTable) 4 grid
      (fun cell => MarchingCube.Polygonise_Cell_le triTable cell)
    omega
  · intro h
    apply List.flatMap_eq_nil_iff.mpr
    intro cell hc
    exact MarchingCube.Polygonise_Cell_degenerate triTable cell (h cell hc)

/-! ## Sentinel checks before array accesses -/

theorem genVoxel.pos_to_voxelIndex_range (p : Vec3) (h : ¬ outOfWorld p) :
    0 ≤ genVoxel.pos_to_voxelIndex p ∧ genVoxel.pos_to_voxelIndex p < 4096 := by
  rw [genVoxel.pos_to_voxelIndex_eq]
  unfold outOfWorld at h
  simp only [not_or, not_lt, gt_iff_lt] at h
  obtain ⟨hx0, hy0, hz0, hx1, hy1, hz1⟩ := h
  have hx := voxelCoord_bounds p.x hx0 hx1
  have hy := voxelCoord_bounds p.y hy0 hy1
  have hz := voxelCoord_bounds p.z hz0 hz1
  omega

theorem genVoxel.RayCast_body_divByZero (sqrt : ℚ → ℚ) (initial_ro rd : Vec3)
    (chunk : Int → Chunk) (hit curr_ro : Vec3) (h : rd.x = 0 ∨ rd.y = 0 ∨ rd.z = 0) :
    genVoxel.RayCast_body sqrt initial_ro rd chunk hit curr_ro = genVoxel.RayStep.divByZero := by
  unfold genVoxel.RayCast_body
  rw [if_pos]
  simpa only [abs_eq_zero] using h

theorem genVoxel.RayCast_body_eq (sqrt : ℚ → ℚ) (initial_ro rd : Vec3)
    (chunk : Int → Chunk) (hit curr_ro : Vec3) (h : rd.x ≠ 0 ∧ rd.y ≠ 0 ∧ rd.z ≠ 0) :
    genVoxel.RayCast_body sqrt initial_ro rd chunk hit curr_ro =
      if genVoxel.pos_to_chunkIndex (genVoxel.RayCast_advance sqrt initial_ro rd curr_ro).2 < 0 then
        genVoxel.RayStep.ret false hit
      else if (chunk (genVoxel.pos_to_chunkIndex
            (genVoxel.RayCast_advance sqrt initial_ro rd curr_ro).2)).voxel
          (genVoxel.pos_to_voxelIndex (genVoxel.RayCast_advance sqrt initial_ro rd curr_ro).2)
          &&& 1 ≠ 0 then
        genVoxel.RayStep.ret true (genVoxel.RayCast_advance sqrt initial_ro rd curr_ro).2
      else
        genVoxel.RayStep.next (genVoxel.RayCast_advance sqrt initial_ro rd curr_ro).1
          (genVoxel.RayCast_advance sqrt initial_ro rd curr_ro).2 := by
  unfold genVoxel.RayCast_body
  rw [if_neg]
  simpa only [abs_eq_zero, not_or] using h

/-- C13: callers check the sentinel before dereferencing. In `Remove_Voxel` a
position with an invalid chunk index is skipped and every other position is
written at `chunk[chunk_index]->voxel[voxelIndex]` with
`0 ≤ chunk_index < CHUNK_COUNT` and `0 ≤ voxelIndex < 16³`; in a pass of the
`RayCast` loop (direction components nonzero) an invalid chunk index makes the
pass return false whatever the chunks hold, and otherwise the pass depends on
the chunks only through the byte `chunk[chunk_index]->voxel[voxelIndex]`, whose
two indices are in range. -/
theorem sentinel_checked_before_access :
    (∀ (st : (Int → Chunk) × List Int) (voxelPos : Vec3),
      (genVoxel.pos_to_chunkIndex voxelPos < 0 →
        genVoxel.Remove_Voxel_body st voxelPos = st) ∧
      (¬ genVoxel.pos_to_chunkIndex voxelPos < 0 →
        (0 ≤ genVoxel.pos_to_chunkIndex voxelPos ∧
          genVoxel.pos_to_chunkIndex voxelPos < CHUNK_COUNT) ∧
        (0 ≤ genVoxel.pos_to_voxelIndex voxelPos ∧
          genVoxel.pos_to_voxelIndex voxelPos
            < CHUNK_DIMENSION * CHUNK_DIMENSION * CHUNK_DIMENSION) ∧
        genVoxel.Remove_Voxel_body st voxelPos =
          (Function.update st.1 (genVoxel.pos_to_chunkIndex voxelPos)
            { st.1 (genVoxel.pos_to_chunkIndex voxelPos) with
              voxel := Function.update (st.1 (genVoxel.pos_to_chunkIndex voxelPos)).voxel
                (genVoxel.pos_to_voxelIndex voxelPos) 0 },
           List.insert (genVoxel.pos_to_chunkIndex voxelPos) st.2))) ∧
    (∀ (sqrt : ℚ → ℚ) (initial_ro rd : Vec3) (chunk : Int → Chunk) (hit curr_ro : Vec3),
      rd.x ≠ 0 ∧ rd.y ≠ 0 ∧ rd.z ≠ 0 →
      (genVoxel.pos_to_chunkIndex (genVoxel.RayCast_advance sqrt initial_ro rd curr_ro).2 < 0 →
        ∀ chunk' : Int → Chunk,
          genVoxel.RayCast_body sqrt initial_ro rd chunk' hit curr_ro
            = genVoxel.RayStep.ret false hit) ∧
      (¬ genVoxel.pos_to_chunkIndex (genVoxel.RayCast_advance sqrt initial_ro rd curr_ro).2 < 0 →
        (0 ≤ genVoxel.pos_to_chunkIndex (genVoxel.RayCast_advance sqrt initial_ro rd curr_ro).2 ∧
          genVoxel.pos_to_chunkIndex (genVoxel.RayCast_advance sqrt initial_ro rd curr_ro).2
            < CHUNK_COUNT) ∧
        (0 ≤ genVoxel.pos_to_voxelIndex (genVoxel.RayCast_advance sqrt initial_ro rd curr_ro).2 ∧
          genVoxel.pos_to_voxelIndex (genVoxel.RayCast_advance sqrt initial_ro rd curr_ro).2
            < CHUNK_DIMENSION * CHUNK_DIMENSION * CHUNK_DIMENSION) ∧
        ∀ chunk' : Int → Chunk,
          (chunk' (genVoxel.pos_to_chunkIndex
              (genVoxel.RayCast_advance sqrt initial_ro rd curr_ro).2)).voxel
            (genVoxel.pos_to_voxelIndex (genVoxel.RayCast_advance sqrt initial_ro rd curr_ro).2)
          = (chunk (genVoxel.pos_to_chunkIndex
              (genVoxel.RayCast_advance sqrt initial_ro rd curr_ro).2)).voxel
            (genVoxel.pos_to_voxelIndex (genVoxel.RayCast_advance sqrt initial_ro rd curr_ro).2) →
          genVoxel.RayCast_body sqrt initial_ro rd chunk' hit curr_ro
            = genVoxel.RayCast_body sqrt initial_ro rd chunk hit curr_ro)) := by
  have hcube : CHUNK_DIMENSION * CHUNK_DIMENSION * CHUNK_DIMENSION = 4096 := by decide
  have hrange : ∀ p : Vec3, ¬ genVoxel.pos_to_chunkIndex p < 0 →
      (0 ≤ genVoxel.pos_to_chunkIndex p ∧ genVoxel.pos_to_chunkIndex p < CHUNK_COUNT) ∧
      (0 ≤ genVoxel.pos_to_voxelIndex p ∧ genVoxel.pos_to_voxelIndex p
        < CHUNK_DIMENSION * CHUNK_DIMENSION * CHUNK_DIMENSION) := by
    intro p hp
    have hin : ¬ outOfWorld p :=
      (genVoxel.pos_to_chunkIndex_nonneg_iff p).mp (by omega)
    rw [hcube, CHUNK_COUNT_eq]
    exact ⟨genVoxel.pos_to_chunkIndex_range p hin, genVoxel.pos_to_voxelIndex_range p hin⟩
  constructor
  · intro st voxelPos
    constructor
    · intro h
      unfold genVoxel.Remove_Voxel_body
      simp only [h, if_true]
    · intro h
      refine ⟨(hrange voxelPos h).1, (hrange voxelPos h).2, ?_⟩
      unfold genVoxel.Remove_Voxel_body
      simp only [h, if_false]
  · intro sqrt initial_ro rd chunk hit curr_ro hrd
    constructor
    · intro h chunk'
      rw [genVoxel.RayCast_body_eq _ _ _ _ _ _ hrd, if_pos h]
    · intro h
      refine ⟨(hrange _ h).1, (hrange _ h).2, ?_⟩
      intro chunk' hsame
      rw [genVoxel.RayCast_body_eq _ _ _ _ _ _ hrd, genVoxel.RayCast_body_eq _ _ _ _ _ _ hrd,
        if_neg h, if_neg h, hsame]

/-! ## Ray caster: soundness of a hit -/

theorem Vec3.add_smul_zero (a d : Vec3) : a.add (d.smul 0) = a := by
  unfold Vec3.add Vec3.smul
  simp

theorem advance_offset_dot (initial_ro rd : Vec3) (s a : ℚ) :
    Vec3.dot (((initial_ro.add (rd.smul s)).add (rd.sdiv a)).sub initial_ro)
        (((initial_ro.add (rd.smul s)).add (rd.sdiv a)).sub initial_ro)
      = ((s + 1 / a) * (s + 1 / a)) * Vec3.dot rd rd := by
  unfold Vec3.dot Vec3.sub Vec3.add Vec3.smul Vec3.sdiv
  simp only [div_eq_mul_inv]
  ring

theorem dot_self_pos (rd : Vec3) (h : rd.x ≠ 0) : 0 < Vec3.dot rd rd := by
  unfold Vec3.dot
  have hx : 0 < rd.x * rd.x := mul_self_pos.mpr h
  have hy : 0 ≤ rd.y * rd.y := mul_self_nonneg _
  have hz : 0 ≤ rd.z * rd.z := mul_self_nonneg _
  linarith

theorem advance_dist_pos (sqrt : ℚ → ℚ) (hpos : ∀ q : ℚ, 0 < q → 0 < sqrt q)
    (initial_ro rd : Vec3) (hx : rd.x ≠ 0) (s a : ℚ) (hs : 0 ≤ s) (ha : 0 < a) :
    0 < glm_distance sqrt initial_ro ((initial_ro.add (rd.smul s)).add (rd.sdiv a)) := by
  unfold glm_distance
  apply hpos
  rw [advance_offset_dot]
  have h1 : 0 < s + 1 / a := by
    have : 0 < 1 / a := one_div_pos.mpr ha
    linarith
  exact mul_pos (mul_pos h1 h1) (dot_self_pos rd hx)

theorem genVoxel.RayCast_advance_snd (sqrt : ℚ → ℚ) (initial_ro rd curr_ro : Vec3) :
    (genVoxel.RayCast_advance sqrt initial_ro rd curr_ro).2
      = initial_ro.add (rd.smul (genVoxel.RayCast_advance sqrt initial_ro rd curr_ro).1) := rfl

theorem genVoxel.RayCast_advance_pos (sqrt : ℚ → ℚ) (hpos : ∀ q : ℚ, 0 < q → 0 < sqrt q)
    (initial_ro rd : Vec3) (hrd : rd.x ≠ 0 ∧ rd.y ≠ 0 ∧ rd.z ≠ 0) (s : ℚ) (hs : 0 ≤ s) :
    0 < (genVoxel.RayCast_advance sqrt initial_ro rd (initial_ro.add (rd.smul s))).1 := by
  have hX := advance_dist_pos sqrt hpos initial_ro rd hrd.1 s |rd.x| hs (abs_pos.mpr hrd.1)
  have hY := advance_dist_pos sqrt hpos initial_ro rd hrd.1 s |rd.y| hs (abs_pos.mpr hrd.2.1)
  have hZ := advance_dist_pos sqrt hpos initial_ro rd hrd.1 s |rd.z| hs (abs_pos.mpr hrd.2.2)
  unfold genVoxel.RayCast_advance
  simp only
  split <;> split <;> assumption

theorem genVoxel.RayCast_loop_sound (sqrt : ℚ → ℚ) (hpos : ∀ q : ℚ, 0 < q → 0 < sqrt q)
    (initial_ro rd : Vec3) (chunk : Int → Chunk) (hit0 : Vec3) (fuel : Nat) (s : ℚ)
    (curr_ro : Vec3) (hs : 0 ≤ s) (hc : curr_ro = initial_ro.add (rd.smul s)) :
    (∀ h : Vec3, genVoxel.RayCast_loop sqrt initial_ro rd chunk hit0 fuel s curr_ro
        = some (genVoxel.RayResult.returned true h) →
      0 ≤ genVoxel.pos_to_chunkIndex h ∧
      (chunk (genVoxel.pos_to_chunkIndex h)).voxel (genVoxel.pos_to_voxelIndex h) &&& 1 ≠ 0 ∧
      ∃ t : ℚ, 0 < t ∧ h = initial_ro.add (rd.smul t)) ∧
    (∀ h : Vec3, genVoxel.RayCast_loop sqrt initial_ro rd chunk hit0 fuel s curr_ro
        = some (genVoxel.RayResult.returned false h) → h = hit0) := by
  induction fuel generalizing s curr_ro with
  | zero =>
    unfold genVoxel.RayCast_loop
    constructor
    · intro h hres
      split at hres
      · exact absurd hres (by simp)
      · simp at hres
    · intro h hres
      split at hres
      · exact absurd hres (by simp)
      · simp only [Option.some.injEq, genVoxel.RayResult.returned.injEq, true_and] at hres
        exact hres.symm
  | succ n ih =>
    unfold genVoxel.RayCast_loop
    by_cases hlt : s < 200
    · simp only [hlt, if_true]
      by_cases hrd : rd.x ≠ 0 ∧ rd.y ≠ 0 ∧ rd.z ≠ 0
      · rw [genVoxel.RayCast_body_eq _ _ _ _ _ _ hrd]
        have hp := genVoxel.RayCast_advance_pos sqrt hpos initial_ro rd hrd s hs
        rw [← hc] at hp
        by_cases h1 : genVoxel.pos_to_chunkIndex
            (genVoxel.RayCast_advance sqrt initial_ro rd curr_ro).2 < 0
        · rw [if_pos h1]
          constructor
          · intro h hres
            simp at hres
          · intro h hres
            simp only [Option.some.injEq, genVoxel.RayResult.returned.injEq, true_and] at hres
            exact hres.symm
        · rw [if_neg h1]
          by_cases h2 : (chunk (genVoxel.pos_to_chunkIndex
              (genVoxel.RayCast_advance sqrt initial_ro rd curr_ro).2)).voxel
              (genVoxel.pos_to_voxelIndex (genVoxel.RayCast_advance sqrt initial_ro rd curr_ro).2)
              &&& 1 ≠ 0
          · rw [if_pos h2]
            constructor
            · intro h hres
              simp only [Option.some.injEq, genVoxel.RayResult.returned.injEq, true_and] at hres
              subst hres
              exact ⟨by omega, h2, _, hp, genVoxel.RayCast_advance_snd _ _ _ _⟩
            · intro h hres
              simp at hres
          · rw [if_neg h2]
            exact ih _ _ (le_of_lt hp) (genVoxel.RayCast_advance_snd _ _ _ _)
      · have hz : rd.x = 0 ∨ rd.y = 0 ∨ rd.z = 0 := by
          by_contra hn
          simp only [not_or] at hn
          exact hrd hn
        rw [genVoxel.RayCast_body_divByZero _ _ _ _ _ _ hz]
        constructor
        · intro h hres
          simp at hres
        · intro h hres
          simp at hres
    · simp only [hlt, if_false]
      constructor
      · intro h hres
        simp at hres
      · intro h hres
        simp only [Option.some.injEq, genVoxel.RayResult.returned.injEq, true_and] at hres
        exact hres.symm

theorem ratSqrt_pos (q : ℚ) (h : 0 < q) : 0 < ratSqrt q := by
  unfold ratSqrt
  have hn : 0 < q.num := Rat.num_pos.mpr h
  have h1 : 0 < Nat.sqrt q.num.toNat := Nat.sqrt_pos.mpr (by omega)
  have h2 : 0 < Nat.sqrt q.den := Nat.sqrt_pos.mpr q.den_pos
  have h1' : (0 : ℚ) < (Nat.sqrt q.num.toNat : ℚ) := by exact_mod_cast h1
  have h2' : (0 : ℚ) < (Nat.sqrt q.den : ℚ) := by exact_mod_cast h2
  exact div_pos h1' h2'

theorem ratSqrt_mul_self (r : ℚ) (h : 0 ≤ r) : ratSqrt (r * r) = r := by
  unfold ratSqrt
  rw [Rat.mul_self_num, Rat.mul_self_den]
  have hn : 0 ≤ r.num := Rat.num_nonneg.mpr h
  have e1 : (r.num * r.num).toNat = r.num.toNat * r.num.toNat := by
    have : r.num = (r.num.toNat : Int) := (Int.toNat_of_nonneg hn).symm
    conv_lhs => rw [this]
    rw [← Int.natCast_mul, Int.toNat_natCast]
  rw [e1, Nat.sqrt_eq, Nat.sqrt_eq]
  have e2 : ((r.num.toNat : Nat) : ℚ) = (r.num : ℚ) := by
    have : ((r.num.toNat : Int) : ℚ) = (r.num : ℚ) := by rw [Int.toNat_of_nonneg hn]
    exact_mod_cast this
  rw [e2]
  exact Rat.num_div_den r

/-! ## Ray caster: exact distances along the ray -/

theorem advance_dist_exact (sqrt : ℚ → ℚ) (hsqrt : ∀ r : ℚ, 0 ≤ r → sqrt (r * r) = r)
    (initial_ro rd : Vec3) (L : ℚ) (hL : 0 ≤ L) (hLL : L * L = Vec3.dot rd rd) (s a : ℚ)
    (hs : 0 ≤ s) (ha : 0 < a) :
    glm_distance sqrt initial_ro ((initial_ro.add (rd.smul s)).add (rd.sdiv a))
      = (s + 1 / a) * L := by
  unfold glm_distance
  rw [advance_offset_dot, ← hLL]
  have h1 : 0 ≤ s + 1 / a := by
    have : 0 < 1 / a := one_div_pos.mpr ha
    linarith
  have e : (s + 1 / a) * (s + 1 / a) * (L * L) = ((s + 1 / a) * L) * ((s + 1 / a) * L) := by ring
  rw [e]
  exact hsqrt _ (mul_nonneg h1 hL)

theorem genVoxel.RayCast_advance_exact (sqrt : ℚ → ℚ)
    (hsqrt : ∀ r : ℚ, 0 ≤ r → sqrt (r * r) = r) (initial_ro rd : Vec3)
    (hrd : rd.x ≠ 0 ∧ rd.y ≠ 0 ∧ rd.z ≠ 0) (L : ℚ) (hL : 0 ≤ L)
    (hLL : L * L = Vec3.dot rd rd) (s : ℚ) (hs : 0 ≤ s) :
    genVoxel.RayCast_advance sqrt initial_ro rd (initial_ro.add (rd.smul s))
      = (rayNext L rd s, initial_ro.add (rd.smul (rayNext L rd s))) := by
  have hX := advance_dist_exact sqrt hsqrt initial_ro rd L hL hLL s |rd.x| hs (abs_pos.mpr hrd.1)
  have hY := advance_dist_exact sqrt hsqrt initial_ro rd L hL hLL s |rd.y| hs (abs_pos.mpr hrd.2.1)
  have hZ := advance_dist_exact sqrt hsqrt initial_ro rd L hL hLL s |rd.z| hs (abs_pos.mpr hrd.2.2)
  unfold genVoxel.RayCast_advance rayNext
  simp only [hX, hY, hZ]

theorem rayNext_eq_min (L : ℚ) (rd : Vec3) (s : ℚ) :
    rayNext L rd s
      = min (min ((s + 1 / |rd.x|) * L) ((s + 1 / |rd.y|) * L)) ((s + 1 / |rd.z|) * L) := by
  unfold rayNext
  simp only
  have e : ∀ a b : ℚ, (if a > b then b else a) = min a b := by
    intro a b
    by_cases h : a > b
    · rw [if_pos h, min_eq_right (le_of_lt h)]
    · rw [if_neg h, min_eq_left (not_lt.mp h)]
  rw [e, e]

theorem abs_le_length (L x y z : ℚ) (hL : 0 ≤ L) (h : L * L = x * x + y * y + z * z) : |x| ≤ L := by
  by_contra hn
  have hlt : L < |x| := not_le.mp hn
  have h1 : L * L < |x| * |x| := mul_self_lt_mul_self hL hlt
  rw [abs_mul_abs_self] at h1
  nlinarith [mul_self_nonneg y, mul_self_nonneg z]

/-! ## Ray caster: bounded execution -/

theorem dist_ge_succ (L s a : ℚ) (hL : 1 ≤ L) (hs : 0 ≤ s) (ha : 0 < a) (hal : a ≤ L) :
    s + 1 ≤ (s + 1 / a) * L := by
  have h1 : 1 ≤ L / a := (one_le_div ha).mpr hal
  have h2 : s ≤ s * L := by nlinarith
  have e : (s + 1 / a) * L = s * L + L / a := by
    field_simp
    ring
  rw [e]
  linarith

theorem rayNext_ge_succ (L : ℚ) (rd : Vec3) (hrd : rd.x ≠ 0 ∧ rd.y ≠ 0 ∧ rd.z ≠ 0) (hL : 1 ≤ L)
    (hLL : L * L = Vec3.dot rd rd) (s : ℚ) (hs : 0 ≤ s) : s + 1 ≤ rayNext L rd s := by
  have hL0 : 0 ≤ L := by linarith
  unfold Vec3.dot at hLL
  have hx : |rd.x| ≤ L := abs_le_length L rd.x rd.y rd.z hL0 hLL
  have hy : |rd.y| ≤ L := abs_le_length L rd.y rd.x rd.z hL0 (by linarith)
  have hz : |rd.z| ≤ L := abs_le_length L rd.z rd.x rd.y hL0 (by linarith)
  rw [rayNext_eq_min]
  refine le_min (le_min ?_ ?_) ?_
  · exact dist_ge_succ L s _ hL hs (abs_pos.mpr hrd.1) hx
  · exact dist_ge_succ L s _ hL hs (abs_pos.mpr hrd.2.1) hy
  · exact dist_ge_succ L s _ hL hs (abs_pos.mpr hrd.2.2) hz

theorem genVoxel.RayCast_loop_zero (sqrt : ℚ → ℚ) (initial_ro rd : Vec3) (chunk : Int → Chunk)
    (hit0 : Vec3) (s : ℚ) (curr_ro : Vec3) :
    genVoxel.RayCast_loop sqrt initial_ro rd chunk hit0 0 s curr_ro =
      if s < 200 then none else some (genVoxel.RayResult.returned false hit0) := by
  unfold genVoxel.RayCast_loop
  rfl

theorem genVoxel.RayCast_loop_step (sqrt : ℚ → ℚ) (initial_ro rd : Vec3) (chunk : Int → Chunk)
    (hit0 : Vec3) (n : Nat) (s : ℚ) (curr_ro : Vec3) :
    genVoxel.RayCast_loop sqrt initial_ro rd chunk hit0 (n + 1) s curr_ro =
      if s < 200 then
        match genVoxel.RayCast_body sqrt initial_ro rd chunk hit0 curr_ro with
        | genVoxel.RayStep.divByZero => some genVoxel.RayResult.divByZero
        | genVoxel.RayStep.ret found hit => some (genVoxel.RayResult.returned found hit)
        | genVoxel.RayStep.next step1 curr1 =>
          genVoxel.RayCast_loop sqrt initial_ro rd chunk hit0 n step1 curr1
      else some (genVoxel.RayResult.returned false hit0) := by
  rfl

theorem genVoxel.RayCast_loop_done (sqrt : ℚ → ℚ) (initial_ro rd : Vec3) (chunk : Int → Chunk)
    (hit0 : Vec3) (fuel : Nat) (s : ℚ) (curr_ro : Vec3) (hs : ¬ s < 200) :
    genVoxel.RayCast_loop sqrt initial_ro rd chunk hit0 fuel s curr_ro =
      some (genVoxel.RayResult.returned false hit0) := by
  cases fuel with
  | zero => rw [genVoxel.RayCast_loop_zero, if_neg hs]
  | succ n => rw [genVoxel.RayCast_loop_step, if_neg hs]

theorem genVoxel.RayCast_loop_succ (sqrt : ℚ → ℚ)
    (hsqrt : ∀ r : ℚ, 0 ≤ r → sqrt (r * r) = r) (initial_ro rd : Vec3)
    (hrd : rd.x ≠ 0 ∧ rd.y ≠ 0 ∧ rd.z ≠ 0) (L : ℚ) (hL : 0 ≤ L)
    (hLL : L * L = Vec3.dot rd rd) (chunk : Int → Chunk) (hit0 : Vec3) (n : Nat) (s : ℚ)
    (hs : 0 ≤ s) (hlt : s < 200) :
    genVoxel.RayCast_loop sqrt initial_ro rd chunk hit0 (n + 1) s (initial_ro.add (rd.smul s)) =
      if genVoxel.pos_to_chunkIndex (initial_ro.add (rd.smul (rayNext L rd s))) < 0 then
        some (genVoxel.RayResult.returned false hit0)
      else if voxelPresent chunk (initial_ro.add (rd.smul (rayNext L rd s))) then
        some (genVoxel.RayResult.returned true (initial_ro.add (rd.smul (rayNext L rd s))))
      else
        genVoxel.RayCast_loop sqrt initial_ro rd chunk hit0 n (rayNext L rd s)
          (initial_ro.add (rd.smul (rayNext L rd s))) := by
  rw [genVoxel.RayCast_loop_step, if_pos hlt, genVoxel.RayCast_body_eq _ _ _ _ _ _ hrd,
    genVoxel.RayCast_advance_exact sqrt hsqrt initial_ro rd hrd L hL hLL s hs]
  simp only
  by_cases h1 : genVoxel.pos_to_chunkIndex (initial_ro.add (rd.smul (rayNext L rd s))) < 0
  · rw [if_pos h1, if_pos h1]
  · rw [if_neg h1, if_neg h1]
    by_cases h2 : voxelPresent chunk (initial_ro.add (rd.smul (rayNext L rd s)))
    · have h3 : (chunk (genVoxel.pos_to_chunkIndex
          (initial_ro.add (rd.smul (rayNext L rd s))))).voxel
          (genVoxel.pos_to_voxelIndex (initial_ro.add (rd.smul (rayNext L rd s)))) &&& 1 ≠ 0 := h2
      rw [if_pos h2, if_pos h3]
    · have h3 : ¬ (chunk (genVoxel.pos_to_chunkIndex
          (initial_ro.add (rd.smul (rayNext L rd s))))).voxel
          (genVoxel.pos_to_voxelIndex (initial_ro.add (rd.smul (rayNext L rd s)))) &&& 1 ≠ 0 := h2
      rw [if_neg h2, if_neg h3]

theorem genVoxel.RayCast_loop_returns (sqrt : ℚ → ℚ)
    (hsqrt : ∀ r : ℚ, 0 ≤ r → sqrt (r * r) = r) (initial_ro rd : Vec3)
    (hrd : rd.x ≠ 0 ∧ rd.y ≠ 0 ∧ rd.z ≠ 0) (L : ℚ) (hL : 1 ≤ L)
    (hLL : L * L = Vec3.dot rd rd) (chunk : Int → Chunk) (hit0 : Vec3) (fuel : Nat) (s : ℚ)
    (hs : 0 ≤ s) (hfuel : 200 ≤ s + (fuel : ℚ)) :
    ∃ (found : Bool) (h : Vec3),
      genVoxel.RayCast_loop sqrt initial_ro rd chunk hit0 fuel s (initial_ro.add (rd.smul s))
        = some (genVoxel.RayResult.returned found h) := by
  induction fuel generalizing s with
  | zero =>
    have : ¬ s < 200 := by
      simp only [Nat.cast_zero, add_zero] at hfuel
      exact not_lt.mpr hfuel
    rw [genVoxel.RayCast_loop_done _ _ _ _ _ _ _ _ this]
    exact ⟨false, hit0, rfl⟩
  | succ n ih =>
    by_cases hlt : s < 200
    · rw [genVoxel.RayCast_loop_succ sqrt hsqrt initial_ro rd hrd L (by linarith) hLL chunk hit0
        n s hs hlt]
      have hge := rayNext_ge_succ L rd hrd hL hLL s hs
      by_cases h1 : genVoxel.pos_to_chunkIndex (initial_ro.add (rd.smul (rayNext L rd s))) < 0
      · rw [if_pos h1]
        exact ⟨false, hit0, rfl⟩
      · rw [if_neg h1]
        by_cases h2 : voxelPresent chunk (initial_ro.add (rd.smul (rayNext L rd s)))
        · rw [if_pos h2]
          exact ⟨true, _, rfl⟩
        · rw [if_neg h2]
          apply ih _ (by linarith)
          push_cast at hfuel
          linarith
    · rw [genVoxel.RayCast_loop_done _ _ _ _ _ _ _ _ hlt]
      exact ⟨false, hit0, rfl⟩

theorem shortRay_next (s : ℚ) : rayNext (1 / 10) ⟨-1 / 15, -1 / 15, -1 / 30⟩ s = (s + 15) / 10 := by
  unfold rayNext
  have a1 : |(-1 / 15 : ℚ)| = 1 / 15 := by
    rw [abs_of_neg (by norm_num)]
    norm_num
  have a2 : |(-1 / 30 : ℚ)| = 1 / 30 := by
    rw [abs_of_neg (by norm_num)]
    norm_num
  simp only [a1, a2]
  rw [if_neg (lt_irrefl _), if_neg (by rw [gt_iff_lt, not_lt]; norm_num)]
  norm_num
  ring

theorem shortRay_in_world (s : ℚ) (h0 : 0 ≤ s) (h1 : s ≤ 5 / 3) :
    ¬ outOfWorld ((IVec3.toVec3 ⟨-5, -5, -5⟩).add
      (Vec3.smul ⟨-1 / 15, -1 / 15, -1 / 30⟩ s)) := by
  unfold outOfWorld IVec3.toVec3 Vec3.ofInts Vec3.add Vec3.smul
  simp only [not_or, not_lt, gt_iff_lt]
  push_cast
  refine ⟨?_, ?_, ?_, ?_, ?_, ?_⟩ <;> linarith

theorem newChunk_absent (p : Vec3) : ¬ voxelPresent (fun _ => newChunk) p := by
  unfold voxelPresent newChunk
  simp

theorem shortRay_loop_none (hit0 : Vec3) (fuel : Nat) (s : ℚ) (h0 : 0 ≤ s) (h1 : s ≤ 5 / 3) :
    genVoxel.RayCast_loop ratSqrt (IVec3.toVec3 ⟨-5, -5, -5⟩) ⟨-1 / 15, -1 / 15, -1 / 30⟩
      (fun _ => newChunk) hit0 fuel s
      ((IVec3.toVec3 ⟨-5, -5, -5⟩).add (Vec3.smul ⟨-1 / 15, -1 / 15, -1 / 30⟩ s)) = none := by
  induction fuel generalizing s with
  | zero => rw [genVoxel.RayCast_loop_zero, if_pos (by linarith)]
  | succ n ih =>
    have hd : (1 / 10 : ℚ) * (1 / 10)
        = Vec3.dot ⟨-1 / 15, -1 / 15, -1 / 30⟩ ⟨-1 / 15, -1 / 15, -1 / 30⟩ := by
      unfold Vec3.dot
      norm_num
    rw [genVoxel.RayCast_loop_succ ratSqrt ratSqrt_mul_self _ _ (by norm_num) (1 / 10)
      (by norm_num) hd _ _ n s h0 (by linarith), shortRay_next]
    have hb0 : (0 : ℚ) ≤ (s + 15) / 10 := by linarith
    have hb1 : (s + 15) / 10 ≤ (5 : ℚ) / 3 := by linarith
    rw [if_neg (not_lt.mpr ((genVoxel.pos_to_chunkIndex_nonneg_iff _).mpr
      (shortRay_in_world _ hb0 hb1))), if_neg (newChunk_absent _)]
    exact ih _ hb0 hb1

/-- C16 (counterexample): from the origin (-5, -5, -5), in the direction
(-1/15, -1/15, -1/30) of length 1/10 whose three components are nonzero, in a
world without voxels, `RayCast` is still in its loop after 200 passes, and after
any number of passes: `step` converges to 5/3 and never reaches 200. -/
theorem RayCast_short_direction_never_returns :
    genVoxel.RayCast ratSqrt 200 ⟨-5, -5, -5⟩ ⟨-1 / 15, -1 / 15, -1 / 30⟩
      (fun _ => newChunk) ⟨0, 0, 0⟩ = none ∧
    ∀ fuel : Nat, genVoxel.RayCast ratSqrt fuel ⟨-5, -5, -5⟩ ⟨-1 / 15, -1 / 15, -1 / 30⟩
      (fun _ => newChunk) ⟨0, 0, 0⟩ = none := by
  have key : ∀ fuel : Nat, genVoxel.RayCast ratSqrt fuel ⟨-5, -5, -5⟩
      ⟨-1 / 15, -1 / 15, -1 / 30⟩ (fun _ => newChunk) ⟨0, 0, 0⟩ = none := by
    intro fuel
    unfold genVoxel.RayCast
    have h := shortRay_loop_none ⟨0, 0, 0⟩ fuel 0 (le_refl _) (by norm_num)
    rw [Vec3.add_smul_zero] at h
    exact h
  exact ⟨key 200, key⟩

/-! ## Ray caster: the points it tests -/

theorem one_div_min (a b : ℚ) (ha : 0 < a) (hb : 0 < b) : min (1 / a) (1 / b) = 1 / max a b := by
  rcases le_total a b with h | h
  · rw [max_eq_right h, min_eq_right (one_div_le_one_div_of_le ha h)]
  · rw [max_eq_left h, min_eq_left (one_div_le_one_div_of_le hb h)]

theorem rayNext_unit (rd : Vec3) (hrd : rd.x ≠ 0 ∧ rd.y ≠ 0 ∧ rd.z ≠ 0) (s : ℚ) :
    rayNext 1 rd s = s + 1 / max |rd.x| (max |rd.y| |rd.z|) := by
  have hx : 0 < |rd.x| := abs_pos.mpr hrd.1
  have hy : 0 < |rd.y| := abs_pos.mpr hrd.2.1
  have hz : 0 < |rd.z| := abs_pos.mpr hrd.2.2
  rw [rayNext_eq_min]
  simp only [mul_one]
  rw [min_add_add_left, min_add_add_left, min_assoc, one_div_min _ _ hy hz,
    one_div_min _ _ hx (lt_max_of_lt_left hy)]

theorem rayNext_sample (rd : Vec3) (hrd : rd.x ≠ 0 ∧ rd.y ≠ 0 ∧ rd.z ≠ 0) (i : Nat) :
    rayNext 1 rd ((i : ℚ) / max |rd.x| (max |rd.y| |rd.z|))
      = ((i + 1 : Nat) : ℚ) / max |rd.x| (max |rd.y| |rd.z|) := by
  rw [rayNext_unit rd hrd]
  push_cast
  ring

theorem unit_max_pos (rd : Vec3) (hrd : rd.x ≠ 0 ∧ rd.y ≠ 0 ∧ rd.z ≠ 0) :
    0 < max |rd.x| (max |rd.y| |rd.z|) :=
  lt_max_of_lt_left (abs_pos.mpr hrd.1)

theorem unit_max_le_one (rd : Vec3) (hunit : Vec3.dot rd rd = 1) :
    max |rd.x| (max |rd.y| |rd.z|) ≤ 1 := by
  unfold Vec3.dot at hunit
  have hx : |rd.x| ≤ 1 := abs_le_length 1 rd.x rd.y rd.z zero_le_one (by linarith)
  have hy : |rd.y| ≤ 1 := abs_le_length 1 rd.y rd.x rd.z zero_le_one (by linarith)
  have hz : |rd.z| ≤ 1 := abs_le_length 1 rd.z rd.x rd.y zero_le_one (by linarith)
  exact max_le hx (max_le hy hz)

theorem raySample_eq (start : IVec3) (rd : Vec3) (k : Nat) :
    start.toVec3.add (rd.smul ((k : ℚ) / max |rd.x| (max |rd.y| |rd.z|)))
      = raySample start rd k := rfl

theorem genVoxel.RayCast_loop_samples (sqrt : ℚ → ℚ)
    (hsqrt : ∀ r : ℚ, 0 ≤ r → sqrt (r * r) = r) (start : IVec3) (rd : Vec3)
    (hrd : rd.x ≠ 0 ∧ rd.y ≠ 0 ∧ rd.z ≠ 0) (hunit : Vec3.dot rd rd = 1)
    (chunk : Int → Chunk) (hit0 h : Vec3) (n i : Nat) :
    genVoxel.RayCast_loop sqrt start.toVec3 rd chunk hit0 n
        ((i : ℚ) / max |rd.x| (max |rd.y| |rd.z|)) (raySample start rd i)
      = some (genVoxel.RayResult.returned true h) ↔
    ∃ k : Nat, i < k ∧ k ≤ i + n ∧ ((k : ℚ) - 1) / max |rd.x| (max |rd.y| |rd.z|) < 200 ∧
      h = raySample start rd k ∧ ¬ outOfWorld h ∧ voxelPresent chunk h ∧
      ∀ j : Nat, i < j → j < k →
        ¬ outOfWorld (raySample start rd j) ∧ ¬ voxelPresent chunk (raySample start rd j) := by
  have hm := unit_max_pos rd hrd
  induction n generalizing i with
  | zero =>
    rw [genVoxel.RayCast_loop_zero]
    constructor
    · intro hres
      split at hres
      · exact absurd hres (by simp)
      · simp at hres
    · rintro ⟨k, h1, h2, _⟩
      omega
  | succ n ih =>
    by_cases hlt : (i : ℚ) / max |rd.x| (max |rd.y| |rd.z|) < 200
    · have hstep := genVoxel.RayCast_loop_succ sqrt hsqrt start.toVec3 rd hrd 1 zero_le_one
        (by rw [hunit]; norm_num) chunk hit0 n _ (div_nonneg (Nat.cast_nonneg i) hm.le) hlt
      rw [rayNext_sample rd hrd i, raySample_eq, raySample_eq] at hstep
      rw [hstep]
      by_cases h1 : genVoxel.pos_to_chunkIndex (raySample start rd (i + 1)) < 0
      · rw [if_pos h1]
        have ho : outOfWorld (raySample start rd (i + 1)) := by
          by_contra hc
          have := (genVoxel.pos_to_chunkIndex_nonneg_iff _).mpr hc
          omega
        constructor
        · intro hres
          simp at hres
        · rintro ⟨k, hk1, hk2, hk3, hk4, hk5, hk6, hk7⟩
          exfalso
          rcases Nat.lt_or_ge (i + 1) k with hh | hh
          · exact (hk7 (i + 1) (by omega) hh).1 ho
          · have hk : k = i + 1 := by omega
            subst hk
            rw [hk4] at hk5
            exact hk5 ho
      · rw [if_neg h1]
        have hin : ¬ outOfWorld (raySample start rd (i + 1)) :=
          (genVoxel.pos_to_chunkIndex_nonneg_iff _).mp (by omega)
        by_cases h2 : voxelPresent chunk (raySample start rd (i + 1))
        · rw [if_pos h2]
          constructor
          · intro hres
            simp only [Option.some.injEq, genVoxel.RayResult.returned.injEq, true_and] at hres
            subst hres
            refine ⟨i + 1, by omega, by omega, ?_, rfl, hin, h2, ?_⟩
            · push_cast
              simpa using hlt
            · intro j hj1 hj2
              omega
          · rintro ⟨k, hk1, hk2, hk3, hk4, hk5, hk6, hk7⟩
            rcases Nat.lt_or_ge (i + 1) k with hh | hh
            · exact absurd h2 (hk7 (i + 1) (by omega) hh).2
            · have hk : k = i + 1 := by omega
              subst hk
              rw [hk4]
        · rw [if_neg h2]
          refine (ih (i + 1)).trans ?_
          constructor
          · rintro ⟨k, hk1, hk2, hk3, hk4, hk5, hk6, hk7⟩
            refine ⟨k, by omega, by omega, hk3, hk4, hk5, hk6, ?_⟩
            intro j hj1 hj2
            rcases Nat.lt_or_ge (i + 1) j with hh | hh
            · exact hk7 j hh hj2
            · have hj : j = i + 1 := by omega
              subst hj
              exact ⟨hin, h2⟩
          · rintro ⟨k, hk1, hk2, hk3, hk4, hk5, hk6, hk7⟩
            have hne : k ≠ i + 1 := by
              rintro rfl
              rw [hk4] at hk6
              exact h2 hk6
            exact ⟨k, by omega, by omega, hk3, hk4, hk5, hk6,
              fun j hj1 hj2 => hk7 j (by omega) hj2⟩
    · rw [genVoxel.RayCast_loop_done _ _ _ _ _ _ _ _ hlt]
      constructor
      · intro hres
        simp at hres
      · rintro ⟨k, hk1, hk2, hk3, _⟩
        exfalso
        apply hlt
        have hik : (i : ℚ) ≤ (k : ℚ) - 1 := by
          have : (i : ℚ) + 1 ≤ k := by exact_mod_cast hk1
          linarith
        exact lt_of_le_of_lt (div_le_div_of_nonneg_right hik hm.le) hk3

theorem raySample_zero (start : IVec3) (rd : Vec3) : raySample start rd 0 = start.toVec3 := by
  unfold raySample
  rw [Nat.cast_zero, zero_div, Vec3.add_smul_zero]

theorem genVoxel.RayCast_samples (sqrt : ℚ → ℚ)
    (hsqrt : ∀ r : ℚ, 0 ≤ r → sqrt (r * r) = r) (start : IVec3) (rd : Vec3)
    (hrd : rd.x ≠ 0 ∧ rd.y ≠ 0 ∧ rd.z ≠ 0) (hunit : Vec3.dot rd rd = 1)
    (chunk : Int → Chunk) (hit0 h : Vec3) :
    genVoxel.RayCast sqrt 200 start rd chunk hit0
      = some (genVoxel.RayResult.returned true h) ↔
    ∃ k : Nat, 1 ≤ k ∧ ((k : ℚ) - 1) / max |rd.x| (max |rd.y| |rd.z|) < 200 ∧
      h = raySample start rd k ∧ ¬ outOfWorld h ∧ voxelPresent chunk h ∧
      ∀ j : Nat, 1 ≤ j → j < k →
        ¬ outOfWorld (raySample start rd j) ∧ ¬ voxelPresent chunk (raySample start rd j) := by
  have hm := unit_max_pos rd hrd
  have hm1 := unit_max_le_one rd hunit
  have key := genVoxel.RayCast_loop_samples sqrt hsqrt start rd hrd hunit chunk hit0 h 200 0
  rw [Nat.cast_zero, zero_div, raySample_zero] at key
  unfold genVoxel.RayCast
  refine key.trans ?_
  constructor
  · rintro ⟨k, hk1, hk2, hk3, hk4, hk5, hk6, hk7⟩
    exact ⟨k, hk1, hk3, hk4, hk5, hk6, fun j hj1 hj2 => hk7 j hj1 hj2⟩
  · rintro ⟨k, hk1, hk3, hk4, hk5, hk6, hk7⟩
    refine ⟨k, hk1, ?_, hk3, hk4, hk5, hk6, fun j hj1 hj2 => hk7 j hj1 hj2⟩
    have hk0 : (0 : ℚ) ≤ (k : ℚ) - 1 := by
      have : (1 : ℚ) ≤ k := by exact_mod_cast hk1
      linarith
    have hle : (k : ℚ) - 1 ≤ ((k : ℚ) - 1) / max |rd.x| (max |rd.y| |rd.z|) := by
      rw [le_div_iff₀ hm]
      nlinarith
    have hq : (k : ℚ) - 1 < 200 := lt_of_le_of_lt hle hk3
    have hq2 : (k : ℚ) < 201 := by linarith
    have hq3 : k < 201 := by exact_mod_cast hq2
    omega

/-- C15 (amended): for every integer origin, every unit direction with nonzero
components (exact arithmetic) and every world, `RayCast` returns within 200
passes, and it returns a hit at `h` exactly when `h` is the first of the sample
points `origin + (k / m) * direction`, `k = 1, 2, …`,
`m = max(|d.x|, |d.y|, |d.z|)`, `(k - 1) / m < 200`, that lies in the world in a
present voxel while every earlier sample point lies in the world in an absent
voxel. The voxel of the origin and the voxels crossed between two sample points
are not tested. -/
theorem RayCast_first_present_sample (sqrt : ℚ → ℚ)
    (hsqrt : ∀ r : ℚ, 0 ≤ r → sqrt (r * r) = r) (start : IVec3) (rd : Vec3)
    (hrd : rd.x ≠ 0 ∧ rd.y ≠ 0 ∧ rd.z ≠ 0) (hunit : Vec3.dot rd rd = 1)
    (chunk : Int → Chunk) (rayHitLocation : Vec3) :
    (∃ (found : Bool) (h : Vec3), genVoxel.RayCast sqrt 200 start rd chunk rayHitLocation
      = some (genVoxel.RayResult.returned found h)) ∧
    ∀ h : Vec3,
      genVoxel.RayCast sqrt 200 start rd chunk rayHitLocation
        = some (genVoxel.RayResult.returned true h) ↔
      ∃ k : Nat, 1 ≤ k ∧ ((k : ℚ) - 1) / max |rd.x| (max |rd.y| |rd.z|) < 200 ∧
        h = raySample start rd k ∧ ¬ outOfWorld h ∧ voxelPresent chunk h ∧
        ∀ j : Nat, 1 ≤ j → j < k →
          ¬ outOfWorld (raySample start rd j) ∧ ¬ voxelPresent chunk (raySample start rd j) := by
  constructor
  · unfold genVoxel.RayCast
    have h := genVoxel.RayCast_loop_returns sqrt hsqrt start.toVec3 rd hrd 1 (le_refl _)
      (by rw [hunit]; norm_num) chunk rayHitLocation 200 0 (le_refl _) (by norm_num)
    rw [Vec3.add_smul_zero] at h
    exact h
  · intro h
    exact genVoxel.RayCast_samples sqrt hsqrt start rd hrd hunit chunk rayHitLocation h

theorem RayCast_first_present_sample_witness :
    (∀ r : ℚ, 0 ≤ r → ratSqrt (r * r) = r) ∧
    ((-2 / 3 : ℚ) ≠ 0 ∧ (-2 / 3 : ℚ) ≠ 0 ∧ (-1 / 3 : ℚ) ≠ 0) ∧
    Vec3.dot ⟨-2 / 3, -2 / 3, -1 / 3⟩ ⟨-2 / 3, -2 / 3, -1 / 3⟩ = 1 ∧
    ((∃ (found : Bool) (h : Vec3),
      genVoxel.RayCast ratSqrt 200 ⟨-5, -5, -5⟩ ⟨-2 / 3, -2 / 3, -1 / 3⟩
        (fun _ => genVoxel.Fill_Chunk newChunk) ⟨0, 0, 0⟩
        = some (genVoxel.RayResult.returned found h)) ∧
    ∀ h : Vec3,
      genVoxel.RayCast ratSqrt 200 ⟨-5, -5, -5⟩ ⟨-2 / 3, -2 / 3, -1 / 3⟩
        (fun _ => genVoxel.Fill_Chunk newChunk) ⟨0, 0, 0⟩
        = some (genVoxel.RayResult.returned true h) ↔
      ∃ k : Nat, 1 ≤ k ∧
        ((k : ℚ) - 1) / max |(-2 / 3 : ℚ)| (max |(-2 / 3 : ℚ)| |(-1 / 3 : ℚ)|) < 200 ∧
        h = raySample ⟨-5, -5, -5⟩ ⟨-2 / 3, -2 / 3, -1 / 3⟩ k ∧ ¬ outOfWorld h ∧
        voxelPresent (fun _ => genVoxel.Fill_Chunk newChunk) h ∧
        ∀ j : Nat, 1 ≤ j → j < k →
          ¬ outOfWorld (raySample ⟨-5, -5, -5⟩ ⟨-2 / 3, -2 / 3, -1 / 3⟩ j) ∧
          ¬ voxelPresent (fun _ => genVoxel.Fill_Chunk newChunk)
            (raySample ⟨-5, -5, -5⟩ ⟨-2 / 3, -2 / 3, -1 / 3⟩ j)) :=
  have hd : Vec3.dot ⟨-2 / 3, -2 / 3, -1 / 3⟩ ⟨-2 / 3, -2 / 3, -1 / 3⟩ = 1 := by
    unfold Vec3.dot
    norm_num
  have hn : (-2 / 3 : ℚ) ≠ 0 ∧ (-2 / 3 : ℚ) ≠ 0 ∧ (-1 / 3 : ℚ) ≠ 0 := by norm_num
  ⟨ratSqrt_mul_self, hn, hd,
    RayCast_first_present_sample ratSqrt ratSqrt_mul_self ⟨-5, -5, -5⟩
      ⟨-2 / 3, -2 / 3, -1 / 3⟩ hn hd (fun _ => genVoxel.Fill_Chunk newChunk) ⟨0, 0, 0⟩⟩

theorem toInt_neg_eleven_halves : toInt (-11 / 2 : ℚ) = -5 := by
  unfold toInt
  rw [if_neg (by norm_num), Int.ceil_eq_iff]
  norm_num

theorem toInt_neg_six : toInt (-6 : ℚ) = -6 := by
  have e : (-6 : ℚ) = ((-6 : Int) : ℚ) := by norm_num
  rw [e, toInt_intCast]

theorem sampleRay_first :
    raySample ⟨-5, -5, -5⟩ ⟨-2 / 3, -2 / 3, -1 / 3⟩ 1 = ⟨-6, -6, -11 / 2⟩ := by
  have a1 : |(-2 / 3 : ℚ)| = 2 / 3 := by
    rw [abs_of_neg (by norm_num)]
    norm_num
  have a2 : |(-1 / 3 : ℚ)| = 1 / 3 := by
    rw [abs_of_neg (by norm_num)]
    norm_num
  unfold raySample IVec3.toVec3 Vec3.ofInts Vec3.add Vec3.smul
  simp only [a1, a2]
  rw [max_eq_left (by norm_num : (1 / 3 : ℚ) ≤ 2 / 3), max_eq_left (le_refl _)]
  norm_num

theorem sampleRay_first_voxel : genVoxel.pos_to_voxelIndex ⟨-6, -6, -11 / 2⟩ = 1382 := by
  rw [genVoxel.pos_to_voxelIndex_eq]
  simp only
  rw [toInt_neg_six, toInt_neg_eleven_halves]
  decide

theorem sampleRay_origin_voxel :
    genVoxel.pos_to_voxelIndex ((IVec3.toVec3 ⟨-5, -5, -5⟩).add
      (Vec3.smul ⟨-2 / 3, -2 / 3, -1 / 3⟩ 0)) = 1365 := by
  rw [Vec3.add_smul_zero]
  unfold IVec3.toVec3
  rw [genVoxel.pos_to_voxelIndex_ofInts _ _ _ (by decide) (by decide) (by decide)]
  decide

/-- C15 (counterexample): in a world whose chunks are all filled, the ray from
the integer origin (-5, -5, -5), inside the world, in the unit direction
(-2/3, -2/3, -1/3) returns a hit at `h = origin + (3/2) * direction`
`= (-6, -6, -11/2)`, although the point `origin + 0 * direction` of the ray,
with `0 ≤ 0 < 3/2`, lies in a present voxel (index 1365) that is not the voxel
of `h` (index 1382): the voxel of the origin is never tested. -/
theorem RayCast_skips_origin_voxel :
    genVoxel.RayCast ratSqrt 200 ⟨-5, -5, -5⟩ ⟨-2 / 3, -2 / 3, -1 / 3⟩
      (fun _ => genVoxel.Fill_Chunk newChunk) ⟨0, 0, 0⟩
      = some (genVoxel.RayResult.returned true ⟨-6, -6, -11 / 2⟩) ∧
    (⟨-6, -6, -11 / 2⟩ : Vec3)
      = (IVec3.toVec3 ⟨-5, -5, -5⟩).add (Vec3.smul ⟨-2 / 3, -2 / 3, -1 / 3⟩ (3 / 2)) ∧
    ¬ outOfWorld (IVec3.toVec3 ⟨-5, -5, -5⟩) ∧
    Vec3.dot ⟨-2 / 3, -2 / 3, -1 / 3⟩ ⟨-2 / 3, -2 / 3, -1 / 3⟩ = 1 ∧
    voxelPresent (fun _ => genVoxel.Fill_Chunk newChunk)
      ((IVec3.toVec3 ⟨-5, -5, -5⟩).add (Vec3.smul ⟨-2 / 3, -2 / 3, -1 / 3⟩ 0)) ∧
    genVoxel.pos_to_chunkIndex ((IVec3.toVec3 ⟨-5, -5, -5⟩).add
      (Vec3.smul ⟨-2 / 3, -2 / 3, -1 / 3⟩ 0)) = genVoxel.pos_to_chunkIndex ⟨-6, -6, -11 / 2⟩ ∧
    genVoxel.pos_to_voxelIndex ((IVec3.toVec3 ⟨-5, -5, -5⟩).add
      (Vec3.smul ⟨-2 / 3, -2 / 3, -1 / 3⟩ 0)) ≠ genVoxel.pos_to_voxelIndex ⟨-6, -6, -11 / 2⟩ := by
  have hd : Vec3.dot ⟨-2 / 3, -2 / 3, -1 / 3⟩ ⟨-2 / 3, -2 / 3, -1 / 3⟩ = 1 := by
    unfold Vec3.dot
    norm_num
  have hn : (-2 / 3 : ℚ) ≠ 0 ∧ (-2 / 3 : ℚ) ≠ 0 ∧ (-1 / 3 : ℚ) ≠ 0 := by norm_num
  have hin : ¬ outOfWorld (⟨-6, -6, -11 / 2⟩ : Vec3) := by
    unfold outOfWorld
    norm_num
  have hpres : voxelPresent (fun _ => genVoxel.Fill_Chunk newChunk) ⟨-6, -6, -11 / 2⟩ := by
    unfold voxelPresent
    rw [sampleRay_first_voxel, (genVoxel.Fill_Chunk_newChunk_voxel 1382).1
      ⟨6, 6, 5, by omega, by omega, by omega, by omega⟩]
    decide
  have hin0 : ¬ outOfWorld (IVec3.toVec3 ⟨-5, -5, -5⟩) := by
    unfold IVec3.toVec3
    rw [outOfWorld_ofInts]
    decide
  refine ⟨?_, ?_, hin0, hd, ?_, ?_, ?_⟩
  · rw [genVoxel.RayCast_samples ratSqrt ratSqrt_mul_self _ _ hn hd]
    refine ⟨1, le_refl _, ?_, sampleRay_first.symm, hin, hpres, ?_⟩
    · rw [Nat.cast_one, sub_self, zero_div]
      norm_num
    · intro j h1 h2
      omega
  · unfold IVec3.toVec3 Vec3.ofInts Vec3.add Vec3.smul
    norm_num
  · unfold voxelPresent
    rw [sampleRay_origin_voxel, (genVoxel.Fill_Chunk_newChunk_voxel 1365).1
      ⟨5, 5, 5, by omega, by omega, by omega, by omega⟩]
    decide
  · rw [Vec3.add_smul_zero, genVoxel.pos_to_chunkIndex_of_in _ hin0,
      genVoxel.pos_to_chunkIndex_of_in _ hin]
    unfold IVec3.toVec3 Vec3.ofInts
    simp only
    rw [toInt_neg_six, toInt_neg_eleven_halves]
    rw [toInt_intCast]
    decide
  · rw [sampleRay_origin_voxel, sampleRay_first_voxel]
    decide

/-! ## Voxel index linearisation and its inverse -/

theorem genVoxel.voxelIndex_to_pos_digits (i : Int) (h0 : 0 ≤ i) (h1 : i < 4096) :
    genVoxel.voxelIndex_to_pos i = Vec3.ofInts (i % 16) (i / 16 % 16) (i / 256) := by
  have e : i = i / 256 * 256 + i / 16 % 16 * 16 + i % 16 := by omega
  have h := genVoxel.voxelIndex_to_pos_linear (i % 16) (i / 16 % 16) (i / 256)
    (by omega) (by omega) (by omega)
  rw [← e] at h
  exact h

theorem genVoxel.return_index_ofInts (x y z : Int) :
    genVoxel.return_index (Vec3.ofInts x y z) = z * 256 + y * 16 + x := by
  unfold genVoxel.return_index Vec3.ofInts
  simp only [toInt_intCast, CHUNK_DIMENSION]
  ring

/-- C23: voxel index linearisation and its inverse are mutually inverse on a
chunk. For `0 ≤ x, y, z < 16`, `return_index(x, y, z) = x + y*16 + z*256` lies in
`[0, 4096)` and `voxelIndex_to_pos` maps it back to `(x, y, z)`; for `i` in
`[0, 4096)`, `voxelIndex_to_pos(i)` has integer components in `[0, 16)` and
`return_index` (either overload) maps it back to `i`. -/
theorem return_index_voxelIndex_to_pos_inverse :
    (∀ x y z : Int, 0 ≤ x ∧ x < CHUNK_DIMENSION → 0 ≤ y ∧ y < CHUNK_DIMENSION →
      0 ≤ z ∧ z < CHUNK_DIMENSION →
      genVoxel.return_index_ints x y z = x + y * 16 + z * 256 ∧
      genVoxel.return_index (Vec3.ofInts x y z) = x + y * 16 + z * 256 ∧
      0 ≤ genVoxel.return_index_ints x y z ∧ genVoxel.return_index_ints x y z < 4096 ∧
      genVoxel.voxelIndex_to_pos (genVoxel.return_index_ints x y z) = Vec3.ofInts x y z) ∧
    (∀ i : Int, 0 ≤ i → i < 4096 →
      ∃ x y z : Int, genVoxel.voxelIndex_to_pos i = Vec3.ofInts x y z ∧
        (0 ≤ x ∧ x < CHUNK_DIMENSION) ∧ (0 ≤ y ∧ y < CHUNK_DIMENSION) ∧
        (0 ≤ z ∧ z < CHUNK_DIMENSION) ∧
        genVoxel.return_index (genVoxel.voxelIndex_to_pos i) = i ∧
        genVoxel.return_index_ints x y z = i) := by
  have hd : CHUNK_DIMENSION = 16 := rfl
  constructor
  · intro x y z hx hy hz
    rw [hd] at hx hy hz
    have e : genVoxel.return_index_ints x y z = z * 256 + y * 16 + x := by
      unfold genVoxel.return_index_ints
      rw [hd]
      ring
    rw [e, genVoxel.return_index_ofInts]
    refine ⟨by ring, by ring, by omega, by omega, ?_⟩
    exact genVoxel.voxelIndex_to_pos_linear x y z (by omega) (by omega) (by omega)
  · intro i h0 h1
    refine ⟨i % 16, i / 16 % 16, i / 256, genVoxel.voxelIndex_to_pos_digits i h0 h1, ?_, ?_, ?_, ?_, ?_⟩
    · rw [hd]
      omega
    · rw [hd]
      omega
    · rw [hd]
      omega
    · rw [genVoxel.voxelIndex_to_pos_digits i h0 h1, genVoxel.return_index_ofInts]
      omega
    · unfold genVoxel.return_index_ints
      rw [hd]
      omega

/-! ## The cells of a chunk -/

theorem flatMap_const_getElem {α β : Type} (f : α → List β) (k : Nat) (l : List α)
    (h : ∀ a, (f a).length = k) (i j : Nat) (hj : j < k) :
    (l.flatMap f)[i * k + j]? = (l[i]?).bind (fun a => (f a)[j]?) := by
  induction l generalizing i with
  | nil => simp
  | cons a l ih =>
    rw [List.flatMap_cons]
    cases i with
    | zero =>
      rw [Nat.zero_mul, Nat.zero_add, List.getElem?_append_left (by rw [h a]; exact hj)]
      simp
    | succ n =>
      rw [List.getElem?_append_right (by rw [h a]; nlinarith), h a]
      have e : (n + 1) * k + j - k = n * k + j := by
        rw [Nat.add_mul, Nat.one_mul]
        omega
      rw [e, ih n]
      simp

theorem intFor_getElem (lo hi : Int) (n : Nat) (h : n < (hi - lo).toNat) :
    (intFor lo hi)[n]? = some (lo + (n : Int)) := by
  unfold intFor
  rw [List.getElem?_map, List.getElem?_range h]
  rfl

theorem cells_getElem (c : Chunk) (index : Int) (x y z : Nat) (hx : x < 15) (hy : y < 15)
    (hz : z < 15) :
    ((intFor 0 15).flatMap fun x => (intFor 0 15).flatMap fun y => (intFor 0 15).flatMap fun z =>
        [cellAt c index x y z])[x * 225 + y * 15 + z]?
      = some (cellAt c index x y z) := by
  have l1 : ∀ (a b : Int), ((intFor 0 15).flatMap fun z => [cellAt c index a b z]).length = 15 := by
    intro a b
    rw [flatMap_length_const (fun (z : Int) => [cellAt c index a b z]) 1 _ (fun _ _ => rfl),
      intFor_length]
    decide
  have l2 : ∀ a : Int, ((intFor 0 15).flatMap fun y => (intFor 0 15).flatMap fun z =>
      [cellAt c index a y z]).length = 225 := by
    intro a
    rw [flatMap_length_const _ 15 _ (fun b _ => l1 a b), intFor_length]
    decide
  have hx' : x < ((15 : Int) - 0).toNat := by
    have : ((15 : Int) - 0).toNat = 15 := by decide
    omega
  have hy' : y < ((15 : Int) - 0).toNat := by
    have : ((15 : Int) - 0).toNat = 15 := by decide
    omega
  have hz' : z < ((15 : Int) - 0).toNat := by
    have : ((15 : Int) - 0).toNat = 15 := by decide
    omega
  rw [Nat.add_assoc, flatMap_const_getElem _ 225 _ l2 x (y * 15 + z) (by omega),
    intFor_getElem 0 15 x hx', Option.some_bind,
    flatMap_const_getElem _ 15 _ (l1 _) y z hz,
    intFor_getElem 0 15 y hy', Option.some_bind]
  have e := flatMap_const_getElem (fun (z : Int) => [cellAt c index (0 + (x : Int)) (0 + (y : Int)) z])
    1 (intFor 0 15) (fun _ => rfl) z 0 (by omega)
  rw [Nat.mul_one, Nat.add_zero] at e
  rw [e, intFor_getElem 0 15 z hz', Option.some_bind]
  simp only [zero_add]
  rfl

theorem maskFold_testBit (P : Int → Prop) [DecidablePred P] (l : List Int)
    (hl : ∀ i ∈ l, 0 ≤ i) (init : Nat) (j : Nat) :
    (l.foldl (fun (val : Nat) i => if P i then val ||| (1 <<< i.toNat) else val) init).testBit j
      = (init.testBit j || decide ((j : Int) ∈ l ∧ P (j : Int))) := by
  induction l generalizing init with
  | nil => simp
  | cons a l ih =>
    rw [List.foldl_cons, ih (fun i hi => hl i (List.mem_cons_of_mem a hi))]
    have ha : 0 ≤ a := hl a (List.mem_cons_self a l)
    by_cases hP : P a
    · rw [if_pos hP, Nat.testBit_or, Nat.one_shiftLeft, Nat.testBit_two_pow]
      by_cases hj : a.toNat = j
      · have e : (j : Int) = a := by omega
        simp [hj, e, hP]
      · have e : (j : Int) ≠ a := by omega
        simp [hj, e]
    · rw [if_neg hP]
      by_cases hj : (j : Int) = a
      · rw [hj]
        simp [hP]
      · simp [hj]

theorem cellAt_p (c : Chunk) (index x y z : Int) :
    (cellAt c index x y z).p
      = (Vec3.ofInts x y z).add ((genVoxel.chunkIndex_to_pos index).smul 16) := by
  unfold cellAt
  simp only [CHUNK_DIMENSION]
  norm_num

theorem cellAt_testBit (c : Chunk) (index x y z : Int) (j : Nat) :
    (cellAt c index x y z).val.testBit j
      = decide (j < 8 ∧ c.voxel (genVoxel.return_index
          ((Vec3.ofInts x y z).add (cellOffsets (j : Int)))) &&& 1 ≠ 0) := by
  unfold cellAt
  simp only
  rw [maskFold_testBit (fun i => c.voxel (genVoxel.return_index
      ((Vec3.ofInts x y z).add (cellOffsets i))) &&& 1 ≠ 0) (intFor 0 8)
    (fun i hi => ((intFor_mem 0 8 i).mp hi).1) 0 j, Nat.zero_testBit, Bool.false_or]
  congr 1
  rw [intFor_mem]
  apply propext
  constructor
  · rintro ⟨⟨_, h1⟩, h2⟩
    exact ⟨by omega, h2⟩
  · rintro ⟨h1, h2⟩
    exact ⟨⟨by omega, by omega⟩, h2⟩

theorem cellAt_val_lt (c : Chunk) (index x y z : Int) : (cellAt c index x y z).val < 256 := by
  apply Nat.lt_of_testBit 8
  · rw [cellAt_testBit]
    simp
  · decide
  · intro j hj
    rw [cellAt_testBit]
    have e : Nat.testBit 256 j = false := by
      have : (256 : Nat) = 2 ^ 8 := by norm_num
      rw [this, Nat.testBit_two_pow]
      simp
      omega
    rw [e]
    simp
    omega

/-- C21: for every chunk and chunk index, `populate_chunk` appends exactly
`15^3 = 3375` cells, the cell of `(x, y, z)`, `0 ≤ x, y, z ≤ 14`, at offset
`x * 225 + y * 15 + z` (x outermost, z innermost); that cell has anchor
`(x, y, z) + chunkIndex_to_pos(index) * 16`, an 8-bit mask, and bit `i` of its
mask is set if and only if bit 0 of the voxel at `(x, y, z) + cellOffsets[i]` is
set, with the table `cellOffsets` of the source. -/
theorem populate_chunk_cells (c : Chunk) (index : Int) (grid : List MarchingCube.Cell) :
    (∃ L : List MarchingCube.Cell, populate_chunk c index grid = grid ++ L ∧ L.length = 3375 ∧
      ∀ x y z : Nat, x < 15 → y < 15 → z < 15 →
        ∃ cell : MarchingCube.Cell, L[x * 225 + y * 15 + z]? = some cell ∧
          cell.p = (Vec3.ofInts x y z).add ((genVoxel.chunkIndex_to_pos index).smul 16) ∧
          cell.val < 256 ∧
          ∀ i : Nat, i < 8 →
            (cell.val.testBit i = true ↔
              c.voxel (genVoxel.return_index ((Vec3.ofInts x y z).add (cellOffsets (i : Int))))
                &&& 1 ≠ 0)) ∧
    (cellOffsets 0 = Vec3.ofInts 0 0 0 ∧ cellOffsets 1 = Vec3.ofInts 0 1 0 ∧
      cellOffsets 2 = Vec3.ofInts 1 1 0 ∧ cellOffsets 3 = Vec3.ofInts 1 0 0 ∧
      cellOffsets 4 = Vec3.ofInts 0 0 1 ∧ cellOffsets 5 = Vec3.ofInts 0 1 1 ∧
      cellOffsets 6 = Vec3.ofInts 1 1 1 ∧ cellOffsets 7 = Vec3.ofInts 1 0 1) := by
  refine ⟨⟨_, populate_chunk_eq c index grid, ?_, ?_⟩, rfl, rfl, rfl, rfl, rfl, rfl, rfl, rfl⟩
  · have h := populate_chunk_length c index
    rw [populate_chunk_eq, List.nil_append] at h
    exact h
  · intro x y z hx hy hz
    refine ⟨cellAt c index x y z, cells_getElem c index x y z hx hy hz, cellAt_p c index x y z,
      cellAt_val_lt c index x y z, ?_⟩
    intro i hi
    rw [cellAt_testBit, decide_eq_true_iff]
    constructor
    · exact fun h => h.2
    · exact fun h => ⟨hi, h⟩

/-! ## Cell masks of a freshly filled chunk -/

theorem filled_cell_bit (c : Chunk) (hc : ∀ v : Int, 0 ≤ v → v < 4096 → c.voxel v = 0)
    (index x y z : Int) (hx : 0 ≤ x ∧ x ≤ 14) (hy : 0 ≤ y ∧ y ≤ 14) (hz : 0 ≤ z ∧ z ≤ 14)
    (i : Nat) (hi : i < 8) (a b d : Int) (ho : cellOffsets (i : Int) = Vec3.ofInts a b d)
    (ha : 0 ≤ a ∧ a ≤ 1) (hb : 0 ≤ b ∧ b ≤ 1) (hd : 0 ≤ d ∧ d ≤ 1) :
    (cellAt (genVoxel.Fill_Chunk c) index x y z).val.testBit i = true ↔
      (1 ≤ x + a ∧ x + a ≤ 14) ∧ (1 ≤ y + b ∧ y + b ≤ 14) ∧ (1 ≤ z + d ∧ z + d ≤ 14) := by
  rw [cellAt_testBit, decide_eq_true_iff, ho, genVoxel.return_index_add_ofInts]
  have h0 : 0 ≤ (z + d) * 256 + (y + b) * 16 + (x + a) := by omega
  have h1 : (z + d) * 256 + (y + b) * 16 + (x + a) < 4096 := by omega
  constructor
  · rintro ⟨_, hbit⟩
    have h1v : (genVoxel.Fill_Chunk c).voxel ((z + d) * 256 + (y + b) * 16 + (x + a)) = 1 := by
      rcases genVoxel.Fill_Chunk_zero_value c hc _ h0 h1 with h | h
      · exact h
      · rw [h] at hbit
        exact absurd rfl hbit
    obtain ⟨x', y', z', hx', hy', hz', e⟩ := (genVoxel.Fill_Chunk_zero_voxel c hc _ h0 h1).mp h1v
    have e1 : x' = x + a := by omega
    have e2 : y' = y + b := by omega
    have e3 : z' = z + d := by omega
    subst e1 e2 e3
    exact ⟨hx', hy', hz'⟩
  · rintro ⟨hx', hy', hz'⟩
    refine ⟨hi, ?_⟩
    rw [(genVoxel.Fill_Chunk_zero_voxel c hc _ h0 h1).mpr
      ⟨x + a, y + b, z + d, hx', hy', hz', by ring⟩]
    decide

theorem corner_exists (a b d : Int) (ha : a = 0 ∨ a = 1) (hb : b = 0 ∨ b = 1)
    (hd : d = 0 ∨ d = 1) : ∃ i : Nat, i < 8 ∧ cellOffsets (i : Int) = Vec3.ofInts a b d := by
  rcases ha with ha | ha <;> rcases hb with hb | hb <;> rcases hd with hd | hd <;> subst ha hb hd
  · exact ⟨0, by omega, rfl⟩
  · exact ⟨4, by omega, rfl⟩
  · exact ⟨1, by omega, rfl⟩
  · exact ⟨5, by omega, rfl⟩
  · exact ⟨3, by omega, rfl⟩
  · exact ⟨7, by omega, rfl⟩
  · exact ⟨2, by omega, rfl⟩
  · exact ⟨6, by omega, rfl⟩

theorem filled_cell_full (c : Chunk) (hc : ∀ v : Int, 0 ≤ v → v < 4096 → c.voxel v = 0)
    (index x y z : Int) (hx : 0 ≤ x ∧ x ≤ 14) (hy : 0 ≤ y ∧ y ≤ 14) (hz : 0 ≤ z ∧ z ≤ 14) :
    (cellAt (genVoxel.Fill_Chunk c) index x y z).val = 255 ↔
      (1 ≤ x ∧ x ≤ 13) ∧ (1 ≤ y ∧ y ≤ 13) ∧ (1 ≤ z ∧ z ≤ 13) := by
  constructor
  · intro h
    have b0 := (filled_cell_bit c hc index x y z hx hy hz 0 (by omega) 0 0 0 rfl
      (by omega) (by omega) (by omega)).mp (by rw [h]; decide)
    have b6 := (filled_cell_bit c hc index x y z hx hy hz 6 (by omega) 1 1 1 rfl
      (by omega) (by omega) (by omega)).mp (by rw [h]; decide)
    omega
  · intro h
    apply Nat.eq_of_testBit_eq
    intro j
    have e255 : Nat.testBit 255 j = decide (j < 8) := Nat.testBit_two_pow_sub_one 8 j
    rw [e255]
    by_cases hj : j < 8
    · obtain ⟨a, b, d, ho, ha, hb, hd⟩ := cellOffsets_cases (j : Int) (by omega) (by omega)
      rw [(filled_cell_bit c hc index x y z hx hy hz j hj a b d ho ha hb hd).mpr (by omega)]
      simp [hj]
    · rw [cellAt_testBit]
      simp [hj]

theorem filled_cell_nonzero (c : Chunk) (hc : ∀ v : Int, 0 ≤ v → v < 4096 → c.voxel v = 0)
    (index x y z : Int) (hx : 0 ≤ x ∧ x ≤ 14) (hy : 0 ≤ y ∧ y ≤ 14) (hz : 0 ≤ z ∧ z ≤ 14) :
    ∃ i : Nat, i < 8 ∧ (cellAt (genVoxel.Fill_Chunk c) index x y z).val.testBit i = true := by
  have pick : ∀ t : Int, 0 ≤ t ∧ t ≤ 14 → ∃ a : Int, (a = 0 ∨ a = 1) ∧ 1 ≤ t + a ∧ t + a ≤ 14 := by
    intro t ht
    by_cases h : t = 0
    · exact ⟨1, Or.inr rfl, by omega, by omega⟩
    · exact ⟨0, Or.inl rfl, by omega, by omega⟩
  obtain ⟨a, ha, ha'⟩ := pick x hx
  obtain ⟨b, hb, hb'⟩ := pick y hy
  obtain ⟨d, hd, hd'⟩ := pick z hz
  obtain ⟨i, hi, ho⟩ := corner_exists a b d ha hb hd
  exact ⟨i, hi, (filled_cell_bit c hc index x y z hx hy hz i hi a b d ho (by omega) (by omega)
    (by omega)).mpr ⟨ha', hb', hd'⟩⟩

theorem filled_cell_ne_zero (c : Chunk) (hc : ∀ v : Int, 0 ≤ v → v < 4096 → c.voxel v = 0)
    (index x y z : Int) (hx : 0 ≤ x ∧ x ≤ 14) (hy : 0 ≤ y ∧ y ≤ 14) (hz : 0 ≤ z ∧ z ≤ 14) :
    (cellAt (genVoxel.Fill_Chunk c) index x y z).val ≠ 0 := by
  obtain ⟨i, _, hbit⟩ := filled_cell_nonzero c hc index x y z hx hy hz
  intro h
  rw [h, Nat.zero_testBit] at hbit
  exact absurd hbit (by decide)

theorem countP_flatMap_sum {α β : Type} (p : β → Bool) (f : α → List β) (l : List α) :
    (l.flatMap f).countP p = (l.map (fun a => (f a).countP p)).sum := by
  induction l with
  | nil => rfl
  | cons a l ih => rw [List.flatMap_cons, List.countP_append, ih, List.map_cons, List.sum_cons]

theorem sum_map_ite {α : Type} (q : α → Prop) [DecidablePred q] (k : Nat) (l : List α)
    (h : α → Nat) (hh : ∀ a ∈ l, h a = if q a then k else 0) :
    (l.map h).sum = l.countP (fun a => decide (q a)) * k := by
  induction l with
  | nil => simp
  | cons a l ih =>
    rw [List.map_cons, List.sum_cons, ih (fun b hb => hh b (List.mem_cons_of_mem a hb)),
      hh a (List.mem_cons_self a l), List.countP_cons]
    by_cases hq : q a
    · simp only [hq, if_true, decide_True]
      ring
    · simp only [hq, if_false, decide_False]
      simp

theorem inner_range_count :
    (intFor 0 15).countP (fun (t : Int) => decide (1 ≤ t ∧ t ≤ 13)) = 13 := by decide

theorem filled_full_count (c : Chunk) (hc : ∀ v : Int, 0 ≤ v → v < 4096 → c.voxel v = 0)
    (index : Int) :
    (populate_chunk (genVoxel.Fill_Chunk c) index []).countP
      (fun cell => decide (cell.val = 255)) = 2197 := by
  have hm : ∀ t : Int, t ∈ intFor 0 15 → 0 ≤ t ∧ t ≤ 14 := by
    intro t ht
    have := (intFor_mem 0 15 t).mp ht
    omega
  rw [populate_chunk_eq, List.nil_append, countP_flatMap_sum,
    sum_map_ite (fun (t : Int) => 1 ≤ t ∧ t ≤ 13) 169, inner_range_count]
  intro x hx
  rw [countP_flatMap_sum,
    sum_map_ite (fun (t : Int) => 1 ≤ t ∧ t ≤ 13) (if 1 ≤ x ∧ x ≤ 13 then 13 else 0),
    inner_range_count]
  · by_cases h : 1 ≤ x ∧ x ≤ 13
    · rw [if_pos h, if_pos h]
    · rw [if_neg h, if_neg h]
  · intro y hy
    rw [countP_flatMap_sum,
      sum_map_ite (fun (t : Int) => 1 ≤ t ∧ t ≤ 13)
        (if (1 ≤ x ∧ x ≤ 13) ∧ (1 ≤ y ∧ y ≤ 13) then 1 else 0),
      inner_range_count]
    · by_cases h1 : 1 ≤ x ∧ x ≤ 13
      · by_cases h2 : 1 ≤ y ∧ y ≤ 13
        · rw [if_pos ⟨h1, h2⟩, if_pos h2, if_pos h1]
        · rw [if_neg (fun h => h2 h.2), if_neg h2]
      · rw [if_neg (fun h => h1 h.1), if_neg h1]
        by_cases h2 : 1 ≤ y ∧ y ≤ 13
        · rw [if_pos h2]
        · rw [if_neg h2]
    · intro z hz
      have hf := filled_cell_full c hc index x y z (hm x hx) (hm y hy) (hm z hz)
      rw [List.countP_cons, List.countP_nil, Nat.zero_add]
      by_cases h : (1 ≤ x ∧ x ≤ 13) ∧ (1 ≤ y ∧ y ≤ 13) ∧ (1 ≤ z ∧ z ≤ 13)
      · rw [if_pos (decide_eq_true (hf.mpr h)), if_pos h.2.2, if_pos ⟨h.1, h.2.1⟩]
      · have hv : ¬ (cellAt (genVoxel.Fill_Chunk c) index x y z).val = 255 := fun e => h (hf.mp e)
        rw [if_neg (by simpa using hv)]
        by_cases h3 : 1 ≤ z ∧ z ≤ 13
        · rw [if_pos h3, if_neg (fun h' => h ⟨h'.1, h'.2, h3⟩)]
        · rw [if_neg h3]

theorem populate_chunk_getElem (c : Chunk) (index : Int) (x y z : Nat) (hx : x < 15)
    (hy : y < 15) (hz : z < 15) :
    (populate_chunk c index [])[x * 225 + y * 15 + z]? = some (cellAt c index x y z) := by
  rw [populate_chunk_eq, List.nil_append]
  exact cells_getElem c index x y z hx hy hz

theorem populate_chunk_mem (c : Chunk) (index : Int) (cell : MarchingCube.Cell)
    (h : cell ∈ populate_chunk c index []) :
    ∃ x y z : Int, (0 ≤ x ∧ x ≤ 14) ∧ (0 ≤ y ∧ y ≤ 14) ∧ (0 ≤ z ∧ z ≤ 14) ∧
      cell = cellAt c index x y z := by
  rw [populate_chunk_eq, List.nil_append] at h
  simp only [List.mem_flatMap, List.mem_singleton] at h
  obtain ⟨x, hx, y, hy, z, hz, e⟩ := h
  have hx' := (intFor_mem 0 15 x).mp hx
  have hy' := (intFor_mem 0 15 y).mp hy
  have hz' := (intFor_mem 0 15 z).mp hz
  exact ⟨x, y, z, by omega, by omega, by omega, e⟩

theorem filled_cross_count (c : Chunk) (hc : ∀ v : Int, 0 ≤ v → v < 4096 → c.voxel v = 0)
    (index : Int) :
    (populate_chunk (genVoxel.Fill_Chunk c) index []).countP
      (fun cell => decide (cell.val ≠ 0 ∧ cell.val ≠ 255)) = 1178 := by
  have hlen := populate_chunk_length (genVoxel.Fill_Chunk c) index
  have hsplit := List.length_eq_countP_add_countP (fun cell : MarchingCube.Cell => decide (cell.val = 255))
    (populate_chunk (genVoxel.Fill_Chunk c) index [])
  rw [hlen, filled_full_count c hc index] at hsplit
  have hcongr : (populate_chunk (genVoxel.Fill_Chunk c) index []).countP
      (fun cell => decide (cell.val ≠ 0 ∧ cell.val ≠ 255))
      = (populate_chunk (genVoxel.Fill_Chunk c) index []).countP
        (fun cell => ¬ (decide (cell.val = 255)) = true) := by
    apply List.countP_congr
    intro cell hcell
    obtain ⟨x, y, z, hx, hy, hz, e⟩ := populate_chunk_mem _ index cell hcell
    have hne : cell.val ≠ 0 := by
      rw [e]
      exact filled_cell_ne_zero c hc index x y z hx hy hz
    simp [hne]
  rw [hcongr]
  omega

/-- C26: for a chunk filled by `Fill_Chunk` from an all-zero voxel array, the
cell `populate_chunk` builds at `(x, y, z)` (offset `x * 225 + y * 15 + z` of the
list) has mask `0xFF` if and only if `1 ≤ x, y, z ≤ 13`, and its mask is never
`0x00`; a cell with a coordinate equal to 0 or 14 has a mask that is neither
`0x00` nor `0xFF`. Of the 3375 cells exactly 2197 are all-solid and exactly 1178
cross the surface. -/
theorem filled_chunk_cell_masks (c : Chunk)
    (hc : ∀ v : Int, 0 ≤ v → v < 4096 → c.voxel v = 0) (index : Int) :
    (∀ x y z : Nat, x < 15 → y < 15 → z < 15 →
      ∃ cell : MarchingCube.Cell,
        (populate_chunk (genVoxel.Fill_Chunk c) index [])[x * 225 + y * 15 + z]? = some cell ∧
        (cell.val = 255 ↔ (1 ≤ x ∧ x ≤ 13) ∧ (1 ≤ y ∧ y ≤ 13) ∧ (1 ≤ z ∧ z ≤ 13)) ∧
        cell.val ≠ 0 ∧
        ((x = 0 ∨ x = 14 ∨ y = 0 ∨ y = 14 ∨ z = 0 ∨ z = 14) → cell.val ≠ 0 ∧ cell.val ≠ 255)) ∧
    (∀ cell ∈ populate_chunk (genVoxel.Fill_Chunk c) index [], cell.val ≠ 0) ∧
    (populate_chunk (genVoxel.Fill_Chunk c) index []).length = 3375 ∧
    (populate_chunk (genVoxel.Fill_Chunk c) index []).countP
      (fun cell => decide (cell.val = 255)) = 2197 ∧
    (populate_chunk (genVoxel.Fill_Chunk c) index []).countP
      (fun cell => decide (cell.val ≠ 0 ∧ cell.val ≠ 255)) = 1178 := by
  refine ⟨?_, ?_, populate_chunk_length _ index, filled_full_count c hc index,
    filled_cross_count c hc index⟩
  · intro x y z hx hy hz
    have hf := filled_cell_full c hc index x y z (by omega) (by omega) (by omega)
    have hn := filled_cell_ne_zero c hc index x y z (by omega) (by omega) (by omega)
    refine ⟨_, populate_chunk_getElem _ index x y z hx hy hz, ?_, hn, ?_⟩
    · rw [hf]
      omega
    · intro hb
      refine ⟨hn, ?_⟩
      intro h
      have := hf.mp h
      omega
  · intro cell hcell
    obtain ⟨x, y, z, hx, hy, hz, e⟩ := populate_chunk_mem _ index cell hcell
    rw [e]
    exact filled_cell_ne_zero c hc index x y z hx hy hz

theorem filled_chunk_cell_masks_witness :
    (∀ v : Int, 0 ≤ v → v < 4096 → newChunk.voxel v = 0) ∧
    ((∀ x y z : Nat, x < 15 → y < 15 → z < 15 →
      ∃ cell : MarchingCube.Cell,
        (populate_chunk (genVoxel.Fill_Chunk newChunk) 0 [])[x * 225 + y * 15 + z]?
          = some cell ∧
        (cell.val = 255 ↔ (1 ≤ x ∧ x ≤ 13) ∧ (1 ≤ y ∧ y ≤ 13) ∧ (1 ≤ z ∧ z ≤ 13)) ∧
        cell.val ≠ 0 ∧
        ((x = 0 ∨ x = 14 ∨ y = 0 ∨ y = 14 ∨ z = 0 ∨ z = 14) → cell.val ≠ 0 ∧ cell.val ≠ 255)) ∧
    (∀ cell ∈ populate_chunk (genVoxel.Fill_Chunk newChunk) 0 [], cell.val ≠ 0) ∧
    (populate_chunk (genVoxel.Fill_Chunk newChunk) 0 []).length = 3375 ∧
    (populate_chunk (genVoxel.Fill_Chunk newChunk) 0 []).countP
      (fun cell => decide (cell.val = 255)) = 2197 ∧
    (populate_chunk (genVoxel.Fill_Chunk newChunk) 0 []).countP
      (fun cell => decide (cell.val ≠ 0 ∧ cell.val ≠ 255)) = 1178) :=
  ⟨fun _ _ _ => rfl, filled_chunk_cell_masks newChunk (fun _ _ _ => rfl) 0⟩

/-! ## Border cells of a freshly filled chunk -/

theorem filled_border_absent (c : Chunk) (hc : ∀ v : Int, 0 ≤ v → v < 4096 → c.voxel v = 0)
    (index x y z : Int) (hx : 0 ≤ x ∧ x ≤ 14) (hy : 0 ≤ y ∧ y ≤ 14) (hz : 0 ≤ z ∧ z ≤ 14)
    (hb : x = 0 ∨ x = 14 ∨ y = 0 ∨ y = 14 ∨ z = 0 ∨ z = 14) :
    ∃ i : Nat, i < 8 ∧ (cellAt (genVoxel.Fill_Chunk c) index x y z).val.testBit i = false := by
  have pick : ∃ a b d : Int, (a = 0 ∨ a = 1) ∧ (b = 0 ∨ b = 1) ∧ (d = 0 ∨ d = 1) ∧
      ¬ ((1 ≤ x + a ∧ x + a ≤ 14) ∧ (1 ≤ y + b ∧ y + b ≤ 14) ∧ (1 ≤ z + d ∧ z + d ≤ 14)) := by
    rcases hb with h | h | h | h | h | h
    · exact ⟨0, 0, 0, Or.inl rfl, Or.inl rfl, Or.inl rfl, by omega⟩
    · exact ⟨1, 0, 0, Or.inr rfl, Or.inl rfl, Or.inl rfl, by omega⟩
    · exact ⟨0, 0, 0, Or.inl rfl, Or.inl rfl, Or.inl rfl, by omega⟩
    · exact ⟨0, 1, 0, Or.inl rfl, Or.inr rfl, Or.inl rfl, by omega⟩
    · exact ⟨0, 0, 0, Or.inl rfl, Or.inl rfl, Or.inl rfl, by omega⟩
    · exact ⟨0, 0, 1, Or.inl rfl, Or.inl rfl, Or.inr rfl, by omega⟩
  obtain ⟨a, b, d, ha, hb', hd, hn⟩ := pick
  obtain ⟨i, hi, ho⟩ := corner_exists a b d ha hb' hd
  refine ⟨i, hi, ?_⟩
  have hiff := filled_cell_bit c hc index x y z hx hy hz i hi a b d ho (by omega) (by omega)
    (by omega)
  cases hbit : (cellAt (genVoxel.Fill_Chunk c) index x y z).val.testBit i with
  | false => rfl
  | true => exact absurd (hiff.mp hbit) hn

/-- C22 (amended): for a chunk filled by `Fill_Chunk` from an all-zero voxel
array, every bordering cell built by `populate_chunk` (a cell with some
coordinate equal to 0 or 14) has at least one corner present and at least one
corner absent: its mask is neither `0x00` nor `0xFF`, so the surface of the
filled box passes through the border cells. -/
theorem filled_chunk_border_cells_mixed (c : Chunk)
    (hc : ∀ v : Int, 0 ≤ v → v < 4096 → c.voxel v = 0) (index : Int) (x y z : Nat)
    (hx : x < 15) (hy : y < 15) (hz : z < 15)
    (hb : x = 0 ∨ x = 14 ∨ y = 0 ∨ y = 14 ∨ z = 0 ∨ z = 14) :
    ∃ cell : MarchingCube.Cell,
      (populate_chunk (genVoxel.Fill_Chunk c) index [])[x * 225 + y * 15 + z]? = some cell ∧
      (∃ i : Nat, i < 8 ∧ cell.val.testBit i = true) ∧
      (∃ j : Nat, j < 8 ∧ cell.val.testBit j = false) ∧
      cell.val ≠ 0 ∧ cell.val ≠ 255 := by
  have hp := filled_cell_nonzero c hc index x y z (by omega) (by omega) (by omega)
  have ha := filled_border_absent c hc index x y z (by omega) (by omega) (by omega) (by omega)
  refine ⟨_, populate_chunk_getElem _ index x y z hx hy hz, hp, ha, ?_, ?_⟩
  · exact filled_cell_ne_zero c hc index x y z (by omega) (by omega) (by omega)
  · obtain ⟨j, hj, hbit⟩ := ha
    intro h
    rw [h] at hbit
    have e255 : Nat.testBit 255 j = decide (j < 8) := Nat.testBit_two_pow_sub_one 8 j
    rw [e255] at hbit
    simp [hj] at hbit

theorem filled_chunk_border_cells_mixed_witness :
    (∀ v : Int, 0 ≤ v → v < 4096 → newChunk.voxel v = 0) ∧ 0 < 15 ∧ 3 < 15 ∧ 14 < 15 ∧
    ((0 : Nat) = 0 ∨ (0 : Nat) = 14 ∨ (3 : Nat) = 0 ∨ (3 : Nat) = 14 ∨ (14 : Nat) = 0
      ∨ (14 : Nat) = 14) ∧
    ∃ cell : MarchingCube.Cell,
      (populate_chunk (genVoxel.Fill_Chunk newChunk) 7 [])[0 * 225 + 3 * 15 + 14]? = some cell ∧
      (∃ i : Nat, i < 8 ∧ cell.val.testBit i = true) ∧
      (∃ j : Nat, j < 8 ∧ cell.val.testBit j = false) ∧
      cell.val ≠ 0 ∧ cell.val ≠ 255 :=
  ⟨fun _ _ _ => rfl, by decide, by decide, by decide, Or.inl rfl,
    filled_chunk_border_cells_mixed newChunk (fun _ _ _ => rfl) 7 0 3 14 (by decide) (by decide)
      (by decide) (Or.inl rfl)⟩

/-- C22 (counterexample): in a chunk filled by `Fill_Chunk` from an all-zero
voxel array, the first cell `populate_chunk` builds, the bordering cell at
`(0, 0, 0)`, has mask `0x40`: only its corner 6 at `(1, 1, 1)` is present, so the
mask is neither `0x00` nor `0xFF`. -/
theorem border_cell_mask_is_mixed :
    ∃ cell : MarchingCube.Cell,
      (populate_chunk (genVoxel.Fill_Chunk newChunk) 0 [])[0 * 225 + 0 * 15 + 0]? = some cell ∧
      cell.val = 64 ∧ cell.val ≠ 0 ∧ cell.val ≠ 255 := by
  have h := populate_chunk_getElem (genVoxel.Fill_Chunk newChunk) 0 0 0 0 (by decide) (by decide)
    (by decide)
  refine ⟨_, h, ?_, ?_, ?_⟩
  · exact cellAt_corner_val 0
  · rw [show ((0 : Nat) : Int) = 0 from rfl, cellAt_corner_val 0]
    decide
  · rw [show ((0 : Nat) : Int) = 0 from rfl, cellAt_corner_val 0]
    decide

/-! ## Rebuild order -/

theorem counter_swap (t a b a' b' : Nat) :
    addU32 (subU32 (addU32 (subU32 t a) b) a') b'
      = addU32 (subU32 (addU32 (subU32 t a') b') a) b := by
  unfold addU32 subU32
  have e1 : (2 : Nat) ^ 32 = 4294967296 := by norm_num
  rw [e1]
  omega

theorem polygonizeVoxels_comm (E : Externals) (W : World) (i j : Int) :
    polygonizeVoxels E (polygonizeVoxels E W i) j
      = polygonizeVoxels E (polygonizeVoxels E W j) i := by
  by_cases hij : i = j
  · rw [hij]
  · have hji : j ≠ i := fun h => hij h.symm
    rw [polygonizeVoxels_eq E (polygonizeVoxels E W i) j,
      polygonizeVoxels_eq E (polygonizeVoxels E W j) i,
      polygonizeVoxels_chunk_other E W i j hji, polygonizeVoxels_chunk_other E W j i hij,
      polygonizeVoxels_total, polygonizeVoxels_total, counter_swap]
    congr 1
    rw [polygonizeVoxels_eq E W i, polygonizeVoxels_eq E W j, World_mk_chunk, World_mk_chunk]
    exact Function.update_comm hij _ _ _

/-- C24: rebuild order is irrelevant. For every world and every two chunk
indices `i`, `j`, `polygonizeVoxels(i)` followed by `polygonizeVoxels(j)` yields
the same chunk data for every chunk and the same `total_terrain_triangle_count`
as `polygonizeVoxels(j)` followed by `polygonizeVoxels(i)`; hence
`polygonizeVoxelsChunks(D)` gives the same world for every iteration order of
the set `D`. -/
theorem polygonizeVoxels_order_irrelevant (E : Externals) (W : World) :
    (∀ i j : Int,
      polygonizeVoxels E (polygonizeVoxels E W i) j
        = polygonizeVoxels E (polygonizeVoxels E W j) i ∧
      (∀ k : Int, (polygonizeVoxels E (polygonizeVoxels E W i) j).chunkListBuffer k
        = (polygonizeVoxels E (polygonizeVoxels E W j) i).chunkListBuffer k) ∧
      (polygonizeVoxels E (polygonizeVoxels E W i) j).total_terrain_triangle_count
        = (polygonizeVoxels E (polygonizeVoxels E W j) i).total_terrain_triangle_count) ∧
    (∀ D1 D2 : List Int, D1.Perm D2 →
      polygonizeVoxelsChunks E W D1 = polygonizeVoxelsChunks E W D2) := by
  constructor
  · intro i j
    have h := polygonizeVoxels_comm E W i j
    refine ⟨h, ?_, ?_⟩
    · intro k
      rw [h]
    · rw [h]
  · intro D1 D2 hperm
    unfold polygonizeVoxelsChunks
    exact List.Perm.foldl_eq' hperm (fun x _ y _ z => polygonizeVoxels_comm E z x y) W

/-! ## World lattice and storage -/

theorem inWorld_ofInts (a b c : Int) (ha : -127 ≤ a ∧ a ≤ 0) (hb : -127 ≤ b ∧ b ≤ 0)
    (hc : -127 ≤ c ∧ c ≤ 0) : ¬ outOfWorld (Vec3.ofInts a b c) := by
  rw [outOfWorld_ofInts]
  omega

theorem storage_chunkIndex (a b c : Int) (ha : -127 ≤ a ∧ a ≤ 0) (hb : -127 ≤ b ∧ b ≤ 0)
    (hc : -127 ≤ c ∧ c ≤ 0) :
    genVoxel.pos_to_chunkIndex (Vec3.ofInts a b c) = (-c) / 16 * 64 + (-b) / 16 * 8 + (-a) / 16 :=
  genVoxel.pos_to_chunkIndex_ofInts a b c (by omega)

theorem storage_voxelIndex (a b c : Int) (ha : -127 ≤ a ∧ a ≤ 0) (hb : -127 ≤ b ∧ b ≤ 0)
    (hc : -127 ≤ c ∧ c ≤ 0) :
    genVoxel.pos_to_voxelIndex (Vec3.ofInts a b c)
      = (-c) % 16 * 256 + (-b) % 16 * 16 + (-a) % 16 :=
  genVoxel.pos_to_voxelIndex_ofInts a b c ha.2 hb.2 hc.2

theorem storage_injective (a b c a' b' c' : Int) (ha : -127 ≤ a ∧ a ≤ 0)
    (hb : -127 ≤ b ∧ b ≤ 0) (hc : -127 ≤ c ∧ c ≤ 0) (ha' : -127 ≤ a' ∧ a' ≤ 0)
    (hb' : -127 ≤ b' ∧ b' ≤ 0) (hc' : -127 ≤ c' ∧ c' ≤ 0)
    (h1 : genVoxel.pos_to_chunkIndex (Vec3.ofInts a b c)
      = genVoxel.pos_to_chunkIndex (Vec3.ofInts a' b' c'))
    (h2 : genVoxel.pos_to_voxelIndex (Vec3.ofInts a b c)
      = genVoxel.pos_to_voxelIndex (Vec3.ofInts a' b' c')) :
    a = a' ∧ b = b' ∧ c = c' := by
  rw [storage_chunkIndex a b c ha hb hc, storage_chunkIndex a' b' c' ha' hb' hc'] at h1
  rw [storage_voxelIndex a b c ha hb hc, storage_voxelIndex a' b' c' ha' hb' hc'] at h2
  omega

theorem storage_surjective (ci vi : Int) (hci : 0 ≤ ci ∧ ci < 512) (hvi : 0 ≤ vi ∧ vi < 4096) :
    ∃ a b c : Int, (-127 ≤ a ∧ a ≤ 0) ∧ (-127 ≤ b ∧ b ≤ 0) ∧ (-127 ≤ c ∧ c ≤ 0) ∧
      genVoxel.pos_to_chunkIndex (Vec3.ofInts a b c) = ci ∧
      genVoxel.pos_to_voxelIndex (Vec3.ofInts a b c) = vi := by
  have ha : -127 ≤ -(ci % 8 * 16 + vi % 16) ∧ -(ci % 8 * 16 + vi % 16) ≤ 0 := by omega
  have hb : -127 ≤ -(ci / 8 % 8 * 16 + vi / 16 % 16) ∧ -(ci / 8 % 8 * 16 + vi / 16 % 16) ≤ 0 := by
    omega
  have hc : -127 ≤ -(ci / 64 * 16 + vi / 256) ∧ -(ci / 64 * 16 + vi / 256) ≤ 0 := by omega
  refine ⟨-(ci % 8 * 16 + vi % 16), -(ci / 8 % 8 * 16 + vi / 16 % 16),
    -(ci / 64 * 16 + vi / 256), ha, hb, hc, ?_, ?_⟩
  · rw [storage_chunkIndex _ _ _ ha hb hc]
    omega
  · rw [storage_voxelIndex _ _ _ ha hb hc]
    omega

/-- C25: restricted to the integer positions `p` of `[-127, 0]^3`, the map
`p ↦ (pos_to_chunkIndex(p), pos_to_voxelIndex(p))` is a bijection onto
`[0, CHUNK_COUNT) × [0, CHUNK_DIMENSION^3)`, and for every such `p`,
`chunkIndex_to_pos(pos_to_chunkIndex(p)) * CHUNK_DIMENSION +
voxelIndex_to_pos(pos_to_voxelIndex(p)) = -p`; the four functions of `Voxel.h`
are the same functions. -/
theorem lattice_storage_bijection :
    (∀ a b c : Int, (-127 ≤ a ∧ a ≤ 0) → (-127 ≤ b ∧ b ≤ 0) → (-127 ≤ c ∧ c ≤ 0) →
      (0 ≤ genVoxel.pos_to_chunkIndex (Vec3.ofInts a b c) ∧
        genVoxel.pos_to_chunkIndex (Vec3.ofInts a b c) < CHUNK_COUNT) ∧
      (0 ≤ genVoxel.pos_to_voxelIndex (Vec3.ofInts a b c) ∧
        genVoxel.pos_to_voxelIndex (Vec3.ofInts a b c)
          < CHUNK_DIMENSION * CHUNK_DIMENSION * CHUNK_DIMENSION) ∧
      ((genVoxel.chunkIndex_to_pos (genVoxel.pos_to_chunkIndex (Vec3.ofInts a b c))).smul
          (CHUNK_DIMENSION : ℚ)).add
        (genVoxel.voxelIndex_to_pos (genVoxel.pos_to_voxelIndex (Vec3.ofInts a b c)))
        = Vec3.ofInts (-a) (-b) (-c)) ∧
    (∀ a b c a' b' c' : Int, (-127 ≤ a ∧ a ≤ 0) → (-127 ≤ b ∧ b ≤ 0) → (-127 ≤ c ∧ c ≤ 0) →
      (-127 ≤ a' ∧ a' ≤ 0) → (-127 ≤ b' ∧ b' ≤ 0) → (-127 ≤ c' ∧ c' ≤ 0) →
      genVoxel.pos_to_chunkIndex (Vec3.ofInts a b c)
        = genVoxel.pos_to_chunkIndex (Vec3.ofInts a' b' c') →
      genVoxel.pos_to_voxelIndex (Vec3.ofInts a b c)
        = genVoxel.pos_to_voxelIndex (Vec3.ofInts a' b' c') →
      a = a' ∧ b = b' ∧ c = c') ∧
    (∀ ci vi : Int, (0 ≤ ci ∧ ci < CHUNK_COUNT) →
      (0 ≤ vi ∧ vi < CHUNK_DIMENSION * CHUNK_DIMENSION * CHUNK_DIMENSION) →
      ∃ a b c : Int, (-127 ≤ a ∧ a ≤ 0) ∧ (-127 ≤ b ∧ b ≤ 0) ∧ (-127 ≤ c ∧ c ≤ 0) ∧
        genVoxel.pos_to_chunkIndex (Vec3.ofInts a b c) = ci ∧
        genVoxel.pos_to_voxelIndex (Vec3.ofInts a b c) = vi) ∧
    (∀ (p : Vec3) (i : Int),
      voxelNS.pos_to_chunkIndex p = genVoxel.pos_to_chunkIndex p ∧
      voxelNS.pos_to_voxelIndex p = genVoxel.pos_to_voxelIndex p ∧
      voxelNS.chunkIndex_to_pos i = genVoxel.chunkIndex_to_pos i ∧
      voxelNS.voxelIndex_to_pos i = genVoxel.voxelIndex_to_pos i) := by
  have hcc : CHUNK_COUNT = 512 := CHUNK_COUNT_eq
  have hcd : CHUNK_DIMENSION * CHUNK_DIMENSION * CHUNK_DIMENSION = 4096 := by decide
  refine ⟨?_, ?_, ?_, fun p i => ⟨rfl, rfl, rfl, rfl⟩⟩
  · intro a b c ha hb hc
    have hin := inWorld_ofInts a b c ha hb hc
    rw [hcc, hcd]
    exact ⟨genVoxel.pos_to_chunkIndex_range _ hin, genVoxel.pos_to_voxelIndex_range _ hin,
      genVoxel.reconstruct_ofInts a b c hin⟩
  · intro a b c a' b' c' ha hb hc ha' hb' hc' h1 h2
    exact storage_injective a b c a' b' c' ha hb hc ha' hb' hc' h1 h2
  · intro ci vi hci hvi
    rw [hcc] at hci
    rw [hcd] at hvi
    exact storage_surjective ci vi hci hvi

/-! ## Division guard of the ray caster -/

theorem voxelNS.RayCast_body_eq_genVoxel (sqrt : ℚ → ℚ) (initial_ro rd : Vec3)
    (chunk : Int → Chunk) (hit curr_ro : Vec3) :
    voxelNS.RayCast_body sqrt initial_ro rd chunk hit curr_ro
      = genVoxel.RayCast_body sqrt initial_ro rd chunk hit curr_ro := rfl

theorem voxelNS.RayCast_loop_eq_genVoxel (sqrt : ℚ → ℚ) (initial_ro rd : Vec3)
    (chunk : Int → Chunk) (hit : Vec3) (fuel : Nat) (s : ℚ) (curr_ro : Vec3) :
    voxelNS.RayCast_loop sqrt initial_ro rd chunk hit fuel s curr_ro
      = genVoxel.RayCast_loop sqrt initial_ro rd chunk hit fuel s curr_ro := by
  induction fuel generalizing s curr_ro with
  | zero => rfl
  | succ n ih =>
    rw [genVoxel.RayCast_loop_step]
    unfold voxelNS.RayCast_loop
    rw [voxelNS.RayCast_body_eq_genVoxel]
    by_cases hlt : s < 200
    · rw [if_pos hlt, if_pos hlt]
      cases genVoxel.RayCast_body sqrt initial_ro rd chunk hit curr_ro with
      | divByZero => rfl
      | ret found h => rfl
      | next step1 curr1 => exact ih step1 curr1
    · rw [if_neg hlt, if_neg hlt]

theorem voxelNS.RayCast_eq_genVoxel (sqrt : ℚ → ℚ) (fuel : Nat) (start : IVec3) (rd : Vec3)
    (chunk : Int → Chunk) (hit : Vec3) :
    voxelNS.RayCast sqrt fuel start rd chunk hit = genVoxel.RayCast sqrt fuel start rd chunk hit := by
  unfold voxelNS.RayCast genVoxel.RayCast
  exact voxelNS.RayCast_loop_eq_genVoxel sqrt _ rd chunk hit fuel 0 _

theorem genVoxel.RayCast_loop_no_div (sqrt : ℚ → ℚ) (initial_ro rd : Vec3)
    (hrd : rd.x ≠ 0 ∧ rd.y ≠ 0 ∧ rd.z ≠ 0) (chunk : Int → Chunk) (hit : Vec3) (fuel : Nat)
    (s : ℚ) (curr_ro : Vec3) :
    genVoxel.RayCast_loop sqrt initial_ro rd chunk hit fuel s curr_ro
      ≠ some genVoxel.RayResult.divByZero := by
  induction fuel generalizing s curr_ro with
  | zero =>
    rw [genVoxel.RayCast_loop_zero]
    split <;> simp
  | succ n ih =>
    rw [genVoxel.RayCast_loop_step]
    by_cases hlt : s < 200
    · rw [if_pos hlt, genVoxel.RayCast_body_eq _ _ _ _ _ _ hrd]
      by_cases h1 : genVoxel.pos_to_chunkIndex
          (genVoxel.RayCast_advance sqrt initial_ro rd curr_ro).2 < 0
      · rw [if_pos h1]
        simp
      · rw [if_neg h1]
        by_cases h2 : (chunk (genVoxel.pos_to_chunkIndex
            (genVoxel.RayCast_advance sqrt initial_ro rd curr_ro).2)).voxel
            (genVoxel.pos_to_voxelIndex (genVoxel.RayCast_advance sqrt initial_ro rd curr_ro).2)
            &&& 1 ≠ 0
        · rw [if_pos h2]
          simp
        · rw [if_neg h2]
          exact ih _ _
    · rw [if_neg hlt]
      simp

theorem genVoxel.RayCast_first_pass_div (sqrt : ℚ → ℚ) (fuel : Nat) (start : IVec3) (rd : Vec3)
    (chunk : Int → Chunk) (hit : Vec3) (h : rd.x = 0 ∨ rd.y = 0 ∨ rd.z = 0) :
    genVoxel.RayCast sqrt (fuel + 1) start rd chunk hit = some genVoxel.RayResult.divByZero := by
  unfold genVoxel.RayCast
  simp only
  rw [genVoxel.RayCast_loop_step, if_pos (by norm_num),
    genVoxel.RayCast_body_divByZero _ _ _ _ _ _ h]

/-- C28: with the divisions by `|rd.x|`, `|rd.y|`, `|rd.z|` modelled as guarded,
a call of `RayCast` (either copy) divides by zero if and only if a component of
the direction is zero; for such a direction the first pass through the loop
divides by zero, and so does every pass: the loop body has no check of its own. -/
theorem RayCast_division_guard (sqrt : ℚ → ℚ) (start : IVec3) (rd : Vec3)
    (chunk : Int → Chunk) (rayHitLocation : Vec3) :
    ((∃ fuel : Nat, genVoxel.RayCast sqrt fuel start rd chunk rayHitLocation
        = some genVoxel.RayResult.divByZero) ↔ (rd.x = 0 ∨ rd.y = 0 ∨ rd.z = 0)) ∧
    ((∀ fuel : Nat, genVoxel.RayCast sqrt fuel start rd chunk rayHitLocation
        ≠ some genVoxel.RayResult.divByZero) ↔ (rd.x ≠ 0 ∧ rd.y ≠ 0 ∧ rd.z ≠ 0)) ∧
    ((rd.x = 0 ∨ rd.y = 0 ∨ rd.z = 0) →
      ∀ fuel : Nat, genVoxel.RayCast sqrt (fuel + 1) start rd chunk rayHitLocation
        = some genVoxel.RayResult.divByZero) ∧
    (∀ curr_ro : Vec3,
      genVoxel.RayCast_body sqrt start.toVec3 rd chunk rayHitLocation curr_ro
        = genVoxel.RayStep.divByZero ↔ (rd.x = 0 ∨ rd.y = 0 ∨ rd.z = 0)) ∧
    (∀ fuel : Nat, voxelNS.RayCast sqrt fuel start rd chunk rayHitLocation
      = genVoxel.RayCast sqrt fuel start rd chunk rayHitLocation) := by
  have hno : (rd.x ≠ 0 ∧ rd.y ≠ 0 ∧ rd.z ≠ 0) →
      ∀ fuel : Nat, genVoxel.RayCast sqrt fuel start rd chunk rayHitLocation
        ≠ some genVoxel.RayResult.divByZero := by
    intro hrd fuel
    unfold genVoxel.RayCast
    exact genVoxel.RayCast_loop_no_div sqrt _ rd hrd chunk rayHitLocation fuel 0 _
  have hcases : (rd.x = 0 ∨ rd.y = 0 ∨ rd.z = 0) ∨ (rd.x ≠ 0 ∧ rd.y ≠ 0 ∧ rd.z ≠ 0) := by
    by_cases hx : rd.x = 0
    · exact Or.inl (Or.inl hx)
    · by_cases hy : rd.y = 0
      · exact Or.inl (Or.inr (Or.inl hy))
      · by_cases hz : rd.z = 0
        · exact Or.inl (Or.inr (Or.inr hz))
        · exact Or.inr ⟨hx, hy, hz⟩
  refine ⟨?_, ?_, ?_, ?_, ?_⟩
  · constructor
    · rintro ⟨fuel, hf⟩
      rcases hcases with h | h
      · exact h
      · exact absurd hf (hno h fuel)
    · intro h
      exact ⟨1, genVoxel.RayCast_first_pass_div sqrt 0 start rd chunk rayHitLocation h⟩
  · constructor
    · intro hall
      rcases hcases with h | h
      · exact absurd (genVoxel.RayCast_first_pass_div sqrt 0 start rd chunk rayHitLocation h)
          (hall 1)
      · exact h
    · exact hno
  · intro h fuel
    exact genVoxel.RayCast_first_pass_div sqrt fuel start rd chunk rayHitLocation h
  · intro curr_ro
    constructor
    · intro hb
      rcases hcases with h | h
      · exact h
      · rw [genVoxel.RayCast_body_eq _ _ _ _ _ _ h] at hb
        split at hb
        · exact absurd hb (by simp)
        · split at hb
          · exact absurd hb (by simp)
          · exact absurd hb (by simp)
    · intro h
      exact genVoxel.RayCast_body_divByZero _ _ _ _ _ _ h
  · intro fuel
    exact voxelNS.RayCast_eq_genVoxel sqrt fuel start rd chunk rayHitLocation

/-! ## Sampling pattern of the ray caster -/

theorem genVoxel.RayCast_trace_eq (sqrt : ℚ → ℚ) (hsqrt : ∀ r : ℚ, 0 ≤ r → sqrt (r * r) = r)
    (start : IVec3) (rd : Vec3) (hrd : rd.x ≠ 0 ∧ rd.y ≠ 0 ∧ rd.z ≠ 0)
    (hunit : Vec3.dot rd rd = 1) (k : Nat) :
    genVoxel.RayCast_trace sqrt start.toVec3 rd k
      = ((k : ℚ) / max |rd.x| (max |rd.y| |rd.z|), raySample start rd k) := by
  have hm := unit_max_pos rd hrd
  induction k with
  | zero =>
    unfold genVoxel.RayCast_trace
    rw [raySample_zero, Nat.cast_zero, zero_div]
  | succ n ih =>
    unfold genVoxel.RayCast_trace
    rw [ih]
    simp only
    rw [← raySample_eq, genVoxel.RayCast_advance_exact sqrt hsqrt start.toVec3 rd hrd 1 zero_le_one
      (by rw [hunit]; norm_num) _ (div_nonneg (Nat.cast_nonneg n) hm.le),
      rayNext_sample rd hrd n, raySample_eq]

theorem genVoxel.RayCast_advance_min (sqrt : ℚ → ℚ) (initial_ro rd curr_ro : Vec3) :
    (genVoxel.RayCast_advance sqrt initial_ro rd curr_ro).1
      = min (min (glm_distance sqrt initial_ro (curr_ro.add (rd.sdiv |rd.x|)))
          (glm_distance sqrt initial_ro (curr_ro.add (rd.sdiv |rd.y|))))
        (glm_distance sqrt initial_ro (curr_ro.add (rd.sdiv |rd.z|))) := by
  have e : ∀ a b : ℚ, (if a > b then b else a) = min a b := by
    intro a b
    by_cases h : a > b
    · rw [if_pos h, min_eq_right (le_of_lt h)]
    · rw [if_neg h, min_eq_left (not_lt.mp h)]
  unfold genVoxel.RayCast_advance
  simp only [e]

theorem axis_stride (o : Int) (d : ℚ) (hd : d ≠ 0) (k : Nat) (hk : 1 ≤ k) :
    toInt ((o : ℚ) + d * ((k : ℚ) / |d|)) ≠ o := by
  rcases lt_or_gt_of_ne hd with h | h
  · have e : (o : ℚ) + d * ((k : ℚ) / |d|) = ((o - (k : Int) : Int) : ℚ) := by
      rw [abs_of_neg h]
      push_cast
      have hd' : -d ≠ 0 := neg_ne_zero.mpr hd
      field_simp
      ring
    rw [e, toInt_intCast]
    omega
  · have e : (o : ℚ) + d * ((k : ℚ) / |d|) = ((o + (k : Int) : Int) : ℚ) := by
      rw [abs_of_pos h]
      push_cast
      field_simp
    rw [e, toInt_intCast]
    omega

theorem raySample_misses_origin (start : IVec3) (rd : Vec3)
    (hrd : rd.x ≠ 0 ∧ rd.y ≠ 0 ∧ rd.z ≠ 0) (k : Nat) (hk : 1 ≤ k) :
    toInt (raySample start rd k).x ≠ start.x ∨ toInt (raySample start rd k).y ≠ start.y ∨
      toInt (raySample start rd k).z ≠ start.z := by
  have hcases : max |rd.x| (max |rd.y| |rd.z|) = |rd.x| ∨ max |rd.x| (max |rd.y| |rd.z|) = |rd.y|
      ∨ max |rd.x| (max |rd.y| |rd.z|) = |rd.z| := by
    rcases max_choice |rd.x| (max |rd.y| |rd.z|) with h | h
    · exact Or.inl h
    · rcases max_choice |rd.y| |rd.z| with h' | h'
      · exact Or.inr (Or.inl (h.trans h'))
      · exact Or.inr (Or.inr (h.trans h'))
  unfold raySample IVec3.toVec3 Vec3.ofInts Vec3.add Vec3.smul
  simp only
  rcases hcases with h | h | h
  · rw [h]
    exact Or.inl (axis_stride start.x rd.x hrd.1 k hk)
  · rw [h]
    exact Or.inr (Or.inl (axis_stride start.y rd.y hrd.2.1 k hk))
  · rw [h]
    exact Or.inr (Or.inr (axis_stride start.z rd.z hrd.2.2 k hk))

theorem storage_trunc (p : Vec3) (h : ¬ outOfWorld p) :
    (-127 ≤ toInt p.x ∧ toInt p.x ≤ 0) ∧ (-127 ≤ toInt p.y ∧ toInt p.y ≤ 0) ∧
    (-127 ≤ toInt p.z ∧ toInt p.z ≤ 0) ∧
    genVoxel.pos_to_chunkIndex p
      = genVoxel.pos_to_chunkIndex (Vec3.ofInts (toInt p.x) (toInt p.y) (toInt p.z)) ∧
    genVoxel.pos_to_voxelIndex p
      = genVoxel.pos_to_voxelIndex (Vec3.ofInts (toInt p.x) (toInt p.y) (toInt p.z)) := by
  have hb := h
  unfold outOfWorld at hb
  simp only [not_or, not_lt, gt_iff_lt] at hb
  obtain ⟨hx0, hy0, hz0, hx1, hy1, hz1⟩ := hb
  have bx := toInt_bounds p.x hx0 hx1
  have by1 := toInt_bounds p.y hy0 hy1
  have bz := toInt_bounds p.z hz0 hz1
  have hin := inWorld_ofInts (toInt p.x) (toInt p.y) (toInt p.z) bx by1 bz
  refine ⟨bx, by1, bz, ?_, ?_⟩
  · rw [genVoxel.pos_to_chunkIndex_of_in p h, genVoxel.pos_to_chunkIndex_of_in _ hin]
    simp only [Vec3.ofInts, toInt_intCast]
  · rw [genVoxel.pos_to_voxelIndex_eq p, genVoxel.pos_to_voxelIndex_eq]
    simp only [Vec3.ofInts, toInt_intCast]

theorem raySample_other_voxel (start : IVec3) (rd : Vec3)
    (hrd : rd.x ≠ 0 ∧ rd.y ≠ 0 ∧ rd.z ≠ 0) (k : Nat) (hk : 1 ≤ k)
    (ho : ¬ outOfWorld start.toVec3) (hs : ¬ outOfWorld (raySample start rd k)) :
    ¬ (genVoxel.pos_to_chunkIndex (raySample start rd k)
        = genVoxel.pos_to_chunkIndex start.toVec3 ∧
      genVoxel.pos_to_voxelIndex (raySample start rd k)
        = genVoxel.pos_to_voxelIndex start.toVec3) := by
  rintro ⟨h1, h2⟩
  obtain ⟨bx, by1, bz, e1, e2⟩ := storage_trunc _ hs
  have ho' := ho
  unfold IVec3.toVec3 at ho'
  rw [outOfWorld_ofInts] at ho'
  rw [e1] at h1
  rw [e2] at h2
  have hinj := storage_injective _ _ _ start.x start.y start.z bx by1 bz (by omega) (by omega)
    (by omega) h1 h2
  rcases raySample_misses_origin start rd hrd k hk with h | h | h
  · exact h hinj.1
  · exact h hinj.2.1
  · exact h hinj.2.2

theorem genVoxel.RayCast_body_trace (sqrt : ℚ → ℚ) (hsqrt : ∀ r : ℚ, 0 ≤ r → sqrt (r * r) = r)
    (start : IVec3) (rd : Vec3) (hrd : rd.x ≠ 0 ∧ rd.y ≠ 0 ∧ rd.z ≠ 0)
    (hunit : Vec3.dot rd rd = 1) (chunk : Int → Chunk) (hit : Vec3) (k : Nat) :
    genVoxel.RayCast_body sqrt start.toVec3 rd chunk hit
        (genVoxel.RayCast_trace sqrt start.toVec3 rd k).2
      = if genVoxel.pos_to_chunkIndex (raySample start rd (k + 1)) < 0 then
          genVoxel.RayStep.ret false hit
        else if voxelPresent chunk (raySample start rd (k + 1)) then
          genVoxel.RayStep.ret true (raySample start rd (k + 1))
        else
          genVoxel.RayStep.next (((k + 1 : Nat) : ℚ) / max |rd.x| (max |rd.y| |rd.z|))
            (raySample start rd (k + 1)) := by
  have e : genVoxel.RayCast_advance sqrt start.toVec3 rd
      (genVoxel.RayCast_trace sqrt start.toVec3 rd k).2
      = genVoxel.RayCast_trace sqrt start.toVec3 rd (k + 1) := rfl
  rw [genVoxel.RayCast_body_eq _ _ _ _ _ _ hrd, e,
    genVoxel.RayCast_trace_eq sqrt hsqrt start rd hrd hunit (k + 1)]
  simp only
  by_cases h1 : genVoxel.pos_to_chunkIndex (raySample start rd (k + 1)) < 0
  · rw [if_pos h1, if_pos h1]
  · rw [if_neg h1, if_neg h1]
    by_cases h2 : voxelPresent chunk (raySample start rd (k + 1))
    · have h3 : (chunk (genVoxel.pos_to_chunkIndex (raySample start rd (k + 1)))).voxel
          (genVoxel.pos_to_voxelIndex (raySample start rd (k + 1))) &&& 1 ≠ 0 := h2
      rw [if_pos h2, if_pos h3]
    · have h3 : ¬ (chunk (genVoxel.pos_to_chunkIndex (raySample start rd (k + 1)))).voxel
          (genVoxel.pos_to_voxelIndex (raySample start rd (k + 1))) &&& 1 ≠ 0 := h2
      rw [if_neg h2, if_neg h3]

/-- C27: sampling pattern of the ray caster in exact arithmetic. For every
integer origin `o` and every unit direction `d` with nonzero components, after
`k` passes the loop of `RayCast` holds `step = k / m` and
`rayLocation = o + (k / m) * d`, `m = max(|d.x|, |d.y|, |d.z|)`: the position
tested in the `k`-th pass (`k = 1, 2, …`) is `o + (k / m) * d`. The step of a
pass is `min(distX, distY, distZ)` and grows by the constant `1 / m`; every
tested position has a truncated coordinate different from the origin's, so it
never lies in the voxel of the origin. -/
theorem RayCast_sampling_pattern (sqrt : ℚ → ℚ) (hsqrt : ∀ r : ℚ, 0 ≤ r → sqrt (r * r) = r)
    (start : IVec3) (rd : Vec3) (hrd : rd.x ≠ 0 ∧ rd.y ≠ 0 ∧ rd.z ≠ 0)
    (hunit : Vec3.dot rd rd = 1) :
    (∀ k : Nat, genVoxel.RayCast_trace sqrt start.toVec3 rd k
      = ((k : ℚ) / max |rd.x| (max |rd.y| |rd.z|),
        start.toVec3.add (rd.smul ((k : ℚ) / max |rd.x| (max |rd.y| |rd.z|))))) ∧
    (∀ (chunk : Int → Chunk) (hit : Vec3) (k : Nat),
      genVoxel.RayCast_body sqrt start.toVec3 rd chunk hit
          (genVoxel.RayCast_trace sqrt start.toVec3 rd k).2
        = if genVoxel.pos_to_chunkIndex (raySample start rd (k + 1)) < 0 then
            genVoxel.RayStep.ret false hit
          else if voxelPresent chunk (raySample start rd (k + 1)) then
            genVoxel.RayStep.ret true (raySample start rd (k + 1))
          else
            genVoxel.RayStep.next (((k + 1 : Nat) : ℚ) / max |rd.x| (max |rd.y| |rd.z|))
              (raySample start rd (k + 1))) ∧
    (∀ curr_ro : Vec3, (genVoxel.RayCast_advance sqrt start.toVec3 rd curr_ro).1
      = min (min (glm_distance sqrt start.toVec3 (curr_ro.add (rd.sdiv |rd.x|)))
          (glm_distance sqrt start.toVec3 (curr_ro.add (rd.sdiv |rd.y|))))
        (glm_distance sqrt start.toVec3 (curr_ro.add (rd.sdiv |rd.z|)))) ∧
    (∀ k : Nat, (genVoxel.RayCast_trace sqrt start.toVec3 rd (k + 1)).1
      - (genVoxel.RayCast_trace sqrt start.toVec3 rd k).1
      = 1 / max |rd.x| (max |rd.y| |rd.z|)) ∧
    (∀ k : Nat, 1 ≤ k →
      (toInt (genVoxel.RayCast_trace sqrt start.toVec3 rd k).2.x ≠ start.x ∨
        toInt (genVoxel.RayCast_trace sqrt start.toVec3 rd k).2.y ≠ start.y ∨
        toInt (genVoxel.RayCast_trace sqrt start.toVec3 rd k).2.z ≠ start.z) ∧
      (¬ outOfWorld start.toVec3 →
        ¬ outOfWorld (genVoxel.RayCast_trace sqrt start.toVec3 rd k).2 →
        ¬ (genVoxel.pos_to_chunkIndex (genVoxel.RayCast_trace sqrt start.toVec3 rd k).2
            = genVoxel.pos_to_chunkIndex start.toVec3 ∧
          genVoxel.pos_to_voxelIndex (genVoxel.RayCast_trace sqrt start.toVec3 rd k).2
            = genVoxel.pos_to_voxelIndex start.toVec3))) := by
  have ht := genVoxel.RayCast_trace_eq sqrt hsqrt start rd hrd hunit
  refine ⟨?_, ?_, ?_, ?_, ?_⟩
  · intro k
    rw [ht k, raySample_eq]
  · intro chunk hit k
    exact genVoxel.RayCast_body_trace sqrt hsqrt start rd hrd hunit chunk hit k
  · intro curr_ro
    exact genVoxel.RayCast_advance_min sqrt start.toVec3 rd curr_ro
  · intro k
    rw [ht (k + 1), ht k]
    simp only
    push_cast
    ring
  · intro k hk
    rw [ht k]
    simp only
    exact ⟨raySample_misses_origin start rd hrd k hk,
      fun ho hs => raySample_other_voxel start rd hrd k hk ho hs⟩

theorem RayCast_sampling_pattern_witness :
    (∀ r : ℚ, 0 ≤ r → ratSqrt (r * r) = r) ∧
    ((-2 / 3 : ℚ) ≠ 0 ∧ (-2 / 3 : ℚ) ≠ 0 ∧ (-1 / 3 : ℚ) ≠ 0) ∧
    Vec3.dot ⟨-2 / 3, -2 / 3, -1 / 3⟩ ⟨-2 / 3, -2 / 3, -1 / 3⟩ = 1 ∧
    ((∀ k : Nat, genVoxel.RayCast_trace ratSqrt (IVec3.toVec3 ⟨-5, -5, -5⟩) ⟨-2 / 3, -2 / 3, -1 / 3⟩ k
      = ((k : ℚ) / max |(-2 / 3 : ℚ)| (max |(-2 / 3 : ℚ)| |(-1 / 3 : ℚ)|),
        (IVec3.toVec3 ⟨-5, -5, -5⟩).add (Vec3.smul ⟨-2 / 3, -2 / 3, -1 / 3⟩ ((k : ℚ) / max |(-2 / 3 : ℚ)| (max |(-2 / 3 : ℚ)| |(-1 / 3 : ℚ)|))))) ∧
    (∀ (chunk : Int → Chunk) (hit : Vec3) (k : Nat),
      genVoxel.RayCast_body ratSqrt (IVec3.toVec3 ⟨-5, -5, -5⟩) ⟨-2 / 3, -2 / 3, -1 / 3⟩ chunk hit
          (genVoxel.RayCast_trace ratSqrt (IVec3.toVec3 ⟨-5, -5, -5⟩) ⟨-2 / 3, -2 / 3, -1 / 3⟩ k).2
        = if genVoxel.pos_to_chunkIndex (raySample ⟨-5, -5, -5⟩ ⟨-2 / 3, -2 / 3, -1 / 3⟩ (k + 1)) < 0 then
            genVoxel.RayStep.ret false hit
          else if voxelPresent chunk (raySample ⟨-5, -5, -5⟩ ⟨-2 / 3, -2 / 3, -1 / 3⟩ (k + 1)) then
            genVoxel.RayStep.ret true (raySample ⟨-5, -5, -5⟩ ⟨-2 / 3, -2 / 3, -1 / 3⟩ (k + 1))
          else
            genVoxel.RayStep.next (((k + 1 : Nat) : ℚ) / max |(-2 / 3 : ℚ)| (max |(-2 / 3 : ℚ)| |(-1 / 3 : ℚ)|))
              (raySample ⟨-5, -5, -5⟩ ⟨-2 / 3, -2 / 3, -1 / 3⟩ (k + 1))) ∧
    (∀ curr_ro : Vec3, (genVoxel.RayCast_advance ratSqrt (IVec3.toVec3 ⟨-5, -5, -5⟩) ⟨-2 / 3, -2 / 3, -1 / 3⟩ curr_ro).1
      = min (min (glm_distance ratSqrt (IVec3.toVec3 ⟨-5, -5, -5⟩) (curr_ro.add (Vec3.sdiv ⟨-2 / 3, -2 / 3, -1 / 3⟩ |(-2 / 3 : ℚ)|)))
          (glm_distance ratSqrt (IVec3.toVec3 ⟨-5, -5, -5⟩) (curr_ro.add (Vec3.sdiv ⟨-2 / 3, -2 / 3, -1 / 3⟩ |(-2 / 3 : ℚ)|))))
        (glm_distance ratSqrt (IVec3.toVec3 ⟨-5, -5, -5⟩) (curr_ro.add (Vec3.sdiv ⟨-2 / 3, -2 / 3, -1 / 3⟩ |(-1 / 3 : ℚ)|)))) ∧
    (∀ k : Nat, (genVoxel.RayCast_trace ratSqrt (IVec3.toVec3 ⟨-5, -5, -5⟩) ⟨-2 / 3, -2 / 3, -1 / 3⟩ (k + 1)).1
      - (genVoxel.RayCast_trace ratSqrt (IVec3.toVec3 ⟨-5, -5, -5⟩) ⟨-2 / 3, -2 / 3, -1 / 3⟩ k).1
      = 1 / max |(-2 / 3 : ℚ)| (max |(-2 / 3 : ℚ)| |(-1 / 3 : ℚ)|)) ∧
    (∀ k : Nat, 1 ≤ k →
      (toInt (genVoxel.RayCast_trace ratSqrt (IVec3.toVec3 ⟨-5, -5, -5⟩) ⟨-2 / 3, -2 / 3, -1 / 3⟩ k).2.x ≠ (-5 : Int) ∨
        toInt (genVoxel.RayCast_trace ratSqrt (IVec3.toVec3 ⟨-5, -5, -5⟩) ⟨-2 / 3, -2 / 3, -1 / 3⟩ k).2.y ≠ (-5 : Int) ∨
        toInt (genVoxel.RayCast_trace ratSqrt (IVec3.toVec3 ⟨-5, -5, -5⟩) ⟨-2 / 3, -2 / 3, -1 / 3⟩ k).2.z ≠ (-5 : Int)) ∧
      (¬ outOfWorld (IVec3.toVec3 ⟨-5, -5, -5⟩) →
        ¬ outOfWorld (genVoxel.RayCast_trace ratSqrt (IVec3.toVec3 ⟨-5, -5, -5⟩) ⟨-2 / 3, -2 / 3, -1 / 3⟩ k).2 →
        ¬ (genVoxel.pos_to_chunkIndex (genVoxel.RayCast_trace ratSqrt (IVec3.toVec3 ⟨-5, -5, -5⟩) ⟨-2 / 3, -2 / 3, -1 / 3⟩ k).2
            = genVoxel.pos_to_chunkIndex (IVec3.toVec3 ⟨-5, -5, -5⟩) ∧
          genVoxel.pos_to_voxelIndex (genVoxel.RayCast_trace ratSqrt (IVec3.toVec3 ⟨-5, -5, -5⟩) ⟨-2 / 3, -2 / 3, -1 / 3⟩ k).2
            = genVoxel.pos_to_voxelIndex (IVec3.toVec3 ⟨-5, -5, -5⟩))))) :=
  have hd : Vec3.dot ⟨-2 / 3, -2 / 3, -1 / 3⟩ ⟨-2 / 3, -2 / 3, -1 / 3⟩ = 1 := by
    unfold Vec3.dot
    norm_num
  have hn : (-2 / 3 : ℚ) ≠ 0 ∧ (-2 / 3 : ℚ) ≠ 0 ∧ (-1 / 3 : ℚ) ≠ 0 := by norm_num
  ⟨ratSqrt_mul_self, hn, hd,
    RayCast_sampling_pattern ratSqrt ratSqrt_mul_self ⟨-5, -5, -5⟩ ⟨-2 / 3, -2 / 3, -1 / 3⟩
      hn hd⟩

/-! ## Partitioned build and single-threaded build -/

theorem polygonizeVoxelsInit_eq_one_thread (E : Externals) (W : World) :
    polygonizeVoxelsInit E W = polygonizeVoxelsInitMultiThread E 1 W 0 := by
  have e1 : ((CHUNK_COUNT.toNat / 1 * 0 : Nat) : Int) = 0 := by decide
  have e2 : ((CHUNK_COUNT.toNat / 1 * (0 + 1) : Nat) : Int) = CHUNK_COUNT := by decide
  unfold polygonizeVoxelsInit polygonizeVoxelsInitMultiThread
  rw [e1, e2]

theorem polygonizeVoxelsInit_chunk (E : Externals) (W : World) (j : Int) (h0 : 0 ≤ j)
    (h1 : j < 512) :
    (polygonizeVoxelsInit E W).chunkListBuffer j = rebuilt E (genVoxel.Fill_Chunk newChunk) j := by
  rw [polygonizeVoxelsInit_eq_one_thread, polygonizeVoxelsInitMultiThread_chunk, if_pos]
  rw [threadSlice_mem]
  have e1 : ((512 / 1 * 0 : Nat) : Int) = 0 := by decide
  have e2 : ((512 / 1 * (0 + 1) : Nat) : Int) = 512 := by decide
  rw [e1, e2]
  exact ⟨h0, h1⟩

theorem createVertexBufferMultiThread_chunk (E : Externals) (numThreads : Nat)
    (schedule : List Nat) (W : World) (j : Int) :
    (createVertexBufferMultiThread E numThreads W schedule).chunkListBuffer j =
      if ∃ t ∈ schedule, j ∈ threadSlice numThreads t then
        rebuilt E (genVoxel.Fill_Chunk newChunk) j
      else W.chunkListBuffer j := by
  unfold createVertexBufferMultiThread
  induction schedule generalizing W with
  | nil => simp
  | cons t l ih =>
    rw [List.foldl_cons, ih, polygonizeVoxelsInitMultiThread_chunk]
    by_cases h1 : ∃ t' ∈ l, j ∈ threadSlice numThreads t'
    · obtain ⟨t', ht', hj⟩ := h1
      rw [if_pos ⟨t', ht', hj⟩, if_pos ⟨t', List.mem_cons_of_mem t ht', hj⟩]
    · rw [if_neg h1]
      by_cases h2 : j ∈ threadSlice numThreads t
      · rw [if_pos h2, if_pos ⟨t, List.mem_cons_self t l, h2⟩]
      · rw [if_neg h2, if_neg]
        rintro ⟨t', ht', hj⟩
        rcases List.mem_cons.mp ht' with e | e
        · rw [e] at hj
          exact h2 hj
        · exact h1 ⟨t', e, hj⟩

theorem pow_two_le_exponent (k : Nat) (h : 2 ^ k ≤ 512) : k ≤ 9 := by
  by_contra hk
  have h10 : 10 ≤ k := by omega
  have := Nat.pow_le_pow_right (by decide : 0 < 2) h10
  omega

/-- C29: the partitioned build computes the same chunks as the single-threaded
build. For every power of two `N = 2^k` with `1 ≤ N ≤ CHUNK_COUNT`, running
`polygonizeVoxelsInitMultiThread` for the thread ids `0 .. N-1` one after another
in any order leaves, at every chunk index of `[0, CHUNK_COUNT)`, the same chunk
(voxel array, cell list, triangle list, vertex list and vertex count) as
`polygonizeVoxelsInit`. -/
theorem partitioned_build_same_chunks (E : Externals) (W : World) (N k : Nat)
    (hN : N = 2 ^ k) (hle : N ≤ 512) (schedule : List Nat)
    (hs : schedule.Perm (List.range N)) (j : Int) (h0 : 0 ≤ j) (h1 : j < CHUNK_COUNT) :
    (createVertexBufferMultiThread E N W schedule).chunkListBuffer j
      = (polygonizeVoxelsInit E W).chunkListBuffer j ∧
    ((createVertexBufferMultiThread E N W schedule).chunkListBuffer j).voxel
      = ((polygonizeVoxelsInit E W).chunkListBuffer j).voxel ∧
    ((createVertexBufferMultiThread E N W schedule).chunkListBuffer j).grid_of_cells_per_chunk
      = ((polygonizeVoxelsInit E W).chunkListBuffer j).grid_of_cells_per_chunk ∧
    ((createVertexBufferMultiThread E N W schedule).chunkListBuffer j).tri_list_per_chunk
      = ((polygonizeVoxelsInit E W).chunkListBuffer j).tri_list_per_chunk ∧
    ((createVertexBufferMultiThread E N W schedule).chunkListBuffer j).vertexBuffer_per_chunk
      = ((polygonizeVoxelsInit E W).chunkListBuffer j).vertexBuffer_per_chunk ∧
    ((createVertexBufferMultiThread E N W schedule).chunkListBuffer j).count
      = ((polygonizeVoxelsInit E W).chunkListBuffer j).count := by
  rw [CHUNK_COUNT_eq] at h1
  have hk : k ≤ 9 := pow_two_le_exponent k (by rw [← hN]; exact hle)
  obtain ⟨t, ⟨ht, hj⟩, _⟩ := threadSlice_partition k hk j h0 h1
  rw [← hN] at ht hj
  have hmem : t ∈ schedule := (hs.mem_iff).mpr (List.mem_range.mpr ht)
  have key : (createVertexBufferMultiThread E N W schedule).chunkListBuffer j
      = (polygonizeVoxelsInit E W).chunkListBuffer j := by
    rw [createVertexBufferMultiThread_chunk, if_pos ⟨t, hmem, hj⟩,
      polygonizeVoxelsInit_chunk E W j h0 h1]
  rw [key]
  exact ⟨rfl, rfl, rfl, rfl, rfl, rfl⟩

theorem partitioned_build_same_chunks_witness :
    2 = 2 ^ 1 ∧ 2 ≤ 512 ∧ [1, 0].Perm (List.range 2) ∧ (0 : Int) ≤ 300 ∧
    (300 : Int) < CHUNK_COUNT ∧
    ((createVertexBufferMultiThread sampleExternals 2 blankWorld [1, 0]).chunkListBuffer 300
      = (polygonizeVoxelsInit sampleExternals blankWorld).chunkListBuffer 300 ∧
    ((createVertexBufferMultiThread sampleExternals 2 blankWorld [1, 0]).chunkListBuffer 300).voxel
      = ((polygonizeVoxelsInit sampleExternals blankWorld).chunkListBuffer 300).voxel ∧
    ((createVertexBufferMultiThread sampleExternals 2 blankWorld
        [1, 0]).chunkListBuffer 300).grid_of_cells_per_chunk
      = ((polygonizeVoxelsInit sampleExternals blankWorld).chunkListBuffer
        300).grid_of_cells_per_chunk ∧
    ((createVertexBufferMultiThread sampleExternals 2 blankWorld
        [1, 0]).chunkListBuffer 300).tri_list_per_chunk
      = ((polygonizeVoxelsInit sampleExternals blankWorld).chunkListBuffer
        300).tri_list_per_chunk ∧
    ((createVertexBufferMultiThread sampleExternals 2 blankWorld
        [1, 0]).chunkListBuffer 300).vertexBuffer_per_chunk
      = ((polygonizeVoxelsInit sampleExternals blankWorld).chunkListBuffer
        300).vertexBuffer_per_chunk ∧
    ((createVertexBufferMultiThread sampleExternals 2 blankWorld [1, 0]).chunkListBuffer 300).count
      = ((polygonizeVoxelsInit sampleExternals blankWorld).chunkListBuffer 300).count) :=
  ⟨rfl, by decide, by decide, by decide, by decide,
    partitioned_build_same_chunks sampleExternals blankWorld 2 1 rfl (by decide) [1, 0]
      (by decide) 300 (by decide) (by decide)⟩

/-! ## Edits are idempotent and only remove -/

theorem genVoxel.fold_damaged_fixed (ps : List Vec3) (st : (Int → Chunk) × List Int)
    (h : ∀ p ∈ ps, 0 ≤ genVoxel.pos_to_chunkIndex p → genVoxel.pos_to_chunkIndex p ∈ st.2) :
    (ps.foldl genVoxel.Remove_Voxel_body st).2 = st.2 := by
  induction ps generalizing st with
  | nil => rfl
  | cons p ps ih =>
    rw [List.foldl_cons]
    have hb : (genVoxel.Remove_Voxel_body st p).2 = st.2 := by
      unfold genVoxel.Remove_Voxel_body
      by_cases hc : genVoxel.pos_to_chunkIndex p < 0
      · simp only [hc, if_true]
      · simp only [hc, if_false]
        exact List.insert_of_mem (h p (List.mem_cons_self p ps) (by omega))
    rw [ih, hb]
    intro q hq hq0
    rw [hb]
    exact h q (List.mem_cons_of_mem p hq) hq0

theorem genVoxel.Remove_Voxel_twice_damaged (target : Vec3) (chunk : Int → Chunk)
    (D : List Int) :
    (genVoxel.Remove_Voxel target (genVoxel.Remove_Voxel target chunk D).1
      (genVoxel.Remove_Voxel target chunk D).2).2 = (genVoxel.Remove_Voxel target chunk D).2 := by
  have e : genVoxel.Remove_Voxel target (genVoxel.Remove_Voxel target chunk D).1
      (genVoxel.Remove_Voxel target chunk D).2
      = (genVoxel.Sphere target 5 []).foldl genVoxel.Remove_Voxel_body
        (genVoxel.Remove_Voxel target chunk D) := rfl
  rw [e]
  apply genVoxel.fold_damaged_fixed
  intro p hp h0
  unfold genVoxel.Remove_Voxel
  rw [genVoxel.fold_damaged]
  exact Or.inr ⟨p, hp, h0, rfl⟩

theorem genVoxel.Remove_Voxel_twice_voxel (target : Vec3) (chunk : Int → Chunk)
    (D : List Int) (i v : Int) :
    ((genVoxel.Remove_Voxel target (genVoxel.Remove_Voxel target chunk D).1
      (genVoxel.Remove_Voxel target chunk D).2).1 i).voxel v
      = ((genVoxel.Remove_Voxel target chunk D).1 i).voxel v := by
  have e : genVoxel.Remove_Voxel target (genVoxel.Remove_Voxel target chunk D).1
      (genVoxel.Remove_Voxel target chunk D).2
      = (genVoxel.Sphere target 5 []).foldl genVoxel.Remove_Voxel_body
        (genVoxel.Remove_Voxel target chunk D) := rfl
  rw [e, genVoxel.fold_voxel]
  by_cases h : ∃ p ∈ genVoxel.Sphere target 5 [], 0 ≤ genVoxel.pos_to_chunkIndex p ∧
      genVoxel.pos_to_chunkIndex p = i ∧ genVoxel.pos_to_voxelIndex p = v
  · rw [if_pos h]
    unfold genVoxel.Remove_Voxel
    rw [genVoxel.fold_voxel, if_pos h]
  · rw [if_neg h]

theorem genVoxel.Remove_Voxel_only_removes (target : Vec3) (chunk : Int → Chunk)
    (D : List Int) (i v : Int)
    (h : ((genVoxel.Remove_Voxel target chunk D).1 i).voxel v &&& 1 ≠ 0) :
    (chunk i).voxel v &&& 1 ≠ 0 ∧
      ((genVoxel.Remove_Voxel target chunk D).1 i).voxel v = (chunk i).voxel v := by
  unfold genVoxel.Remove_Voxel at h ⊢
  rw [genVoxel.fold_voxel] at h ⊢
  by_cases hc : ∃ p ∈ genVoxel.Sphere target 5 [], 0 ≤ genVoxel.pos_to_chunkIndex p ∧
      genVoxel.pos_to_chunkIndex p = i ∧ genVoxel.pos_to_voxelIndex p = v
  · rw [if_pos hc] at h
    exact absurd rfl h
  · rw [if_neg hc] at h ⊢
    exact ⟨h, rfl⟩

/-- C30: edits are idempotent and only remove. For every target, chunk array and
damaged set, `Remove_Voxel` applied twice in a row with the same target leaves the
same voxel arrays and the same damaged set as applying it once, and a voxel that
has bit 0 set after a `Remove_Voxel` had it set, with the same byte, before the
call. -/
theorem Remove_Voxel_idempotent_and_removing (target : Vec3) (chunk : Int → Chunk)
    (D : List Int) :
    (∀ i : Int,
      ((genVoxel.Remove_Voxel target (genVoxel.Remove_Voxel target chunk D).1
        (genVoxel.Remove_Voxel target chunk D).2).1 i).voxel
        = ((genVoxel.Remove_Voxel target chunk D).1 i).voxel) ∧
    (genVoxel.Remove_Voxel target (genVoxel.Remove_Voxel target chunk D).1
      (genVoxel.Remove_Voxel target chunk D).2).2 = (genVoxel.Remove_Voxel target chunk D).2 ∧
    (∀ i v : Int, ((genVoxel.Remove_Voxel target chunk D).1 i).voxel v &&& 1 ≠ 0 →
      (chunk i).voxel v &&& 1 ≠ 0 ∧
      ((genVoxel.Remove_Voxel target chunk D).1 i).voxel v = (chunk i).voxel v) := by
  refine ⟨?_, genVoxel.Remove_Voxel_twice_damaged target chunk D, ?_⟩
  · intro i
    funext v
    exact genVoxel.Remove_Voxel_twice_voxel target chunk D i v
  · intro i v h
    exact genVoxel.Remove_Voxel_only_removes target chunk D i v h


/-! ## Ray caster: bounded execution for every direction of length at least one -/

theorem square_growth (s a D : ℚ) (hs : 0 ≤ s) (ha : 0 < a) (haD : a * a ≤ D) (hD : 1 ≤ D) :
    (s + 1) * (s + 1) ≤ (s + 1 / a) * (s + 1 / a) * D := by
  have hu : 0 < 1 / a := one_div_pos.mpr ha
  have h1 : 1 ≤ 1 / a * (1 / a) * D := by
    have e : 1 / a * (1 / a) * (a * a) = 1 := by
      field_simp
    have : 1 / a * (1 / a) * (a * a) ≤ 1 / a * (1 / a) * D :=
      mul_le_mul_of_nonneg_left haD (mul_nonneg hu.le hu.le)
    linarith
  have haD' : a ≤ D := by
    rcases le_or_lt a 1 with h | h
    · linarith
    · nlinarith
  have h2 : 1 ≤ 1 / a * D := by
    have e : 1 / a * a = 1 := by
      field_simp
    have : 1 / a * a ≤ 1 / a * D := mul_le_mul_of_nonneg_left haD' hu.le
    linarith
  have h3 : s * s ≤ s * s * D := by nlinarith [mul_nonneg hs hs]
  have h4 : 2 * s ≤ 2 * s * (1 / a * D) := by nlinarith
  have e : (s + 1 / a) * (s + 1 / a) * D
      = s * s * D + 2 * s * (1 / a * D) + 1 / a * (1 / a) * D := by ring
  rw [e]
  nlinarith

theorem advance_dist_ge (sqrt : ℚ → ℚ) (hlow : ∀ r q : ℚ, 0 ≤ r → r * r ≤ q → r ≤ sqrt q)
    (initial_ro rd : Vec3) (hD : 1 ≤ Vec3.dot rd rd) (s a : ℚ) (hs : 0 ≤ s) (ha : 0 < a)
    (haD : a * a ≤ Vec3.dot rd rd) :
    s + 1 ≤ glm_distance sqrt initial_ro ((initial_ro.add (rd.smul s)).add (rd.sdiv a)) := by
  unfold glm_distance
  rw [advance_offset_dot]
  exact hlow (s + 1) _ (by linarith) (square_growth s a _ hs ha haD hD)

theorem abs_sq_le_dot (rd : Vec3) :
    |rd.x| * |rd.x| ≤ Vec3.dot rd rd ∧ |rd.y| * |rd.y| ≤ Vec3.dot rd rd ∧
      |rd.z| * |rd.z| ≤ Vec3.dot rd rd := by
  unfold Vec3.dot
  rw [abs_mul_abs_self, abs_mul_abs_self, abs_mul_abs_self]
  have hx := mul_self_nonneg rd.x
  have hy := mul_self_nonneg rd.y
  have hz := mul_self_nonneg rd.z
  refine ⟨by linarith, by linarith, by linarith⟩

theorem genVoxel.RayCast_advance_ge (sqrt : ℚ → ℚ)
    (hlow : ∀ r q : ℚ, 0 ≤ r → r * r ≤ q → r ≤ sqrt q) (initial_ro rd : Vec3)
    (hrd : rd.x ≠ 0 ∧ rd.y ≠ 0 ∧ rd.z ≠ 0) (hD : 1 ≤ Vec3.dot rd rd) (s : ℚ) (hs : 0 ≤ s) :
    s + 1 ≤ (genVoxel.RayCast_advance sqrt initial_ro rd (initial_ro.add (rd.smul s))).1 := by
  obtain ⟨hx, hy, hz⟩ := abs_sq_le_dot rd
  rw [genVoxel.RayCast_advance_min]
  refine le_min (le_min ?_ ?_) ?_
  · exact advance_dist_ge sqrt hlow initial_ro rd hD s _ hs (abs_pos.mpr hrd.1) hx
  · exact advance_dist_ge sqrt hlow initial_ro rd hD s _ hs (abs_pos.mpr hrd.2.1) hy
  · exact advance_dist_ge sqrt hlow initial_ro rd hD s _ hs (abs_pos.mpr hrd.2.2) hz

theorem genVoxel.RayCast_loop_returns_low (sqrt : ℚ → ℚ)
    (hlow : ∀ r q : ℚ, 0 ≤ r → r * r ≤ q → r ≤ sqrt q) (initial_ro rd : Vec3)
    (hrd : rd.x ≠ 0 ∧ rd.y ≠ 0 ∧ rd.z ≠ 0) (hD : 1 ≤ Vec3.dot rd rd) (chunk : Int → Chunk)
    (hit0 : Vec3) (fuel : Nat) (s : ℚ) (hs : 0 ≤ s) (hfuel : 200 ≤ s + (fuel : ℚ)) :
    ∃ (found : Bool) (h : Vec3),
      genVoxel.RayCast_loop sqrt initial_ro rd chunk hit0 fuel s (initial_ro.add (rd.smul s))
        = some (genVoxel.RayResult.returned found h) := by
  induction fuel generalizing s with
  | zero =>
    have : ¬ s < 200 := by
      simp only [Nat.cast_zero, add_zero] at hfuel
      exact not_lt.mpr hfuel
    rw [genVoxel.RayCast_loop_done _ _ _ _ _ _ _ _ this]
    exact ⟨false, hit0, rfl⟩
  | succ n ih =>
    by_cases hlt : s < 200
    · have hge := genVoxel.RayCast_advance_ge sqrt hlow initial_ro rd hrd hD s hs
      rw [genVoxel.RayCast_loop_step, if_pos hlt, genVoxel.RayCast_body_eq _ _ _ _ _ _ hrd]
      by_cases h1 : genVoxel.pos_to_chunkIndex
          (genVoxel.RayCast_advance sqrt initial_ro rd (initial_ro.add (rd.smul s))).2 < 0
      · rw [if_pos h1]
        exact ⟨false, hit0, rfl⟩
      · rw [if_neg h1]
        by_cases h2 : (chunk (genVoxel.pos_to_chunkIndex
            (genVoxel.RayCast_advance sqrt initial_ro rd (initial_ro.add (rd.smul s))).2)).voxel
            (genVoxel.pos_to_voxelIndex
              (genVoxel.RayCast_advance sqrt initial_ro rd (initial_ro.add (rd.smul s))).2)
            &&& 1 ≠ 0
        · rw [if_pos h2]
          exact ⟨true, _, rfl⟩
        · rw [if_neg h2]
          simp only
          rw [genVoxel.RayCast_advance_snd]
          apply ih _ (by linarith)
          push_cast at hfuel
          linarith
    · rw [genVoxel.RayCast_loop_done _ _ _ _ _ _ _ _ hlt]
      exact ⟨false, hit0, rfl⟩

theorem sqrtUpper_low (r q : ℚ) (h : r * r ≤ q) : r ≤ sqrtUpper q := by
  unfold sqrtUpper
  have hq : 0 ≤ q := le_trans (mul_self_nonneg r) h
  have hN0 : (0 : ℚ) ≤ q * 4 ^ 24 := by positivity
  have hceil : q * 4 ^ 24 ≤ ((⌈q * 4 ^ 24⌉.toNat : Nat) : ℚ) := by
    have h1 : q * 4 ^ 24 ≤ ((⌈q * 4 ^ 24⌉ : Int) : ℚ) := Int.le_ceil _
    have h2 : (0 : Int) ≤ ⌈q * 4 ^ 24⌉ := Int.ceil_nonneg hN0
    have h3 : ((⌈q * 4 ^ 24⌉.toNat : Nat) : Int) = ⌈q * 4 ^ 24⌉ := Int.toNat_of_nonneg h2
    have h4 : ((⌈q * 4 ^ 24⌉.toNat : Nat) : ℚ) = ((⌈q * 4 ^ 24⌉ : Int) : ℚ) := by
      exact_mod_cast congrArg (fun (i : Int) => (i : ℚ)) h3
    rw [h4]
    exact h1
  have hlt : ((⌈q * 4 ^ 24⌉.toNat : Nat) : ℚ)
      < ((Nat.sqrt ⌈q * 4 ^ 24⌉.toNat + 1 : Nat) : ℚ) * ((Nat.sqrt ⌈q * 4 ^ 24⌉.toNat + 1 : Nat) : ℚ) := by
    have := Nat.lt_succ_sqrt ⌈q * 4 ^ 24⌉.toNat
    exact_mod_cast this
  rw [le_div_iff₀ (by positivity)]
  by_contra hcon
  have hcon' : ((Nat.sqrt ⌈q * 4 ^ 24⌉.toNat + 1 : Nat) : ℚ) < r * 2 ^ 24 := not_le.mp hcon
  have hm0 : (0 : ℚ) ≤ ((Nat.sqrt ⌈q * 4 ^ 24⌉.toNat + 1 : Nat) : ℚ) := Nat.cast_nonneg _
  have hsq : ((Nat.sqrt ⌈q * 4 ^ 24⌉.toNat + 1 : Nat) : ℚ)
      * ((Nat.sqrt ⌈q * 4 ^ 24⌉.toNat + 1 : Nat) : ℚ) < r * 2 ^ 24 * (r * 2 ^ 24) :=
    mul_self_lt_mul_self hm0 hcon'
  have e : r * 2 ^ 24 * (r * 2 ^ 24) = r * r * 4 ^ 24 := by
    have : (4 : ℚ) ^ 24 = 2 ^ 24 * 2 ^ 24 := by norm_num
    rw [this]
    ring
  have hle : r * r * 4 ^ 24 ≤ q * 4 ^ 24 := mul_le_mul_of_nonneg_right h (by positivity)
  linarith

/-- C16 (amended): in exact arithmetic (a square root that is not below the real
root), for every origin, every direction of length at least 1 whose three
components are nonzero and every world, `RayCast` returns after at most 200
passes through its loop body, whether or not a present voxel is found. -/
theorem RayCast_returns_within_budget (sqrt : ℚ → ℚ)
    (hlow : ∀ r q : ℚ, 0 ≤ r → r * r ≤ q → r ≤ sqrt q)
    (start : IVec3) (rd : Vec3) (hrd : rd.x ≠ 0 ∧ rd.y ≠ 0 ∧ rd.z ≠ 0)
    (hlen : 1 ≤ Vec3.dot rd rd) (chunk : Int → Chunk) (rayHitLocation : Vec3) :
    ∃ (found : Bool) (h : Vec3),
      genVoxel.RayCast sqrt 200 start rd chunk rayHitLocation
        = some (genVoxel.RayResult.returned found h) := by
  unfold genVoxel.RayCast
  have h := genVoxel.RayCast_loop_returns_low sqrt hlow start.toVec3 rd hrd hlen chunk
    rayHitLocation 200 0 (le_refl _) (by norm_num)
  rw [Vec3.add_smul_zero] at h
  exact h

theorem RayCast_returns_within_budget_witness :
    (∀ r q : ℚ, 0 ≤ r → r * r ≤ q → r ≤ sqrtUpper q) ∧
    ((-1 : ℚ) ≠ 0 ∧ (-1 : ℚ) ≠ 0 ∧ (-1 : ℚ) ≠ 0) ∧
    1 ≤ Vec3.dot ⟨-1, -1, -1⟩ ⟨-1, -1, -1⟩ ∧
    ∃ (found : Bool) (h : Vec3),
      genVoxel.RayCast sqrtUpper 200 ⟨-5, -5, -5⟩ ⟨-1, -1, -1⟩
        (fun _ => genVoxel.Fill_Chunk newChunk) ⟨0, 0, 0⟩
        = some (genVoxel.RayResult.returned found h) :=
  have hd : 1 ≤ Vec3.dot ⟨-1, -1, -1⟩ ⟨-1, -1, -1⟩ := by
    unfold Vec3.dot
    norm_num
  have hn : (-1 : ℚ) ≠ 0 ∧ (-1 : ℚ) ≠ 0 ∧ (-1 : ℚ) ≠ 0 := by norm_num
  ⟨fun r q _ h => sqrtUpper_low r q h, hn, hd,
    RayCast_returns_within_budget sqrtUpper (fun r q _ h => sqrtUpper_low r q h) ⟨-5, -5, -5⟩
      ⟨-1, -1, -1⟩ hn hd (fun _ => genVoxel.Fill_Chunk newChunk) ⟨0, 0, 0⟩⟩

/-! ## Single-precision rounding -/

theorem roundEven_of_close (x : ℚ) (n : Int) (h : |x - (n : ℚ)| < 1 / 2) : roundEven x = n := by
  obtain ⟨h1, h2⟩ := abs_lt.mp h
  unfold roundEven
  rcases le_or_lt (n : ℚ) x with hle | hlt
  · have hf : ⌊x⌋ = n := Int.floor_eq_iff.mpr ⟨hle, by linarith⟩
    have hfr : Int.fract x = x - n := by
      unfold Int.fract
      rw [hf]
    rw [if_pos (by rw [hfr]; linarith), hf]
  · have hf : ⌊x⌋ = n - 1 := Int.floor_eq_iff.mpr ⟨by push_cast; linarith, by push_cast; linarith⟩
    have hfr : Int.fract x = x - (n - 1) := by
      unfold Int.fract
      rw [hf]
      push_cast
      ring
    rw [if_neg (by rw [hfr]; linarith), if_pos (by rw [hfr]; linarith), hf]
    ring

theorem roundEven_tie (x : ℚ) (n : Int) (h : x = (n : ℚ) + 1 / 2) :
    roundEven x = if n % 2 = 0 then n else n + 1 := by
  have hf : ⌊x⌋ = n := Int.floor_eq_iff.mpr ⟨by rw [h]; linarith, by rw [h]; linarith⟩
  have hfr : Int.fract x = 1 / 2 := by
    unfold Int.fract
    rw [hf, h]
    ring
  unfold roundEven
  rw [if_neg (by rw [hfr]; norm_num), if_neg (by rw [hfr]; norm_num), hf]

theorem roundEven_err (x : ℚ) : |(roundEven x : ℚ) - x| ≤ 1 / 2 := by
  have h0 := Int.fract_nonneg x
  have h1 := Int.fract_lt_one x
  have e : x = (⌊x⌋ : ℚ) + Int.fract x := (Int.floor_add_fract x).symm
  unfold roundEven
  rw [abs_le]
  split
  · constructor <;> linarith
  · split
    · push_cast
      constructor <;> linarith
    · rename_i h2 h3
      have hfr : Int.fract x = 1 / 2 := by linarith [not_lt.mp h2, not_lt.mp h3]
      split
      · constructor <;> linarith
      · push_cast
        constructor <;> linarith

theorem log_two_eq (q : ℚ) (e : Int) (h1 : (2 : ℚ) ^ e ≤ |q|) (h2 : |q| < (2 : ℚ) ^ (e + 1)) :
    Int.log 2 |q| = e := by
  have hpos : 0 < |q| := lt_of_lt_of_le (by positivity) h1
  have a1 : e ≤ Int.log 2 |q| := by
    have := (Int.zpow_le_iff_le_log (by norm_num : 1 < 2) hpos (x := e)).mp (by exact_mod_cast h1)
    exact this
  have a2 : Int.log 2 |q| < e + 1 := by
    have := (Int.lt_zpow_iff_log_lt (by norm_num : 1 < 2) hpos (x := e + 1)).mp
      (by exact_mod_cast h2)
    exact this
  omega

theorem roundF32_zero : roundF32 0 = 0 := by
  unfold roundF32
  rw [if_pos rfl]

theorem roundF32_of_binade (q : ℚ) (e : Int) (h1 : (2 : ℚ) ^ e ≤ |q|)
    (h2 : |q| < (2 : ℚ) ^ (e + 1)) :
    roundF32 q = (roundEven (q / (2 : ℚ) ^ (e - 23)) : ℚ) * (2 : ℚ) ^ (e - 23) := by
  have hpos : 0 < |q| := lt_of_lt_of_le (by positivity) h1
  have hq : q ≠ 0 := abs_pos.mp hpos
  unfold roundF32
  rw [if_neg hq, log_two_eq q e h1 h2]

theorem roundF32_near (q : ℚ) (e n : Int) (h1 : (2 : ℚ) ^ e ≤ |q|)
    (h2 : |q| < (2 : ℚ) ^ (e + 1)) (h : |q / (2 : ℚ) ^ (e - 23) - (n : ℚ)| < 1 / 2) :
    roundF32 q = (n : ℚ) * (2 : ℚ) ^ (e - 23) := by
  rw [roundF32_of_binade q e h1 h2, roundEven_of_close _ n h]

theorem roundF32_tie (q : ℚ) (e n : Int) (h1 : (2 : ℚ) ^ e ≤ |q|)
    (h2 : |q| < (2 : ℚ) ^ (e + 1)) (h : q / (2 : ℚ) ^ (e - 23) = (n : ℚ) + 1 / 2) :
    roundF32 q = ((if n % 2 = 0 then n else n + 1 : Int) : ℚ) * (2 : ℚ) ^ (e - 23) := by
  rw [roundF32_of_binade q e h1 h2, roundEven_tie _ n h]

theorem roundF32_err (q : ℚ) : |roundF32 q - q| ≤ |q| / 2 ^ 24 := by
  by_cases hq : q = 0
  · rw [hq, roundF32_zero]
    simp
  · have hpos : 0 < |q| := abs_pos.mpr hq
    have hlog : (2 : ℚ) ^ Int.log 2 |q| ≤ |q| := by
      have := Int.zpow_log_le_self (by norm_num : 1 < 2) hpos
      exact_mod_cast this
    unfold roundF32
    rw [if_neg hq]
    have hu : (0 : ℚ) < (2 : ℚ) ^ (Int.log 2 |q| - 23) := by positivity
    have herr := roundEven_err (q / (2 : ℚ) ^ (Int.log 2 |q| - 23))
    have e1 : (roundEven (q / (2 : ℚ) ^ (Int.log 2 |q| - 23)) : ℚ) * (2 : ℚ) ^ (Int.log 2 |q| - 23) - q
        = ((roundEven (q / (2 : ℚ) ^ (Int.log 2 |q| - 23)) : ℚ)
            - q / (2 : ℚ) ^ (Int.log 2 |q| - 23)) * (2 : ℚ) ^ (Int.log 2 |q| - 23) := by
      field_simp
    rw [e1, abs_mul, abs_of_pos hu]
    have e2 : (2 : ℚ) ^ (Int.log 2 |q| - 23) = (2 : ℚ) ^ Int.log 2 |q| / 2 ^ 23 := by
      rw [zpow_sub₀ (by norm_num : (2 : ℚ) ≠ 0)]
      norm_num
    have h3 : |(roundEven (q / (2 : ℚ) ^ (Int.log 2 |q| - 23)) : ℚ)
        - q / (2 : ℚ) ^ (Int.log 2 |q| - 23)| * (2 : ℚ) ^ (Int.log 2 |q| - 23)
        ≤ 1 / 2 * (2 : ℚ) ^ (Int.log 2 |q| - 23) := mul_le_mul_of_nonneg_right herr hu.le
    have h4 : 1 / 2 * (2 : ℚ) ^ (Int.log 2 |q| - 23) = (2 : ℚ) ^ Int.log 2 |q| / 2 ^ 24 := by
      rw [e2]
      ring
    have h5 : (2 : ℚ) ^ Int.log 2 |q| / 2 ^ 24 ≤ |q| / 2 ^ 24 :=
      div_le_div_of_nonneg_right hlog (by positivity)
    linarith

theorem roundF32_intCast (n : Int) (h : |n| < 16777216) : roundF32 (n : ℚ) = (n : ℚ) := by
  by_cases hn : n = 0
  · rw [hn, Int.cast_zero, roundF32_zero]
  · have hq : (n : ℚ) ≠ 0 := Int.cast_ne_zero.mpr hn
    have hpos : 0 < |(n : ℚ)| := abs_pos.mpr hq
    have hone : (1 : ℚ) ≤ |(n : ℚ)| := by
      have : (1 : Int) ≤ |n| := Int.one_le_abs hn
      exact_mod_cast this
    have hub : |(n : ℚ)| < (2 : ℚ) ^ (24 : Int) := by
      have : ((|n| : Int) : ℚ) < 16777216 := by exact_mod_cast h
      rw [Int.cast_abs] at this
      norm_num
      exact this
    have e0 : 0 ≤ Int.log 2 |(n : ℚ)| :=
      (Int.zpow_le_iff_le_log (by norm_num : 1 < 2) hpos (x := 0)).mp (by simpa using hone)
    have e1 : Int.log 2 |(n : ℚ)| < 24 :=
      (Int.lt_zpow_iff_log_lt (by norm_num : 1 < 2) hpos (x := 24)).mp (by exact_mod_cast hub)
    unfold roundF32
    rw [if_neg hq]
    obtain ⟨k, hk⟩ : ∃ k : Nat, Int.log 2 |(n : ℚ)| - 23 = -(k : Int) :=
      ⟨(23 - Int.log 2 |(n : ℚ)|).toNat, by omega⟩
    rw [hk, zpow_neg, zpow_natCast]
    have hk0 : (0 : ℚ) < 2 ^ k := by positivity
    have e2 : (n : ℚ) / ((2 : ℚ) ^ k)⁻¹ = ((n * 2 ^ k : Int) : ℚ) := by
      push_cast
      field_simp
    rw [e2, roundEven_of_close _ (n * 2 ^ k) (by simp)]
    push_cast
    field_simp

/-! ## Sphere in `float` arithmetic -/

theorem forLoopFlFrom_mem (fl : ℚ → ℚ) (fuel : Nat) (x : Int) (hi : ℚ) (y : Int)
    (h : y ∈ forLoopFlFrom fl fuel x hi) : x ≤ y ∧ y < x + fuel ∧ fl (y : ℚ) < hi := by
  induction fuel generalizing x with
  | zero => simp [forLoopFlFrom] at h
  | succ n ih =>
    unfold forLoopFlFrom at h
    split at h
    · rename_i hlt
      rcases List.mem_cons.mp h with h | h
      · subst h
        exact ⟨le_refl _, by omega, hlt⟩
      · obtain ⟨h1, h2, h3⟩ := ih (x + 1) h
        exact ⟨by omega, by push_cast; omega, h3⟩
    · simp at h

theorem forLoopFlFrom_exact (fl : ℚ → ℚ) (fuel : Nat) (x : Int) (hi : ℚ)
    (h : ∀ y : Int, x ≤ y → y < x + fuel → fl (y : ℚ) = (y : ℚ)) :
    forLoopFlFrom fl fuel x hi = forLoopFrom fuel x hi := by
  induction fuel generalizing x with
  | zero => rfl
  | succ n ih =>
    unfold forLoopFlFrom forLoopFrom
    rw [h x (le_refl _) (by push_cast; omega),
      ih (x + 1) (fun y h1 h2 => h y (by omega) (by push_cast; omega))]

theorem forLoopFl_complete (fl : ℚ → ℚ) (hmono : ∀ a b : ℚ, a ≤ b → fl a ≤ fl b) (lo : Int)
    (hi : ℚ) (hfix : fl hi = hi) (x : Int) (hx : lo ≤ x)
    (hpass : ∀ y : Int, lo ≤ y → y ≤ x → fl (y : ℚ) < hi) : x ∈ forLoopFl fl lo hi := by
  have key : ∀ (fuel : Nat) (a : Int), a ≤ x → x < a + fuel →
      (∀ y : Int, a ≤ y → y ≤ x → fl (y : ℚ) < hi) → x ∈ forLoopFlFrom fl fuel a hi := by
    intro fuel
    induction fuel with
    | zero =>
      intro a h1 h2
      simp at h2
      omega
    | succ n ih =>
      intro a h1 h2 h3
      unfold forLoopFlFrom
      rw [if_pos (h3 a (le_refl _) h1)]
      by_cases e : x = a
      · rw [e]
        exact List.mem_cons_self _ _
      · exact List.mem_cons_of_mem _ (ih (a + 1) (by omega) (by push_cast at h2 ⊢; omega)
          (fun y hy1 hy2 => h3 y (by omega) hy2))
  apply key _ lo hx _ hpass
  have hlt : fl (x : ℚ) < hi := hpass x hx (le_refl _)
  have hxhi : (x : ℚ) < hi := by
    by_contra hcon
    have := hmono hi x (not_lt.mp hcon)
    rw [hfix] at this
    linarith
  have hc : x < ⌈hi⌉ := by
    have h1 : hi ≤ ((⌈hi⌉ : Int) : ℚ) := Int.le_ceil hi
    have h2 : (x : ℚ) < ((⌈hi⌉ : Int) : ℚ) := lt_of_lt_of_le hxhi h1
    exact_mod_cast h2
  omega

theorem genVoxel.Sphere_float_eq (fl : ℚ → ℚ) (center : Vec3) (radius : ℚ)
    (voxel : List Vec3) :
    genVoxel.Sphere_float fl center radius voxel = voxel ++
      (forLoopFl fl (toInt (fl (-radius + center.x))) (fl (radius + center.x))).flatMap fun x =>
      (forLoopFl fl (toInt (fl (-radius + center.y))) (fl (radius + center.y))).flatMap fun y =>
      (forLoopFl fl (toInt (fl (-radius + center.z))) (fl (radius + center.z))).flatMap fun z =>
        if inBallFloat fl center radius x y z then [⟨fl (x : ℚ), fl (y : ℚ), fl (z : ℚ)⟩]
        else [] := by
  unfold genVoxel.Sphere_float
  have e : ∀ (x y : Int), (fun (voxel : List Vec3) (z : Int) =>
      if fl (fl (fl (fl (fl (x : ℚ) - center.x) * fl (fl (x : ℚ) - center.x))
              + fl (fl (fl (y : ℚ) - center.y) * fl (fl (y : ℚ) - center.y)))
            + fl (fl (fl (z : ℚ) - center.z) * fl (fl (z : ℚ) - center.z)))
            < fl (radius * radius) then
          voxel ++ [(⟨fl (x : ℚ), fl (y : ℚ), fl (z : ℚ)⟩ : Vec3)]
        else voxel)
      = fun voxel z => voxel ++ (if inBallFloat fl center radius x y z then
          [(⟨fl (x : ℚ), fl (y : ℚ), fl (z : ℚ)⟩ : Vec3)] else []) := by
    intro x y
    funext voxel z
    unfold inBallFloat
    split <;> simp
  simp only [e, foldl_append_flatMap]

theorem genVoxel.Sphere_float_mem (fl : ℚ → ℚ) (center : Vec3) (radius : ℚ) (p : Vec3) :
    p ∈ genVoxel.Sphere_float fl center radius [] ↔
      ∃ x ∈ forLoopFl fl (toInt (fl (-radius + center.x))) (fl (radius + center.x)),
      ∃ y ∈ forLoopFl fl (toInt (fl (-radius + center.y))) (fl (radius + center.y)),
      ∃ z ∈ forLoopFl fl (toInt (fl (-radius + center.z))) (fl (radius + center.z)),
        inBallFloat fl center radius x y z ∧ p = ⟨fl (x : ℚ), fl (y : ℚ), fl (z : ℚ)⟩ := by
  rw [genVoxel.Sphere_float_eq, List.nil_append]
  simp only [List.mem_flatMap]
  constructor
  · rintro ⟨x, hx, y, hy, z, hz, h⟩
    split at h
    · rename_i hb
      exact ⟨x, hx, y, hy, z, hz, hb, by simpa using h⟩
    · simp at h
  · rintro ⟨x, hx, y, hy, z, hz, hb, rfl⟩
    exact ⟨x, hx, y, hy, z, hz, by simp [hb]⟩

theorem flatMap_congr_mem {α β : Type} (f g : α → List β) (l : List α)
    (h : ∀ a ∈ l, f a = g a) : l.flatMap f = l.flatMap g := by
  induction l with
  | nil => rfl
  | cons a l ih =>
    rw [List.flatMap_cons, List.flatMap_cons, h a (List.mem_cons_self a l),
      ih (fun b hb => h b (List.mem_cons_of_mem a hb))]

theorem small_square (d : Int) (h : -5 ≤ d ∧ d ≤ 5) : 0 ≤ d * d ∧ d * d ≤ 25 := by
  constructor
  · exact mul_self_nonneg d
  · nlinarith

theorem inBallFloat_int (fl : ℚ → ℚ) (hfl : ∀ n : Int, |n| < 16777216 → fl (n : ℚ) = (n : ℚ))
    (a b c x y z : Int) (ha : |a| ≤ 8388608) (hb : |b| ≤ 8388608) (hc : |c| ≤ 8388608)
    (hx : a - 5 ≤ x ∧ x < a + 5) (hy : b - 5 ≤ y ∧ y < b + 5) (hz : c - 5 ≤ z ∧ z < c + 5) :
    inBallFloat fl (Vec3.ofInts a b c) 5 x y z ↔ inBall (Vec3.ofInts a b c) 5 x y z := by
  have ha' := abs_le.mp ha
  have hb' := abs_le.mp hb
  have hc' := abs_le.mp hc
  have key : ∀ (t u : Int), |t| ≤ 8388608 → (t - 5 ≤ u ∧ u < t + 5) →
      fl (fl (fl (u : ℚ) - (t : ℚ)) * fl (fl (u : ℚ) - (t : ℚ)))
        = (((u - t) * (u - t) : Int) : ℚ) := by
    intro t u ht hu
    have ht' := abs_le.mp ht
    have e1 : fl (u : ℚ) = (u : ℚ) := hfl u (abs_lt.mpr ⟨by omega, by omega⟩)
    have e2 : fl ((u : ℚ) - (t : ℚ)) = ((u - t : Int) : ℚ) := by
      rw [← Int.cast_sub]
      exact hfl _ (abs_lt.mpr ⟨by omega, by omega⟩)
    have hs := small_square (u - t) ⟨by omega, by omega⟩
    rw [e1, e2, ← Int.cast_mul]
    exact hfl _ (abs_lt.mpr ⟨by omega, by omega⟩)
  have sx := small_square (x - a) ⟨by omega, by omega⟩
  have sy := small_square (y - b) ⟨by omega, by omega⟩
  have sz := small_square (z - c) ⟨by omega, by omega⟩
  have e25 : fl ((5 : ℚ) * 5) = 25 := by
    have := hfl 25 (by decide)
    norm_num at this ⊢
    exact this
  unfold inBallFloat inBall
  simp only [Vec3.ofInts]
  rw [key a x ha hx, key b y hb hy, key c z hc hz, e25, ← Int.cast_add,
    hfl _ (abs_lt.mpr ⟨by omega, by omega⟩), ← Int.cast_add,
    hfl _ (abs_lt.mpr ⟨by omega, by omega⟩)]
  have e : (((x - a) * (x - a) + (y - b) * (y - b) + (z - c) * (z - c) : Int) : ℚ)
      = ((x : ℚ) - (a : ℚ)) * ((x : ℚ) - (a : ℚ)) + ((y : ℚ) - (b : ℚ)) * ((y : ℚ) - (b : ℚ))
        + ((z : ℚ) - (c : ℚ)) * ((z : ℚ) - (c : ℚ)) := by
    push_cast
    ring
  rw [e]
  norm_num

theorem forLoopFl_int (fl : ℚ → ℚ) (hfl : ∀ n : Int, |n| < 16777216 → fl (n : ℚ) = (n : ℚ))
    (t : Int) (ht : |t| ≤ 8388608) :
    forLoopFl fl (toInt (fl (-5 + (t : ℚ)))) (fl (5 + (t : ℚ)))
      = forLoop (toInt (-5 + (t : ℚ))) (5 + (t : ℚ)) ∧
    ∀ u ∈ forLoop (toInt (-5 + (t : ℚ))) (5 + (t : ℚ)), t - 5 ≤ u ∧ u < t + 5 := by
  have ht' := abs_le.mp ht
  have e1 : -5 + (t : ℚ) = ((t - 5 : Int) : ℚ) := by
    push_cast
    ring
  have e2 : 5 + (t : ℚ) = ((t + 5 : Int) : ℚ) := by
    push_cast
    ring
  have f1 : fl (((t - 5 : Int) : ℚ)) = ((t - 5 : Int) : ℚ) :=
    hfl _ (abs_lt.mpr ⟨by omega, by omega⟩)
  have f2 : fl (((t + 5 : Int) : ℚ)) = ((t + 5 : Int) : ℚ) :=
    hfl _ (abs_lt.mpr ⟨by omega, by omega⟩)
  rw [e1, e2, f1, f2, toInt_intCast]
  constructor
  · unfold forLoopFl forLoop
    apply forLoopFlFrom_exact
    intro y h1 h2
    rw [Int.ceil_intCast] at h2
    have h3 : ((t + 5 - (t - 5)).toNat : Int) = 10 := by omega
    exact hfl y (abs_lt.mpr ⟨by omega, by omega⟩)
  · intro u hu
    obtain ⟨h1, h2⟩ := (forLoop_mem _ _ _).mp hu
    have h3 : u < t + 5 := by exact_mod_cast h2
    exact ⟨h1, h3⟩

theorem genVoxel.Sphere_float_int (fl : ℚ → ℚ)
    (hfl : ∀ n : Int, |n| < 16777216 → fl (n : ℚ) = (n : ℚ)) (a b c : Int)
    (ha : |a| ≤ 8388608) (hb : |b| ≤ 8388608) (hc : |c| ≤ 8388608) (voxel : List Vec3) :
    genVoxel.Sphere_float fl (Vec3.ofInts a b c) 5 voxel
      = genVoxel.Sphere (Vec3.ofInts a b c) 5 voxel := by
  obtain ⟨lx, mx⟩ := forLoopFl_int fl hfl a ha
  obtain ⟨ly, my⟩ := forLoopFl_int fl hfl b hb
  obtain ⟨lz, mz⟩ := forLoopFl_int fl hfl c hc
  have ha' := abs_le.mp ha
  have hb' := abs_le.mp hb
  have hc' := abs_le.mp hc
  rw [genVoxel.Sphere_float_eq, genVoxel.Sphere_eq]
  unfold latticeList
  have px : (Vec3.ofInts a b c).x = (a : ℚ) := rfl
  have py : (Vec3.ofInts a b c).y = (b : ℚ) := rfl
  have pz : (Vec3.ofInts a b c).z = (c : ℚ) := rfl
  rw [px, py, pz, lx, ly, lz]
  congr 1
  apply flatMap_congr_mem
  intro x hx
  apply flatMap_congr_mem
  intro y hy
  apply flatMap_congr_mem
  intro z hz
  have bx := mx x hx
  have by1 := my y hy
  have bz := mz z hz
  have hiff := inBallFloat_int fl hfl a b c x y z ha hb hc bx by1 bz
  have fx : fl (x : ℚ) = (x : ℚ) := hfl x (abs_lt.mpr ⟨by omega, by omega⟩)
  have fy : fl (y : ℚ) = (y : ℚ) := hfl y (abs_lt.mpr ⟨by omega, by omega⟩)
  have fz : fl (z : ℚ) = (z : ℚ) := hfl z (abs_lt.mpr ⟨by omega, by omega⟩)
  rw [fx, fy, fz]
  by_cases h : inBall (Vec3.ofInts a b c) 5 x y z
  · rw [if_pos h, if_pos (hiff.mpr h)]
    rfl
  · rw [if_neg h, if_neg (fun h' => h (hiff.mp h'))]

theorem genVoxel.Remove_Voxel_float_int (fl : ℚ → ℚ)
    (hfl : ∀ n : Int, |n| < 16777216 → fl (n : ℚ) = (n : ℚ)) (a b c : Int)
    (ha : |a| ≤ 8388608) (hb : |b| ≤ 8388608) (hc : |c| ≤ 8388608) (chunk : Int → Chunk)
    (D : List Int) :
    genVoxel.Remove_Voxel_float fl (Vec3.ofInts a b c) chunk D
      = genVoxel.Remove_Voxel (Vec3.ofInts a b c) chunk D := by
  unfold genVoxel.Remove_Voxel_float genVoxel.Remove_Voxel
  rw [genVoxel.Sphere_float_int fl hfl a b c ha hb hc]

theorem roundF32_of_near (q r : ℚ) (e n : Int) (h1 : (2 : ℚ) ^ e ≤ |q|)
    (h2 : |q| < (2 : ℚ) ^ (e + 1)) (h : |q / (2 : ℚ) ^ (e - 23) - (n : ℚ)| < 1 / 2)
    (hr : (n : ℚ) * (2 : ℚ) ^ (e - 23) = r) : roundF32 q = r := by
  rw [roundF32_near q e n h1 h2 h, hr]

theorem roundF32_neg_five : roundF32 (-5) = -5 := by
  have h := roundF32_intCast (-5) (by decide)
  norm_num at h
  exact h

theorem roundF32_five : roundF32 5 = 5 := by
  have h := roundF32_intCast 5 (by decide)
  norm_num at h
  exact h

theorem roundF32_neg_ten : roundF32 (-10) = -10 := by
  have h := roundF32_intCast (-10) (by decide)
  norm_num at h
  exact h

theorem roundF32_twentyfive : roundF32 25 = 25 := by
  have h := roundF32_intCast 25 (by decide)
  norm_num at h
  exact h

/-- The float nearest to `-5 + 2^-30` is `-5`. -/
theorem roundF32_above_neg_five : roundF32 (-(5368709119 / 1073741824)) = -5 := by
  apply roundF32_of_near _ _ 2 (-10485760)
  · rw [le_abs]
    norm_num
  · rw [abs_lt]
    norm_num
  · rw [abs_lt]
    norm_num
  · norm_num

/-- The float nearest to `-5 - 2^-30` is `-5`. -/
theorem roundF32_below_neg_five : roundF32 (-(5368709121 / 1073741824)) = -5 := by
  apply roundF32_of_near _ _ 2 (-10485760)
  · rw [le_abs]
    norm_num
  · rw [abs_lt]
    norm_num
  · rw [abs_lt]
    norm_num
  · norm_num

/-- The float nearest to `5 - 2^-30` is `5`. -/
theorem roundF32_below_five : roundF32 (5368709119 / 1073741824) = 5 := by
  apply roundF32_of_near _ _ 2 10485760
  · rw [le_abs]
    norm_num
  · rw [abs_lt]
    norm_num
  · rw [abs_lt]
    norm_num
  · norm_num

theorem genVoxel.Remove_Voxel_float_voxel (fl : ℚ → ℚ) (target : Vec3) (chunk : Int → Chunk)
    (D : List Int) (i v : Int) :
    ((genVoxel.Remove_Voxel_float fl target chunk D).1 i).voxel v =
      if ∃ p ∈ genVoxel.Sphere_float fl target 5 [],
          0 ≤ genVoxel.pos_to_chunkIndex p ∧ genVoxel.pos_to_chunkIndex p = i ∧
          genVoxel.pos_to_voxelIndex p = v then 0
      else (chunk i).voxel v := by
  unfold genVoxel.Remove_Voxel_float
  rw [genVoxel.fold_voxel]

theorem genVoxel.Remove_Voxel_float_damaged (fl : ℚ → ℚ) (target : Vec3) (chunk : Int → Chunk)
    (D : List Int) (i : Int) :
    i ∈ (genVoxel.Remove_Voxel_float fl target chunk D).2 ↔
      i ∈ D ∨ ∃ p ∈ genVoxel.Sphere_float fl target 5 [],
        0 ≤ genVoxel.pos_to_chunkIndex p ∧ genVoxel.pos_to_chunkIndex p = i := by
  unfold genVoxel.Remove_Voxel_float
  rw [genVoxel.fold_damaged]

theorem keptVoxel_not_inBallFloat :
    ¬ inBallFloat roundF32 ⟨-1 / 2 ^ 30, -5, -5⟩ 5 (-5) (-5) (-5) := by
  unfold inBallFloat
  norm_num [roundF32_zero, roundF32_neg_five, roundF32_above_neg_five, roundF32_twentyfive]

theorem keptVoxel_loops (x y z : Int)
    (hx : x ∈ forLoopFl roundF32 (toInt (roundF32 (-5 + (⟨-1 / 2 ^ 30, -5, -5⟩ : Vec3).x)))
      (roundF32 (5 + (⟨-1 / 2 ^ 30, -5, -5⟩ : Vec3).x)))
    (hy : y ∈ forLoopFl roundF32 (toInt (roundF32 (-5 + (⟨-1 / 2 ^ 30, -5, -5⟩ : Vec3).y)))
      (roundF32 (5 + (⟨-1 / 2 ^ 30, -5, -5⟩ : Vec3).y)))
    (hz : z ∈ forLoopFl roundF32 (toInt (roundF32 (-5 + (⟨-1 / 2 ^ 30, -5, -5⟩ : Vec3).z)))
      (roundF32 (5 + (⟨-1 / 2 ^ 30, -5, -5⟩ : Vec3).z))) :
    (-5 ≤ x ∧ x < 5) ∧ (-10 ≤ y ∧ y < 0) ∧ (-10 ≤ z ∧ z < 0) := by
  have e1 : roundF32 (-5 + (⟨-1 / 2 ^ 30, -5, -5⟩ : Vec3).x) = ((-5 : Int) : ℚ) := by
    norm_num [roundF32_below_neg_five]
  have e2 : roundF32 (5 + (⟨-1 / 2 ^ 30, -5, -5⟩ : Vec3).x) = ((5 : Int) : ℚ) := by
    norm_num [roundF32_below_five]
  have e3 : roundF32 (-5 + (⟨-1 / 2 ^ 30, -5, -5⟩ : Vec3).y) = ((-10 : Int) : ℚ) := by
    norm_num [roundF32_neg_ten]
  have e4 : roundF32 (5 + (⟨-1 / 2 ^ 30, -5, -5⟩ : Vec3).y) = ((0 : Int) : ℚ) := by
    norm_num [roundF32_zero]
  have e5 : roundF32 (-5 + (⟨-1 / 2 ^ 30, -5, -5⟩ : Vec3).z) = ((-10 : Int) : ℚ) := by
    norm_num [roundF32_neg_ten]
  have e6 : roundF32 (5 + (⟨-1 / 2 ^ 30, -5, -5⟩ : Vec3).z) = ((0 : Int) : ℚ) := by
    norm_num [roundF32_zero]
  rw [e1, e2, toInt_intCast] at hx
  rw [e3, e4, toInt_intCast] at hy
  rw [e5, e6, toInt_intCast] at hz
  unfold forLoopFl at hx hy hz
  rw [Int.ceil_intCast] at hx hy hz
  obtain ⟨x1, x2, -⟩ := forLoopFlFrom_mem _ _ _ _ _ hx
  obtain ⟨y1, y2, -⟩ := forLoopFlFrom_mem _ _ _ _ _ hy
  obtain ⟨z1, z2, -⟩ := forLoopFlFrom_mem _ _ _ _ _ hz
  have f1 : (((5 : Int) - (-5)).toNat : Int) = 10 := by decide
  have f2 : (((0 : Int) - (-10)).toNat : Int) = 10 := by decide
  rw [f1] at x2
  rw [f2] at y2 z2
  omega

theorem roundF32_lower (q : ℚ) (hq : 0 ≤ q) : q - q / 2 ^ 24 ≤ roundF32 q := by
  have h := roundF32_err q
  rw [abs_of_nonneg hq] at h
  have h2 := (abs_le.mp h).1
  linarith

theorem roundF32_sq_lower (d : ℚ) (hd : 99 / 100 ≤ |d|) :
    19 / 20 ≤ roundF32 (roundF32 d * roundF32 d) := by
  have h := roundF32_err d
  have h1 : |d| - |roundF32 d| ≤ |roundF32 d - d| := by
    have := abs_sub_abs_le_abs_sub d (roundF32 d)
    rwa [abs_sub_comm d (roundF32 d)] at this
  have h2 : 98 / 100 ≤ |roundF32 d| := by
    have : |d| / 2 ^ 24 ≤ |d| / 100 := by
      apply div_le_div_of_nonneg_left (abs_nonneg d) (by norm_num) (by norm_num)
    linarith
  have h3 : roundF32 d * roundF32 d = |roundF32 d| * |roundF32 d| := (abs_mul_abs_self _).symm
  have h4 : (98 / 100 : ℚ) * (98 / 100) ≤ roundF32 d * roundF32 d := by
    rw [h3]
    exact mul_le_mul h2 h2 (by norm_num) (abs_nonneg _)
  have h5 := roundF32_lower (roundF32 d * roundF32 d) (by linarith)
  have h6 : roundF32 d * roundF32 d / 2 ^ 24 ≤ roundF32 d * roundF32 d / 100 := by
    apply div_le_div_of_nonneg_left (by linarith) (by norm_num) (by norm_num)
  linarith

theorem roundF32_sq_nonneg (d : ℚ) : 0 ≤ roundF32 (d * d) := by
  have h0 : 0 ≤ d * d := mul_self_nonneg d
  have h := roundF32_lower (d * d) h0
  have h6 : d * d / 2 ^ 24 ≤ d * d / 1 := by
    apply div_le_div_of_nonneg_left h0 (by norm_num) (by norm_num)
  linarith

/-- A rounded sum of three terms that add up to at least `25.9` is above `25`. -/
theorem roundF32_sum_above (s1 s2 s3 : ℚ) (h1 : 0 ≤ s1) (h2 : 0 ≤ s2) (h3 : 0 ≤ s3)
    (h : 259 / 10 ≤ s1 + s2 + s3) : 25 < roundF32 (roundF32 (s1 + s2) + s3) := by
  have a1 := roundF32_lower (s1 + s2) (by linarith)
  have a0 : (s1 + s2) / 2 ^ 24 ≤ (s1 + s2) / 1000 := by
    apply div_le_div_of_nonneg_left (by linarith) (by norm_num) (by norm_num)
  have a2 : 0 ≤ roundF32 (s1 + s2) + s3 := by linarith
  have a3 := roundF32_lower _ a2
  have a4 : (roundF32 (s1 + s2) + s3) / 2 ^ 24 ≤ (roundF32 (s1 + s2) + s3) / 1000 := by
    apply div_le_div_of_nonneg_left a2 (by norm_num) (by norm_num)
  linarith

theorem roundF32_of_tie (q r : ℚ) (e n : Int) (h1 : (2 : ℚ) ^ e ≤ |q|)
    (h2 : |q| < (2 : ℚ) ^ (e + 1)) (h : q / (2 : ℚ) ^ (e - 23) = (n : ℚ) + 1 / 2)
    (hodd : n % 2 = 1) (hr : ((n + 1 : Int) : ℚ) * (2 : ℚ) ^ (e - 23) = r) : roundF32 q = r := by
  rw [roundF32_tie q e n h1 h2 h, if_neg (by omega), hr]

theorem roundF32_neg_sixteen : roundF32 (-16) = -16 := by
  have h := roundF32_intCast (-16) (by decide)
  norm_num at h
  exact h

theorem roundF32_neg_eight : roundF32 (-8) = -8 := by
  have h := roundF32_intCast (-8) (by decide)
  norm_num at h
  exact h

theorem roundF32_neg_thirteen : roundF32 (-13) = -13 := by
  have h := roundF32_intCast (-13) (by decide)
  norm_num at h
  exact h

theorem roundF32_neg_three : roundF32 (-3) = -3 := by
  have h := roundF32_intCast (-3) (by decide)
  norm_num at h
  exact h

/-- The number `-5 + 2^-20` is a float. -/
theorem roundF32_edge_dx : roundF32 (-(5242879 / 1048576)) = -(5242879 / 1048576) := by
  apply roundF32_of_near _ _ 2 (-10485758)
  · rw [le_abs]
    norm_num
  · rw [abs_lt]
    norm_num
  · rw [abs_lt]
    norm_num
  · norm_num

/-- The square `(5 - 2^-20)^2 = 25 - 5 * 2^-19 + 2^-40` rounds to `25 - 5 * 2^-19`. -/
theorem roundF32_edge_sx : roundF32 (27487780208641 / 1099511627776) = 13107195 / 524288 := by
  apply roundF32_of_near _ _ 4 13107195
  · rw [le_abs]
    norm_num
  · rw [abs_lt]
    norm_num
  · rw [abs_lt]
    norm_num
  · norm_num

/-- The number `-3 * 2^-10` is a float. -/
theorem roundF32_edge_dy : roundF32 (-(3 / 1024)) = -(3 / 1024) := by
  apply roundF32_of_near _ _ (-9) (-12582912)
  · rw [le_abs]
    norm_num
  · rw [abs_lt]
    norm_num
  · rw [abs_lt]
    norm_num
  · norm_num

/-- The number `9 * 2^-20` is a float. -/
theorem roundF32_edge_sy : roundF32 (9 / 1048576) = 9 / 1048576 := by
  apply roundF32_of_near _ _ (-17) 9437184
  · rw [le_abs]
    norm_num
  · rw [abs_lt]
    norm_num
  · rw [abs_lt]
    norm_num
  · norm_num

/-- The sum `25 - 2^-20` lies halfway between the floats `25 - 2^-19` and `25`
and rounds to the even one, `25`. -/
theorem roundF32_edge_sum : roundF32 (26214399 / 1048576) = 25 := by
  apply roundF32_of_tie _ _ 4 13107199
  · rw [le_abs]
    norm_num
  · rw [abs_lt]
    norm_num
  · norm_num
  · decide
  · norm_num

/-- The lower bound `-16 - 2^-20` of the `x` loop lies halfway between the
floats `-16 - 2^-19` and `-16` and rounds to the even one, `-16`. -/
theorem roundF32_edge_lo : roundF32 (-(16777217 / 1048576)) = -16 := by
  apply roundF32_of_tie _ _ 4 (-8388609)
  · rw [le_abs]
    norm_num
  · rw [abs_lt]
    norm_num
  · norm_num
  · decide
  · norm_num

theorem roundF32_edge_hi : roundF32 (-(6291457 / 1048576)) = -(6291457 / 1048576) := by
  apply roundF32_of_near _ _ 2 (-12582914)
  · rw [le_abs]
    norm_num
  · rw [abs_lt]
    norm_num
  · rw [abs_lt]
    norm_num
  · norm_num

theorem roundF32_edge_ylo : roundF32 (-(13309 / 1024)) = -(13309 / 1024) := by
  apply roundF32_of_near _ _ 3 (-13628416)
  · rw [le_abs]
    norm_num
  · rw [abs_lt]
    norm_num
  · rw [abs_lt]
    norm_num
  · norm_num

theorem roundF32_edge_yhi : roundF32 (-(3069 / 1024)) = -(3069 / 1024) := by
  apply roundF32_of_near _ _ 1 (-12570624)
  · rw [le_abs]
    norm_num
  · rw [abs_lt]
    norm_num
  · rw [abs_lt]
    norm_num
  · norm_num

theorem edgeVoxel_not_inBallFloat :
    ¬ inBallFloat roundF32 ⟨-11 - 1 / 2 ^ 20, -8 + 3 / 2 ^ 10, -8⟩ 5 (-16) (-8) (-8) := by
  unfold inBallFloat
  norm_num [roundF32_zero, roundF32_twentyfive, roundF32_neg_sixteen, roundF32_neg_eight,
    roundF32_edge_dx, roundF32_edge_sx, roundF32_edge_dy, roundF32_edge_sy, roundF32_edge_sum]

theorem edgeRow_not_inBallFloat (y z : Int) (hy : -13 ≤ y ∧ y ≤ 0) (hz : -13 ≤ z ∧ z ≤ 0) :
    ¬ inBallFloat roundF32 ⟨-11 - 1 / 2 ^ 20, -8 + 3 / 2 ^ 10, -8⟩ 5 (-16) y z := by
  by_cases h : y = -8 ∧ z = -8
  · rw [h.1, h.2]
    exact edgeVoxel_not_inBallFloat
  · intro hball
    unfold inBallFloat at hball
    dsimp only at hball
    have fy : roundF32 (y : ℚ) = (y : ℚ) := roundF32_intCast y (abs_lt.mpr ⟨by omega, by omega⟩)
    have fz : roundF32 (z : ℚ) = (z : ℚ) := roundF32_intCast z (abs_lt.mpr ⟨by omega, by omega⟩)
    have hA : roundF32 (roundF32 (roundF32 ((-16 : Int) : ℚ) - (-11 - 1 / 2 ^ 20))
        * roundF32 (roundF32 ((-16 : Int) : ℚ) - (-11 - 1 / 2 ^ 20))) = 13107195 / 524288 := by
      norm_num [roundF32_neg_sixteen, roundF32_edge_dx, roundF32_edge_sx]
    have hR : roundF32 ((5 : ℚ) * 5) = 25 := by
      norm_num [roundF32_twentyfive]
    rw [hA, hR, fy, fz] at hball
    have hB := roundF32_sq_nonneg (roundF32 ((y : ℚ) - (-8 + 3 / 2 ^ 10)))
    have hC := roundF32_sq_nonneg (roundF32 ((z : ℚ) - (-8)))
    have hsum : (259 / 10 : ℚ) ≤ 13107195 / 524288
        + roundF32 (roundF32 ((y : ℚ) - (-8 + 3 / 2 ^ 10)) * roundF32 ((y : ℚ) - (-8 + 3 / 2 ^ 10)))
        + roundF32 (roundF32 ((z : ℚ) - (-8)) * roundF32 ((z : ℚ) - (-8))) := by
      by_cases hy8 : y = -8
      · have hz8 : z ≠ -8 := fun hz8 => h ⟨hy8, hz8⟩
        have hd : (99 / 100 : ℚ) ≤ |(z : ℚ) - (-8)| := by
          rcases lt_or_gt_of_ne hz8 with h1 | h1
          · have h2 : (z : ℚ) ≤ -9 := by exact_mod_cast (by omega : z ≤ -9)
            rw [le_abs]
            right
            linarith
          · have h2 : (-7 : ℚ) ≤ (z : ℚ) := by exact_mod_cast (by omega : -7 ≤ z)
            rw [le_abs]
            left
            linarith
        have := roundF32_sq_lower _ hd
        linarith
      · have hd : (99 / 100 : ℚ) ≤ |(y : ℚ) - (-8 + 3 / 2 ^ 10)| := by
          rcases lt_or_gt_of_ne hy8 with h1 | h1
          · have h2 : (y : ℚ) ≤ -9 := by exact_mod_cast (by omega : y ≤ -9)
            rw [le_abs]
            right
            norm_num
            linarith
          · have h2 : (-7 : ℚ) ≤ (y : ℚ) := by exact_mod_cast (by omega : -7 ≤ y)
            rw [le_abs]
            left
            norm_num
            linarith
        have := roundF32_sq_lower _ hd
        linarith
    have := roundF32_sum_above _ _ _ (by norm_num) hB hC hsum
    linarith

theorem toInt_neg_sixteen : toInt (-16) = -16 := by
  have h := toInt_intCast (-16)
  norm_num at h
  exact h

theorem toInt_neg_thirteen : toInt (-13) = -13 := by
  have h := toInt_intCast (-13)
  norm_num at h
  exact h

theorem toInt_edge_ylo : toInt (-(13309 / 1024)) = -12 := by
  unfold toInt
  rw [if_neg (by norm_num), Int.ceil_eq_iff]
  norm_num

theorem edge_loops (x y z : Int)
    (hx : x ∈ forLoopFl roundF32
      (toInt (roundF32 (-5 + (⟨-11 - 1 / 2 ^ 20, -8 + 3 / 2 ^ 10, -8⟩ : Vec3).x)))
      (roundF32 (5 + (⟨-11 - 1 / 2 ^ 20, -8 + 3 / 2 ^ 10, -8⟩ : Vec3).x)))
    (hy : y ∈ forLoopFl roundF32
      (toInt (roundF32 (-5 + (⟨-11 - 1 / 2 ^ 20, -8 + 3 / 2 ^ 10, -8⟩ : Vec3).y)))
      (roundF32 (5 + (⟨-11 - 1 / 2 ^ 20, -8 + 3 / 2 ^ 10, -8⟩ : Vec3).y)))
    (hz : z ∈ forLoopFl roundF32
      (toInt (roundF32 (-5 + (⟨-11 - 1 / 2 ^ 20, -8 + 3 / 2 ^ 10, -8⟩ : Vec3).z)))
      (roundF32 (5 + (⟨-11 - 1 / 2 ^ 20, -8 + 3 / 2 ^ 10, -8⟩ : Vec3).z))) :
    (-16 ≤ x ∧ x < -6) ∧ (-12 ≤ y ∧ y < -2) ∧ (-13 ≤ z ∧ z < -3) := by
  norm_num [roundF32_edge_lo, roundF32_edge_hi, roundF32_edge_ylo, roundF32_edge_yhi,
    roundF32_neg_thirteen, roundF32_neg_three, toInt_neg_sixteen, toInt_neg_thirteen,
    toInt_edge_ylo] at hx hy hz
  unfold forLoopFl at hx hy hz
  have c1 : ⌈(-(6291457 / 1048576) : ℚ)⌉ = -6 := by
    rw [Int.ceil_eq_iff]
    norm_num
  have c2 : ⌈(-(3069 / 1024) : ℚ)⌉ = -2 := by
    rw [Int.ceil_eq_iff]
    norm_num
  have c3 : ⌈(-3 : ℚ)⌉ = -3 := by
    rw [Int.ceil_eq_iff]
    norm_num
  rw [c1] at hx
  rw [c2] at hy
  rw [c3] at hz
  obtain ⟨x1, x2, -⟩ := forLoopFlFrom_mem _ _ _ _ _ hx
  obtain ⟨y1, y2, -⟩ := forLoopFlFrom_mem _ _ _ _ _ hy
  obtain ⟨z1, z2, -⟩ := forLoopFlFrom_mem _ _ _ _ _ hz
  have f1 : (((-6 : Int) - (-16)).toNat : Int) = 10 := by decide
  have f2 : (((-2 : Int) - (-12)).toNat : Int) = 10 := by decide
  have f3 : (((-3 : Int) - (-13)).toNat : Int) = 10 := by decide
  rw [f1] at x2
  rw [f2] at y2
  rw [f3] at z2
  omega

theorem Flt.castInt_fin_box (a : ℚ) (h1 : ¬ 0 < a) (h2 : ¬ a < -127) :
    Flt.castInt (Flt.fin a) = some (toInt a) := by
  unfold Flt.castInt
  simp only
  rw [if_pos]
  constructor <;> linarith

theorem Flt.lt_fin (a b : ℚ) : (Flt.lt (Flt.fin a) (Flt.fin b) = true) ↔ a < b := by
  unfold Flt.lt
  simp

theorem genVoxel.pos_to_chunkIndex_float_ofVec3 (v : Vec3)
    (h : 0 ≤ genVoxel.pos_to_chunkIndex v) :
    genVoxel.pos_to_chunkIndex_float (FVec3.ofVec3 v) = some (genVoxel.pos_to_chunkIndex v) ∧
    genVoxel.pos_to_voxelIndex_float (FVec3.ofVec3 v) = some (genVoxel.pos_to_voxelIndex v) := by
  have ho := (genVoxel.pos_to_chunkIndex_nonneg_iff v).mp h
  unfold outOfWorld at ho
  simp only [not_or, not_lt, gt_iff_lt] at ho
  obtain ⟨h1, h2, h3, h4, h5, h6⟩ := ho
  have cx := Flt.castInt_fin_box v.x (not_lt.mpr h1) (not_lt.mpr h4)
  have cy := Flt.castInt_fin_box v.y (not_lt.mpr h2) (not_lt.mpr h5)
  have cz := Flt.castInt_fin_box v.z (not_lt.mpr h3) (not_lt.mpr h6)
  constructor
  · unfold genVoxel.pos_to_chunkIndex_float genVoxel.pos_to_chunkIndex FVec3.ofVec3
    simp only [Flt.lt_fin, cx, cy, cz]
    have e : (WORLD_LIMIT : ℚ) = -127 := by
      unfold WORLD_LIMIT PLANET_DIMENSION CHUNK_DIMENSION
      norm_num
    rw [e]
    rw [if_neg (by simp only [not_or, not_lt]; exact ⟨h1, h2, h3, h4, h5, h6⟩),
      if_neg (by simp only [not_or, not_lt, gt_iff_lt]; exact ⟨h1, h2, h3, h4, h5, h6⟩)]
  · unfold genVoxel.pos_to_voxelIndex_float genVoxel.pos_to_voxelIndex FVec3.ofVec3
    simp only [cx, cy, cz]

theorem genVoxel.pos_to_chunkIndex_float_some (p : FVec3) (ci : Int)
    (h : genVoxel.pos_to_chunkIndex_float p = some ci) (hci : 0 ≤ ci) :
    ∃ v : Vec3, p = FVec3.ofVec3 v ∧ genVoxel.pos_to_chunkIndex v = ci ∧
      genVoxel.pos_to_voxelIndex_float p = some (genVoxel.pos_to_voxelIndex v) := by
  obtain ⟨px, py, pz⟩ := p
  unfold genVoxel.pos_to_chunkIndex_float at h
  split at h
  · simp only [Option.some.injEq] at h
    omega
  · rename_i hbox
    cases px with
    | fin a =>
      cases py with
      | fin b =>
        cases pz with
        | fin c =>
          have e : (WORLD_LIMIT : ℚ) = -127 := by
            unfold WORLD_LIMIT PLANET_DIMENSION CHUNK_DIMENSION
            norm_num
          simp only [Flt.lt_fin, e, not_or, not_lt] at hbox
          obtain ⟨h1, h2, h3, h4, h5, h6⟩ := hbox
          have hin : ¬ outOfWorld (⟨a, b, c⟩ : Vec3) := by
            unfold outOfWorld
            simp only [not_or, not_lt, gt_iff_lt]
            exact ⟨h1, h2, h3, h4, h5, h6⟩
          have hnn := (genVoxel.pos_to_chunkIndex_nonneg_iff ⟨a, b, c⟩).mpr hin
          obtain ⟨e1, e2⟩ := genVoxel.pos_to_chunkIndex_float_ofVec3 ⟨a, b, c⟩ hnn
          refine ⟨⟨a, b, c⟩, rfl, ?_, e2⟩
          have e3 : genVoxel.pos_to_chunkIndex_float (FVec3.ofVec3 ⟨a, b, c⟩) = some ci := by
            unfold genVoxel.pos_to_chunkIndex_float FVec3.ofVec3
            simp only [Flt.lt_fin, e]
            rw [if_neg (by simp only [not_or, not_lt]; exact ⟨h1, h2, h3, h4, h5, h6⟩)]
            exact h
          rw [e1] at e3
          exact Option.some.inj e3
        | inf s => simp [Flt.castInt] at h
        | nan => simp [Flt.castInt] at h
      | inf s => simp [Flt.castInt] at h
      | nan => simp [Flt.castInt] at h
    | inf s => simp [Flt.castInt] at h
    | nan => simp [Flt.castInt] at h

theorem genVoxel.RayCast_body_float_sound (fl : ℚ → Flt) (sqrt : ℚ → ℚ) (initial_ro rd : FVec3)
    (chunk : Int → Chunk) (hit0 curr_ro : FVec3) :
    (∀ h : FVec3, genVoxel.RayCast_body_float fl sqrt initial_ro rd chunk hit0 curr_ro
        = genVoxel.RayStepFloat.ret true h →
      h = (genVoxel.RayCast_advance_float fl sqrt initial_ro rd curr_ro).2 ∧
      ∃ p : Vec3, h = FVec3.ofVec3 p ∧ 0 ≤ genVoxel.pos_to_chunkIndex p ∧ voxelPresent chunk p) ∧
    (∀ h : FVec3, genVoxel.RayCast_body_float fl sqrt initial_ro rd chunk hit0 curr_ro
        = genVoxel.RayStepFloat.ret false h → h = hit0) ∧
    (∀ (s : Flt) (c : FVec3), genVoxel.RayCast_body_float fl sqrt initial_ro rd chunk hit0 curr_ro
        = genVoxel.RayStepFloat.next s c →
      s = (genVoxel.RayCast_advance_float fl sqrt initial_ro rd curr_ro).1 ∧
      c = (genVoxel.RayCast_advance_float fl sqrt initial_ro rd curr_ro).2 ∧
      ∃ p : Vec3, c = FVec3.ofVec3 p) := by
  unfold genVoxel.RayCast_body_float
  simp only
  cases hci : genVoxel.pos_to_chunkIndex_float
      (genVoxel.RayCast_advance_float fl sqrt initial_ro rd curr_ro).2 with
  | none =>
    refine ⟨?_, ?_, ?_⟩ <;> intros <;> simp_all
  | some ci =>
    simp only
    by_cases hneg : ci < 0
    · simp only [hneg, if_true]
      refine ⟨?_, ?_, ?_⟩
      · intro h hh
        simp at hh
      · intro h hh
        simp only [genVoxel.RayStepFloat.ret.injEq, true_and] at hh
        exact hh.symm
      · intro s c hh
        simp at hh
    · simp only [hneg, if_false]
      obtain ⟨v, hv, hcv, hvi⟩ := genVoxel.pos_to_chunkIndex_float_some _ ci hci (by omega)
      rw [hvi]
      simp only
      by_cases hbit : (chunk ci).voxel (genVoxel.pos_to_voxelIndex v) &&& 1 ≠ 0
      · rw [if_pos hbit]
        refine ⟨?_, ?_, ?_⟩
        · intro h hh
          simp only [genVoxel.RayStepFloat.ret.injEq, true_and] at hh
          refine ⟨hh.symm, v, hh.symm.trans hv, by omega, ?_⟩
          unfold voxelPresent
          rw [hcv]
          exact hbit
        · intro h hh
          simp at hh
        · intro s c hh
          simp at hh
      · rw [if_neg hbit]
        refine ⟨?_, ?_, ?_⟩
        · intro h hh
          simp at hh
        · intro h hh
          simp at hh
        · intro s c hh
          simp only [genVoxel.RayStepFloat.next.injEq] at hh
          exact ⟨hh.1.symm, hh.2.symm, v, hh.2.symm.trans hv⟩

theorem genVoxel.RayCast_loop_float_sound (fl : ℚ → Flt) (sqrt : ℚ → ℚ) (initial_ro rd : FVec3)
    (chunk : Int → Chunk) (hit0 : FVec3) (fuel : Nat) (step : Flt) (curr_ro : FVec3)
    (found : Bool) (h : FVec3)
    (hret : genVoxel.RayCast_loop_float fl sqrt initial_ro rd chunk hit0 fuel step curr_ro
      = some (genVoxel.RayResultFloat.returned found h)) :
    (found = true → ∃ p : Vec3, h = FVec3.ofVec3 p ∧ 0 ≤ genVoxel.pos_to_chunkIndex p ∧
      voxelPresent chunk p ∧
      ∃ s : Flt, h = initial_ro.add fl (FVec3.smul fl s rd)) ∧
    (found = false → h = hit0) := by
  induction fuel generalizing step curr_ro with
  | zero =>
    unfold genVoxel.RayCast_loop_float at hret
    split at hret
    · simp at hret
    · simp only [Option.some.injEq, genVoxel.RayResultFloat.returned.injEq] at hret
      obtain ⟨h1, h2⟩ := hret
      subst h1
      exact ⟨fun hf => by simp at hf, fun _ => h2.symm⟩
  | succ n ih =>
    unfold genVoxel.RayCast_loop_float at hret
    split at hret
    · obtain ⟨b1, b2, b3⟩ := genVoxel.RayCast_body_float_sound fl sqrt initial_ro rd chunk hit0
        curr_ro
      split at hret
      · simp at hret
      · rename_i f hit hbody
        simp only [Option.some.injEq, genVoxel.RayResultFloat.returned.injEq] at hret
        obtain ⟨h1, h2⟩ := hret
        subst h1 h2
        cases f with
        | true =>
          obtain ⟨e, p, hp, hin, hpres⟩ := b1 hit hbody
          refine ⟨fun _ => ⟨p, hp, hin, hpres, ?_⟩, fun hf => by simp at hf⟩
          exact ⟨(genVoxel.RayCast_advance_float fl sqrt initial_ro rd curr_ro).1, e⟩
        | false =>
          exact ⟨fun hf => by simp at hf, fun _ => b2 hit hbody⟩
      · exact ih _ _ hret
    · simp only [Option.some.injEq, genVoxel.RayResultFloat.returned.injEq] at hret
      obtain ⟨h1, h2⟩ := hret
      subst h1
      exact ⟨fun hf => by simp at hf, fun _ => h2.symm⟩

/-! ### Exact arithmetic: no rounding -/

theorem Flt.add_nan_right (fl : ℚ → Flt) (a : Flt) : Flt.add fl a Flt.nan = Flt.nan := by
  cases a <;> rfl

theorem Flt.mul_nan_right (fl : ℚ → Flt) (a : Flt) : Flt.mul fl a Flt.nan = Flt.nan := by
  cases a <;> rfl

theorem Flt.sub_nan_left (fl : ℚ → Flt) (a : Flt) : Flt.sub fl Flt.nan a = Flt.nan := rfl

theorem FVec3.add_fin (a b : Vec3) :
    (FVec3.ofVec3 a).add Flt.fin (FVec3.ofVec3 b) = FVec3.ofVec3 (a.add b) := rfl

theorem FVec3.sub_fin (a b : Vec3) :
    (FVec3.ofVec3 a).sub Flt.fin (FVec3.ofVec3 b) = FVec3.ofVec3 (a.sub b) := by
  unfold FVec3.sub FVec3.ofVec3 Flt.sub Flt.neg Flt.add Vec3.sub
  simp only [sub_eq_add_neg]

theorem FVec3.smul_fin (t : ℚ) (d : Vec3) :
    FVec3.smul Flt.fin (Flt.fin t) (FVec3.ofVec3 d) = FVec3.ofVec3 (d.smul t) := by
  unfold FVec3.smul FVec3.ofVec3 Flt.mul Vec3.smul
  simp only [mul_comm]

theorem FVec3.dot_fin (a b : Vec3) :
    FVec3.dot Flt.fin (FVec3.ofVec3 a) (FVec3.ofVec3 b) = Flt.fin (Vec3.dot a b) := rfl

theorem FVec3.sdiv_fin (d : Vec3) (a : ℚ) (ha : a ≠ 0) :
    (FVec3.ofVec3 d).sdiv Flt.fin (Flt.fin a) = FVec3.ofVec3 (d.sdiv a) := by
  unfold FVec3.sdiv FVec3.ofVec3 Flt.div Vec3.sdiv
  simp only [ha, if_false]

theorem dot_self_nonneg (v : Vec3) : 0 ≤ Vec3.dot v v := by
  unfold Vec3.dot
  have hx := mul_self_nonneg v.x
  have hy := mul_self_nonneg v.y
  have hz := mul_self_nonneg v.z
  linarith

/-- In exact arithmetic the distance to the step along an axis with a nonzero
direction component is the distance of the rational model. -/
theorem glm_distance_float_fin (sqrt : ℚ → ℚ) (o c d : Vec3) (a : ℚ) (ha : a ≠ 0) :
    glm_distance_float Flt.fin sqrt (FVec3.ofVec3 o)
        ((FVec3.ofVec3 c).add Flt.fin ((FVec3.ofVec3 d).sdiv Flt.fin (Flt.fin a)))
      = Flt.fin (glm_distance sqrt o (c.add (d.sdiv a))) := by
  unfold glm_distance_float glm_distance
  rw [FVec3.sdiv_fin d a ha, FVec3.add_fin, FVec3.sub_fin, FVec3.dot_fin]
  unfold Flt.sqrt
  simp only
  rw [if_neg (not_lt.mpr (dot_self_nonneg _))]

/-- A NaN component of the step makes the distance a NaN, whatever the rounding. -/
theorem glm_distance_float_nan (fl : ℚ → Flt) (sqrt : ℚ → ℚ) (o p : FVec3)
    (h : p.x = Flt.nan ∨ p.y = Flt.nan ∨ p.z = Flt.nan) :
    glm_distance_float fl sqrt o p = Flt.nan := by
  unfold glm_distance_float FVec3.dot FVec3.sub
  simp only
  rcases h with h | h | h
  · rw [h, Flt.sub_nan_left]
    rfl
  · rw [h, Flt.sub_nan_left, Flt.mul_nan_right, Flt.add_nan_right]
    rfl
  · rw [h, Flt.sub_nan_left, Flt.mul_nan_right, Flt.add_nan_right]
    rfl

/-- Division of the direction by the absolute value of a zero component leaves a
NaN in that component: `0 / 0`. -/
theorem Flt.div_zero_zero (fl : ℚ → Flt) :
    Flt.div fl (Flt.fin 0) (Flt.abs (Flt.fin 0)) = Flt.nan := by
  unfold Flt.div Flt.abs
  simp

theorem genVoxel.advance_float_distX_nan (fl : ℚ → Flt) (sqrt : ℚ → ℚ) (o c rd : FVec3)
    (h : rd.x = Flt.fin 0) :
    glm_distance_float fl sqrt o (c.add fl (rd.sdiv fl (Flt.abs rd.x))) = Flt.nan := by
  apply glm_distance_float_nan
  left
  unfold FVec3.add FVec3.sdiv
  simp only
  rw [h, Flt.div_zero_zero, Flt.add_nan_right]

theorem genVoxel.advance_float_distY_nan (fl : ℚ → Flt) (sqrt : ℚ → ℚ) (o c rd : FVec3)
    (h : rd.y = Flt.fin 0) :
    glm_distance_float fl sqrt o (c.add fl (rd.sdiv fl (Flt.abs rd.y))) = Flt.nan := by
  apply glm_distance_float_nan
  right
  left
  unfold FVec3.add FVec3.sdiv
  simp only
  rw [h, Flt.div_zero_zero, Flt.add_nan_right]

theorem genVoxel.advance_float_distZ_nan (fl : ℚ → Flt) (sqrt : ℚ → ℚ) (o c rd : FVec3)
    (h : rd.z = Flt.fin 0) :
    glm_distance_float fl sqrt o (c.add fl (rd.sdiv fl (Flt.abs rd.z))) = Flt.nan := by
  apply glm_distance_float_nan
  right
  right
  unfold FVec3.add FVec3.sdiv
  simp only
  rw [h, Flt.div_zero_zero, Flt.add_nan_right]

theorem Flt.lt_nan_right (a : Flt) : Flt.lt a Flt.nan = false := by
  cases a <;> rfl

/-- A direction whose `x` component is zero makes `step` a NaN, whatever the
rounding: `distX` is a NaN and both comparisons are false. -/
theorem genVoxel.RayCast_advance_float_zero_x (fl : ℚ → Flt) (sqrt : ℚ → ℚ)
    (o c rd : FVec3) (h : rd.x = Flt.fin 0) :
    (genVoxel.RayCast_advance_float fl sqrt o rd c).1 = Flt.nan ∧
    (genVoxel.RayCast_advance_float fl sqrt o rd c).2.x = Flt.nan := by
  unfold genVoxel.RayCast_advance_float
  simp only
  rw [genVoxel.advance_float_distX_nan fl sqrt o c rd h]
  simp only [Flt.lt_nan_right, Bool.false_eq_true, if_false]
  constructor
  · trivial
  · unfold FVec3.add FVec3.smul
    simp only
    rw [show Flt.mul fl Flt.nan rd.x = Flt.nan from rfl, Flt.add_nan_right]

theorem Flt.pick_min (X Y Z : Flt) (a : ℚ) (ha : 0 < a) (hX : X = Flt.fin a)
    (hY : Y = Flt.nan ∨ ∃ b : ℚ, 0 < b ∧ Y = Flt.fin b)
    (hZ : Z = Flt.nan ∨ ∃ b : ℚ, 0 < b ∧ Z = Flt.fin b) :
    ∃ t : ℚ, 0 < t ∧
      (if Flt.lt Z (if Flt.lt Y X then Y else X) then Z else (if Flt.lt Y X then Y else X))
        = Flt.fin t := by
  have h1 : ∃ u : ℚ, 0 < u ∧ (if Flt.lt Y X then Y else X) = Flt.fin u := by
    rcases hY with hY | ⟨b, hb, hY⟩
    · rw [hY, hX]
      exact ⟨a, ha, rfl⟩
    · by_cases hlt : Flt.lt Y X = true
      · rw [if_pos hlt]
        exact ⟨b, hb, hY⟩
      · rw [if_neg hlt]
        exact ⟨a, ha, hX⟩
  obtain ⟨u, hu, e⟩ := h1
  rw [e]
  rcases hZ with hZ | ⟨b, hb, hZ⟩
  · rw [hZ]
    exact ⟨u, hu, rfl⟩
  · by_cases hlt : Flt.lt Z (Flt.fin u) = true
    · rw [if_pos hlt]
      exact ⟨b, hb, hZ⟩
    · rw [if_neg hlt]
      exact ⟨u, hu, rfl⟩

/-- In exact arithmetic, entered at `curr_ro = initial_ro + s * rd` with
`s ≥ 0`, a pass with `rd.x ≠ 0` computes a positive finite `step` and the
position `initial_ro + step * rd`; zero `y` or `z` components of the direction
only take their distance out of the comparison. -/
theorem genVoxel.RayCast_advance_float_exact (sqrt : ℚ → ℚ)
    (hpos : ∀ q : ℚ, 0 < q → 0 < sqrt q) (o d : Vec3) (s : ℚ) (hs : 0 ≤ s) (hx : d.x ≠ 0) :
    ∃ t : ℚ, 0 < t ∧
      genVoxel.RayCast_advance_float Flt.fin sqrt (FVec3.ofVec3 o) (FVec3.ofVec3 d)
          (FVec3.ofVec3 (o.add (d.smul s)))
        = (Flt.fin t, FVec3.ofVec3 (o.add (d.smul t))) := by
  have hX : glm_distance_float Flt.fin sqrt (FVec3.ofVec3 o)
      ((FVec3.ofVec3 (o.add (d.smul s))).add Flt.fin
        ((FVec3.ofVec3 d).sdiv Flt.fin (Flt.abs (FVec3.ofVec3 d).x)))
      = Flt.fin (glm_distance sqrt o ((o.add (d.smul s)).add (d.sdiv |d.x|))) :=
    glm_distance_float_fin sqrt o _ d |d.x| (abs_ne_zero.mpr hx)
  have hY : glm_distance_float Flt.fin sqrt (FVec3.ofVec3 o)
      ((FVec3.ofVec3 (o.add (d.smul s))).add Flt.fin
        ((FVec3.ofVec3 d).sdiv Flt.fin (Flt.abs (FVec3.ofVec3 d).y))) = Flt.nan ∨
      ∃ b : ℚ, 0 < b ∧ glm_distance_float Flt.fin sqrt (FVec3.ofVec3 o)
      ((FVec3.ofVec3 (o.add (d.smul s))).add Flt.fin
        ((FVec3.ofVec3 d).sdiv Flt.fin (Flt.abs (FVec3.ofVec3 d).y))) = Flt.fin b := by
    by_cases hy : d.y = 0
    · left
      apply genVoxel.advance_float_distY_nan
      show Flt.fin d.y = Flt.fin 0
      rw [hy]
    · right
      exact ⟨_, advance_dist_pos sqrt hpos o d hx s |d.y| hs (abs_pos.mpr hy),
        glm_distance_float_fin sqrt o _ d |d.y| (abs_ne_zero.mpr hy)⟩
  have hZ : glm_distance_float Flt.fin sqrt (FVec3.ofVec3 o)
      ((FVec3.ofVec3 (o.add (d.smul s))).add Flt.fin
        ((FVec3.ofVec3 d).sdiv Flt.fin (Flt.abs (FVec3.ofVec3 d).z))) = Flt.nan ∨
      ∃ b : ℚ, 0 < b ∧ glm_distance_float Flt.fin sqrt (FVec3.ofVec3 o)
      ((FVec3.ofVec3 (o.add (d.smul s))).add Flt.fin
        ((FVec3.ofVec3 d).sdiv Flt.fin (Flt.abs (FVec3.ofVec3 d).z))) = Flt.fin b := by
    by_cases hz : d.z = 0
    · left
      apply genVoxel.advance_float_distZ_nan
      show Flt.fin d.z = Flt.fin 0
      rw [hz]
    · right
      exact ⟨_, advance_dist_pos sqrt hpos o d hx s |d.z| hs (abs_pos.mpr hz),
        glm_distance_float_fin sqrt o _ d |d.z| (abs_ne_zero.mpr hz)⟩
  obtain ⟨t, ht, e⟩ := Flt.pick_min _ _ _ _
    (advance_dist_pos sqrt hpos o d hx s |d.x| hs (abs_pos.mpr hx)) hX hY hZ
  refine ⟨t, ht, ?_⟩
  unfold genVoxel.RayCast_advance_float
  simp only
  rw [e, FVec3.smul_fin, FVec3.add_fin]

/-- In exact arithmetic every hit lies on the ray: entered at
`curr_ro = initial_ro + s * rd` with `s ≥ 0`, the loop returns true only at a
position `initial_ro + t * rd` with `t > 0`. -/
theorem genVoxel.RayCast_loop_float_exact (sqrt : ℚ → ℚ) (hpos : ∀ q : ℚ, 0 < q → 0 < sqrt q)
    (o d : Vec3) (chunk : Int → Chunk) (hit0 : FVec3) (fuel : Nat) (step : Flt) (s : ℚ)
    (hs : 0 ≤ s) (h : FVec3)
    (hret : genVoxel.RayCast_loop_float Flt.fin sqrt (FVec3.ofVec3 o) (FVec3.ofVec3 d) chunk hit0
      fuel step (FVec3.ofVec3 (o.add (d.smul s))) = some (genVoxel.RayResultFloat.returned true h)) :
    ∃ t : ℚ, 0 < t ∧ h = FVec3.ofVec3 (o.add (d.smul t)) := by
  induction fuel generalizing step s with
  | zero =>
    unfold genVoxel.RayCast_loop_float at hret
    split at hret <;> simp at hret
  | succ n ih =>
    unfold genVoxel.RayCast_loop_float at hret
    split at hret
    · obtain ⟨b1, -, b3⟩ := genVoxel.RayCast_body_float_sound Flt.fin sqrt (FVec3.ofVec3 o)
        (FVec3.ofVec3 d) chunk hit0 (FVec3.ofVec3 (o.add (d.smul s)))
      by_cases hx : d.x = 0
      · have hnan := (genVoxel.RayCast_advance_float_zero_x Flt.fin sqrt (FVec3.ofVec3 o)
          (FVec3.ofVec3 (o.add (d.smul s))) (FVec3.ofVec3 d)
          (by show Flt.fin d.x = Flt.fin 0; rw [hx])).2
        split at hret
        · simp at hret
        · rename_i f hit hbody
          simp only [Option.some.injEq, genVoxel.RayResultFloat.returned.injEq] at hret
          obtain ⟨h1, h2⟩ := hret
          subst h1 h2
          obtain ⟨e, p, hp, -⟩ := b1 hit hbody
          rw [← e, hp] at hnan
          exact absurd hnan (by simp [FVec3.ofVec3])
        · rename_i s' c' hbody
          obtain ⟨-, e, p, hp⟩ := b3 s' c' hbody
          rw [← e, hp] at hnan
          exact absurd hnan (by simp [FVec3.ofVec3])
      · obtain ⟨t, ht, e⟩ := genVoxel.RayCast_advance_float_exact sqrt hpos o d s hs hx
        split at hret
        · simp at hret
        · rename_i f hit hbody
          simp only [Option.some.injEq, genVoxel.RayResultFloat.returned.injEq] at hret
          obtain ⟨h1, h2⟩ := hret
          subst h1 h2
          obtain ⟨e2, -⟩ := b1 hit hbody
          rw [e] at e2
          exact ⟨t, ht, e2⟩
        · rename_i s' c' hbody
          obtain ⟨-, e2, -⟩ := b3 s' c' hbody
          rw [e] at e2
          rw [e2] at hret
          exact ih _ t (le_of_lt ht) hret
    · simp at hret

/-! ### Single precision -/

theorem f32_zero : f32 0 = Flt.fin 0 := by
  unfold f32
  rw [if_pos rfl]

/-- In the normal range `f32` is the rounding `roundF32` of the nearest float. -/
theorem f32_of_binade (q : ℚ) (e : Int) (he1 : -126 ≤ e) (he2 : e ≤ 126)
    (h1 : (2 : ℚ) ^ e ≤ |q|) (h2 : |q| < (2 : ℚ) ^ (e + 1)) : f32 q = Flt.fin (roundF32 q) := by
  have hpos : 0 < |q| := lt_of_lt_of_le (by positivity) h1
  have hq : q ≠ 0 := abs_pos.mp hpos
  have herr := roundF32_err q
  have hr : |roundF32 q| < (2 : ℚ) ^ (128 : Nat) := by
    have a1 : |roundF32 q| - |q| ≤ |roundF32 q - q| := abs_sub_abs_le_abs_sub _ _
    have a2 : |q| / 2 ^ 24 ≤ |q| / 1 := by
      apply div_le_div_of_nonneg_left (abs_nonneg q) (by norm_num) (by norm_num)
    have a3 : (2 : ℚ) ^ (e + 1) ≤ (2 : ℚ) ^ (127 : Int) :=
      zpow_le_zpow_right₀ (by norm_num) (by omega)
    have a4 : (2 : ℚ) ^ (127 : Int) = 2 ^ (127 : Nat) := by norm_cast
    have a5 : (2 : ℚ) ^ (128 : Nat) = 2 * 2 ^ (127 : Nat) := by norm_num
    rw [a5]
    rw [a4] at a3
    linarith
  unfold f32
  rw [if_neg hq]
  simp only
  rw [log_two_eq q e h1 h2, max_eq_left he1, ← roundF32_of_binade q e h1 h2,
    if_neg (not_le.mpr hr)]

theorem f32_of_near (q r : ℚ) (e n : Int) (he1 : -126 ≤ e) (he2 : e ≤ 126)
    (h1 : (2 : ℚ) ^ e ≤ |q|) (h2 : |q| < (2 : ℚ) ^ (e + 1))
    (h : |q / (2 : ℚ) ^ (e - 23) - (n : ℚ)| < 1 / 2)
    (hr : (n : ℚ) * (2 : ℚ) ^ (e - 23) = r) : f32 q = Flt.fin r := by
  rw [f32_of_binade q e he1 he2 h1 h2, roundF32_of_near q r e n h1 h2 h hr]

/-- `f32` leaves an integer below `2^24` as it is. -/
theorem f32_intCast (n : Int) (h : |n| < 16777216) : f32 (n : ℚ) = Flt.fin (n : ℚ) := by
  by_cases hn : n = 0
  · rw [hn]
    simp only [Int.cast_zero]
    exact f32_zero
  · have hq : (1 : ℚ) ≤ |(n : ℚ)| := by
      have : (1 : Int) ≤ |n| := Int.one_le_abs hn
      exact_mod_cast this
    have hq2 : |(n : ℚ)| < 16777216 := by exact_mod_cast h
    have hpos : 0 < |(n : ℚ)| := by linarith
    have e1 : (0 : Int) ≤ Int.log 2 |(n : ℚ)| := by
      have := (Int.zpow_le_iff_le_log (by norm_num : 1 < 2) hpos (x := 0)).mp (by simpa using hq)
      exact this
    have e2 : Int.log 2 |(n : ℚ)| < 24 := by
      have := (Int.lt_zpow_iff_log_lt (by norm_num : 1 < 2) hpos (x := 24)).mp
        (by norm_num; exact hq2)
      exact this
    have b1 : (2 : ℚ) ^ Int.log 2 |(n : ℚ)| ≤ |(n : ℚ)| := by
      have := Int.zpow_log_le_self (by norm_num : 1 < 2) hpos
      exact_mod_cast this
    have b2 : |(n : ℚ)| < (2 : ℚ) ^ (Int.log 2 |(n : ℚ)| + 1) := by
      have := Int.lt_zpow_succ_log_self (by norm_num : 1 < 2) |(n : ℚ)|
      exact_mod_cast this
    rw [f32_of_binade (n : ℚ) (Int.log 2 |(n : ℚ)|) (by omega) (by omega) b1 b2,
      roundF32_intCast n h]

theorem genVoxel.RayCast_body_float_hit (fl : ℚ → Flt) (sqrt : ℚ → ℚ) (initial_ro rd : FVec3)
    (chunk : Int → Chunk) (hit0 curr_ro : FVec3) (p : Vec3)
    (hadv : (genVoxel.RayCast_advance_float fl sqrt initial_ro rd curr_ro).2 = FVec3.ofVec3 p)
    (hin : 0 ≤ genVoxel.pos_to_chunkIndex p) (hpres : voxelPresent chunk p) :
    genVoxel.RayCast_body_float fl sqrt initial_ro rd chunk hit0 curr_ro
      = genVoxel.RayStepFloat.ret true (FVec3.ofVec3 p) := by
  obtain ⟨e1, e2⟩ := genVoxel.pos_to_chunkIndex_float_ofVec3 p hin
  unfold voxelPresent at hpres
  unfold genVoxel.RayCast_body_float
  simp only
  rw [hadv, e1, e2]
  simp only
  rw [if_neg (not_lt.mpr hin), if_pos hpres]

theorem genVoxel.RayCast_loop_float_hit (fl : ℚ → Flt) (sqrt : ℚ → ℚ) (initial_ro rd : FVec3)
    (chunk : Int → Chunk) (hit0 : FVec3) (fuel : Nat) (step : Flt) (curr_ro h : FVec3)
    (hlt : Flt.lt step (Flt.fin 200) = true)
    (hbody : genVoxel.RayCast_body_float fl sqrt initial_ro rd chunk hit0 curr_ro
      = genVoxel.RayStepFloat.ret true h) :
    genVoxel.RayCast_loop_float fl sqrt initial_ro rd chunk hit0 (fuel + 1) step curr_ro
      = some (genVoxel.RayResultFloat.returned true h) := by
  rw [genVoxel.RayCast_loop_float, if_pos hlt, hbody]


theorem Flt.add_fin_fin (fl : ℚ → Flt) (a b : ℚ) :
    Flt.add fl (Flt.fin a) (Flt.fin b) = fl (a + b) := rfl

theorem Flt.sub_fin_fin (fl : ℚ → Flt) (a b : ℚ) :
    Flt.sub fl (Flt.fin a) (Flt.fin b) = fl (a + -b) := rfl

theorem Flt.mul_fin_fin (fl : ℚ → Flt) (a b : ℚ) :
    Flt.mul fl (Flt.fin a) (Flt.fin b) = fl (a * b) := rfl

theorem Flt.div_fin_fin (fl : ℚ → Flt) (a b : ℚ) :
    Flt.div fl (Flt.fin a) (Flt.fin b)
      = if b = 0 then (if a = 0 then Flt.nan else Flt.inf (decide (a < 0))) else fl (a / b) := rfl

theorem Flt.abs_fin (a : ℚ) : Flt.abs (Flt.fin a) = Flt.fin |a| := rfl

theorem Flt.sqrt_fin (sqrt : ℚ → ℚ) (a : ℚ) :
    Flt.sqrt sqrt (Flt.fin a) = if a < 0 then Flt.nan else Flt.fin (sqrt a) := rfl

theorem Flt.lt_fin_fin (a b : ℚ) : Flt.lt (Flt.fin a) (Flt.fin b) = decide (a < b) := rfl

theorem ratSqrt_one : ratSqrt 1 = 1 := by
  have h := ratSqrt_mul_self 1 (by norm_num)
  norm_num at h
  exact h

theorem ratSqrt_two_pow_sixty : ratSqrt 1152921504606846976 = 1073741824 := by
  have h := ratSqrt_mul_self 1073741824 (by norm_num)
  norm_num at h
  exact h

theorem f32_one : f32 (1) = Flt.fin (1) := by
  have h := f32_intCast (1) (by decide)
  norm_num at h
  exact h

theorem f32_neg_one : f32 (-1) = Flt.fin (-1) := by
  have h := f32_intCast (-1) (by decide)
  norm_num at h
  exact h

theorem f32_neg_five : f32 (-5) = Flt.fin (-5) := by
  have h := f32_intCast (-5) (by decide)
  norm_num at h
  exact h

theorem f32_neg_six : f32 (-6) = Flt.fin (-6) := by
  have h := f32_intCast (-6) (by decide)
  norm_num at h
  exact h

theorem f32_neg_two_pow_thirty : f32 (-1073741824) = Flt.fin (-1073741824) := by
  apply f32_of_near _ _ (30) (-8388608) (by decide) (by decide)
  · rw [le_abs]
    norm_num
  · rw [abs_lt]
    norm_num
  · rw [abs_lt]
    norm_num
  · norm_num

theorem f32_two_pow_sixty : f32 (1152921504606846976) = Flt.fin (1152921504606846976) := by
  apply f32_of_near _ _ (60) (8388608) (by decide) (by decide)
  · rw [le_abs]
    norm_num
  · rw [abs_lt]
    norm_num
  · rw [abs_lt]
    norm_num
  · norm_num

/-- The direction component `-2^-30` is a float. -/
theorem f32_neg_tiny : f32 (-(1 / 1073741824)) = Flt.fin (-(1 / 1073741824)) := by
  apply f32_of_near _ _ (-30) (-8388608) (by decide) (by decide)
  · rw [le_abs]
    norm_num
  · rw [abs_lt]
    norm_num
  · rw [abs_lt]
    norm_num
  · norm_num

/-- The float nearest to `-5 - 2^-30` is `-5`. -/
theorem f32_below_neg_five : f32 (-(5368709121 / 1073741824)) = Flt.fin (-5) := by
  apply f32_of_near _ _ (2) (-10485760) (by decide) (by decide)
  · rw [le_abs]
    norm_num
  · rw [abs_lt]
    norm_num
  · rw [abs_lt]
    norm_num
  · norm_num

/-- The float nearest to `-5 - 2^30` is `-2^30`. -/
theorem f32_far_step : f32 (-1073741829) = Flt.fin (-1073741824) := by
  apply f32_of_near _ _ (30) (-8388608) (by decide) (by decide)
  · rw [le_abs]
    norm_num
  · rw [abs_lt]
    norm_num
  · rw [abs_lt]
    norm_num
  · norm_num

/-- The float nearest to `-2^30 + 5` is `-2^30`. -/
theorem f32_far_offset : f32 (-1073741819) = Flt.fin (-1073741824) := by
  apply f32_of_near _ _ (29) (-16777216) (by decide) (by decide)
  · rw [le_abs]
    norm_num
  · rw [abs_lt]
    norm_num
  · rw [abs_lt]
    norm_num
  · norm_num

/-- The float nearest to `2^60 + 1` is `2^60`. -/
theorem f32_far_square : f32 (1152921504606846977) = Flt.fin (1152921504606846976) := by
  apply f32_of_near _ _ (60) (8388608) (by decide) (by decide)
  · rw [le_abs]
    norm_num
  · rw [abs_lt]
    norm_num
  · rw [abs_lt]
    norm_num
  · norm_num

theorem abs_two_pow_neg_thirty : |(1 / 1073741824 : ℚ)| = 1 / 1073741824 :=
  abs_of_pos (by norm_num)

theorem offRay_advance :
    genVoxel.RayCast_advance_float f32 ratSqrt ⟨Flt.fin (-5), Flt.fin (-5), Flt.fin (-5)⟩
      ⟨Flt.fin (-1), Flt.fin (-1 / 2 ^ 30), Flt.fin (-1 / 2 ^ 30)⟩
      ⟨Flt.fin (-5), Flt.fin (-5), Flt.fin (-5)⟩
    = (Flt.fin 1, ⟨Flt.fin (-6), Flt.fin (-5), Flt.fin (-5)⟩) := by
  unfold genVoxel.RayCast_advance_float glm_distance_float FVec3.dot FVec3.add FVec3.sub FVec3.sdiv
    FVec3.smul
  norm_num [Flt.add_fin_fin, Flt.sub_fin_fin, Flt.mul_fin_fin, Flt.div_fin_fin, Flt.abs_fin,
    Flt.sqrt_fin, Flt.lt_fin_fin, ratSqrt_one, ratSqrt_two_pow_sixty, f32_zero, f32_one,
    f32_neg_one, f32_neg_five, f32_neg_six, f32_neg_two_pow_thirty, f32_two_pow_sixty,
    f32_neg_tiny, f32_below_neg_five, f32_far_step, f32_far_offset, f32_far_square,
    abs_two_pow_neg_thirty]

theorem axisRay_advance :
    genVoxel.RayCast_advance_float Flt.fin ratSqrt ⟨Flt.fin (-5), Flt.fin (-5), Flt.fin (-5)⟩
      ⟨Flt.fin (-1), Flt.fin 0, Flt.fin 0⟩ ⟨Flt.fin (-5), Flt.fin (-5), Flt.fin (-5)⟩
    = (Flt.fin 1, ⟨Flt.fin (-6), Flt.fin (-5), Flt.fin (-5)⟩) := by
  unfold genVoxel.RayCast_advance_float glm_distance_float FVec3.dot FVec3.add FVec3.sub FVec3.sdiv
    FVec3.smul
  norm_num [Flt.add, Flt.sub, Flt.neg, Flt.mul, Flt.div, Flt.abs, Flt.sqrt, Flt.lt, ratSqrt_one]

theorem hitVoxel_in_world : 0 ≤ genVoxel.pos_to_chunkIndex ⟨-6, -5, -5⟩ := by
  have e : (⟨-6, -5, -5⟩ : Vec3) = Vec3.ofInts (-6) (-5) (-5) := by
    unfold Vec3.ofInts
    norm_num
  rw [e, storage_chunkIndex _ _ _ (by decide) (by decide) (by decide)]
  decide

theorem hitVoxel_present :
    voxelPresent (fun _ => genVoxel.Fill_Chunk newChunk) ⟨-6, -5, -5⟩ := by
  have e : (⟨-6, -5, -5⟩ : Vec3) = Vec3.ofInts (-6) (-5) (-5) := by
    unfold Vec3.ofInts
    norm_num
  have hv : genVoxel.pos_to_voxelIndex (Vec3.ofInts (-6) (-5) (-5)) = 1366 := by
    rw [storage_voxelIndex _ _ _ (by decide) (by decide) (by decide)]
    decide
  unfold voxelPresent
  rw [e, hv, (genVoxel.Fill_Chunk_newChunk_voxel 1366).1
    ⟨6, 5, 5, by omega, by omega, by omega, by omega⟩]
  decide

theorem offRay_returns :
    genVoxel.RayCast_float f32 ratSqrt 200 ⟨-5, -5, -5⟩
      ⟨Flt.fin (-1), Flt.fin (-1 / 2 ^ 30), Flt.fin (-1 / 2 ^ 30)⟩
      (fun _ => genVoxel.Fill_Chunk newChunk) ⟨Flt.fin 0, Flt.fin 0, Flt.fin 0⟩
    = some (genVoxel.RayResultFloat.returned true ⟨Flt.fin (-6), Flt.fin (-5), Flt.fin (-5)⟩) := by
  have hinit : FVec3.ofIVec3 f32 ⟨-5, -5, -5⟩ = ⟨Flt.fin (-5), Flt.fin (-5), Flt.fin (-5)⟩ := by
    unfold FVec3.ofIVec3
    norm_num [f32_neg_five]
  unfold genVoxel.RayCast_float
  simp only
  rw [hinit]
  apply genVoxel.RayCast_loop_float_hit
  · rw [Flt.lt_fin_fin]
    norm_num
  · apply genVoxel.RayCast_body_float_hit f32 ratSqrt _ _ _ _ _ ⟨-6, -5, -5⟩ _ hitVoxel_in_world
      hitVoxel_present
    rw [offRay_advance]
    rfl

theorem axisRay_returns :
    genVoxel.RayCast_float Flt.fin ratSqrt 200 ⟨-5, -5, -5⟩ ⟨Flt.fin (-1), Flt.fin 0, Flt.fin 0⟩
      (fun _ => genVoxel.Fill_Chunk newChunk) ⟨Flt.fin 0, Flt.fin 0, Flt.fin 0⟩
    = some (genVoxel.RayResultFloat.returned true ⟨Flt.fin (-6), Flt.fin (-5), Flt.fin (-5)⟩) := by
  have hinit : FVec3.ofIVec3 Flt.fin ⟨-5, -5, -5⟩
      = ⟨Flt.fin (-5), Flt.fin (-5), Flt.fin (-5)⟩ := by
    unfold FVec3.ofIVec3
    norm_num
  unfold genVoxel.RayCast_float
  simp only
  rw [hinit]
  apply genVoxel.RayCast_loop_float_hit
  · rw [Flt.lt_fin_fin]
    norm_num
  · apply genVoxel.RayCast_body_float_hit Flt.fin ratSqrt _ _ _ _ _ ⟨-6, -5, -5⟩ _
      hitVoxel_in_world hitVoxel_present
    rw [axisRay_advance]
    rfl

/-- A direction whose `x` component is zero: `distX` is a NaN, both comparisons
are false, `step` and every component of `rayLocation` are NaNs, the bounds
test of `pos_to_chunkIndex` is false and the first pass converts a NaN to
`int`, which is undefined. -/
theorem genVoxel.RayCast_float_zero_x (fl : ℚ → Flt) (sqrt : ℚ → ℚ) (fuel : Nat)
    (start : IVec3) (rd : FVec3) (chunk : Int → Chunk) (rayHitLocation : FVec3)
    (h : rd.x = Flt.fin 0) :
    genVoxel.RayCast_float fl sqrt (fuel + 1) start rd chunk rayHitLocation
      = some genVoxel.RayResultFloat.undefined := by
  have hstep := (genVoxel.RayCast_advance_float_zero_x fl sqrt (FVec3.ofIVec3 fl start)
    (FVec3.ofIVec3 fl start) rd h).1
  have hloc : (genVoxel.RayCast_advance_float fl sqrt (FVec3.ofIVec3 fl start) rd
      (FVec3.ofIVec3 fl start)).2 = ⟨Flt.nan, Flt.nan, Flt.nan⟩ := by
    have e : (genVoxel.RayCast_advance_float fl sqrt (FVec3.ofIVec3 fl start) rd
        (FVec3.ofIVec3 fl start)).2 = (FVec3.ofIVec3 fl start).add fl (FVec3.smul fl
          (genVoxel.RayCast_advance_float fl sqrt (FVec3.ofIVec3 fl start) rd
            (FVec3.ofIVec3 fl start)).1 rd) := rfl
    rw [e, hstep]
    unfold FVec3.add FVec3.smul
    simp only [show ∀ a : Flt, Flt.mul fl Flt.nan a = Flt.nan from fun _ => rfl,
      Flt.add_nan_right]
  have hbody : genVoxel.RayCast_body_float fl sqrt (FVec3.ofIVec3 fl start) rd chunk
      rayHitLocation (FVec3.ofIVec3 fl start) = genVoxel.RayStepFloat.undefined := by
    unfold genVoxel.RayCast_body_float
    simp only
    rw [hloc]
    rfl
  unfold genVoxel.RayCast_float
  simp only
  rw [genVoxel.RayCast_loop_float, if_pos (by rw [Flt.lt_fin_fin]; norm_num), hbody]
